import Mathlib

/-!
The character functions of R (`src/main/character.c`)

A shallow embedding of the string primitives of `character.c` and theorems about them.

Conventions of the embedding.

* A C object holding characters is the list of its bytes (`List Nat`, every byte below 256):
  the string, its terminating NUL and whatever the allocation holds after the NUL.  A pointer
  into the object is an index.  An access outside the object is the fault `Fault.oob`.
* The content of a `CHARSXP` is the list of its bytes without the terminator; `NA_STRING` is a
  separate constructor of `RString`.
* A call of `error()` is the fault `Fault.error`; warnings are not modelled.
* `mkCharCE(buf, enc)` and `mkChar(buf)` give `RString.chr` of the bytes of `buf` before its
  first NUL with the tag asked for (`CE_NATIVE` for `mkChar`).
* The file is read with `SUPPORT_MBCS` defined.  C `int` values are integers of `Int`: the
  offsets and lengths involved are bounded by the length of a string.
* What `character.c` takes from the C library, the locale or other files of R is a field of
  `Env`, of `regex_t` or of `RegexLib`, or a parameter.
* A loop whose end depends on an outside matcher takes the number of iterations granted to it
  (`fuel`) and ends in `Fault.fuel` when they are used up.
-/

set_option autoImplicit false

namespace RChar

/-! ## Data model -/

/-- The encoding tag of a `CHARSXP`, as returned by `getCharCE`. -/
inductive cetype_t where
  | CE_NATIVE
  | CE_UTF8
  | CE_LATIN1
  deriving DecidableEq, Repr

/-- The kinds of `error()` raised by the functions embedded here. -/
inductive RError where
  | invalidMultibyte
  | invalidInput
  | invalidPattern
  | invalidReplacement
  | zeroLengthPattern
  | invalidBackreference
  | invalidRegex
  | invalidArgument
  | decreasingRange
  | oldLongerThanNew
  | invalidValue
  deriving DecidableEq, Repr

/-- How a computation can fail: an R error, an access outside a C object, or a loop that has
not ended when the iterations granted to it are used up. -/
inductive Fault where
  | error (e : RError)
  | oob
  | fuel
  deriving DecidableEq, Repr

deriving instance DecidableEq for Except

/-- An element of a character vector: `NA_STRING`, or a `CHARSXP` with its bytes (without the
terminating NUL) and its encoding tag. -/
inductive RString where
  | NA_STRING
  | chr (bytes : List Nat) (enc : cetype_t)
  deriving DecidableEq, Repr

/-- The missing integer `NA_INTEGER` is `INT_MIN`. -/
def NA_INTEGER : Int := -2147483648

/-- What the functions take from the locale and from the multibyte functions of the C library.
`mbrtowc rest` is the number of bytes of the first character of the non-empty C string `rest`
(`none` when it is invalid or incomplete); `mbstowcs s` is the number of characters of the C
string `s` (`none` for the result -1); `mbcsValid s` is `mbstowcs(NULL, s, 0) >= 0`;
`translateChar` and `translateCharUTF8` give the bytes of an element in the native encoding and
in UTF-8; `markEnc e` is the tag that `markKnown(s, ref)` gives its result when `ref` has the
tag `e`. -/
structure Env where
  mbcslocale : Bool
  utf8locale : Bool
  mbrtowc : List Nat → Option Nat
  mbstowcs : List Nat → Option Nat
  translateChar : List Nat → cetype_t → List Nat
  translateCharUTF8 : List Nat → cetype_t → List Nat
  markEnc : cetype_t → cetype_t

/-- A compiled regular expression (`regex_t`, or the `pcre` of a pattern) as the functions use
it: the number of groups `re_nsub`; `regexec text` for `regexec(&reg, text, 1, regmatch, 0)` and
for `pcre_exec` on `text`, the span `(rm_so, rm_eo)` of the match or `none`; and
`Rregexec s eflags offset` for `Rregexec(&reg, s, 10, regmatch, eflags, offset)`, the spans of
the match and of the groups or `none`. -/
structure regex_t where
  re_nsub : Nat
  regexec : List Nat → Option (Int × Int)
  Rregexec : List Nat → Nat → Int → Option (List (Int × Int))

/-- The regular expression libraries: `regcomp pattern cflags` and
`pcre_compile pattern options`, `none` when the pattern does not compile. -/
structure RegexLib where
  regcomp : List Nat → Nat → Option regex_t
  pcre_compile : List Nat → Nat → Option regex_t

/-! ## Memory and C library -/

/-- The byte at index `p` of the object `mem`. -/
def rd (mem : List Nat) (p : Nat) : Except Fault Nat :=
  match mem[p]? with
  | some b => .ok b
  | none => .error .oob

/-- The `k` bytes of `mem` from index `p` on, read one after the other. -/
def readN (mem : List Nat) (p : Nat) : Nat → Except Fault (List Nat)
  | 0 => .ok []
  | k + 1 => do
    let b ← rd mem p
    let r ← readN mem (p + 1) k
    pure (b :: r)

/-- The C string that starts at index `p` of `mem`: the bytes before the first NUL.  When the
object has no NUL from `p` on, the scan leaves the object. -/
def cstrAt (mem : List Nat) (p : Nat) : Except Fault (List Nat) :=
  if 0 ∈ mem.drop p then .ok ((mem.drop p).takeWhile (fun b => b ≠ 0)) else .error .oob

/-- The C function `strlen` at index `p` of `mem`. -/
def strlen (mem : List Nat) (p : Nat) : Except Fault Nat :=
  (cstrAt mem p).map List.length

/-- Store `bytes` into `mem` from index `p` on. -/
def writeAt (mem : List Nat) (p : Nat) (bytes : List Nat) : Except Fault (List Nat) :=
  if p + bytes.length ≤ mem.length then
    .ok (mem.take p ++ bytes ++ mem.drop (p + bytes.length))
  else .error .oob

/-- The bytes of a buffer up to its first NUL: what `mkCharCE(buf, enc)` stores. -/
def mkChar (buf : List Nat) : List Nat :=
  buf.takeWhile (fun b => b ≠ 0)

/-- The helper `strIsASCII` of util.c on the content of a C string. -/
def strIsASCII (s : List Nat) : Bool :=
  s.all (fun b => b ≤ 0x7F)

/-- Modelled from the spec: `utf8clen` is declared in Defn.h and defined in util.c, not in
character.c.  It is the byte length that the lead byte `c` of a UTF-8 sequence announces, the
`byte_length` of `next_char` in the Code-Unit Indexer; a byte that is not a lead byte counts 1. -/
def utf8clen (c : Nat) : Nat :=
  if c < 0xC0 then 1
  else if c < 0xE0 then 2
  else if c < 0xF0 then 3
  else if c < 0xF8 then 4
  else if c < 0xFC then 5
  else 6

/-- Whether the first `k` bytes of `r` exist and are UTF-8 continuation bytes. -/
def utf8_cont (r : List Nat) (k : Nat) : Bool :=
  (r.take k).length = k && (r.take k).all (fun b => 0x80 ≤ b && b < 0xC0)

/-- The number of bytes of the UTF-8 sequence at the head of `s`, `none` when the head is not
the start of a complete sequence. -/
def utf8_mbrtowc : List Nat → Option Nat
  | [] => none
  | b :: r =>
    if b < 0x80 then some 1
    else if 0xC2 ≤ b ∧ b < 0xE0 then (if utf8_cont r 1 then some 2 else none)
    else if 0xE0 ≤ b ∧ b < 0xF0 then (if utf8_cont r 2 then some 3 else none)
    else if 0xF0 ≤ b ∧ b < 0xF5 then (if utf8_cont r 3 then some 4 else none)
    else none

/-- The number of characters of `s` when it is a sequence of complete UTF-8 sequences. -/
def utf8_mbstowcs : Nat → List Nat → Option Nat
  | 0, _ => none
  | _ + 1, [] => some 0
  | fuel + 1, b :: r =>
    match utf8_mbrtowc (b :: r) with
    | none => none
    | some u => (utf8_mbstowcs fuel ((b :: r).drop u)).map (fun n => n + 1)

/-- Modelled from the spec: `utf8towcs(NULL, s, 0)` is defined in util.c, not in character.c.
It is `char_length(s)` of the Code-Unit Indexer for UTF-8, the number of code points of `s`, and
a negative value (-1) for a string that does not decode, as the tests on its result for "an
invalid string" in `do_regexpr` expect. -/
def utf8towcs (s : List Nat) : Int :=
  match utf8_mbstowcs (s.length + 1) s with
  | some n => (n : Int)
  | none => -1

/-- The wrapper `Mbrtowc` of util.c at index `p` of `mem`: 0 at the terminator, an error on an
invalid sequence, else the number of bytes of the next character. -/
def Mbrtowc (L : Env) (mem : List Nat) (p : Nat) : Except Fault Nat := do
  let rest ← cstrAt mem p
  if rest = [] then pure 0
  else match L.mbrtowc rest with
    | some used => pure used
    | none => .error (.error .invalidMultibyte)

/-! ## `substr` -/

/-- The loop of `substr` for `CE_UTF8`: `n` iterations are left, `i` is the loop counter and
`p` the position of `str`.  The result lists the bytes stored through `buf`. -/
def substr_utf8 (str : List Nat) (sa : Int) : Nat → Nat → Nat → Except Fault (List Nat)
  | 0, _, _ => .ok []
  | n + 1, i, p => do
    let used := utf8clen (← rd str p)
    if (i : Int) < sa - 1 then
      substr_utf8 str sa n (i + 1) (p + used)
    else do
      let c ← readN str p used
      let r ← substr_utf8 str sa n (i + 1) (p + used)
      pure (c ++ r)

/-- The loop `for (str += (sa - 1), i = sa; i <= so; i++) *buf++ = *str++;` of `substr`. -/
def substr_sbcs (str : List Nat) (sa so : Int) : Except Fault (List Nat) :=
  let count := (so - sa + 1).toNat
  if count = 0 then .ok []
  else if sa < 1 then .error .oob
  else readN str (sa - 1).toNat count

/-- The first loop of the multibyte branch of `substr`: skip `n` characters. -/
def mbcs_skip (L : Env) (str : List Nat) : Nat → Nat → Except Fault Nat
  | 0, p => .ok p
  | n + 1, p => do
    let used ← Mbrtowc L str p
    mbcs_skip L str n (p + used)

/-- The second loop of the multibyte branch of `substr`: copy `n` characters. -/
def mbcs_copy (L : Env) (str : List Nat) : Nat → Nat → Except Fault (List Nat)
  | 0, _ => .ok []
  | n + 1, p => do
    let used ← Mbrtowc L str p
    let c ← readN str p used
    let r ← mbcs_copy L str n (p + used)
    pure (c ++ r)

/-- The function `substr(buf, str, ienc, sa, so)`: the bytes it stores into `buf` before the
final NUL. -/
def substr (L : Env) (str : List Nat) (ienc : cetype_t) (sa so : Int) :
    Except Fault (List Nat) :=
  match ienc with
  | .CE_UTF8 => substr_utf8 str sa so.toNat 0 0
  | .CE_LATIN1 => substr_sbcs str sa so
  | .CE_NATIVE => do
    let ascii ← if L.mbcslocale then (cstrAt str 0).map strIsASCII else pure true
    if L.mbcslocale && !ascii then do
      let p ← mbcs_skip L str (sa - 1).toNat 0
      mbcs_copy L str (so - sa + 1).toNat p
    else substr_sbcs str sa so

/-- One iteration of the loop of `do_substr`: element `el` of `x`, stored with the bytes `pad`
after its terminator, and the recycled `start` and `stop`. -/
def do_substr_elt (L : Env) (el : RString) (pad : List Nat) (start stop : Int) :
    Except Fault RString :=
  match el with
  | .NA_STRING => .ok .NA_STRING
  | .chr bytes ienc =>
    if start = NA_INTEGER ∨ stop = NA_INTEGER then .ok .NA_STRING
    else do
      let ss := bytes ++ 0 :: pad
      let slen : Int := ((← strlen ss 0) : Nat)
      let start := if start < 1 then 1 else start
      if start > stop ∨ start > slen then pure (.chr [] ienc)
      else do
        let stop := if stop > slen then slen else stop
        let buf ← substr L ss ienc start stop
        pure (.chr (mkChar (buf ++ [0])) ienc)

/-- The loop of `do_substr` over the elements of `x`, from index `i`, with the recycled
`INTEGER(sa)[i % k]` and `INTEGER(so)[i % l]`; `pads i` is what is stored after the terminator
of `x[i]`. -/
def do_substr_loop (L : Env) (sa so : List Int) (pads : Nat → List Nat) :
    List RString → Nat → Except Fault (List RString)
  | [], _ => .ok []
  | el :: rest, i => do
    let start ← match sa[i % sa.length]? with
      | some v => pure v
      | none => .error .oob
    let stop ← match so[i % so.length]? with
      | some v => pure v
      | none => .error .oob
    let a ← do_substr_elt L el (pads i) start stop
    let r ← do_substr_loop L sa so pads rest (i + 1)
    pure (a :: r)

/-- The function `do_substr` on the character vector `x` and the integer vectors `sa` and
`so`. -/
def do_substr (L : Env) (x : List RString) (sa so : List Int) (pads : Nat → List Nat) :
    Except Fault (List RString) :=
  if x.length > 0 then
    if sa.length = 0 ∨ so.length = 0 then .error (.error .invalidArgument)
    else do_substr_loop L sa so pads x 0
  else .ok []

/-! ## `substr<-` -/

/-- The loop `for (i = 1; i < sa; i++) buf += utf8clen(*buf);` of `substrset`, `n` iterations
from position `p`. -/
def utf8_skip (buf : List Nat) : Nat → Nat → Except Fault Nat
  | 0, p => .ok p
  | n + 1, p => do
    let b ← rd buf p
    utf8_skip buf n (p + utf8clen b)

/-- The loop of the UTF-8 branch of `substrset` that works out how many bytes (`nin`, the `in`
of the source) replace how many (`nout`); `b0` is the position of `buf` after the first loop. -/
def substrset_utf8_count (buf : List Nat) (b0 : Nat) (str : List Nat) :
    Nat → Nat → Nat → Except Fault (Nat × Nat)
  | 0, nin, nout => .ok (nin, nout)
  | n + 1, nin, nout => do
    let nin1 := nin + utf8clen (← rd str nin)
    let nout1 := nout + utf8clen (← rd buf (b0 + nout))
    if (← rd str nin1) = 0 then pure (nin1, nout1)
    else substrset_utf8_count buf b0 str n nin1 nout1

/-- The same loop in the multibyte branch of `substrset`, with `Mbrtowc`. -/
def substrset_mbcs_count (L : Env) (buf : List Nat) (b0 : Nat) (str : List Nat) :
    Nat → Nat → Nat → Except Fault (Nat × Nat)
  | 0, nin, nout => .ok (nin, nout)
  | n + 1, nin, nout => do
    let nin1 := nin + (← Mbrtowc L str nin)
    let nout1 := nout + (← Mbrtowc L buf (b0 + nout))
    if (← rd str nin1) = 0 then pure (nin1, nout1)
    else substrset_mbcs_count L buf b0 str n nin1 nout1

/-- The call `memmove(buf+in, buf+out, strlen(buf+out)+1)`. -/
def memmove_tail (buf : List Nat) (dst src : Nat) : Except Fault (List Nat) := do
  let t ← cstrAt buf src
  writeAt buf dst (t ++ [0])

/-- The end of the UTF-8 and multibyte branches of `substrset`:
`if (in != out) memmove(...); memcpy(buf, str, in);`. -/
def substrset_splice (buf : List Nat) (b0 : Nat) (str : List Nat) (nin nout : Nat) :
    Except Fault (List Nat) := do
  let buf1 ← if nin ≠ nout then memmove_tail buf (b0 + nin) (b0 + nout) else pure buf
  let c ← readN str 0 nin
  writeAt buf1 b0 c

/-- The single-byte branch of `substrset`:
`in = strlen(str); out = so - sa + 1; memcpy(buf + sa - 1, str, (in < out) ? in : out);`. -/
def substrset_sbcs (buf str : List Nat) (sa so : Int) : Except Fault (List Nat) := do
  let nin : Int := ((← strlen str 0) : Nat)
  let nout : Int := so - sa + 1
  let k := if nin < nout then nin else nout
  if k < 0 ∨ sa < 1 then .error .oob
  else do
    let c ← readN str 0 k.toNat
    writeAt buf (sa - 1).toNat c

/-- The function `substrset(buf, str, ienc, sa, so)`: the buffer after the call. -/
def substrset (L : Env) (buf str : List Nat) (ienc : cetype_t) (sa so : Int) :
    Except Fault (List Nat) :=
  match ienc with
  | .CE_UTF8 => do
    let b0 ← utf8_skip buf (sa - 1).toNat 0
    let (nin, nout) ← substrset_utf8_count buf b0 str (so - sa + 1).toNat 0 0
    substrset_splice buf b0 str nin nout
  | .CE_LATIN1 => substrset_sbcs buf str sa so
  | .CE_NATIVE =>
    if L.mbcslocale then do
      let b0 ← mbcs_skip L buf (sa - 1).toNat 0
      let (nin, nout) ← substrset_mbcs_count L buf b0 str (so - sa + 1).toNat 0 0
      substrset_splice buf b0 str nin nout
    else substrset_sbcs buf str sa so

/-- One iteration of the loop of `do_substrgets`: element `el` of `x` and the recycled element
`v_el` of `value`, stored with the bytes `pad` and `vpad` after their terminators; `stale` is
what the shared buffer holds after the copy of the string made by `strcpy(buf, ss)`. -/
def do_substrgets_elt (L : Env) (el : RString) (pad : List Nat) (v_el : RString)
    (vpad stale : List Nat) (start stop : Int) : Except Fault RString :=
  match el, v_el with
  | .NA_STRING, _ => .ok .NA_STRING
  | .chr _ _, .NA_STRING => .ok .NA_STRING
  | .chr bytes ienc, .chr vbytes venc =>
    if start = NA_INTEGER ∨ stop = NA_INTEGER then .ok .NA_STRING
    else do
      let ss := bytes ++ 0 :: pad
      let slen : Int := ((← strlen ss 0) : Nat)
      let start := if start < 1 then 1 else start
      let stop := if stop > slen then slen else stop
      if start > stop then pure (.chr bytes ienc)
      else do
        let v_ss := vbytes ++ 0 :: vpad
        let translate := venc ≠ ienc && !strIsASCII (← cstrAt v_ss 0)
        let ss := if translate then L.translateChar bytes ienc ++ [0] else ss
        let v_ss := if translate then L.translateChar vbytes venc ++ [0] else v_ss
        let ienc2 := if translate then cetype_t.CE_NATIVE else ienc
        let buf := (← cstrAt ss 0) ++ 0 :: stale
        let buf ← substrset L buf v_ss ienc2 start stop
        pure (.chr (← cstrAt buf 0) ienc2)

/-- The loop of `do_substrgets` over the elements of `x`, from index `i`, with the recycled
elements of `value`, `sa` and `so`; `pads i` and `vpads j` are what is stored after the
terminators of `x[i]` and `value[j]`, and `stale i` is what the shared buffer holds in
iteration `i` after the copy of the string. -/
def do_substrgets_loop (L : Env) (sa so : List Int) (value : List RString)
    (pads vpads stale : Nat → List Nat) : List RString → Nat → Except Fault (List RString)
  | [], _ => .ok []
  | el :: rest, i => do
    let v_el ← match value[i % value.length]? with
      | some v => pure v
      | none => .error .oob
    let start ← match sa[i % sa.length]? with
      | some v => pure v
      | none => .error .oob
    let stop ← match so[i % so.length]? with
      | some v => pure v
      | none => .error .oob
    let a ← do_substrgets_elt L el (pads i) v_el (vpads (i % value.length)) (stale i) start stop
    let r ← do_substrgets_loop L sa so value pads vpads stale rest (i + 1)
    pure (a :: r)

/-- The function `do_substrgets` on the character vectors `x` and `value` and the integer
vectors `sa` and `so`. -/
def do_substrgets (L : Env) (x : List RString) (sa so : List Int) (value : List RString)
    (pads vpads stale : Nat → List Nat) : Except Fault (List RString) :=
  if x.length > 0 then
    if sa.length = 0 ∨ so.length = 0 then .error (.error .invalidArgument)
    else if value.length = 0 then .error (.error .invalidValue)
    else do_substrgets_loop L sa so value pads vpads stale x 0
  else .ok []

/-! ## `strsplit` -/

/-- The function `markKnown(s, ref)` of util.c: the C string `s` as a `CHARSXP` with the tag
that the locale gives for the tag of `ref`. -/
def markKnown (L : Env) (s : List Nat) (ref : cetype_t) : RString :=
  .chr s (L.markEnc ref)

/-- The C string `CHAR(e)` of an element; `NA_STRING` holds the characters "NA". -/
def CHAR : RString → List Nat
  | .NA_STRING => [78, 65]
  | .chr bytes _ => bytes

/-- The tag `getCharCE(e)` of an element; `NA_STRING` has no mark. -/
def getCharCE : RString → cetype_t
  | .NA_STRING => .CE_NATIVE
  | .chr _ enc => enc

/-- The test `strncmp(a + p, b + q, n) == 0` of the C library. -/
def strncmp_eq (a : List Nat) (p : Nat) (b : List Nat) (q : Nat) : Nat → Except Fault Bool
  | 0 => .ok true
  | n + 1 => do
    let x ← rd a p
    let y ← rd b q
    if x ≠ y then pure false
    else if x = 0 then pure true
    else strncmp_eq a (p + 1) b (q + 1) n

/-- Whether the delimiter matches at `bufp`, the negation of the test
`(slen == 1 && *bufp != *split) || (slen > 1 && strncmp(bufp, split, slen))`
that makes the loops of the fixed branch `continue`. -/
def fixed_match (buf : List Nat) (bufp : Nat) (split : List Nat) (slen : Nat) :
    Except Fault Bool := do
  if slen = 1 then
    pure ((← rd buf bufp) = (← rd split 0))
  else if slen > 1 then
    strncmp_eq buf bufp split 0 slen
  else pure true

/-- The counting loop of the fixed branch of `do_strsplit`,
`for (bufp = buf; bufp < ebuf; bufp++) ...`, from the state `(bufp, ntok, laststart)`; the
result is `(ntok, laststart)`.  Every iteration advances `bufp`, so `fuel >= ebuf - bufp`
iterations end the loop. -/
def fixed_count (buf : List Nat) (ebuf : Nat) (split : List Nat) (slen : Nat) :
    Nat → Nat → Nat → Nat → Except Fault (Nat × Nat)
  | 0, _, ntok, laststart => .ok (ntok, laststart)
  | fuel + 1, bufp, ntok, laststart =>
    if bufp < ebuf then do
      if ← fixed_match buf bufp split slen then
        let bufp1 := bufp + (slen - 1)
        fixed_count buf ebuf split slen fuel (bufp1 + 1) (ntok + 1) (bufp1 + 1)
      else fixed_count buf ebuf split slen fuel (bufp + 1) ntok laststart
    else .ok (ntok, laststart)

/-- The inner loop `for (; bufp < ebuf; bufp++)` of the filling pass of the fixed branch: the
token found from `bufp` on and the new `laststart`, or `none` when the loop ends without a
match. -/
def fixed_next (buf : List Nat) (ebuf : Nat) (split : List Nat) (slen : Nat) (laststart : Nat) :
    Nat → Nat → Except Fault (Option (List Nat × Nat))
  | 0, _ => .ok none
  | fuel + 1, bufp =>
    if bufp < ebuf then do
      if ← fixed_match buf bufp split slen then
        let pt ← if slen ≠ 0 then readN buf laststart (bufp - laststart)
          else do pure [← rd buf bufp]
        pure (some (mkChar (pt ++ [0]), bufp + (slen - 1) + 1))
      else fixed_next buf ebuf split slen laststart fuel (bufp + 1)
    else .ok none

/-- The filling pass `for (j = 0; j < ntok; j++)` of the fixed branch: the tokens and the final
`bufp`.  An element that the inner loop does not set keeps the empty string of `allocVector`. -/
def fixed_fill (buf : List Nat) (ebuf : Nat) (split : List Nat) (slen : Nat) :
    Nat → Nat → Except Fault (List (List Nat) × Nat)
  | 0, laststart => .ok ([], laststart)
  | ntok + 1, laststart => do
    match ← fixed_next buf ebuf split slen laststart (ebuf + 1 - laststart) laststart with
    | some (tokn, laststart1) =>
      let (rest, bufp) ← fixed_fill buf ebuf split slen ntok laststart1
      pure (tokn :: rest, bufp)
    | none =>
      let (rest, bufp) ← fixed_fill buf ebuf split slen ntok laststart
      pure ([] :: rest, bufp)

/-- The end of the branch `tlen > 0` of `do_strsplit`: the vector `t` was allocated with
`ntok + 1` elements when `alloc` holds (`*bufp != 0` after the counting pass) and with `ntok`
otherwise, and `SET_STRING_ELT(t, ntok, ...)` stores the text from `bufp` on when
`*bufp != 0` after the filling pass.  The result is the last element of `t`, if any. -/
def strsplit_trailing (buf : List Nat) (alloc : Bool) (bufp : Nat) :
    Except Fault (Option (List Nat)) := do
  if (← rd buf bufp) ≠ 0 then
    if alloc then pure (some (← cstrAt buf bufp)) else .error .oob
  else
    if alloc then pure (some []) else pure none

/-- The fixed branch of `do_strsplit` for one element: the bytes of the `ntok` tokens and of
the trailing token, if there is one.  `buf` and `split` are the objects holding the translated
text and delimiter. -/
def strsplit_fixed (buf split : List Nat) :
    Except Fault (List (List Nat) × Option (List Nat)) := do
  let slen ← strlen split 0
  let ebuf ← strlen buf 0
  let (ntok, laststart) ← fixed_count buf ebuf split slen ebuf 0 0 0
  let alloc := decide ((← rd buf laststart) ≠ 0)
  let (toks, bufp) ← fixed_fill buf ebuf split slen ntok 0
  pure (toks, ← strsplit_trailing buf alloc bufp)

/-- The loop `for (j = 0; j < ntok; j++, p += used)` that splits a UTF-8 text into characters,
with `used = utf8clen(*p)`. -/
def chars_utf8 (buf : List Nat) : Nat → Nat → Except Fault (List (List Nat))
  | 0, _ => .ok []
  | ntok + 1, p => do
    let used := utf8clen (← rd buf p)
    let bf ← readN buf p used
    let rest ← chars_utf8 buf ntok (p + used)
    pure (mkChar (bf ++ [0]) :: rest)

/-- The same loop with `used = mbrtowc(NULL, p, MB_CUR_MAX, &mb_st)`; a negative `used` makes
`memcpy` leave the object. -/
def chars_mbcs (L : Env) (buf : List Nat) : Nat → Nat → Except Fault (List (List Nat))
  | 0, _ => .ok []
  | ntok + 1, p => do
    let rest0 ← cstrAt buf p
    let used ← if rest0 = [] then pure 0
      else match L.mbrtowc rest0 with
        | some u => pure u
        | none => .error .oob
    let bf ← readN buf p used
    let rest ← chars_mbcs L buf ntok (p + used)
    pure (mkChar (bf ++ [0]) :: rest)

/-- The loop `for (j = 0; j < ntok; j++) bf[0] = buf[j]` that splits into bytes. -/
def chars_bytes (buf : List Nat) : Nat → Nat → Except Fault (List (List Nat))
  | 0, _ => .ok []
  | ntok + 1, j => do
    let b ← rd buf j
    let rest ← chars_bytes buf ntok (j + 1)
    pure (mkChar [b, 0] :: rest)

/-- The branch `tlen == 0` of `do_strsplit` for one element, "split into individual characters
(not bytes)": the tokens of the translated text held by `buf`, for the element tag `xenc`. -/
def strsplit_chars (L : Env) (use_UTF8 : Bool) (buf : List Nat) (xenc : cetype_t) :
    Except Fault (List RString) := do
  let text ← cstrAt buf 0
  if (use_UTF8 || L.mbcslocale) && !strIsASCII text then
    match L.mbstowcs text with
    | none => pure [.NA_STRING]
    | some ntok =>
      if use_UTF8 then
        return (← chars_utf8 buf ntok 0).map (fun b => RString.chr b .CE_UTF8)
      else
        return (← chars_mbcs L buf ntok 0).map (fun b => markKnown L b xenc)
  else
    return (← chars_bytes buf text.length 0).map (fun b => markKnown L b xenc)

/-- The counting loop of the regular expression branches of `do_strsplit`,
`while (regexec(...) == 0) { bufp += MAX(rm_eo, 1); ntok++; if (*bufp == 0) break; }`:
the final `(bufp, ntok)`.  Every iteration advances `bufp`, and a read beyond the object is a
fault, so `buf.length + 1` iterations are never exceeded. -/
def regex_count (re : regex_t) (buf : List Nat) : Nat → Nat → Nat → Except Fault (Nat × Nat)
  | 0, _, _ => .error .fuel
  | fuel + 1, bufp, ntok => do
    match re.regexec (← cstrAt buf bufp) with
    | none => pure (bufp, ntok)
    | some (_, rm_eo) =>
      let bufp1 := bufp + (max rm_eo 1).toNat
      if (← rd buf bufp1) = 0 then pure (bufp1, ntok + 1)
      else regex_count re buf fuel bufp1 (ntok + 1)

/-- The filling pass of the regular expression branches of `do_strsplit`: the tokens and the
final `bufp`.  The call of `regexec` repeats one that matched in the counting pass. -/
def regex_fill (re : regex_t) (buf : List Nat) : Nat → Nat → Except Fault (List (List Nat) × Nat)
  | 0, bufp => .ok ([], bufp)
  | ntok + 1, bufp => do
    let text ← cstrAt buf bufp
    match re.regexec text with
    | none => .error .oob
    | some (rm_so, rm_eo) =>
      if rm_eo > 0 then
        if rm_so < 0 then .error .oob
        else
          let (rest, p) ← regex_fill re buf ntok (bufp + rm_eo.toNat)
          pure (text.take rm_so.toNat :: rest, p)
      else
        let b ← rd buf bufp
        let (rest, p) ← regex_fill re buf ntok (bufp + 1)
        pure (mkChar [b, 0] :: rest, p)

/-- The regular expression branches of `do_strsplit` for one element, after compilation: the
bytes of the `ntok` tokens and of the trailing token, if there is one. -/
def strsplit_regex (re : regex_t) (buf : List Nat) :
    Except Fault (List (List Nat) × Option (List Nat)) := do
  let (bufp, ntok) ← if (← rd buf 0) ≠ 0 then regex_count re buf (buf.length + 1) 0 0
    else pure (0, 0)
  let alloc := decide ((← rd buf bufp) ≠ 0)
  let (toks, bufp1) ← regex_fill re buf ntok 0
  pure (toks, ← strsplit_trailing buf alloc bufp1)

/-- The elements of the result vector `t`: the `ntok` tokens stored through `mark`, and the
trailing token, which is always stored through `markKnown`. -/
def strsplit_mark (L : Env) (xenc : cetype_t) (mark : List Nat → RString)
    (r : List (List Nat) × Option (List Nat)) : List RString :=
  r.1.map mark ++ (r.2.map (fun b => markKnown L b xenc)).toList

/-- One iteration of the loop of `do_strsplit` over the elements of `x`: element `x_i`, stored
with `pad` after its terminator, and the recycled delimiter `tok_i` (used when `tlen > 0`),
stored with `tpad`. -/
def do_strsplit_elt (L : Env) (R : RegexLib) (extended_opt fixed_opt perl_opt use_UTF8 : Bool)
    (options : Nat) (tlen : Nat) (x_i : RString) (pad : List Nat) (tok_i : RString)
    (tpad : List Nat) : Except Fault (List RString) :=
  match x_i with
  | .NA_STRING => .ok [.NA_STRING]
  | .chr bytes xenc =>
    let buf := (if use_UTF8 then L.translateCharUTF8 bytes xenc else L.translateChar bytes xenc)
      ++ 0 :: pad
    let mark8 : List Nat → RString := fun b =>
      if use_UTF8 then RString.chr b .CE_UTF8 else markKnown L b xenc
    if tlen > 0 then
      match tok_i with
      | .NA_STRING => do pure [markKnown L (← cstrAt buf 0) xenc]
      | .chr tbytes tenc =>
        let split := (if use_UTF8 then L.translateCharUTF8 tbytes tenc
          else L.translateChar tbytes tenc) ++ 0 :: tpad
        if fixed_opt then do
          pure (strsplit_mark L xenc mark8 (← strsplit_fixed buf split))
        else if perl_opt then do
          match R.pcre_compile (← cstrAt split 0) options with
          | none => .error (.error .invalidPattern)
          | some re => pure (strsplit_mark L xenc mark8 (← strsplit_regex re buf))
        else do
          match R.regcomp (← cstrAt split 0) (if extended_opt then 1 else 0) with
          | none => .error (.error .invalidPattern)
          | some re =>
            pure (strsplit_mark L xenc (fun b => markKnown L b xenc) (← strsplit_regex re buf))
    else strsplit_chars L use_UTF8 buf xenc

/-- The flag `use_UTF8` of `do_strsplit`: with `fixed` or `perl`, some delimiter among the first
`tlen` or some element of `x` is tagged UTF-8. -/
def strsplit_use_UTF8 (fixed_opt perl_opt : Bool) (x tok : List RString) (tlen : Nat) : Bool :=
  (fixed_opt || perl_opt) &&
    (((tok.take tlen).any (fun e => getCharCE e = .CE_UTF8))
      || (x.any (fun e => getCharCE e = .CE_UTF8)))

/-- The loop `for (i = 0; i < len; i++)` of `do_strsplit` from index `i` on; `pads i` and
`tpads j` are the bytes stored after the terminators of `x[i]` and `tok[j]`. -/
def do_strsplit_loop (L : Env) (R : RegexLib) (extended_opt fixed_opt perl_opt use_UTF8 : Bool)
    (options tlen : Nat) (tok : List RString) (pads tpads : Nat → List Nat) :
    List RString → Nat → Except Fault (List (List RString))
  | [], _ => .ok []
  | x_i :: xs, i => do
    let t ← do_strsplit_elt L R extended_opt fixed_opt perl_opt use_UTF8 options tlen x_i
      (pads i) (tok.getD (i % tlen) .NA_STRING) (tpads (i % tlen))
    let rest ← do_strsplit_loop L R extended_opt fixed_opt perl_opt use_UTF8 options tlen tok
      pads tpads xs (i + 1)
    pure (t :: rest)

/-- The function `do_strsplit` on the character vectors `x` and `tok` with the flags
`extended`, `fixed` and `perl` (already logical values): the list of the token vectors. -/
def do_strsplit (L : Env) (R : RegexLib) (x tok : List RString) (pads tpads : Nat → List Nat)
    (extended_opt fixed_opt perl_opt : Bool) : Except Fault (List (List RString)) :=
  let tlen := if tok.length = 1 ∧ (CHAR (tok.getD 0 .NA_STRING)).head? = none then 0
    else tok.length
  let use_UTF8 := strsplit_use_UTF8 fixed_opt perl_opt x tok tlen
  let options := if !fixed_opt && perl_opt && (L.utf8locale || use_UTF8) then 1 else 0
  do_strsplit_loop L R extended_opt fixed_opt perl_opt use_UTF8 options tlen tok pads tpads x 0

/-! ## `fgrep_one_bytes`, `sub` and `gsub` -/

/-- The byte at the C index `i` (an `int`) of `mem`. -/
def rdInt (mem : List Nat) (i : Int) : Except Fault Nat :=
  if i < 0 then .error .oob else rd mem i.toNat

/-- The loop `for (i = 0, p = target; *p; p++, i++) if (*p == pat[0]) return i;` of
`fgrep_one_bytes`, over the `n` bytes of the target that are left, and the `return -1` after
it. -/
def fgrep_scan1 (target : List Nat) (tp : Nat) (c : Nat) : Nat → Nat → Except Fault Int
  | 0, _ => .ok (-1)
  | n + 1, i => do
    if (← rd target (tp + i)) = c then pure (i : Int)
    else fgrep_scan1 target tp c n (i + 1)

/-- The loop `for (i = 0; i <= len-plen; i++) if (strncmp(pat, target+i, plen) == 0) return i;`
of `fgrep_one_bytes`, `n` iterations from `i`, and the `return -1` after it. -/
def fgrep_scan_bytes (pat target : List Nat) (tp plen : Nat) : Nat → Nat → Except Fault Int
  | 0, _ => .ok (-1)
  | n + 1, i => do
    if ← strncmp_eq pat 0 target (tp + i) plen then pure (i : Int)
    else fgrep_scan_bytes pat target tp plen n (i + 1)

/-- The loop of `fgrep_one_bytes` that skips along by characters in a multibyte locale, from
the byte offset `ib`, and the `return -1` after it.  Every iteration that continues advances
`ib`, so `len + 1` iterations are never exceeded. -/
def fgrep_scan_mbcs (L : Env) (pat target : List Nat) (tp plen len : Nat) :
    Nat → Nat → Except Fault Int
  | 0, _ => .error .fuel
  | n + 1, ib =>
    if (ib : Int) ≤ (len : Int) - plen then do
      if ← strncmp_eq pat 0 target (tp + ib) plen then pure (ib : Int)
      else
        let used ← Mbrtowc L target (tp + ib)
        if used = 0 then pure (-1)
        else fgrep_scan_mbcs L pat target tp plen len n (ib + used)
    else .ok (-1)

/-- The function `fgrep_one_bytes(pat, target, useBytes)`, with `target` the pointer `tp` into
its object: the byte offset of the first match, or -1. -/
def fgrep_one_bytes (L : Env) (pat target : List Nat) (tp : Nat) (useBytes : Bool) :
    Except Fault Int := do
  let plen ← strlen pat 0
  let len ← strlen target tp
  if plen = 0 then pure 0
  else if plen = 1 then fgrep_scan1 target tp (← rd pat 0) len 0
  else if !useBytes && L.mbcslocale then fgrep_scan_mbcs L pat target tp plen len (len + 1) 0
  else fgrep_scan_bytes pat target tp plen ((len : Int) - plen + 1).toNat 0

/-- The span `regmatch[k]`. -/
def regmatch_get (regmatch : List (Int × Int)) (k : Nat) : Except Fault (Int × Int) :=
  match regmatch[k]? with
  | some m => .ok m
  | none => .error .oob

/-- The loop `while (*p)` of `length_adj` over the rest `p` of the replacement, with the
running value `n`.  Every iteration consumes a byte, so `strlen(p) + 1` iterations are never
exceeded. -/
def length_adj_loop (L : Env) (regmatch : List (Int × Int)) (nsubexpr : Nat) :
    Nat → List Nat → Int → Except Fault Int
  | 0, _, _ => .error .fuel
  | _ + 1, [], n => .ok n
  | fuel + 1, c :: rest, n => do
    let clen ← if L.mbcslocale then
        match L.mbrtowc (c :: rest) with
        | some u => pure u
        | none => .error (.error .invalidMultibyte)
      else pure 0
    if L.mbcslocale && clen > 1 then
      length_adj_loop L regmatch nsubexpr fuel ((c :: rest).drop clen) n
    else if c = 92 then
      match rest with
      | [] => length_adj_loop L regmatch nsubexpr fuel [] (n - 1)
      | d :: rest1 =>
        if 49 ≤ d ∧ d ≤ 57 then do
          let k := d - 48
          if k > nsubexpr then .error (.error .invalidBackreference)
          else
            let m ← regmatch_get regmatch k
            length_adj_loop L regmatch nsubexpr fuel rest1 (n + (m.2 - m.1) - 2)
        else length_adj_loop L regmatch nsubexpr fuel rest1 (n - 1)
    else length_adj_loop L regmatch nsubexpr fuel rest n

/-- The function `length_adj(repl, regmatch, nsubexpr)`. -/
def length_adj (L : Env) (repl : List Nat) (regmatch : List (Int × Int)) (nsubexpr : Nat) :
    Except Fault Int := do
  let m ← regmatch_get regmatch 0
  length_adj_loop L regmatch nsubexpr (repl.length + 1) repl ((repl.length : Int) - (m.2 - m.1))

/-- The loop `for (i = rm_so; i < rm_eo; i++) *t++ = orig[i];` of `string_adj`, `n` iterations
from `i`. -/
def copy_span (orig : List Nat) : Nat → Int → Except Fault (List Nat)
  | 0, _ => .ok []
  | n + 1, i => do
    let b ← rdInt orig i
    let r ← copy_span orig n (i + 1)
    pure (b :: r)

/-- The loop `while (*p)` of `string_adj` over the rest `p` of the replacement: the bytes
stored through `t`. -/
def string_adj_loop (L : Env) (orig : List Nat) (regmatch : List (Int × Int)) :
    Nat → List Nat → Except Fault (List Nat)
  | 0, _ => .error .fuel
  | _ + 1, [] => .ok []
  | fuel + 1, c :: rest => do
    let clen ← if L.mbcslocale then
        match L.mbrtowc (c :: rest) with
        | some u => pure u
        | none => .error (.error .invalidMultibyte)
      else pure 0
    if L.mbcslocale && clen > 1 then
      let r ← string_adj_loop L orig regmatch fuel ((c :: rest).drop clen)
      pure ((c :: rest).take clen ++ r)
    else if c = 92 then
      match rest with
      | [] => string_adj_loop L orig regmatch fuel []
      | d :: rest1 =>
        if 49 ≤ d ∧ d ≤ 57 then do
          let m ← regmatch_get regmatch (d - 48)
          let span ← copy_span orig (m.2 - m.1).toNat m.1
          let r ← string_adj_loop L orig regmatch fuel rest1
          pure (span ++ r)
        else do
          let r ← string_adj_loop L orig regmatch fuel rest1
          pure (d :: r)
    else do
      let r ← string_adj_loop L orig regmatch fuel rest
      pure (c :: r)

/-- The function `string_adj(target, orig, repl, regmatch)`: the bytes it stores. -/
def string_adj (L : Env) (orig repl : List Nat) (regmatch : List (Int × Int)) :
    Except Fault (List Nat) :=
  string_adj_loop L orig regmatch (repl.length + 1) repl

/-- The state of the two regular expression loops of `do_gsub`: `offset`, `last_end`,
`eflags`, the count `nmatch`, the size `ns` and the bytes `u` written so far. -/
structure GsubState where
  offset : Int
  last_end : Int
  eflags : Nat
  nmatch : Nat
  ns : Int
  u : List Nat
  deriving DecidableEq, Repr

/-- One iteration of the first loop of the regular expression branch of `do_gsub`, entered
with the match `regmatch`: the new state, and whether the loop goes on. -/
def gsub_size_step (L : Env) (re : regex_t) (global : Bool) (s t : List Nat)
    (regmatch : List (Int × Int)) (st : GsubState) : Except Fault (GsubState × Bool) := do
  let m ← regmatch_get regmatch 0
  let offset := m.2
  let adj ← if offset > st.last_end then length_adj L t regmatch re.re_nsub else pure 0
  let ns := if offset > st.last_end then st.ns + adj else st.ns
  let last_end := if offset > st.last_end then offset else st.last_end
  let st1 : GsubState := { st with nmatch := st.nmatch + 1, offset, ns, last_end }
  if (← rdInt s offset) = 0 ∨ !global then pure (st1, false)
  else pure ({ st1 with offset := if m.2 = m.1 then offset + 1 else offset, eflags := 1 }, true)

/-- The first loop `while (Rregexec(&reg, s, 10, regmatch, eflags, offset) == 0)` of the regular
expression branch of `do_gsub`, which counts the matches and sizes the result. -/
def gsub_size_loop (L : Env) (re : regex_t) (global : Bool) (s t : List Nat) :
    Nat → GsubState → Except Fault GsubState
  | 0, _ => .error .fuel
  | fuel + 1, st => do
    match re.Rregexec (← cstrAt s 0) st.eflags st.offset with
    | none => pure st
    | some regmatch =>
      let (st1, more) ← gsub_size_step L re global s t regmatch st
      if more then gsub_size_loop L re global s t fuel st1 else pure st1

/-- The loop `for (j = offset; j < rm_so; j++) *u++ = s[j];`, `n` iterations from `j`. -/
def copy_gap (s : List Nat) : Nat → Int → Except Fault (List Nat)
  | 0, _ => .ok []
  | n + 1, j => do
    let b ← rdInt s j
    let r ← copy_gap s n (j + 1)
    pure (b :: r)

/-- One iteration of the second loop of the regular expression branch of `do_gsub`, entered
with the match `regmatch`: the new state, and whether the loop goes on. -/
def gsub_write_step (L : Env) (global : Bool) (s t : List Nat)
    (regmatch : List (Int × Int)) (st : GsubState) : Except Fault (GsubState × Bool) := do
  let m ← regmatch_get regmatch 0
  let gap ← copy_gap s (m.1 - st.offset).toNat st.offset
  let sub ← if m.2 > st.last_end then string_adj L s t regmatch else pure []
  let last_end := if m.2 > st.last_end then m.2 else st.last_end
  let st1 : GsubState := { st with u := st.u ++ gap ++ sub, last_end, offset := m.2 }
  if (← rdInt s m.2) = 0 ∨ !global then pure (st1, false)
  else if m.2 = m.1 then
    pure ({ st1 with u := st1.u ++ [← rdInt s m.2], offset := m.2 + 1, eflags := 1 }, true)
  else pure ({ st1 with eflags := 1 }, true)

/-- The second loop `while (Rregexec(&reg, s, 10, regmatch, eflags, offset) == 0)` of the
regular expression branch of `do_gsub`, which writes the result. -/
def gsub_write_loop (L : Env) (re : regex_t) (global : Bool) (s t : List Nat) :
    Nat → GsubState → Except Fault GsubState
  | 0, _ => .error .fuel
  | fuel + 1, st => do
    match re.Rregexec (← cstrAt s 0) st.eflags st.offset with
    | none => pure st
    | some regmatch =>
      let (st1, more) ← gsub_write_step L global s t regmatch st
      if more then gsub_write_loop L re global s t fuel st1 else pure st1

/-- The initial state of both loops: `offset = 0; nmatch = 0; eflags = 0; last_end = -1;`. -/
def gsub_init (ns : Nat) : GsubState :=
  { offset := 0, last_end := -1, eflags := 0, nmatch := 0, ns := ns, u := [] }

/-- The loop `do { nr++; ss += sst+patlen; } while((sst = fgrep_one_bytes(...)) >= 0);` of the
fixed branch of `do_gsub`: the number of matches. -/
def gsub_fixed_count (L : Env) (spat s : List Nat) (patlen : Nat) (useBytes : Bool) :
    Nat → Nat → Nat → Nat → Except Fault Nat
  | 0, _, _, _ => .error .fuel
  | fuel + 1, ss, sst, nr => do
    let ss1 := ss + sst + patlen
    let sst1 ← fgrep_one_bytes L spat s ss1 useBytes
    if sst1 ≥ 0 then gsub_fixed_count L spat s patlen useBytes fuel ss1 sst1.toNat (nr + 1)
    else pure (nr + 1)

/-- The loop `do { strncat(u, s, st); s += st+patlen; strcat(u, t); } while(global && ...)` of
the fixed branch of `do_gsub`: the bytes written and the final position of `s`. -/
def gsub_fixed_write (L : Env) (spat s t : List Nat) (patlen : Nat) (useBytes global : Bool) :
    Nat → Nat → Nat → List Nat → Except Fault (List Nat × Nat)
  | 0, _, _, _ => .error .fuel
  | fuel + 1, sp, st, u => do
    let piece := (← cstrAt s sp).take st
    let u1 := u ++ piece ++ t
    let sp1 := sp + st + patlen
    if global then
      let st1 ← fgrep_one_bytes L spat s sp1 useBytes
      if st1 ≥ 0 then gsub_fixed_write L spat s t patlen useBytes global fuel sp1 st1.toNat u1
      else pure (u1, sp1)
    else pure (u1, sp1)

/-- The check `mbcslocale && !mbcsValid(s)`. -/
def mbcsInvalid (L : Env) (s : List Nat) : Bool :=
  L.mbcslocale && (L.mbstowcs s).isNone

/-- The C string of an element that `do_gsub` works on: `CHAR` with `useBytes`, else
`translateCharUTF8` with `use_UTF8`, else `translateChar`. -/
def gsub_text (L : Env) (useBytes use_UTF8 : Bool) (e : RString) : List Nat :=
  if useBytes then CHAR e
  else if use_UTF8 then L.translateCharUTF8 (CHAR e) (getCharCE e)
  else L.translateChar (CHAR e) (getCharCE e)

/-- One iteration of the loop of `do_gsub` over the elements of `vec`: element `vec_i`, whose
working text is stored with `pad` after its terminator; `pat` and `rep` are the first elements
of the pattern and of the replacement, `spat` and `srep` their working texts, `re` the compiled
pattern (used when `fixed` is off), and `fuel` bounds the iterations of each loop. -/
def do_gsub_elt (L : Env) (re : regex_t) (global fixed_opt useBytes use_UTF8 : Bool)
    (pat rep : RString) (spat srep : List Nat) (vec_i : RString) (pad : List Nat) (fuel : Nat) :
    Except Fault RString :=
  if vec_i = .NA_STRING then
    if pat = .NA_STRING then .ok rep else .ok .NA_STRING
  else if pat = .NA_STRING then .ok vec_i
  else do
    let s := gsub_text L useBytes use_UTF8 vec_i ++ 0 :: pad
    let t := srep
    let ns ← strlen s 0
    if mbcsInvalid L (← cstrAt s 0) then .error (.error .invalidInput)
    else if fixed_opt then do
      let patlen := spat.length
      let replen := srep.length
      let st ← fgrep_one_bytes L (spat ++ [0]) s 0 useBytes
      if st < 0 then pure vec_i
      else if rep = .NA_STRING then pure .NA_STRING
      else do
        let nr ← if global then
            gsub_fixed_count L (spat ++ [0]) s patlen useBytes fuel 0 st.toNat 0
          else pure 1
        let cap : Int := (ns : Int) + nr * ((replen : Int) - patlen)
        let (u, sp) ← gsub_fixed_write L (spat ++ [0]) s t patlen useBytes global fuel 0
          st.toNat []
        let u1 := u ++ (← cstrAt s sp)
        if (u1.length : Int) > cap then .error .oob
        else if useBytes then pure (.chr (mkChar (u1 ++ [0])) .CE_NATIVE)
        else pure (markKnown L (mkChar (u1 ++ [0])) (getCharCE vec_i))
    else do
      let st1 ← gsub_size_loop L re global s t fuel (gsub_init ns)
      if st1.nmatch = 0 then pure vec_i
      else if rep = .NA_STRING then pure .NA_STRING
      else do
        let st2 ← gsub_write_loop L re global s t fuel (gsub_init ns)
        let tail ← if st2.offset < (ns : Int) then
            (do
              let i := st2.offset.toNat
              if st2.offset < 0 then .error .oob else cstrAt s i)
          else pure []
        let u1 := st2.u ++ tail
        if (u1.length : Int) > st1.ns then .error .oob
        else if useBytes then pure (.chr (mkChar (u1 ++ [0])) .CE_NATIVE)
        else if use_UTF8 then pure (.chr (mkChar (u1 ++ [0])) .CE_UTF8)
        else pure (markKnown L (mkChar (u1 ++ [0])) (getCharCE vec_i))

/-- The loop `for (i = 0 ; i < n ; i++)` of `do_gsub`; `pads i` is stored after the terminator
of the working text of element `i`. -/
def do_gsub_loop (L : Env) (re : regex_t) (global fixed_opt useBytes use_UTF8 : Bool)
    (pat rep : RString) (spat srep : List Nat) (pads : Nat → List Nat) (fuel : Nat) :
    List RString → Nat → Except Fault (List RString)
  | [], _ => .ok []
  | vec_i :: rest, i => do
    let a ← do_gsub_elt L re global fixed_opt useBytes use_UTF8 pat rep spat srep vec_i
      (pads i) fuel
    let r ← do_gsub_loop L re global fixed_opt useBytes use_UTF8 pat rep spat srep pads fuel
      rest (i + 1)
    pure (a :: r)

/-- A compiled pattern for the branches that use none. -/
def regex_none : regex_t where
  re_nsub := 0
  regexec := fun _ => none
  Rregexec := fun _ _ _ => none

/-- The function `do_gsub` (`global` is `PRIMVAL(op)`: off for `sub`, on for `gsub`) on the
first elements `pat` and `rep` of the pattern and the replacement and on the vector `vec`, with
the flags already logical values.  `do_pgsub` is the function of pcre.c that the Perl branch
returns. -/
def do_gsub (L : Env) (R : RegexLib)
    (do_pgsub : RString → RString → List RString → Bool → Bool → Bool →
      Except Fault (List RString))
    (global : Bool) (pat rep : RString) (vec : List RString) (pads : Nat → List Nat)
    (igcase_opt extended_opt perl_opt fixed_opt useBytes0 : Bool) (fuel : Nat) :
    Except Fault (List RString) :=
  let useBytes := if !(fixed_opt || perl_opt) && useBytes0 then false else useBytes0
  if pat = .NA_STRING then .ok (vec.map (fun _ => RString.NA_STRING))
  else if perl_opt && !fixed_opt then do_pgsub pat rep vec global igcase_opt useBytes
  else
    let use_UTF8 := fixed_opt &&
      (decide (getCharCE pat = .CE_UTF8) || decide (getCharCE rep = .CE_UTF8)
        || vec.any (fun e => getCharCE e = .CE_UTF8))
    let spat := gsub_text L useBytes use_UTF8 pat
    let srep := gsub_text L useBytes use_UTF8 rep
    if mbcsInvalid L spat then .error (.error .invalidPattern)
    else if mbcsInvalid L srep then .error (.error .invalidReplacement)
    else
      let cflags := (if extended_opt then 1 else 0) + (if igcase_opt then 2 else 0)
      match (if fixed_opt then some regex_none else R.regcomp spat cflags) with
      | none => .error (.error .invalidRegex)
      | some re =>
        if fixed_opt ∧ spat.length = 0 then .error (.error .zeroLengthPattern)
        else do_gsub_loop L re global fixed_opt useBytes use_UTF8 pat rep spat srep pads fuel
          vec 0

/-! ## `fgrep_one` and `grep` -/

/-- The loop of `fgrep_one` that skips along by characters in a multibyte locale, from the byte
offset `ib` and the character count `i`: the value returned and the value stored through
`next`, if any. -/
def fgrep_one_mbcs (L : Env) (pat target : List Nat) (tp plen len : Nat) :
    Nat → Nat → Nat → Except Fault (Int × Option Nat)
  | 0, _, _ => .error .fuel
  | n + 1, ib, i =>
    if (ib : Int) ≤ (len : Int) - plen then do
      if ← strncmp_eq pat 0 target (tp + ib) plen then pure ((i : Int), some (ib + plen))
      else
        let used ← Mbrtowc L target (tp + ib)
        if used = 0 then pure (-1, none)
        else fgrep_one_mbcs L pat target tp plen len n (ib + used) (i + 1)
    else .ok (-1, none)

/-- The loop of `fgrep_one` for `ienc == CE_UTF8`, with `used = utf8clen(target[ib])`. -/
def fgrep_one_utf8 (pat target : List Nat) (tp plen len : Nat) :
    Nat → Nat → Nat → Except Fault (Int × Option Nat)
  | 0, _, _ => .error .fuel
  | n + 1, ib, i =>
    if (ib : Int) ≤ (len : Int) - plen then do
      if ← strncmp_eq pat 0 target (tp + ib) plen then pure ((i : Int), some (ib + plen))
      else
        let used := utf8clen (← rd target (tp + ib))
        fgrep_one_utf8 pat target tp plen len n (ib + used) (i + 1)
    else .ok (-1, none)

/-- The function `fgrep_one(pat, target, useBytes, ienc, next)`, with `target` the pointer `tp`
into its object: the value returned, and the value stored through `next` when the function
stores one. -/
def fgrep_one (L : Env) (pat target : List Nat) (tp : Nat) (useBytes : Bool)
    (ienc : cetype_t) : Except Fault (Int × Option Nat) := do
  let plen ← strlen pat 0
  let len ← strlen target tp
  if plen = 0 then pure (0, some 1)
  else if plen = 1 then do
    let i ← fgrep_scan1 target tp (← rd pat 0) len 0
    pure (i, if i ≥ 0 then some (i.toNat + 1) else none)
  else if !useBytes && L.mbcslocale then
    fgrep_one_mbcs L pat target tp plen len (len + 1) 0 0
  else if !useBytes && decide (ienc = .CE_UTF8) then
    fgrep_one_utf8 pat target tp plen len (len + 1) 0 0
  else do
    let i ← fgrep_scan_bytes pat target tp plen ((len : Int) - plen + 1).toNat 0
    pure (i, if i ≥ 0 then some (i.toNat + plen) else none)

/-- The flags `cflags` that `do_grep` and `do_regexpr` give to the compiler of the pattern:
`PCRE_CASELESS` (1) and `PCRE_UTF8` (2) in the Perl branch, `REG_EXTENDED` (1) and `REG_ICASE`
(2) otherwise. -/
def grep_cflags (L : Env) (igcase_opt extended_opt perl_opt useBytes use_UTF8 : Bool) : Nat :=
  if perl_opt then
    (if igcase_opt then 1 else 0) + (if !useBytes && (L.utf8locale || use_UTF8) then 2 else 0)
  else (if extended_opt then 1 else 0) + (if igcase_opt then 2 else 0)

/-- The compilation of the pattern in `do_grep` and `do_regexpr`: none with `fixed`,
`pcre_compile` with `perl`, else `regcomp`; `none` when the pattern does not compile. -/
def grep_compile (R : RegexLib) (fixed_opt perl_opt : Bool) (cpat : List Nat) (cflags : Nat) :
    Option regex_t :=
  if fixed_opt then some regex_none
  else if perl_opt then R.pcre_compile cpat cflags else R.regcomp cpat cflags

/-- What `do_grep` returns: the logical vector of `grepl`, the integer vector of indices (or of
`NA_INTEGER`), or the character vector of values. -/
inductive GrepResult where
  | logical (l : List Bool)
  | integers (l : List Int)
  | strings (l : List RString)
  deriving DecidableEq, Repr

/-- One iteration of the first loop of `do_grep`: `LOGICAL(ind)[i]`, and whether the iteration
reaches `if (invert ^ LOGICAL(ind)[i]) nmatches++` and counts the element (an input string that
is invalid in the locale leaves the iteration by `continue`). -/
def grep_elt (L : Env) (re : regex_t) (fixed_opt perl_opt useBytes use_UTF8 invert : Bool)
    (ienc : cetype_t) (cpat : List Nat) (e : RString) (pad : List Nat) :
    Except Fault (Bool × Bool) :=
  match e with
  | .NA_STRING => .ok (false, invert)
  | .chr bytes enc =>
    let s := (if useBytes then bytes
      else if use_UTF8 then L.translateCharUTF8 bytes enc
      else L.translateChar bytes enc) ++ 0 :: pad
    do
      let text ← cstrAt s 0
      if !useBytes && !use_UTF8 && mbcsInvalid L text then pure (false, false)
      else
        let ind ← if fixed_opt then do
            let r ← fgrep_one L (cpat ++ [0]) s 0 useBytes ienc
            pure (decide (r.1 ≥ 0))
          else if perl_opt then pure (re.regexec text).isSome
          else pure (re.regexec text).isSome
        pure (ind, xor invert ind)

/-- The first loop of `do_grep` over the elements of `vec`, from index `i`. -/
def grep_loop (L : Env) (re : regex_t) (fixed_opt perl_opt useBytes use_UTF8 invert : Bool)
    (ienc : cetype_t) (cpat : List Nat) (pads : Nat → List Nat) :
    List RString → Nat → Except Fault (List (Bool × Bool))
  | [], _ => .ok []
  | e :: rest, i => do
    let a ← grep_elt L re fixed_opt perl_opt useBytes use_UTF8 invert ienc cpat e (pads i)
    let r ← grep_loop L re fixed_opt perl_opt useBytes use_UTF8 invert ienc cpat pads rest
      (i + 1)
    pure (a :: r)

/-- The 1-based indices `i + 1` of the elements with `invert ^ LOGICAL(ind)[i]`, from index
`i`. -/
def grep_indices (invert : Bool) : List Bool → Nat → List Int
  | [], _ => []
  | b :: rest, i =>
    if xor invert b then ((i : Int) + 1) :: grep_indices invert rest (i + 1)
    else grep_indices invert rest (i + 1)

/-- The elements of `vec` with `invert ^ LOGICAL(ind)[i]`. -/
def grep_values (invert : Bool) : List Bool → List RString → List RString
  | b :: rest, e :: es =>
    if xor invert b then e :: grep_values invert rest es else grep_values invert rest es
  | _, _ => []

/-- The function `do_grep` (`grepl` is `PRIMVAL(op)`) on the first element `pat` of the pattern
and on the vector `vec`, with the flags already logical values.  The result vector is allocated
with `nmatches` elements, and storing more elements than that leaves it. -/
def do_grep (L : Env) (R : RegexLib) (grepl : Bool) (pat : RString) (vec : List RString)
    (pads : Nat → List Nat)
    (igcase_opt extended_opt value_opt perl_opt fixed_opt useBytes0 invert : Bool) :
    Except Fault GrepResult :=
  let useBytes := if !(fixed_opt || perl_opt) && useBytes0 then false else useBytes0
  if pat = .NA_STRING then
    if value_opt then .ok (.strings (vec.map (fun _ => RString.NA_STRING)))
    else .ok (.integers (vec.map (fun _ => NA_INTEGER)))
  else
    let use_UTF8 := (fixed_opt || perl_opt) && !useBytes &&
      (decide (getCharCE pat = .CE_UTF8) || vec.any (fun e => getCharCE e = .CE_UTF8))
    let cpat := gsub_text L useBytes use_UTF8 pat
    let ienc := if useBytes then cetype_t.CE_NATIVE
      else if use_UTF8 then cetype_t.CE_UTF8 else cetype_t.CE_NATIVE
    let cflags := grep_cflags L igcase_opt extended_opt perl_opt useBytes use_UTF8
    if !useBytes && decide (ienc ≠ .CE_UTF8) && mbcsInvalid L cpat then
      .error (.error .invalidRegex)
    else
      match grep_compile R fixed_opt perl_opt cpat cflags with
      | none => .error (.error .invalidRegex)
      | some re => do
        let r ← grep_loop L re fixed_opt perl_opt useBytes use_UTF8 invert ienc cpat pads vec 0
        let ind := r.map (fun a => a.1)
        let nmatches := (r.filter (fun a => a.2)).length
        if grepl then pure (.logical ind)
        else if value_opt then
          let ans := grep_values invert ind vec
          if ans.length > nmatches then .error .oob else pure (.strings ans)
        else
          let ans := grep_indices invert ind 0
          if ans.length > nmatches then .error .oob else pure (.integers ans)

/-! ## `regexpr` and `gregexpr` -/

/-- The value `mbstowcs(NULL, s, 0)` as an `int`: -1 when the string does not decode. -/
def mbstowcs_int (L : Env) (s : List Nat) : Int :=
  match L.mbstowcs s with
  | some n => (n : Int)
  | none => -1

/-- The count of characters that the fixed branches use for the pattern: `utf8towcs` with
`!useBytes && ienc == CE_UTF8`, `mbstowcs` with `!useBytes && mbcslocale`, else `strlen`. -/
def pattern_chars (L : Env) (useBytes : Bool) (ienc : cetype_t) (spat : List Nat) : Int :=
  if !useBytes && decide (ienc = .CE_UTF8) then utf8towcs spat
  else if !useBytes && L.mbcslocale then mbstowcs_int L spat
  else (spat.length : Int)

/-- The translation of the byte offsets `st` and `st + mlen` of a match in `s` to characters,
as the regular expression branches of `do_regexpr` do it: `count` is `utf8towcs` or `mbstowcs`
on a copy of the bytes concerned; the position is `NA_INTEGER` when `1 + count(...) <= 0` and
the length is `NA_INTEGER` when `count(...) < 0`. -/
def match_in_chars (count : List Nat → Int) (s : List Nat) (st mlen : Int) :
    Except Fault (Int × Int) := do
  let pos ← if st > 0 then do
      let buf ← readN s 0 st.toNat
      let c := 1 + count (mkChar (buf ++ [0]))
      pure (if c ≤ 0 then NA_INTEGER else c)
    else pure (st + 1)
  if mlen < 0 ∨ st < 0 then .error .oob
  else
    let buf ← readN s st.toNat mlen.toNat
    let c := count (mkChar (buf ++ [0]))
    pure (pos, if c < 0 then NA_INTEGER else c)

/-- One iteration of the loop of `do_regexpr`: the position and the match length of element
`e`. -/
def regexpr_elt (L : Env) (re : regex_t) (fixed_opt perl_opt useBytes : Bool)
    (ienc : cetype_t) (spat : List Nat) (e : RString) (pad : List Nat) :
    Except Fault (Int × Int) :=
  match e with
  | .NA_STRING => .ok (NA_INTEGER, NA_INTEGER)
  | .chr bytes enc =>
    let s := (if useBytes then bytes
      else if ienc = .CE_UTF8 then L.translateCharUTF8 bytes enc
      else L.translateChar bytes enc) ++ 0 :: pad
    do
      let text ← cstrAt s 0
      if !useBytes && decide (ienc ≠ .CE_UTF8) && mbcsInvalid L text then pure (-1, -1)
      else if fixed_opt then do
        let r ← fgrep_one L (spat ++ [0]) s 0 useBytes ienc
        let ans : Int := if r.1 > -1 then r.1 + 1 else -1
        pure (ans, if ans ≥ 0 then pattern_chars L useBytes ienc spat else -1)
      else
        match re.regexec text with
        | none => pure (-1, -1)
        | some (rm_so, rm_eo) =>
          if perl_opt then
            if !useBytes && decide (ienc = .CE_UTF8) then
              match_in_chars utf8towcs s rm_so (rm_eo - rm_so)
            else if !useBytes && L.mbcslocale then
              match_in_chars (mbstowcs_int L) s rm_so (rm_eo - rm_so)
            else pure (rm_so + 1, rm_eo - rm_so)
          else if L.mbcslocale then
            match_in_chars (mbstowcs_int L) s rm_so (rm_eo - rm_so)
          else pure (rm_so + 1, rm_eo - rm_so)

/-- The loop of `do_regexpr` over the elements of `text`, from index `i`. -/
def regexpr_loop (L : Env) (re : regex_t) (fixed_opt perl_opt useBytes : Bool)
    (ienc : cetype_t) (spat : List Nat) (pads : Nat → List Nat) :
    List RString → Nat → Except Fault (List (Int × Int))
  | [], _ => .ok []
  | e :: rest, i => do
    let a ← regexpr_elt L re fixed_opt perl_opt useBytes ienc spat e (pads i)
    let r ← regexpr_loop L re fixed_opt perl_opt useBytes ienc spat pads rest (i + 1)
    pure (a :: r)

/-- The function `do_regexpr` on the first element `pat` of the pattern and on the vector
`text`: for each element, the position and the match length (the attribute `match.length`). -/
def do_regexpr (L : Env) (R : RegexLib) (pat : RString) (text : List RString)
    (pads : Nat → List Nat) (igcase_opt extended_opt perl_opt fixed_opt useBytes0 : Bool) :
    Except Fault (List (Int × Int)) :=
  let useBytes := if !(fixed_opt || perl_opt) && useBytes0 then false else useBytes0
  if pat = .NA_STRING then .error (.error .invalidArgument)
  else
    let use_UTF8 := (fixed_opt || perl_opt) && !useBytes &&
      (decide (getCharCE pat = .CE_UTF8) || text.any (fun e => getCharCE e = .CE_UTF8))
    let spat := gsub_text L useBytes use_UTF8 pat
    let ienc := if useBytes then cetype_t.CE_NATIVE
      else if use_UTF8 then cetype_t.CE_UTF8 else cetype_t.CE_NATIVE
    let cflags := grep_cflags L igcase_opt extended_opt perl_opt useBytes use_UTF8
    if !useBytes && decide (ienc ≠ .CE_UTF8) && mbcsInvalid L spat then
      .error (.error .invalidRegex)
    else
      match grep_compile R fixed_opt perl_opt spat cflags with
      | none => .error (.error .invalidRegex)
      | some re => regexpr_loop L re fixed_opt perl_opt useBytes ienc spat pads text 0

/-- The loop `while(!foundAll)` of `gregexpr_fixed` after a first match: `sp` is the position
of `string`, `curpos`, `st` and `nb` are the variables of the source; the result lists the
further matches.  Every iteration advances `string`, and a read beyond the object is a fault,
so the iterations granted are never used up. -/
def gregexpr_fixed_loop (L : Env) (pattern string : List Nat) (useBytes : Bool)
    (ienc : cetype_t) (patlen : Int) (slen : Nat) :
    Nat → Nat → Int → Int → Nat → Except Fault (List (Int × Int))
  | 0, _, _, _, _ => .error .fuel
  | fuel + 1, sp, curpos, st, nb => do
    let sp1 := sp + nb
    let curpos1 := if patlen = 0 then curpos + st + 1 else curpos + st + patlen
    if curpos1 ≥ (slen : Int) then pure []
    else
      let r ← fgrep_one L pattern string sp1 useBytes ienc
      if r.1 ≥ 0 then do
        let rest ← gregexpr_fixed_loop L pattern string useBytes ienc patlen slen fuel sp1
          curpos1 r.1 (r.2.getD nb)
        pure ((curpos1 + r.1 + 1, patlen) :: rest)
      else pure []

/-- The function `gregexpr_fixed(pattern, string, useBytes, ienc)`: the positions and the match
lengths. -/
def gregexpr_fixed (L : Env) (pattern string : List Nat) (useBytes : Bool) (ienc : cetype_t) :
    Except Fault (List (Int × Int)) := do
  let patlen := pattern_chars L useBytes ienc (← cstrAt pattern 0)
  let slen ← strlen string 0
  let r ← fgrep_one L pattern string 0 useBytes ienc
  if r.1 < 0 then pure [(-1, -1)]
  else do
    let rest ← gregexpr_fixed_loop L pattern string useBytes ienc patlen slen
      (string.length + 2) 0 0 r.1 (r.2.getD 0)
    pure ((r.1 + 1, patlen) :: rest)

/-- The loop `while (!foundAll)` of `gregexpr_Regexc`: the positions and the match lengths
found from `offset` on; `foundAny` tells whether a match was stored before. -/
def gregexpr_Regexc_loop (L : Env) (re : regex_t) (string : List Nat) (useBytes : Bool)
    (len : Nat) : Nat → Int → Bool → Except Fault (List (Int × Int))
  | 0, _, _ => .error .fuel
  | fuel + 1, offset, foundAny => do
    let text ← cstrAt string 0
    match (if offset < (len : Int) then re.Rregexec text 0 offset else none) with
    | none => pure (if foundAny then [] else [(-1, -1)])
    | some regmatch =>
      let m ← regmatch_get regmatch 0
      let st := m.1
      let mlen := m.2 - st
      let offset1 := if mlen = 0 then st + 1 else m.2
      if !useBytes && L.mbcslocale then do
        let c ← match_in_chars (mbstowcs_int L) string st mlen
        if c.1 = NA_INTEGER ∨ c.2 = NA_INTEGER then pure [c]
        else do
          let rest ← gregexpr_Regexc_loop L re string useBytes len fuel offset1 true
          pure (c :: rest)
      else do
        let rest ← gregexpr_Regexc_loop L re string useBytes len fuel offset1 true
        pure ((st + 1, mlen) :: rest)

/-- One iteration of the loop of `do_gregexpr`: the positions and match lengths for element
`e`; `fuel` bounds the iterations of the regular expression loop. -/
def gregexpr_elt (L : Env) (re : regex_t) (fixed_opt useBytes use_UTF8 : Bool)
    (ienc : cetype_t) (spat : List Nat) (e : RString) (pad : List Nat) (fuel : Nat) :
    Except Fault (List (Int × Int)) :=
  match e with
  | .NA_STRING => .ok [(NA_INTEGER, NA_INTEGER)]
  | .chr bytes enc =>
    let s := (if useBytes then bytes
      else if use_UTF8 then L.translateCharUTF8 bytes enc
      else L.translateChar bytes enc) ++ 0 :: pad
    do
      let text ← cstrAt s 0
      if !useBytes && decide (ienc ≠ .CE_UTF8) && mbcsInvalid L text then pure [(-1, -1)]
      else if fixed_opt then gregexpr_fixed L (spat ++ [0]) s useBytes .CE_NATIVE
      else gregexpr_Regexc_loop L re s useBytes text.length fuel 0 false

/-- The loop of `do_gregexpr` over the elements of `text`, from index `i`. -/
def gregexpr_loop (L : Env) (re : regex_t) (fixed_opt useBytes use_UTF8 : Bool)
    (ienc : cetype_t) (spat : List Nat) (pads : Nat → List Nat) (fuel : Nat) :
    List RString → Nat → Except Fault (List (List (Int × Int)))
  | [], _ => .ok []
  | e :: rest, i => do
    let a ← gregexpr_elt L re fixed_opt useBytes use_UTF8 ienc spat e (pads i) fuel
    let r ← gregexpr_loop L re fixed_opt useBytes use_UTF8 ienc spat pads fuel rest (i + 1)
    pure (a :: r)

/-- The function `do_gregexpr` on the first element `pat` of the pattern and on the vector
`text`: for each element, the list of positions and match lengths.  `do_gpregexpr` is the
function of pcre.c that the Perl branch returns. -/
def do_gregexpr (L : Env) (R : RegexLib)
    (do_gpregexpr : RString → List RString → Bool → Bool →
      Except Fault (List (List (Int × Int))))
    (pat : RString) (text : List RString) (pads : Nat → List Nat)
    (igcase_opt extended_opt perl_opt fixed_opt useBytes0 : Bool) (fuel : Nat) :
    Except Fault (List (List (Int × Int))) :=
  let useBytes := if !(fixed_opt || perl_opt) && useBytes0 then false else useBytes0
  if text.length < 1 then .error (.error .invalidArgument)
  else if pat = .NA_STRING then .error (.error .invalidArgument)
  else if perl_opt && !fixed_opt then do_gpregexpr pat text igcase_opt useBytes
  else
    let use_UTF8 := fixed_opt && !useBytes &&
      (decide (getCharCE pat = .CE_UTF8) || text.any (fun e => getCharCE e = .CE_UTF8))
    let spat := gsub_text L useBytes use_UTF8 pat
    let ienc := if useBytes then cetype_t.CE_NATIVE
      else if use_UTF8 then cetype_t.CE_UTF8 else cetype_t.CE_NATIVE
    let cflags : Nat := (if extended_opt then 1 else 0) + (if igcase_opt then 2 else 0)
    if !useBytes && decide (ienc ≠ .CE_UTF8) && mbcsInvalid L spat then
      .error (.error .invalidRegex)
    else
      match (if fixed_opt then some regex_none else R.regcomp spat cflags) with
      | none => .error (.error .invalidRegex)
      | some re => gregexpr_loop L re fixed_opt useBytes use_UTF8 ienc spat pads fuel text 0

/-! ## `nchar` -/

/-- The functions behind `type = "width"` that are not in character.c: `utf8_width rest` is
`Ri18n_wcwidth` of the code point that `utf8toucs` reads at the head of `rest`, and
`wcswidth xi` is `Ri18n_wcswidth(wc, 2147483647)` of the wide string converted from `xi`. -/
structure WidthLib where
  utf8_width : List Nat → Int
  wcswidth : List Nat → Int

/-- The loop `for( ; *p; p += utf8clen(*p)) nc++;` of `do_nchar`, from position `p` with the
count `nc`.  Every iteration advances `p`, and a read beyond the object is a fault, so the
iterations granted are never used up. -/
def nchar_utf8_chars (mem : List Nat) : Nat → Nat → Nat → Except Fault Nat
  | 0, _, _ => .error .fuel
  | fuel + 1, p, nc => do
    let b ← rd mem p
    if b = 0 then pure nc
    else nchar_utf8_chars mem fuel (p + utf8clen b) (nc + 1)

/-- The loop `for( ; *p; p += utf8clen(*p)) { utf8toucs(&wc1, p); nc += Ri18n_wcwidth(wc1); }`
of `do_nchar`. -/
def nchar_utf8_width (W : WidthLib) (mem : List Nat) : Nat → Nat → Int → Except Fault Int
  | 0, _, _ => .error .fuel
  | fuel + 1, p, nc => do
    let b ← rd mem p
    if b = 0 then pure nc
    else
      let rest ← cstrAt mem p
      nchar_utf8_width W mem fuel (p + utf8clen b) (nc + W.utf8_width rest)

/-- One iteration of the loop of `do_nchar`: the count for element `sxi`, stored with `pad`
after its terminator, for the type string `type` (not empty) and the flag `allowNA`. -/
def nchar_elt (L : Env) (W : WidthLib) (type : List Nat) (allowNA : Bool) (sxi : RString)
    (pad : List Nat) : Except Fault Int :=
  match sxi with
  | .NA_STRING => .ok 2
  | .chr bytes enc =>
    let ntype := type.length
    let mem := bytes ++ 0 :: pad
    do
      if ← strncmp_eq (type ++ [0]) 0 ([98, 121, 116, 101, 115] ++ [0]) 0 ntype then
        pure (bytes.length : Int)
      else if ← strncmp_eq (type ++ [0]) 0 ([99, 104, 97, 114, 115] ++ [0]) 0 ntype then
        if enc = .CE_UTF8 then do
          let nc ← nchar_utf8_chars mem (mem.length + 1) 0 0
          pure (nc : Int)
        else if L.mbcslocale then
          let nc := mbstowcs_int L (L.translateChar bytes enc)
          if !allowNA && decide (nc < 0) then .error (.error .invalidMultibyte)
          else pure (if nc ≥ 0 then nc else NA_INTEGER)
        else pure ((L.translateChar bytes enc).length : Int)
      else if ← strncmp_eq (type ++ [0]) 0 ([119, 105, 100, 116, 104] ++ [0]) 0 ntype then
        if enc = .CE_UTF8 then nchar_utf8_width W mem (mem.length + 1) 0 0
        else if L.mbcslocale then
          let xi := L.translateChar bytes enc
          let nc := mbstowcs_int L xi
          if nc ≥ 0 then
            let w := W.wcswidth xi
            pure (if w < 1 then nc else w)
          else if allowNA then .error (.error .invalidMultibyte)
          else pure NA_INTEGER
        else pure ((L.translateChar bytes enc).length : Int)
      else .error (.error .invalidArgument)

/-- The loop of `do_nchar` over the elements of `x`, from index `i`. -/
def nchar_loop (L : Env) (W : WidthLib) (type : List Nat) (allowNA : Bool)
    (pads : Nat → List Nat) : List RString → Nat → Except Fault (List Int)
  | [], _ => .ok []
  | e :: rest, i => do
    let a ← nchar_elt L W type allowNA e (pads i)
    let r ← nchar_loop L W type allowNA pads rest (i + 1)
    pure (a :: r)

/-- The function `do_nchar` on the character vector `x`, the type string `type` (the element of
a character vector of length 1) and `allowNA` (already a logical value). -/
def do_nchar (L : Env) (W : WidthLib) (x : List RString) (pads : Nat → List Nat)
    (type : List Nat) (allowNA : Bool) : Except Fault (List Int) :=
  if type.length = 0 then .error (.error .invalidArgument)
  else nchar_loop L W type allowNA pads x 0

/-! ## `make.names` -/

/-- The classification and case functions of `<ctype.h>` and `<wctype.h>` in the current
locale: on a byte (the functions are called with `0xff & c` or with a plain `char`) and on a
wide character.  `tolower c` and `toupper c` are the bytes stored by `*p = tolower(*p)` and
`*p = toupper(*p)`; `towlower` and `towupper` are `towctrans` with `wctrans("tolower")` and
`wctrans("toupper")`. -/
structure CType where
  isalpha : Nat → Bool
  isdigit : Nat → Bool
  isalnum : Nat → Bool
  isspace : Nat → Bool
  islower : Nat → Bool
  tolower : Nat → Nat
  toupper : Nat → Nat
  iswalpha : Nat → Bool
  iswdigit : Nat → Bool
  iswalnum : Nat → Bool
  towlower : Nat → Nat
  towupper : Nat → Nat

/-- The conversions between multibyte strings and wide strings that the functions take from
the C library and from util.c: `mbrtowc_wc rest` is the wide character that `mbrtowc` stores
for the first character of `rest`; `mbstowcs s` and `utf8towcs s` are the wide characters of
the C string `s` (`none` for the result -1); `wcstombs w` and `wcstoutf8 w` are the bytes of the
wide string `w`; `wcwidth` is `Ri18n_wcwidth`. -/
structure WideLib where
  mbrtowc_wc : List Nat → Nat
  mbstowcs : List Nat → Option (List Nat)
  wcstombs : List Nat → List Nat
  utf8towcs : List Nat → Option (List Nat)
  wcstoutf8 : List Nat → List Nat
  wcwidth : Nat → Int

/-- The test of `do_makenames` for `need_prefix` on the C string `This`, in the object `mem`
that holds it with its terminator: in a multibyte locale (and for a name that is not empty) on
the first wide characters, else on the first bytes. -/
def makenames_need_prefix (L : Env) (C : CType) (W : WideLib) (This : List Nat) :
    Except Fault Bool :=
  let mem := This ++ [0]
  let l := This.length
  do
    let c0 ← rd mem 0
    if L.mbcslocale && decide (c0 ≠ 0) then
      let used ← Mbrtowc L mem 0
      let wc := W.mbrtowc_wc (← cstrAt mem 0)
      let nc : Int := (l : Int) - used
      if wc = 46 then
        if nc > 0 then do
          let _ ← Mbrtowc L mem used
          let wc2 := W.mbrtowc_wc (← cstrAt mem used)
          pure (C.iswdigit wc2)
        else pure false
      else pure (!C.iswalpha wc)
    else if c0 = 46 then
      if l ≥ 1 then do
        let c1 ← rd mem 1
        pure (C.isdigit c1)
      else pure false
    else pure (!C.isalpha c0)

/-- What the loop `for (p = tmp; *p; p++)` of `do_makenames` stores for the byte `c`. -/
def makenames_byte (C : CType) (allow_ : Bool) (c : Nat) : Nat :=
  if c = 46 || (allow_ && c = 95) then c
  else if !C.isalnum c then 46
  else c

/-- What the loop `for (wc = wstr; *wc; wc++)` of `do_makenames` stores for the wide character
`c`. -/
def makenames_wchar (C : CType) (allow_ : Bool) (c : Nat) : Nat :=
  if c = 46 || (allow_ && c = 95) then c
  else if !C.iswalnum c then 46
  else c

/-- The buffer `tmp` of `do_makenames` after the prefix is decided: "X" followed by the name,
or the name. -/
def makenames_tmp (L : Env) (C : CType) (W : WideLib) (This : List Nat) :
    Except Fault (List Nat) := do
  let need_prefix ← makenames_need_prefix L C W This
  if need_prefix then pure (88 :: This) else pure This

/-- The C string in `tmp` after the characters that are not allowed are replaced.  In a
multibyte locale `wcstombs(tmp, wstr, strlen(tmp)+1)` stores the converted string over `tmp`,
which holds `strlen(tmp)+1` bytes. -/
def makenames_sanitise (L : Env) (C : CType) (W : WideLib) (allow_ : Bool) (tmp : List Nat) :
    Except Fault (List Nat) :=
  if L.mbcslocale then
    match W.mbstowcs tmp with
    | none => .error (.error .invalidMultibyte)
    | some wstr =>
      let out := W.wcstombs ((wstr.takeWhile (fun c => c ≠ 0)).map (makenames_wchar C allow_))
      if out.length ≤ tmp.length then .ok (mkChar (out ++ [0])) else .error .oob
  else .ok (tmp.map (makenames_byte C allow_))

/-- One iteration of the loop of `do_makenames`, for element `el`; `isValidName` is the function
of gram.c. -/
def makenames_elt (L : Env) (C : CType) (W : WideLib) (isValidName : List Nat → Bool)
    (allow_ : Bool) (el : RString) : Except Fault RString := do
  let This := mkChar (L.translateChar (CHAR el) (getCharCE el))
  let tmp ← makenames_tmp L C W This
  let tmp1 ← makenames_sanitise L C W allow_ tmp
  if !isValidName tmp1 then pure (.chr (tmp1 ++ [46]) .CE_NATIVE)
  else pure (.chr tmp1 .CE_NATIVE)

/-- The loop of `do_makenames` over the elements of `arg`. -/
def makenames_loop (L : Env) (C : CType) (W : WideLib) (isValidName : List Nat → Bool)
    (allow_ : Bool) : List RString → Except Fault (List RString)
  | [] => .ok []
  | el :: rest => do
    let a ← makenames_elt L C W isValidName allow_ el
    let r ← makenames_loop L C W isValidName allow_ rest
    pure (a :: r)

/-- The function `do_makenames` on the character vector `arg`; `allow_` is `asLogical` of the
second argument, `none` for `NA_LOGICAL`. -/
def do_makenames (L : Env) (C : CType) (W : WideLib) (isValidName : List Nat → Bool)
    (arg : List RString) (allow_ : Option Bool) : Except Fault (List RString) :=
  match allow_ with
  | none => .error (.error .invalidArgument)
  | some a => makenames_loop L C W isValidName a arg

/-! ## `strtrim` -/

/-- The loop `for (p = This, w0 = 0, q = buf; *p ;)` of `do_strtrim` (read with `SUPPORT_MBCS`)
on the object `This`, from position `p` with the sum `wsum` of the widths and the bytes `out`
stored through `q` so far.  An iteration in which `Mbrtowc` uses no byte does not advance, so
the loop takes the number of iterations granted to it. -/
def strtrim_loop (L : Env) (W : WideLib) (This : List Nat) (w : Int) :
    Nat → Nat → Int → List Nat → Except Fault (List Nat)
  | 0, _, _, _ => .error .fuel
  | fuel + 1, p, wsum, out => do
    let b ← rd This p
    if b = 0 then pure out
    else
      let nb ← Mbrtowc L This p
      let w0 := W.wcwidth (W.mbrtowc_wc (← cstrAt This p))
      if w0 < 0 then strtrim_loop L W This w fuel (p + nb) wsum out
      else if wsum + w0 ≤ w then do
        let bytes ← readN This p nb
        strtrim_loop L W This w fuel (p + nb) (wsum + w0) (out ++ bytes)
      else pure out

/-- One iteration of the loop of `do_strtrim` over the elements: element `el` with the width
`w`. -/
def strtrim_elt (L : Env) (W : WideLib) (el : RString) (w : Int) : Except Fault RString :=
  match el with
  | .NA_STRING => .ok .NA_STRING
  | .chr bytes enc =>
    let This := mkChar (L.translateChar bytes enc) ++ [0]
    do
      let out ← strtrim_loop L W This w (This.length + 1) 0 0 []
      pure (markKnown L (mkChar (out ++ [0])) enc)

/-- The loop of `do_strtrim` over the elements of `x`, from index `i`, with the width
`INTEGER(width)[i % nw]`. -/
def strtrim_vec (L : Env) (W : WideLib) (width : List Int) :
    List RString → Nat → Except Fault (List RString)
  | [], _ => .ok []
  | el :: rest, i => do
    let w ← match width[i % width.length]? with
      | some w => pure w
      | none => .error .oob
    let a ← strtrim_elt L W el w
    let r ← strtrim_vec L W width rest (i + 1)
    pure (a :: r)

/-- The function `do_strtrim` on the character vector `x` and the integer vector `width`. -/
def do_strtrim (L : Env) (W : WideLib) (x : List RString) (width : List Int) :
    Except Fault (List RString) :=
  let len := x.length
  let nw := width.length
  if nw = 0 ∨ (nw < len ∧ len % nw ≠ 0) then .error (.error .invalidArgument)
  else if width.any (fun w => decide (w = NA_INTEGER) || decide (w < 0)) then
    .error (.error .invalidArgument)
  else strtrim_vec L W width x 0

/-! ## `tolower` and `toupper` -/

/-- A loop `for (i = 0; i < n; i++)` that stores `f` of element `i` of a character vector in
element `i` of the result, and ends at the first error. -/
def vec_loop (f : RString → Except Fault RString) : List RString → Except Fault (List RString)
  | [] => .ok []
  | el :: rest => do
    let a ← f el
    let r ← vec_loop f rest
    pure (a :: r)

/-- One iteration of the loop of `do_tolower` in the branch for a multibyte locale or UTF-8
strings (`ul` is `PRIMVAL(op)`: off for `tolower`, on for `toupper`): the element is converted
to a wide string, every wide character is mapped by `towctrans`, and the wide string is
converted back. -/
def tolower_wide (L : Env) (C : CType) (W : WideLib) (ul use_UTF8 : Bool) (el : RString) :
    Except Fault RString :=
  match el with
  | .NA_STRING => .ok .NA_STRING
  | .chr bytes enc =>
    let tr := if ul then C.towupper else C.towlower
    if use_UTF8 && decide (enc = .CE_UTF8) then
      match W.utf8towcs (mkChar bytes) with
      | none => .error (.error .invalidMultibyte)
      | some wc =>
        .ok (.chr (mkChar (W.wcstoutf8 ((wc.map tr).takeWhile (fun c => c ≠ 0)) ++ [0])) .CE_UTF8)
    else
      match W.mbstowcs (mkChar (L.translateChar bytes enc)) with
      | none => .error (.error .invalidMultibyte)
      | some wc =>
        .ok (markKnown L (mkChar (W.wcstombs ((wc.map tr).takeWhile (fun c => c ≠ 0)) ++ [0]))
          enc)

/-- One iteration of the loop of `do_tolower` in the single-byte branch: the buffer `xi` has
room for `strlen(CHAR(el))` bytes and a terminator, `translateChar(el)` is copied into it, and
every byte is mapped. -/
def tolower_sbcs (L : Env) (C : CType) (ul : Bool) (el : RString) : Except Fault RString :=
  match el with
  | .NA_STRING => .ok .NA_STRING
  | .chr bytes enc =>
    let src := mkChar (L.translateChar bytes enc)
    if src.length > (mkChar bytes).length then .error .oob
    else
      let xi := src.map (if ul then C.toupper else C.tolower)
      .ok (markKnown L (mkChar (xi ++ [0])) enc)

/-- The function `do_tolower` (read with `__STDC_ISO_10646__` defined) on the character vector
`x`. -/
def do_tolower (L : Env) (C : CType) (W : WideLib) (ul : Bool) (x : List RString) :
    Except Fault (List RString) :=
  let use_UTF8 := x.any (fun el => getCharCE el = .CE_UTF8)
  if L.mbcslocale || use_UTF8 then vec_loop (tolower_wide L C W ul use_UTF8) x
  else vec_loop (tolower_sbcs L C ul) x

/-! ## `chartr` -/

/-- An element of the list that `tr_build_spec` (or `wtr_build_spec`) builds: `TR_CHAR` with its
character, or `TR_RANGE` with its first and last character. -/
inductive tr_spec where
  | TR_CHAR (c : Nat)
  | TR_RANGE (first last : Nat)
  deriving DecidableEq, Repr

/-- The value of a byte as a plain `char`, which the comparison `s[i] > s[i + 2]` of
`tr_build_spec` uses: `sc` says whether `char` is signed on the platform. -/
def plain_char (sc : Bool) (b : Nat) : Int :=
  if sc && decide (128 ≤ b) then (b : Int) - 256 else (b : Int)

/-- The functions `tr_build_spec` and `wtr_build_spec` on the rest of the string from `i` on:
while more than two characters are left (`i < len - 2`), a character followed by `-` starts a
range, which is an error when `val` of its first character is greater than `val` of its last;
the characters left are single characters. -/
def tr_build_spec (val : Nat → Int) : List Nat → Except Fault (List tr_spec)
  | [] => .ok []
  | [a] => .ok [.TR_CHAR a]
  | [a, b] => .ok [.TR_CHAR a, .TR_CHAR b]
  | a :: m :: b :: rest =>
    if m = 45 then
      if val a > val b then .error (.error .decreasingRange)
      else (tr_build_spec val rest).map (fun r => .TR_RANGE a b :: r)
    else (tr_build_spec val (m :: b :: rest)).map (fun r => .TR_CHAR a :: r)

/-- The functions `tr_get_next_char_from_spec` and `wtr_get_next_char_from_spec` on the rest
`p` of the list: the character returned (NUL at the end of the list) and the list afterwards;
`(This->u.r.first)++` is done in the type of the character, with `m` values. -/
def tr_get_next_char_from_spec (m : Nat) : List tr_spec → Nat × List tr_spec
  | [] => (0, [])
  | .TR_CHAR c :: rest => (c, rest)
  | .TR_RANGE first last :: rest =>
    if first = last then (first, rest) else (first, .TR_RANGE ((first + 1) % m) last :: rest)

/-- The loop `for (;;)` of `do_chartr` that walks through both lists, as a list of the pairs
`(c_old, c_new)` that the body handles in order: the single-byte branch stores
`xtable[c_old] = c_new`, the other branch stores the pair in `xtable[i]`. -/
def tr_pairs (m : Nat) : Nat → List tr_spec → List tr_spec → Except Fault (List (Nat × Nat))
  | 0, _, _ => .error .fuel
  | fuel + 1, trs_old, trs_new =>
    let o := tr_get_next_char_from_spec m trs_old
    let n := tr_get_next_char_from_spec m trs_new
    if o.1 = 0 then .ok []
    else if n.1 = 0 then .error (.error .oldLongerThanNew)
    else (tr_pairs m fuel o.2 n.2).map (fun r => (o.1, n.1) :: r)

/-- The table `xtable` of the single-byte branch after the stores `xtable[c_old] = c_new` for
the pairs in order, from the table `t`. -/
def tr_xtable (t : Nat → Nat) : List (Nat × Nat) → Nat → Nat
  | [], c => t c
  | (c_old, c_new) :: rest, c => tr_xtable (fun x => if x = c_old then c_new else t x) rest c

/-- The inner loop of `ISORT` for the element `e` at position `_i`: `acc` holds the elements
before position `_j`, the last one first; the element moves before every element that
`xtable_comp` finds greater, and stops at the first one that is not. -/
def isort_insert (e : Nat × Nat) : List (Nat × Nat) → List (Nat × Nat)
  | [] => [e]
  | p :: ps => if p.1 > e.1 then p :: isort_insert e ps else e :: p :: ps

/-- The macro `ISORT` with `xtable_comp` on the array `l`: the elements are inserted one after
the other into the sorted part before them. -/
def ISORT (l : List (Nat × Nat)) : List (Nat × Nat) :=
  (l.foldl (fun acc e => isort_insert e acc) []).reverse

/-- The macro `COMPRESS` with `xtable_comp`: where two neighbours have the same `c_old`, the
first is removed and the comparison is done again at the same position. -/
def COMPRESS : List (Nat × Nat) → List (Nat × Nat)
  | [] => []
  | [a] => [a]
  | a :: b :: rest =>
    if a.1 = b.1 then COMPRESS (b :: rest) else a :: COMPRESS (b :: rest)

/-- The macro `BSEARCH` with `xtable_key_comp` on the array `tbl`, from the bounds `l` and `u`:
the entry found, or `none` for `NULL`.  The interval shrinks in every iteration. -/
def BSEARCH (key : Nat) (tbl : List (Nat × Nat)) : Nat → Nat → Nat → Except Fault (Option (Nat × Nat))
  | 0, _, _ => .error .fuel
  | fuel + 1, l, u =>
    if l < u then
      let idx := (l + u) / 2
      match tbl[idx]? with
      | none => .error .oob
      | some p =>
        if key < p.1 then BSEARCH key tbl fuel l idx
        else if key > p.1 then BSEARCH key tbl fuel (idx + 1) u
        else .ok (some p)
    else .ok none

/-- The loop `for (j = 0; j < nc; j++)` of `do_chartr` over the wide characters of an element:
a character found in the table is replaced by its `c_new`. -/
def chartr_wc (tbl : List (Nat × Nat)) : List Nat → Except Fault (List Nat)
  | [] => .ok []
  | c :: rest => do
    let r ← BSEARCH c tbl (tbl.length + 1) 0 tbl.length
    let rest1 ← chartr_wc tbl rest
    pure ((match r with | some p => p.2 | none => c) :: rest1)

/-- The wide string that the multibyte branch of `do_chartr` takes for `old` and for `new`. -/
def chartr_spec_wcs (L : Env) (W : WideLib) (use_UTF8 : Bool) (s : RString) :
    Except Fault (List Nat) :=
  if use_UTF8 && decide (getCharCE s = .CE_UTF8) then
    match W.utf8towcs (mkChar (CHAR s)) with
    | none => .error (.error .invalidMultibyte)
    | some wc => .ok (mkChar wc)
  else
    match W.mbstowcs (mkChar (L.translateChar (CHAR s) (getCharCE s))) with
    | none => .error (.error .invalidMultibyte)
    | some wc => .ok (mkChar wc)

/-- One iteration of the loop over the elements in the multibyte branch of `do_chartr`. -/
def chartr_wide_elt (L : Env) (W : WideLib) (use_UTF8 : Bool) (tbl : List (Nat × Nat))
    (el : RString) : Except Fault RString :=
  match el with
  | .NA_STRING => .ok .NA_STRING
  | .chr bytes enc =>
    if use_UTF8 && decide (enc = .CE_UTF8) then
      match W.utf8towcs (mkChar bytes) with
      | none => .error (.error .invalidInput)
      | some wc => do
        let wc1 ← chartr_wc tbl wc
        pure (.chr (mkChar (W.wcstoutf8 (mkChar wc1) ++ [0])) .CE_UTF8)
    else
      match W.mbstowcs (mkChar (L.translateChar bytes enc)) with
      | none => .error (.error .invalidInput)
      | some wc => do
        let wc1 ← chartr_wc tbl wc
        pure (markKnown L (mkChar (W.wcstombs (mkChar wc1) ++ [0])) enc)

/-- One iteration of the loop over the elements in the single-byte branch of `do_chartr`. -/
def chartr_sbcs_elt (L : Env) (xtable : Nat → Nat) (el : RString) : Except Fault RString :=
  match el with
  | .NA_STRING => .ok .NA_STRING
  | .chr bytes enc =>
    .ok (markKnown L (mkChar ((mkChar (L.translateChar bytes enc)).map xtable ++ [0])) enc)

/-- The function `do_chartr` (read with `__STDC_ISO_10646__` defined) on the first elements
`old` and `new` of the specifications and on the vector `x`; `sc` says whether `char` is signed,
and `fuel` bounds the iterations of the loop that pairs the characters of the
specifications. -/
def do_chartr (L : Env) (W : WideLib) (sc : Bool) (old new : RString) (x : List RString)
    (fuel : Nat) : Except Fault (List RString) :=
  if old = .NA_STRING then .error (.error .invalidArgument)
  else if new = .NA_STRING then .error (.error .invalidArgument)
  else
    let use_UTF8 := x.any (fun el => getCharCE el = .CE_UTF8)
      || decide (getCharCE old = .CE_UTF8) || decide (getCharCE new = .CE_UTF8)
    if L.mbcslocale || use_UTF8 then do
      let wold ← chartr_spec_wcs L W use_UTF8 old
      let trs_old ← tr_build_spec (fun c => (c : Int)) wold
      let wnew ← chartr_spec_wcs L W use_UTF8 new
      let trs_new ← tr_build_spec (fun c => (c : Int)) wnew
      let xtable ← tr_pairs (2 ^ 32) fuel trs_old trs_new
      vec_loop (chartr_wide_elt L W use_UTF8 (COMPRESS (ISORT xtable))) x
    else do
      let trs_old ← tr_build_spec (plain_char sc)
        (mkChar (L.translateChar (CHAR old) (getCharCE old)))
      let trs_new ← tr_build_spec (plain_char sc)
        (mkChar (L.translateChar (CHAR new) (getCharCE new)))
      let pairs ← tr_pairs 256 fuel trs_old trs_new
      vec_loop (chartr_sbcs_elt L (tr_xtable (fun c => c) pairs)) x

/-! ## `abbreviate` -/

/-- The conversion of an `int`, or of a difference of sizes, to `size_t` (of 64 bits), in which
the C code compares a length with `minlen`. -/
def to_size_t (z : Int) : Int := z % 2 ^ 64

/-- The macro `LOWVOW(i)` on the content `b` of the buffer; reading the byte at the length of
the string gives its terminating NUL. -/
def LOWVOW (b : List Nat) (i : Nat) : Bool :=
  b.getD i 0 = 97 || b.getD i 0 = 101 || b.getD i 0 = 105 || b.getD i 0 = 111
    || b.getD i 0 = 117

/-- The macro `FIRSTCHAR(i)`. -/
def FIRSTCHAR (C : CType) (b : List Nat) (i : Nat) : Bool :=
  C.isspace (b.getD (i - 1) 0)

/-- The macro `LASTCHAR(i)`. -/
def LASTCHAR (C : CType) (b : List Nat) (i : Nat) : Bool :=
  !C.isspace (b.getD (i - 1) 0) && (b.getD (i + 1) 0 = 0 || C.isspace (b.getD (i + 1) 0))

/-- The number `j` that the first loop of `stripchars` counts: the blanks at the head of the
string, the last character of the string not being looked at (`i < upper`). -/
def leading_blanks (C : CType) : List Nat → Nat
  | [] => 0
  | [_] => 0
  | c :: d :: r => if C.isspace c then leading_blanks C (d :: r) + 1 else 0

/-- The loop of `stripchars` that goes down from index `i` and cuts the string at the blanks
at its end (while `j` holds) and counts the other blanks in `nspace`; the result holds the
buffer, `nspace`, and whether the loop left for `donesc`. -/
def strip_trailing (C : CType) (minlen : Int) :
    Nat → Bool → Nat → List Nat → List Nat × Nat × Bool
  | 0, _, nspace, b => (b, nspace, false)
  | i + 1, j, nspace, b =>
    let sp := C.isspace (b.getD (i + 1) 0)
    let b1 := if sp && j then b.take (i + 1) else b
    let nspace1 := if sp && !j then nspace + 1 else nspace
    let j1 := sp && j
    if to_size_t ((b1.length : Int) - (nspace1 : Int)) ≤ to_size_t minlen then (b1, nspace1, true)
    else strip_trailing C minlen i j1 nspace1 b1

/-- One of the five loops of `stripchars` that drop characters: going down from index `i`, the
character at the index is removed when `del` holds for it, and the loop leaves for `donesc`
(second component) as soon as the length without the counted blanks is at most `minlen`. -/
def strip_loop (del : List Nat → Nat → Bool) (minlen : Int) (nspace : Nat) :
    Nat → List Nat → List Nat × Bool
  | 0, b => (b, false)
  | i + 1, b =>
    let b1 := if del b (i + 1) then b.eraseIdx (i + 1) else b
    if to_size_t ((b1.length : Int) - (nspace : Int)) ≤ to_size_t minlen then (b1, true)
    else strip_loop del minlen nspace i b1

/-- The conditions under which the five loops drop the character at index `i`, in the order of
the loops: lower case vowels at the end of a word, lower case vowels not at the start of a
word, lower case letters at the end of a word, lower case letters not at the start of a word,
and every character that is neither a blank nor at the start of a word. -/
def strip_passes (C : CType) : List (List Nat → Nat → Bool) :=
  [fun b i => LOWVOW b i && LASTCHAR C b i,
   fun b i => LOWVOW b i && !FIRSTCHAR C b i,
   fun b i => C.islower (b.getD i 0) && LASTCHAR C b i,
   fun b i => C.islower (b.getD i 0) && !FIRSTCHAR C b i,
   fun b i => !FIRSTCHAR C b i && !C.isspace (b.getD i 0)]

/-- The loops of `stripchars` that drop characters, one after the other, each from the last
index of the string (`upper = strlen(buff1) - 1`), until one of them leaves for `donesc`. -/
def strip_run (minlen : Int) (nspace : Nat) :
    List (List Nat → Nat → Bool) → List Nat → List Nat
  | [], b => b
  | del :: rest, b =>
    if (strip_loop del minlen nspace (b.length - 1) b).2 then
      (strip_loop del minlen nspace (b.length - 1) b).1
    else strip_run minlen nspace rest (strip_loop del minlen nspace (b.length - 1) b).1

/-- The loop after the label `donesc`, going down from index `i`: the blanks are removed, the
character at index 0 apart. -/
def strip_spaces (C : CType) : Nat → List Nat → List Nat
  | 0, b => b
  | i + 1, b =>
    strip_spaces C i (if C.isspace (b.getD (i + 1) 0) then b.eraseIdx (i + 1) else b)

/-- The code of `stripchars` from the label `donesc`. -/
def donesc (C : CType) (minlen : Int) (b : List Nat) : List Nat :=
  if (b.length : Int) > minlen then strip_spaces C (b.length - 1) b else b

/-- The function `stripchars` on the C string `inchar`, with the contents of the string held
in `buff1` as state; the result is the contents of the `CHARSXP` returned.  The bytes are
passed to `isspace` and `islower` as they are, which is what the C code does for ASCII. -/
def stripchars (C : CType) (inchar : List Nat) (minlen : Int) : List Nat :=
  let b0 := (mkChar inchar).drop (leading_blanks C (mkChar inchar))
  if to_size_t (b0.length : Int) < to_size_t minlen then donesc C minlen b0
  else
    let r1 := strip_trailing C minlen (b0.length - 1) true 0 b0
    if r1.2.2 then donesc C minlen r1.1
    else donesc C minlen (strip_run minlen r1.2.1 (strip_passes C) r1.1)

/-- The function `do_abbrev` on the vector `x` with `minlen` the integer value of the second
argument; the second component says whether the warning for non-ASCII characters is given. -/
def do_abbrev (L : Env) (C : CType) (x : List RString) (minlen : Int) :
    List RString × Bool :=
  (x.map (fun el =>
      match el with
      | .NA_STRING => .NA_STRING
      | .chr bytes enc =>
        .chr (stripchars C (mkChar (L.translateChar bytes enc)) minlen) .CE_NATIVE),
    x.any (fun el =>
      match el with
      | .NA_STRING => false
      | .chr bytes enc => !strIsASCII (mkChar (L.translateChar bytes enc))))

/-! ## The choice of the encoding in `grep`, `regexpr` and `gsub` -/

/-- The part of `do_grep` that follows the setting of `use_UTF8`, from
`if (useBytes) cpat = CHAR(...)` on, for given values of `useBytes` and `use_UTF8`. -/
def grep_with_encoding (L : Env) (R : RegexLib) (grepl : Bool) (pat : RString)
    (vec : List RString) (pads : Nat → List Nat)
    (igcase_opt extended_opt value_opt perl_opt fixed_opt invert useBytes use_UTF8 : Bool) :
    Except Fault GrepResult :=
  let cpat := gsub_text L useBytes use_UTF8 pat
  let ienc := if useBytes then cetype_t.CE_NATIVE
    else if use_UTF8 then cetype_t.CE_UTF8 else cetype_t.CE_NATIVE
  let cflags := grep_cflags L igcase_opt extended_opt perl_opt useBytes use_UTF8
  if !useBytes && decide (ienc ≠ .CE_UTF8) && mbcsInvalid L cpat then
    .error (.error .invalidRegex)
  else
    match grep_compile R fixed_opt perl_opt cpat cflags with
    | none => .error (.error .invalidRegex)
    | some re => do
      let r ← grep_loop L re fixed_opt perl_opt useBytes use_UTF8 invert ienc cpat pads vec 0
      let ind := r.map (fun a => a.1)
      let nmatches := (r.filter (fun a => a.2)).length
      if grepl then pure (.logical ind)
      else if value_opt then
        let ans := grep_values invert ind vec
        if ans.length > nmatches then .error .oob else pure (.strings ans)
      else
        let ans := grep_indices invert ind 0
        if ans.length > nmatches then .error .oob else pure (.integers ans)

/-- The part of `do_regexpr` that follows the setting of `use_UTF8`, from
`if (useBytes) spat = CHAR(...)` on, for given values of `useBytes` and `use_UTF8`. -/
def regexpr_with_encoding (L : Env) (R : RegexLib) (pat : RString) (text : List RString)
    (pads : Nat → List Nat) (igcase_opt extended_opt perl_opt fixed_opt useBytes use_UTF8 : Bool) :
    Except Fault (List (Int × Int)) :=
  let spat := gsub_text L useBytes use_UTF8 pat
  let ienc := if useBytes then cetype_t.CE_NATIVE
    else if use_UTF8 then cetype_t.CE_UTF8 else cetype_t.CE_NATIVE
  let cflags := grep_cflags L igcase_opt extended_opt perl_opt useBytes use_UTF8
  if !useBytes && decide (ienc ≠ .CE_UTF8) && mbcsInvalid L spat then
    .error (.error .invalidRegex)
  else
    match grep_compile R fixed_opt perl_opt spat cflags with
    | none => .error (.error .invalidRegex)
    | some re => regexpr_loop L re fixed_opt perl_opt useBytes ienc spat pads text 0

/-- The part of `do_gsub` that follows the setting of `use_UTF8`, from
`if (useBytes) spat = CHAR(...)` on, for given values of `useBytes` and `use_UTF8`. -/
def gsub_with_encoding (L : Env) (R : RegexLib) (global : Bool) (pat rep : RString)
    (vec : List RString) (pads : Nat → List Nat)
    (igcase_opt extended_opt fixed_opt useBytes use_UTF8 : Bool) (fuel : Nat) :
    Except Fault (List RString) :=
  let spat := gsub_text L useBytes use_UTF8 pat
  let srep := gsub_text L useBytes use_UTF8 rep
  if mbcsInvalid L spat then .error (.error .invalidPattern)
  else if mbcsInvalid L srep then .error (.error .invalidReplacement)
  else
    let cflags := (if extended_opt then 1 else 0) + (if igcase_opt then 2 else 0)
    match (if fixed_opt then some regex_none else R.regcomp spat cflags) with
    | none => .error (.error .invalidRegex)
    | some re =>
      if fixed_opt ∧ spat.length = 0 then .error (.error .zeroLengthPattern)
      else do_gsub_loop L re global fixed_opt useBytes use_UTF8 pat rep spat srep pads fuel
        vec 0

/-! ## Reference definitions used to state the claims -/

/-- The scan that the claims on the fixed branch of `strsplit` describe, written on lists: go
through the text from left to right; where the delimiter `d` occurs, close the current piece
and pass over the occurrence (`skip` counts its bytes still to pass), resuming after it.  The
result is the list of the pieces that end at an occurrence, one for each occurrence, and the
remainder of the text after the last occurrence (`acc` is the piece being read). -/
def scan_occurrences (d : List Nat) : List Nat → Nat → List Nat → List (List Nat) × List Nat
  | [], _, acc => ([], acc)
  | _ :: r, skip + 1, acc => scan_occurrences d r skip acc
  | b :: r, 0, acc =>
    if (b :: r).take d.length = d then
      (acc :: (scan_occurrences d r (d.length - 1) []).1,
        (scan_occurrences d r (d.length - 1) []).2)
    else scan_occurrences d r 0 (acc ++ [b])

/-- The number of bytes of `l` before the first occurrence of `d` in it, if there is one. -/
def first_occurrence (d : List Nat) : List Nat → Option Nat
  | [] => none
  | b :: r =>
    if (b :: r).take d.length = d then some 0
    else (first_occurrence d r).map (fun i => i + 1)

/-- Whether steps of the lengths given by `step` (the length of the first character of a
non-empty string) go through the string `s` in exactly `n` characters, every length being at
least 1 and within the string. -/
def char_walk (step : List Nat → Option Nat) : Nat → List Nat → Bool
  | 0, s => s.isEmpty
  | n + 1, s =>
    match s, step s with
    | [], _ => false
    | _ :: _, none => false
    | b :: r, some u => decide (1 ≤ u ∧ u ≤ (b :: r).length) && char_walk step n ((b :: r).drop u)

/-- How the branch of `do_strsplit` that splits into characters finds the length of the next
character: `utf8clen` of the first byte with `use_UTF8`, and `mbrtowc` otherwise. -/
def chars_step (L : Env) (use_UTF8 : Bool) : List Nat → Option Nat :=
  if use_UTF8 then (fun r => some (utf8clen (r.headD 0))) else L.mbrtowc

/-- The working text decodes: when the branch that splits into characters counts them with
`mbstowcs` (a text that is not ASCII, with `use_UTF8` or in a multibyte locale), the count is
some `n` and the text consists of exactly `n` characters of the lengths that the branch then
uses. -/
def chars_decodable (L : Env) (use_UTF8 : Bool) (text : List Nat) : Prop :=
  ((use_UTF8 || L.mbcslocale) && !strIsASCII text) = true →
    ∃ n, L.mbstowcs text = some n ∧ char_walk (chars_step L use_UTF8) n text = true

/-- The first occurrence of `d` in `l` at a position where a scan that goes forward by the
lengths given by `step` looks: `some (some i)` when the first such occurrence starts after `i`
bytes (`off` counts the bytes already passed), `some none` when there is none, and `none` when
`step` gives no length where one is needed.  The scan stops when fewer bytes than `d` has are
left, or when `step` gives the length 0. -/
def find_step (step : List Nat → Option Nat) (d : List Nat) :
    Nat → List Nat → Nat → Option (Option Nat)
  | 0, _, _ => none
  | fuel + 1, l, off =>
    if l.length < d.length then some none
    else if l.take d.length = d then some (some off)
    else
      match step l with
      | none => none
      | some 0 => some none
      | some (u + 1) => find_step step d fuel (l.drop (u + 1)) (off + (u + 1))

/-- The value of the C functions that search for a fixed pattern, for an outcome of
`find_step`: the offset of the occurrence, or -1. -/
def find_value : Option Nat → Int
  | some j => (j : Int)
  | none => -1

/-- The left-to-right scan for non-overlapping occurrences of `d` in `l`, every occurrence
being the first one that `find_step` finds after the end of the one before: the pieces of the
text before each occurrence, and the remainder after the last one. -/
def scan_step (step : List Nat → Option Nat) (d : List Nat) :
    Nat → List Nat → Option (List (List Nat) × List Nat)
  | 0, _ => none
  | fuel + 1, l =>
    match find_step step d (l.length + 1) l 0 with
    | none => none
    | some none => some ([], l)
    | some (some i) =>
      (scan_step step d fuel (l.drop (i + d.length))).map (fun r => (l.take i :: r.1, r.2))

/-- The text made of the pieces, each followed by `sep`, and of the remainder. -/
def weave (pieces : List (List Nat)) (sep rem : List Nat) : List Nat :=
  (pieces.map (fun piece => piece ++ sep)).flatten ++ rem

/-- The positions where the fixed branch of `do_gsub` looks for the pattern: every character
start (lengths from `mbrtowc`) in a multibyte locale without `useBytes` when the pattern has
more than one byte, and every byte otherwise. -/
def gsub_scan (L : Env) (useBytes : Bool) (spat : List Nat) : List Nat → Option Nat :=
  if spat.length ≠ 1 ∧ (!useBytes && L.mbcslocale) = true then L.mbrtowc
  else fun _ => some 1

/-- The positions where `fgrep_one` looks for the pattern `cpat`: every byte when the pattern
has one byte; else every character start in a multibyte locale without `useBytes` (lengths from
`mbrtowc`); else, for a UTF-8 text without `useBytes`, the starts given by `utf8clen`; and every
byte otherwise. -/
def grep_scan (L : Env) (useBytes : Bool) (ienc : cetype_t) (cpat : List Nat) :
    List Nat → Option Nat :=
  if cpat.length = 1 then fun _ => some 1
  else if (!useBytes && L.mbcslocale) = true then L.mbrtowc
  else if (!useBytes && decide (ienc = .CE_UTF8)) = true then
    fun l => some (utf8clen (l.headD 0))
  else fun _ => some 1

/-- Whether element `e` contains a match for `do_grep`: the element is not `NA`, its working
text is not passed over as invalid in the locale, and the pattern matches in it: with `fixed`
the scan `find_step` finds an occurrence of the pattern `cpat` in the text, otherwise the
matcher (`regexec`, or `pcre_exec` with `perl`) reports a match. -/
def grep_hit (L : Env) (re : regex_t) (fixed_opt useBytes use_UTF8 : Bool) (ienc : cetype_t)
    (cpat : List Nat) (e : RString) : Prop :=
  match e with
  | .NA_STRING => False
  | .chr bytes enc =>
    (!useBytes && !use_UTF8 && mbcsInvalid L (gsub_text L useBytes use_UTF8 (.chr bytes enc)))
        = false
      ∧ if fixed_opt then
          ∃ j, find_step (grep_scan L useBytes ienc cpat) cpat
              ((gsub_text L useBytes use_UTF8 (.chr bytes enc)).length + 1)
              (gsub_text L useBytes use_UTF8 (.chr bytes enc)) 0 = some (some j)
        else (re.regexec (gsub_text L useBytes use_UTF8 (.chr bytes enc))).isSome = true

/-- Whether a name needs the prefix "X", in the words of the specification: its first character
is not a letter and not a dot (this includes the empty name), or it starts with a dot
immediately followed by a digit.  `chars` holds the first characters of the name. -/
def needs_X (letter digit : Nat → Bool) (chars : List Nat) : Bool :=
  match chars with
  | [] => true
  | c :: rest =>
    if c = 46 then
      match rest with
      | [] => false
      | d :: _ => digit d
    else !letter c

/-- The first two characters of the name that the test for the prefix looks at: wide characters
in a multibyte locale, bytes otherwise. -/
def makenames_first_chars (L : Env) (W : WideLib) (This : List Nat) : List Nat :=
  if L.mbcslocale then
    match This, L.mbrtowc This with
    | [], _ => []
    | _ :: _, none => []
    | _ :: _, some used =>
      W.mbrtowc_wc This :: (if used < This.length then [W.mbrtowc_wc (This.drop used)] else [])
  else This.take 2

/-- What the sanitising pass of `make.names` does to a byte, in the words of the
specification: a byte that is alphanumeric, a dot or (when underscores are allowed) an
underscore is kept, every other byte becomes a dot. -/
def keep_or_dot (C : CType) (allow_ : Bool) (c : Nat) : Nat :=
  if C.isalnum c || c = 46 || (allow_ && c = 95) then c else 46

/-- The syntax of a name that `isValidName` accepts unless it is a reserved word: it starts
with a letter, or with a dot that is not followed by a digit, and consists of alphanumeric
characters, dots and underscores. -/
def name_syntax (C : CType) (s : List Nat) : Prop :=
  (match s with
    | [] => False
    | c :: rest => C.isalpha c = true ∨ (c = 46 ∧ ∀ d ∈ rest.head?, C.isdigit d = false))
  ∧ ∀ c ∈ s, C.isalnum c = true ∨ c = 46 ∨ c = 95

/-- Trimming to the width `w` in the words of the specification, on the characters of the
text given with their display widths, `sum` being the sum of the widths of the characters
kept so far: a character of negative width is dropped and adds nothing; any other character is
kept while the sum with its width stays at most `w`, and the first character whose width would
make the sum exceed `w` ends the result. -/
def trim_chars (w : Int) : List (List Nat × Int) → Int → List (List Nat)
  | [], _ => []
  | (bytes, w0) :: rest, sum =>
    if w0 < 0 then trim_chars w rest sum
    else if sum + w0 ≤ w then bytes :: trim_chars w rest (sum + w0)
    else []

/-- The characters of a text in the locale, each with its bytes and its display width; `none`
when the text does not consist of characters for `mbrtowc`. -/
def chars_with_width (L : Env) (W : WideLib) : Nat → List Nat → Option (List (List Nat × Int))
  | 0, _ => none
  | _ + 1, [] => some []
  | fuel + 1, b :: r =>
    match L.mbrtowc (b :: r) with
    | none => none
    | some u =>
      if 1 ≤ u ∧ u ≤ (b :: r).length then
        (chars_with_width L W fuel ((b :: r).drop u)).map
          (fun cs => ((b :: r).take u, W.wcwidth (W.mbrtowc_wc (b :: r))) :: cs)
      else none

/-- The wide string that `do_tolower` converts back to bytes: the wide characters `wc` of the
text mapped by `tr`, as a wide C string (up to a first NUL). -/
def case_mapped (tr : Nat → Nat) (wc : List Nat) : List Nat :=
  (wc.map tr).takeWhile (fun c => c ≠ 0)

/-- What is assumed of the locale and of the C library where case conversion is applied twice:
the conversion of a byte and of a wide character is idempotent; a string tagged by `markKnown`
is in the native encoding (`translateChar` leaves it as it is), and tagging its result again
gives the same tag; only a multibyte locale gives the tag `CE_UTF8`, and it does so only when
the native encoding is UTF-8 (`mbstowcs` and `wcstombs` are then the UTF-8 conversions). -/
def case_lib_coherent (L : Env) (C : CType) (W : WideLib) (ul : Bool) : Prop :=
  (∀ c, (if ul then C.toupper else C.tolower) ((if ul then C.toupper else C.tolower) c)
      = (if ul then C.toupper else C.tolower) c)
  ∧ (∀ c, (if ul then C.towupper else C.towlower) ((if ul then C.towupper else C.towlower) c)
      = (if ul then C.towupper else C.towlower) c)
  ∧ (∀ t e, L.translateChar t (L.markEnc e) = t)
  ∧ (∀ e, L.markEnc (L.markEnc e) = L.markEnc e)
  ∧ (L.mbcslocale = false → ∀ e, L.markEnc e ≠ .CE_UTF8)
  ∧ ((∃ e, L.markEnc e = .CE_UTF8) → W.mbstowcs = W.utf8towcs ∧ W.wcstombs = W.wcstoutf8)

/-- The conversions of the C library give back the case-mapped wide characters of element `el`:
converting them to bytes gives no NUL byte, and converting these bytes to a wide string gives
the same wide characters (for the UTF-8 conversions and for those of the locale). -/
def case_roundtrip (L : Env) (C : CType) (W : WideLib) (ul : Bool) (el : RString) : Prop :=
  (∀ wc, W.utf8towcs (mkChar (CHAR el)) = some wc →
    W.utf8towcs (W.wcstoutf8 (case_mapped (if ul then C.towupper else C.towlower) wc))
        = some (case_mapped (if ul then C.towupper else C.towlower) wc)
      ∧ 0 ∉ W.wcstoutf8 (case_mapped (if ul then C.towupper else C.towlower) wc))
  ∧ (∀ wc, W.mbstowcs (mkChar (L.translateChar (CHAR el) (getCharCE el))) = some wc →
    W.mbstowcs (W.wcstombs (case_mapped (if ul then C.towupper else C.towlower) wc))
        = some (case_mapped (if ul then C.towupper else C.towlower) wc)
      ∧ 0 ∉ W.wcstombs (case_mapped (if ul then C.towupper else C.towlower) wc))

/-- The range-expanded form of a specification of `chartr`, in the words of the specification:
a single character stands for itself and a range a-c expands to a, b, c. -/
def tr_expand : List tr_spec → List Nat
  | [] => []
  | .TR_CHAR c :: rest => c :: tr_expand rest
  | .TR_RANGE first last :: rest => List.range' first (last - first + 1) ++ tr_expand rest

/-- A specification without a NUL character in which every range is increasing and stays in
the type of the character (`m` values). -/
def tr_wf (m : Nat) (trs : List tr_spec) : Bool :=
  trs.all (fun t =>
    match t with
    | .TR_CHAR c => decide (0 < c)
    | .TR_RANGE first last => decide (0 < first) && decide (first ≤ last) && decide (last < m))

/-- The translation of one character by `chartr` in the words of the specification, for the
range-expanded forms `o` of `old` and `n` of `new`: the character `c` is replaced by `n_j`
when `c = o_j` for some `j` (the last such `j` when there are several) and passed through
unchanged otherwise. -/
def tr_apply (o n : List Nat) (c : Nat) : Nat :=
  match (o.zip n).reverse.find? (fun p => p.1 = c) with
  | some p => p.2
  | none => c

/-- Whether `do_chartr` works on UTF-8: one of the elements of `x`, `old` or `new` is marked
as UTF-8. -/
def chartr_use_UTF8 (old new : RString) (x : List RString) : Bool :=
  x.any (fun el => getCharCE el = .CE_UTF8)
    || decide (getCharCE old = .CE_UTF8) || decide (getCharCE new = .CE_UTF8)

/-- Whether `do_chartr` takes its branch on wide characters. -/
def chartr_wide (L : Env) (old new : RString) (x : List RString) : Bool :=
  L.mbcslocale || chartr_use_UTF8 old new x

/-- The specification that `do_chartr` builds from the string `s` (which is `old` or `new`):
from its wide characters in the branch on wide characters and from its bytes otherwise. -/
def chartr_build (L : Env) (W : WideLib) (sc : Bool) (old new : RString) (x : List RString)
    (s : RString) : Except Fault (List tr_spec) :=
  if chartr_wide L old new x then
    (chartr_spec_wcs L W (chartr_use_UTF8 old new x) s).bind
      (tr_build_spec (fun c => (c : Int)))
  else tr_build_spec (plain_char sc) (mkChar (L.translateChar (CHAR s) (getCharCE s)))

/-- The number of values of the type of a character of a specification of `do_chartr`:
`wchar_t` in the branch on wide characters and `unsigned char` otherwise. -/
def chartr_modulus (L : Env) (old new : RString) (x : List RString) : Nat :=
  if chartr_wide L old new x then 2 ^ 32 else 256

/-- The element `el` with every character `c` of it replaced by `f c`, each character of the
result depending only on the character at the same position: the characters are the wide
characters of the element in the branch on wide characters (an element that does not decode is
an error) and its bytes otherwise; `NA` stays `NA`. -/
def chartr_by (L : Env) (W : WideLib) (wide use_UTF8 : Bool) (f : Nat → Nat) (el : RString) :
    Except Fault RString :=
  match el with
  | .NA_STRING => .ok .NA_STRING
  | .chr bytes enc =>
    if wide then
      if use_UTF8 && decide (enc = .CE_UTF8) then
        match W.utf8towcs (mkChar bytes) with
        | none => .error (.error .invalidInput)
        | some wc => .ok (.chr (mkChar (W.wcstoutf8 (mkChar (wc.map f)) ++ [0])) .CE_UTF8)
      else
        match W.mbstowcs (mkChar (L.translateChar bytes enc)) with
        | none => .error (.error .invalidInput)
        | some wc => .ok (markKnown L (mkChar (W.wcstombs (mkChar (wc.map f)) ++ [0])) enc)
    else .ok (markKnown L ((mkChar (L.translateChar bytes enc)).map f) enc)

/-- Whether the element `el` decodes in the branch of `do_chartr` that is taken: always in the
branch on bytes, and when the conversion to wide characters succeeds otherwise. -/
def chartr_decodes (L : Env) (W : WideLib) (wide use_UTF8 : Bool) (el : RString) : Bool :=
  match el with
  | .NA_STRING => true
  | .chr bytes enc =>
    if wide then
      if use_UTF8 && decide (enc = .CE_UTF8) then (W.utf8towcs (mkChar bytes)).isSome
      else (W.mbstowcs (mkChar (L.translateChar bytes enc))).isSome
    else true

/-- The first characters of the words of `s`: the characters that are not blanks and that
stand at the start of the string or after a blank (`prev` says whether the character before
is a blank or the start of the string). -/
def word_heads_from (C : CType) : Bool → List Nat → List Nat
  | _, [] => []
  | prev, c :: r =>
    if C.isspace c then word_heads_from C true r
    else if prev then c :: word_heads_from C false r
    else word_heads_from C false r

/-- The first character of every word of `s`, in the order of the string. -/
def word_heads (C : CType) (s : List Nat) : List Nat := word_heads_from C true s

/-- The characters of `s` that are not blanks. -/
def non_blanks (C : CType) (s : List Nat) : List Nat := s.filter (fun c => !C.isspace c)

/-- A specification of `chartr` whose characters and range ends all lie strictly between 0 and
`B`, every range being increasing. -/
def tr_within (B : Nat) (trs : List tr_spec) : Bool :=
  trs.all (fun t =>
    match t with
    | .TR_CHAR c => decide (0 < c) && decide (c < B)
    | .TR_RANGE first last => decide (0 < first) && decide (first ≤ last) && decide (last < B))

/-- An element that is `NA` or an ASCII string without the UTF-8 mark. -/
def ascii_elt (el : RString) : Bool :=
  match el with
  | .NA_STRING => true
  | .chr bytes enc => bytes.all (fun b => decide (0 < b) && decide (b < 128))
      && decide (enc ≠ .CE_UTF8)

/-- The groups that a replacement string refers to, in the order of the string: a backslash
followed by a digit from 1 to 9 refers to the group of that number, and a backslash followed by
any other character only escapes that character. -/
def repl_refs : List Nat → List Nat
  | [] => []
  | [_] => []
  | c :: d :: rest =>
    if c = 92 then
      if 49 ≤ d ∧ d ≤ 57 then (d - 48) :: repl_refs rest else repl_refs rest
    else repl_refs (d :: rest)

/-- The span of a group as `string_adj` can copy it: empty, or inside the text. -/
def span_ok (len : Nat) (m : Int × Int) : Prop :=
  m.1 ≤ m.2 ∧ (m.1 < m.2 → 0 ≤ m.1 ∧ m.2 ≤ (len : Int))

/-! ## Locales and matchers used in examples -/

/-- A single-byte locale in which no translation is needed: every byte is one character. -/
def sbcsLocale : Env where
  mbcslocale := false
  utf8locale := false
  mbrtowc := fun _ => some 1
  mbstowcs := fun s => some s.length
  translateChar := fun s _ => s
  translateCharUTF8 := fun s _ => s
  markEnc := fun _ => cetype_t.CE_NATIVE

/-- The bytes of a Latin-1 string in UTF-8. -/
def latin1_to_utf8 (s : List Nat) : List Nat :=
  s.flatMap (fun b => if b < 0x80 then [b] else [0xC0 + b / 64, 0x80 + b % 64])

/-- A UTF-8 locale: multibyte, native strings are UTF-8, Latin-1 strings are translated. -/
def utf8Locale : Env where
  mbcslocale := true
  utf8locale := true
  mbrtowc := utf8_mbrtowc
  mbstowcs := fun s => utf8_mbstowcs (s.length + 1) s
  translateChar := fun s e => if e = .CE_LATIN1 then latin1_to_utf8 s else s
  translateCharUTF8 := fun s e => if e = .CE_LATIN1 then latin1_to_utf8 s else s
  markEnc := fun e => if e = .CE_NATIVE then .CE_NATIVE else .CE_UTF8

/-- A matcher for the regular expression `a*`: at every offset inside the text it matches the
longest run of the letter a (byte 97) that starts there. -/
def aStar : regex_t where
  re_nsub := 0
  regexec := fun text => some (0, ((text.takeWhile (fun b => b = 97)).length : Int))
  Rregexec := fun s _ offset =>
    if 0 ≤ offset ∧ offset ≤ s.length then
      some ((offset, offset + (((s.drop offset.toNat).takeWhile (fun b => b = 97)).length : Int))
        :: List.replicate 9 (-1, -1))
    else none

/-- A library that compiles the pattern `a*` (bytes 97, 42) to `aStar` and nothing else. -/
def aStarLib : RegexLib where
  regcomp := fun p _ => if p = [97, 42] then some aStar else none
  pcre_compile := fun _ _ => none

/-- A width library in which every character has width 1. -/
def unitWidth : WidthLib where
  utf8_width := fun _ => 1
  wcswidth := fun xi => (xi.length : Int)

/-- A `do_gpregexpr` for calls that do not take the Perl branch. -/
def no_gpregexpr : RString → List RString → Bool → Bool →
    Except Fault (List (List (Int × Int))) :=
  fun _ _ _ _ => .error (.error .invalidArgument)

/-- A `do_pgsub` for calls that do not take the Perl branch. -/
def no_pgsub : RString → RString → List RString → Bool → Bool → Bool →
    Except Fault (List RString) :=
  fun _ _ _ _ _ _ => .error (.error .invalidArgument)

/-- The classification of the C locale on bytes, and the same on wide characters. -/
def asciiCType : CType where
  isalpha := fun c => (65 ≤ c && c ≤ 90) || (97 ≤ c && c ≤ 122)
  isdigit := fun c => 48 ≤ c && c ≤ 57
  isalnum := fun c => (65 ≤ c && c ≤ 90) || (97 ≤ c && c ≤ 122) || (48 ≤ c && c ≤ 57)
  isspace := fun c => c = 32 || (9 ≤ c && c ≤ 13)
  islower := fun c => 97 ≤ c && c ≤ 122
  tolower := fun c => if 65 ≤ c ∧ c ≤ 90 then c + 32 else c
  toupper := fun c => if 97 ≤ c ∧ c ≤ 122 then c - 32 else c
  iswalpha := fun c => (65 ≤ c && c ≤ 90) || (97 ≤ c && c ≤ 122)
  iswdigit := fun c => 48 ≤ c && c ≤ 57
  iswalnum := fun c => (65 ≤ c && c ≤ 90) || (97 ≤ c && c ≤ 122) || (48 ≤ c && c ≤ 57)
  towlower := fun c => if 65 ≤ c ∧ c ≤ 90 then c + 32 else c
  towupper := fun c => if 97 ≤ c ∧ c ≤ 122 then c - 32 else c

/-- The code point of the UTF-8 sequence at the head of `s`. -/
def utf8_wc (s : List Nat) : Nat :=
  match s with
  | [] => 0
  | b :: r =>
    if b < 0x80 then b
    else if b < 0xE0 then (b - 0xC0) * 64 + (r.headD 0x80 - 0x80)
    else if b < 0xF0 then
      (b - 0xE0) * 4096 + (r.headD 0x80 - 0x80) * 64 + ((r.drop 1).headD 0x80 - 0x80)
    else (b - 0xF0) * 262144 + (r.headD 0x80 - 0x80) * 4096
      + ((r.drop 1).headD 0x80 - 0x80) * 64 + ((r.drop 2).headD 0x80 - 0x80)

/-- The code points of a string that consists of complete UTF-8 sequences. -/
def utf8_wcs : Nat → List Nat → Option (List Nat)
  | 0, _ => none
  | _ + 1, [] => some []
  | fuel + 1, b :: r =>
    match utf8_mbrtowc (b :: r) with
    | none => none
    | some u => (utf8_wcs fuel ((b :: r).drop u)).map (fun w => utf8_wc (b :: r) :: w)

/-- The UTF-8 sequence of a code point. -/
def wc_utf8 (c : Nat) : List Nat :=
  if c < 0x80 then [c]
  else if c < 0x800 then [0xC0 + c / 64, 0x80 + c % 64]
  else if c < 0x10000 then [0xE0 + c / 4096, 0x80 + c / 64 % 64, 0x80 + c % 64]
  else [0xF0 + c / 262144, 0x80 + c / 4096 % 64, 0x80 + c / 64 % 64, 0x80 + c % 64]

/-- The wide-character functions of a UTF-8 locale: wide characters are code points, and the
width of a character is 2 from U+1100 on and 1 below, except -1 for control characters. -/
def utf8Wide : WideLib where
  mbrtowc_wc := utf8_wc
  mbstowcs := fun s => utf8_wcs (s.length + 1) s
  wcstombs := fun w => w.flatMap wc_utf8
  utf8towcs := fun s => utf8_wcs (s.length + 1) s
  wcstoutf8 := fun w => w.flatMap wc_utf8
  wcwidth := fun c => if c < 32 then -1 else if c < 0x1100 then 1 else 2

/-- The wide-character functions of a single-byte locale: the wide character of a byte is the
byte, and the UTF-8 functions are those of `utf8Wide`. -/
def sbcsWide : WideLib where
  mbrtowc_wc := fun s => s.headD 0
  mbstowcs := fun s => some s
  wcstombs := fun w => w
  utf8towcs := fun s => utf8_wcs (s.length + 1) s
  wcstoutf8 := fun w => w.flatMap wc_utf8
  wcwidth := fun c => if c < 32 then -1 else 1

/-- Reserved words used in examples: "if", "else", "for", "in". -/
def keywords_ex : List (List Nat) :=
  [[105, 102], [101, 108, 115, 101], [102, 111, 114], [105, 110]]

/-- An `isValidName` for examples: it rejects exactly the words of `keywords_ex`. -/
def isValidName_ex (s : List Nat) : Bool :=
  !(keywords_ex.contains s)

/-- The bytes of a UTF-8 string of Latin-1 characters in Latin-1. -/
def utf8_to_latin1 : List Nat → List Nat
  | [] => []
  | [b] => [b]
  | b :: c :: rest =>
    if b = 0xC2 then c :: utf8_to_latin1 rest
    else if b = 0xC3 then (c + 64) :: utf8_to_latin1 rest
    else b :: utf8_to_latin1 (c :: rest)

/-- A Latin-1 locale: single-byte, UTF-8 strings are translated to Latin-1 by `translateChar`
and other strings to UTF-8 by `translateCharUTF8`. -/
def latin1Locale : Env where
  mbcslocale := false
  utf8locale := false
  mbrtowc := fun _ => some 1
  mbstowcs := fun s => some s.length
  translateChar := fun s e => if e = .CE_UTF8 then utf8_to_latin1 s else s
  translateCharUTF8 := fun s e => if e = .CE_UTF8 then s else latin1_to_utf8 s
  markEnc := fun e => if e = .CE_LATIN1 then .CE_LATIN1 else .CE_NATIVE

/-- A matcher for the regular expression that is the single literal byte `b`: the first
occurrence of `b`, in the text or from the offset on. -/
def byteMatcher (b : Nat) : regex_t where
  re_nsub := 0
  regexec := fun text =>
    if b ∈ text then
      some (((text.takeWhile (fun c => c ≠ b)).length : Int),
        ((text.takeWhile (fun c => c ≠ b)).length : Int) + 1)
    else none
  Rregexec := fun s _ offset =>
    if 0 ≤ offset ∧ b ∈ s.drop offset.toNat then
      some ((offset + (((s.drop offset.toNat).takeWhile (fun c => c ≠ b)).length : Int),
          offset + (((s.drop offset.toNat).takeWhile (fun c => c ≠ b)).length : Int) + 1)
        :: List.replicate 9 (-1, -1))
    else none

/-- A library that compiles the patterns of one literal byte and nothing else. -/
def byteLib : RegexLib where
  regcomp := fun p _ =>
    match p with
    | [b] => some (byteMatcher b)
    | _ => none
  pcre_compile := fun _ _ => none

/-! ## Theorems: memory and C library -/

theorem rd_append_left (s rest : List Nat) (p : Nat) (h : p < s.length) :
    rd (s ++ rest) p = .ok (s.getD p 0) := by
  simp [rd, List.getElem?_append_left h, List.getD, List.getElem?_eq_getElem h]

theorem readN_append_left (s rest : List Nat) (k p : Nat) (h : p + k ≤ s.length) :
    readN (s ++ rest) p k = .ok ((s.drop p).take k) := by
  induction k generalizing p with
  | zero => simp [readN]
  | succ k ih =>
    have hp : p < s.length := by omega
    have hd : s.drop p = s.getD p 0 :: s.drop (p + 1) := by
      rw [List.drop_eq_getElem_cons hp]
      simp [List.getD, List.getElem?_eq_getElem hp]
    rw [readN, rd_append_left s rest p hp, ih (p + 1) (by omega), hd]
    rfl

theorem takeWhile_ne_zero_append (s rest : List Nat) (hs : 0 ∉ s) :
    (s ++ 0 :: rest).takeWhile (fun b => b ≠ 0) = s := by
  induction s with
  | nil => simp
  | cons a t ih =>
    have ha : a ≠ 0 := fun h => hs (by simp [h])
    have ht : 0 ∉ t := fun h => hs (by simp [h])
    have h := ih ht
    rw [List.cons_append, List.takeWhile_cons]
    simp only [ha, ne_eq, not_false_eq_true, decide_True, ↓reduceIte]
    exact congrArg (List.cons a) h

theorem cstrAt_zero (s pad : List Nat) (hs : 0 ∉ s) : cstrAt (s ++ 0 :: pad) 0 = .ok s := by
  have h := takeWhile_ne_zero_append s pad hs
  have hm : 0 ∈ s ++ 0 :: pad := by simp
  simp only [cstrAt, List.drop_zero, hm, ↓reduceIte, h]

theorem strlen_zero (s pad : List Nat) (hs : 0 ∉ s) :
    strlen (s ++ 0 :: pad) 0 = .ok s.length := by
  simp [strlen, cstrAt_zero s pad hs, Except.map]

theorem mkChar_append_nul (t : List Nat) (ht : 0 ∉ t) : mkChar (t ++ [0]) = t :=
  takeWhile_ne_zero_append t [] ht

theorem not_mem_take_drop (s : List Nat) (a b : Nat) (hs : 0 ∉ s) :
    0 ∉ (s.drop a).take b :=
  fun h => hs (List.mem_of_mem_drop (List.mem_of_mem_take h))

/-! ## Theorems: `substr` -/

theorem substr_sbcs_ok (s pad : List Nat) (sa so : Int) (h1 : 1 ≤ sa) (h2 : sa ≤ so)
    (h3 : so ≤ s.length) :
    substr_sbcs (s ++ 0 :: pad) sa so
      = .ok ((s.drop (sa - 1).toNat).take (so - sa + 1).toNat) := by
  unfold substr_sbcs
  have hc : (so - sa + 1).toNat ≠ 0 := by omega
  have hsa : ¬ sa < 1 := by omega
  simp only [hc, hsa, ↓reduceIte]
  exact readN_append_left s (0 :: pad) _ _ (by omega)

theorem substr_single_byte (L : Env) (s pad : List Nat) (ienc : cetype_t) (sa so : Int)
    (henc : ienc = .CE_LATIN1 ∨ (ienc = .CE_NATIVE ∧ L.mbcslocale = false))
    (h1 : 1 ≤ sa) (h2 : sa ≤ so) (h3 : so ≤ s.length) :
    substr L (s ++ 0 :: pad) ienc sa so
      = .ok ((s.drop (sa - 1).toNat).take (so - sa + 1).toNat) := by
  rcases henc with h | ⟨h, hl⟩
  · subst h
    exact substr_sbcs_ok s pad sa so h1 h2 h3
  · subst h
    simp only [substr, hl, Bool.false_and, Bool.false_eq_true, ↓reduceIte]
    exact substr_sbcs_ok s pad sa so h1 h2 h3

/-- C1: for a non-NA string `s` in a single-byte encoding (Latin-1, or native in a locale that
is not multibyte) and non-NA `start` and `stop`, `substr` returns the bytes of `s` at the
1-based positions `max(start,1) .. min(stop,n)`, and the empty string when that range is
empty. -/
theorem do_substr_single_byte (L : Env) (s pad : List Nat) (ienc : cetype_t) (start stop : Int)
    (hs : 0 ∉ s) (hstart : start ≠ NA_INTEGER) (hstop : stop ≠ NA_INTEGER)
    (henc : ienc = .CE_LATIN1 ∨ (ienc = .CE_NATIVE ∧ L.mbcslocale = false)) :
    do_substr_elt L (.chr s ienc) pad start stop
        = .ok (.chr ((s.drop (max start 1 - 1).toNat).take
              (min stop s.length - max start 1 + 1).toNat) ienc)
      ∧ (max start 1 > min stop s.length →
          do_substr_elt L (.chr s ienc) pad start stop = .ok (.chr [] ienc)) := by
  have key : do_substr_elt L (.chr s ienc) pad start stop
        = .ok (.chr ((s.drop (max start 1 - 1).toNat).take
              (min stop s.length - max start 1 + 1).toNat) ienc) := by
    unfold do_substr_elt
    simp only [hstart, hstop, or_self, ↓reduceIte, strlen_zero s pad hs]
    show (if (if start < 1 then 1 else start) > stop ∨ (if start < 1 then 1 else start) > (s.length : Int) then _ else _) = _
    have hm : (if start < 1 then (1 : Int) else start) = max start 1 := by
      split <;> omega
    rw [hm]
    by_cases he : max start 1 > stop ∨ max start 1 > (s.length : Int)
    · rw [if_pos he]
      have : (min stop (s.length : Int) - max start 1 + 1).toNat = 0 := by omega
      rw [this, List.take_zero]
      rfl
    · rw [if_neg he]
      have hstop2 : (if stop > (s.length : Int) then (s.length : Int) else stop)
          = min stop s.length := by
        split <;> omega
      show (do
        let buf ← substr L (s ++ 0 :: pad) ienc (max start 1)
          (if stop > (s.length : Int) then (s.length : Int) else stop)
        pure (RString.chr (mkChar (buf ++ [0])) ienc)) = _
      rw [hstop2, substr_single_byte L s pad ienc _ _ henc (by omega) (by omega) (by omega)]
      show Except.ok (RString.chr (mkChar (_ ++ [0])) ienc) = _
      rw [mkChar_append_nul _ (not_mem_take_drop s _ _ hs)]
  refine ⟨key, fun h => ?_⟩
  rw [key]
  have : (min stop (s.length : Int) - max start 1 + 1).toNat = 0 := by omega
  rw [this, List.take_zero]

theorem do_substr_single_byte_witness :
    (0 ∉ [104, 101, 108, 108, 111]) ∧ (2 : Int) ≠ NA_INTEGER ∧ (9 : Int) ≠ NA_INTEGER
      ∧ do_substr_elt sbcsLocale (.chr [104, 101, 108, 108, 111] .CE_LATIN1) [7] 2 9
          = .ok (.chr [101, 108, 108, 111] .CE_LATIN1) :=
  ⟨by decide, by decide, by decide,
    (do_substr_single_byte sbcsLocale [104, 101, 108, 108, 111] [7] .CE_LATIN1 2 9
      (by decide) (by decide) (by decide) (Or.inl rfl)).1⟩

/-! ## Theorems: the UTF-8 branches of `substr` and `substr<-` -/

/-- C2 (the code at the failing input): for the valid UTF-8 string "éé" (bytes C3 A9 C3 A9, two
characters) with `start = stop = 4`, `do_substr` clamps `stop` to the byte length 4, and the
loop of `substr` walks past the terminator: when nothing is stored after the terminator the read
leaves the object, and when the bytes 65, 0 are stored there the result is the string "A"
instead of the empty string. -/
theorem do_substr_utf8_reads_past_end (L : Env) :
    do_substr_elt L (.chr [0xC3, 0xA9, 0xC3, 0xA9] .CE_UTF8) [] 4 4 = .error .oob
      ∧ do_substr_elt L (.chr [0xC3, 0xA9, 0xC3, 0xA9] .CE_UTF8) [65, 0] 4 4
          = .ok (.chr [65] .CE_UTF8) :=
  ⟨rfl, rfl⟩

theorem substrgets_utf8_empty_value_eval (L : Env) (pad vpad stale : List Nat) (b : Nat) :
    do_substrgets_elt L (.chr [0xC3, 0xA9, 0x61] .CE_UTF8) pad (.chr [] .CE_NATIVE) (b :: vpad)
        stale 1 1 = .ok (.chr [] .CE_UTF8) := by
  have h1 : cstrAt ([0xC3, 0xA9, 0x61] ++ 0 :: pad) 0 = .ok [0xC3, 0xA9, 0x61] :=
    cstrAt_zero _ _ (by decide)
  have h2 : cstrAt ([] ++ 0 :: b :: vpad) 0 = .ok [] := cstrAt_zero _ _ (by decide)
  have h3 : strlen ([0xC3, 0xA9, 0x61] ++ 0 :: pad) 0 = .ok 3 := strlen_zero _ _ (by decide)
  unfold do_substrgets_elt
  simp only [NA_INTEGER, h3]
  simp [h1, h2, strIsASCII, substrset, utf8_skip, substrset_utf8_count, rd, utf8clen,
    substrset_splice, memmove_tail, readN, writeAt, cstrAt, bind, Except.bind, pure, Except.pure]

/-- C3 (the code at the failing input): replacing the first character of the UTF-8 string "éa"
(bytes C3 A9 61, two characters) by the empty value, `substr(x, 1, 1) <- ""`, gives the empty
string, whatever is stored after the terminators: the UTF-8 branch of `substrset` counts the
terminator of the value as a character and copies it over the start of the span. -/
theorem do_substrgets_utf8_empty_value (L : Env) (pad vpad stale : List Nat) (b : Nat) :
    do_substrgets_elt L (.chr [0xC3, 0xA9, 0x61] .CE_UTF8) pad (.chr [] .CE_NATIVE) (b :: vpad)
        stale 1 1 = .ok (.chr [] .CE_UTF8) :=
  substrgets_utf8_empty_value_eval L pad vpad stale b

/-- C4 (the code at the failing input): for the UTF-8 string "éa", `start = stop = 1` and the
empty value, `substr(substr<-(s, 1, 1, ""), 1, 1)` is the empty string, where the claim gives
the original character "é" of the span. -/
theorem substr_after_substrgets_utf8_empty_value (L : Env) (pad vpad stale pad2 : List Nat)
    (b : Nat) :
    (do
      let r ← do_substrgets_elt L (.chr [0xC3, 0xA9, 0x61] .CE_UTF8) pad (.chr [] .CE_NATIVE)
        (b :: vpad) stale 1 1
      do_substr_elt L r pad2 1 1) = .ok (.chr [] .CE_UTF8) := by
  rw [substrgets_utf8_empty_value_eval L pad vpad stale b]
  have h3 : strlen (0 :: pad2) 0 = .ok 0 := strlen_zero [] pad2 (by decide)
  simp [do_substr_elt, NA_INTEGER, h3, bind, Except.bind, pure, Except.pure]

/-! ## Theorems: `strsplit` with an empty delimiter -/

/-- C6 (the code at the failing input): with the delimiter vector `c("", "b")` and fixed
matching, the UTF-8 text "é" (bytes C3 A9, one character) is split into its two bytes, each
stored as a string tagged UTF-8. -/
theorem do_strsplit_empty_in_longer_delimiter (R : RegexLib) (pads tpads : Nat → List Nat)
    (extended_opt perl_opt : Bool) :
    do_strsplit utf8Locale R [.chr [0xC3, 0xA9] .CE_UTF8]
        [.chr [] .CE_NATIVE, .chr [98] .CE_NATIVE] pads tpads extended_opt true perl_opt
      = .ok [[.chr [0xC3] .CE_UTF8, .chr [0xA9] .CE_UTF8]] := by
  have h1 : cstrAt ([0xC3, 0xA9] ++ 0 :: pads 0) 0 = .ok [0xC3, 0xA9] :=
    cstrAt_zero _ _ (by decide)
  have h2 : cstrAt ([] ++ 0 :: tpads 0) 0 = .ok [] := cstrAt_zero _ _ (by decide)
  simp [do_strsplit, do_strsplit_loop, do_strsplit_elt, strsplit_use_UTF8, getCharCE, CHAR,
    utf8Locale, strsplit_fixed, strlen, Except.map, h1, h2, fixed_count, fixed_match,
    fixed_fill, fixed_next, strsplit_trailing, strsplit_mark, rd, mkChar, bind, Except.bind,
    pure, Except.pure] at h1 h2 ⊢

/-! ## Theorems: `sub` and `gsub` -/

/-- C10 (counterexample): `gsub(NA, "x", "a")` is `NA`, not the unchanged element "a". -/
theorem do_gsub_NA_pattern_not_passed_through :
    do_gsub sbcsLocale aStarLib no_pgsub true .NA_STRING (.chr [120] .CE_NATIVE)
        [.chr [97] .CE_NATIVE] (fun _ => []) false true false false false 10
      = .ok [.NA_STRING]
    ∧ RString.NA_STRING ≠ .chr [97] .CE_NATIVE :=
  ⟨rfl, by decide⟩

/-- C10 (amended): when the pattern given to `sub` or `gsub` is `NA`, the result has the length
of the input and every element of it is `NA`, for NA and non-NA text elements alike. -/
theorem do_gsub_NA_pattern (L : Env) (R : RegexLib)
    (do_pgsub : RString → RString → List RString → Bool → Bool → Bool →
      Except Fault (List RString))
    (global : Bool) (rep : RString) (vec : List RString) (pads : Nat → List Nat)
    (igcase_opt extended_opt perl_opt fixed_opt useBytes : Bool) (fuel : Nat) :
    do_gsub L R do_pgsub global .NA_STRING rep vec pads igcase_opt extended_opt perl_opt
        fixed_opt useBytes fuel
      = .ok (List.replicate vec.length .NA_STRING) := by
  simp [do_gsub, List.map_const']

/-- C8: in the writing loop of `sub` and `gsub`, an iteration whose match ends at or before
`last_end`, the end of the last substitution made, stores the text before the match (and, after
an empty match, the character skipped) but no replacement, and leaves `last_end` as it is; the
sizing loop does not count it either.  With a matcher for `a*`,
`gsub("a*", "x", "baaac")` is "xbxcx" and `gsub("a*", "x", "")` is "x". -/
theorem do_gsub_zero_length_suppressed :
    (∀ (L : Env) (global : Bool) (s t : List Nat) (regmatch : List (Int × Int))
        (st st1 : GsubState) (m : Int × Int) (more : Bool),
        regmatch_get regmatch 0 = .ok m → m.2 ≤ st.last_end →
        gsub_write_step L global s t regmatch st = .ok (st1, more) →
        st1.last_end = st.last_end ∧
          ∃ gap, copy_gap s (m.1 - st.offset).toNat st.offset = .ok gap ∧
            (st1.u = st.u ++ gap ∨
              (m.2 = m.1 ∧ ∃ c, rdInt s m.2 = .ok c ∧ st1.u = st.u ++ gap ++ [c])))
    ∧ (∀ (L : Env) (re : regex_t) (global : Bool) (s t : List Nat) (regmatch : List (Int × Int))
        (st st1 : GsubState) (m : Int × Int) (more : Bool),
        regmatch_get regmatch 0 = .ok m → m.2 ≤ st.last_end →
        gsub_size_step L re global s t regmatch st = .ok (st1, more) →
        st1.last_end = st.last_end ∧ st1.ns = st.ns)
    ∧ do_gsub sbcsLocale aStarLib no_pgsub true (.chr [97, 42] .CE_NATIVE)
          (.chr [120] .CE_NATIVE) [.chr [98, 97, 97, 97, 99] .CE_NATIVE] (fun _ => [])
          false true false false false 8
        = .ok [.chr [120, 98, 120, 99, 120] .CE_NATIVE]
    ∧ do_gsub sbcsLocale aStarLib no_pgsub true (.chr [97, 42] .CE_NATIVE)
          (.chr [120] .CE_NATIVE) [.chr [] .CE_NATIVE] (fun _ => [])
          false true false false false 8
        = .ok [.chr [120] .CE_NATIVE] := by
  refine ⟨?_, ?_, by rfl, by rfl⟩
  · intro L global s t regmatch st st1 m more hm hle hstep
    have hnot : ¬ m.2 > st.last_end := by omega
    unfold gsub_write_step at hstep
    simp only [hm, hnot, ↓reduceIte, bind, Except.bind, pure, Except.pure] at hstep
    cases hgap : copy_gap s (m.1 - st.offset).toNat st.offset with
    | error e => simp [hgap] at hstep
    | ok gap =>
      simp only [hgap] at hstep
      cases hrd : rdInt s m.2 with
      | error e => simp [hrd] at hstep
      | ok c =>
        simp only [hrd] at hstep
        refine ⟨?_, gap, rfl, ?_⟩
        · split at hstep
          · injection hstep with h; injection h with h1 h2; subst h1; rfl
          · split at hstep
            · injection hstep with h; injection h with h1 h2; subst h1; rfl
            · injection hstep with h; injection h with h1 h2; subst h1; rfl
        · split at hstep
          · injection hstep with h; injection h with h1 h2; subst h1; left; simp
          · split at hstep
            · rename_i heq
              injection hstep with h; injection h with h1 h2; subst h1
              right; exact ⟨heq, c, rfl, by simp⟩
            · injection hstep with h; injection h with h1 h2; subst h1; left; simp
  · intro L re global s t regmatch st st1 m more hm hle hstep
    have hnot : ¬ m.2 > st.last_end := by omega
    unfold gsub_size_step at hstep
    simp only [hm, hnot, ↓reduceIte, bind, Except.bind, pure, Except.pure] at hstep
    cases hrd : rdInt s m.2 with
    | error e => simp [hrd] at hstep
    | ok c =>
      simp only [hrd] at hstep
      split at hstep
      · injection hstep with h; injection h with h1 h2; subst h1; exact ⟨rfl, rfl⟩
      · injection hstep with h; injection h with h1 h2; subst h1; exact ⟨rfl, rfl⟩

theorem do_gsub_zero_length_suppressed_witness :
    gsub_write_step sbcsLocale true [98, 97, 97, 97, 99, 0] [120]
        ((4, 4) :: List.replicate 9 (-1, -1))
        { offset := 4, last_end := 4, eflags := 1, nmatch := 0, ns := 5, u := [120, 98, 120] }
      = .ok ({ offset := 5, last_end := 4, eflags := 1, nmatch := 0, ns := 5,
               u := [120, 98, 120, 99] }, true)
    ∧ (4 : Int) = 4
    ∧ ∃ gap, copy_gap [98, 97, 97, 97, 99, 0] ((4 : Int) - 4).toNat 4 = .ok gap ∧
        (([120, 98, 120, 99] : List Nat) = [120, 98, 120] ++ gap ∨
          ((4 : Int) = 4 ∧ ∃ c, rdInt [98, 97, 97, 97, 99, 0] 4 = .ok c ∧
            ([120, 98, 120, 99] : List Nat) = [120, 98, 120] ++ gap ++ [c])) :=
  ⟨rfl, do_gsub_zero_length_suppressed.1 sbcsLocale true [98, 97, 97, 97, 99, 0] [120]
    ((4, 4) :: List.replicate 9 (-1, -1))
    { offset := 4, last_end := 4, eflags := 1, nmatch := 0, ns := 5, u := [120, 98, 120] }
    { offset := 5, last_end := 4, eflags := 1, nmatch := 0, ns := 5, u := [120, 98, 120, 99] }
    (4, 4) true rfl (by decide) rfl⟩

/-! ## Theorems: the fixed branch of `strsplit` -/

theorem rd_terminator (s pad : List Nat) : rd (s ++ 0 :: pad) s.length = .ok 0 := by
  have h : (s ++ 0 :: pad)[s.length]? = some 0 := by
    rw [List.getElem?_append_right (Nat.le_refl _)]
    simp
  simp only [rd, h]

theorem text_at (s pad : List Nat) (p : Nat) (hs : 0 ∉ s) (h : p < s.length) :
    ∃ x, rd (s ++ 0 :: pad) p = .ok x ∧ s.drop p = x :: s.drop (p + 1) ∧ x ≠ 0 := by
  refine ⟨s[p], ?_, List.drop_eq_getElem_cons h, ?_⟩
  · simp [rd, List.getElem?_append_left h, List.getElem?_eq_getElem h]
  · intro h0
    exact hs (h0 ▸ List.getElem_mem h)

theorem cstrAt_text (s pad : List Nat) (p : Nat) (hs : 0 ∉ s) (h : p ≤ s.length) :
    cstrAt (s ++ 0 :: pad) p = .ok (s.drop p) := by
  have hd : (s ++ 0 :: pad).drop p = s.drop p ++ 0 :: pad := by
    rw [List.drop_append_of_le_length h]
  have hs2 : 0 ∉ s.drop p := fun h0 => hs (List.mem_of_mem_drop h0)
  have hm : 0 ∈ s.drop p ++ 0 :: pad := by simp
  simp only [cstrAt, hd, hm, ↓reduceIte, takeWhile_ne_zero_append _ pad hs2]

theorem strncmp_eq_text (s pad d tpad : List Nat) (hs : 0 ∉ s) (hd : 0 ∉ d) (n p q : Nat)
    (hp : p ≤ s.length) (hq : q ≤ d.length) :
    strncmp_eq (s ++ 0 :: pad) p (d ++ 0 :: tpad) q n
      = .ok (decide ((s.drop p).take n = (d.drop q).take n)) := by
  induction n generalizing p q with
  | zero => simp [strncmp_eq]
  | succ n ih =>
    rw [strncmp_eq]
    by_cases hp1 : p < s.length
    · obtain ⟨x, hrx, hdx, hx⟩ := text_at s pad p hs hp1
      rw [hrx, hdx]
      by_cases hq1 : q < d.length
      · obtain ⟨y, hry, hdy, hy⟩ := text_at d tpad q hd hq1
        rw [hry, hdy]
        by_cases hxy : x = y
        · subst hxy
          simp only [bind, Except.bind, pure, Except.pure, ne_eq, not_true_eq_false,
            ↓reduceIte, hx]
          rw [ih (p + 1) (q + 1) (by omega) (by omega)]
          simp [List.take_succ_cons]
        · simp [bind, Except.bind, pure, Except.pure, hxy, List.take_succ_cons]
      · have hq2 : q = d.length := by omega
        subst hq2
        rw [rd_terminator d tpad]
        simp [bind, Except.bind, pure, Except.pure, hx, List.take_succ_cons]
    · have hp2 : p = s.length := by omega
      subst hp2
      rw [rd_terminator s pad]
      by_cases hq1 : q < d.length
      · obtain ⟨y, hry, hdy, hy⟩ := text_at d tpad q hd hq1
        rw [hry, hdy]
        have hy2 : ¬ (0 = y) := fun h => hy h.symm
        simp [bind, Except.bind, pure, Except.pure, hy2, List.take_succ_cons]
      · have hq2 : q = d.length := by omega
        subst hq2
        rw [rd_terminator d tpad]
        simp [bind, Except.bind, pure, Except.pure]

theorem fixed_match_text (s pad d tpad : List Nat) (hs : 0 ∉ s) (hd : 0 ∉ d) (hne : d ≠ [])
    (p : Nat) (hp : p < s.length) :
    fixed_match (s ++ 0 :: pad) p (d ++ 0 :: tpad) d.length
      = .ok (decide ((s.drop p).take d.length = d)) := by
  unfold fixed_match
  obtain ⟨x, hrx, hdx, hx⟩ := text_at s pad p hs hp
  by_cases h1 : d.length = 1
  · obtain ⟨c, rfl⟩ := List.length_eq_one.mp h1
    have hrd : rd ([c] ++ 0 :: tpad) 0 = .ok c := rfl
    rw [hdx]
    simp only [List.length_singleton, ↓reduceIte, hrx, hrd, bind, Except.bind,
      pure, Except.pure]
    simp
  · have hpos : d.length > 1 := by
      have : d.length ≠ 0 := fun h => hne (List.length_eq_zero.mp h)
      omega
    simp only [h1, ↓reduceIte, hpos]
    rw [strncmp_eq_text s pad d tpad hs hd d.length p 0 (by omega) (by omega)]
    simp

theorem scan_skip (d : List Nat) (l : List Nat) (k : Nat) (acc : List Nat) :
    scan_occurrences d l k acc = scan_occurrences d (l.drop k) 0 acc := by
  induction k generalizing l with
  | zero => simp
  | succ k ih =>
    cases l with
    | nil => simp [scan_occurrences]
    | cons b r => simp [scan_occurrences, ih r]

theorem scan_of_no_occurrence (d : List Nat) (l acc : List Nat)
    (h : first_occurrence d l = none) : scan_occurrences d l 0 acc = ([], acc ++ l) := by
  induction l generalizing acc with
  | nil => simp [scan_occurrences]
  | cons b r ih =>
    rw [first_occurrence] at h
    by_cases hm : (b :: r).take d.length = d
    · simp [hm] at h
    · simp only [hm, ↓reduceIte, Option.map_eq_none'] at h
      rw [scan_occurrences, if_neg hm, ih _ h]
      simp

theorem first_occurrence_bound (d : List Nat) (l : List Nat) (i : Nat)
    (h : first_occurrence d l = some i) :
    i + d.length ≤ l.length ∧ (l.drop i).take d.length = d := by
  induction l generalizing i with
  | nil => simp [first_occurrence] at h
  | cons b r ih =>
    rw [first_occurrence] at h
    by_cases hm : (b :: r).take d.length = d
    · simp only [hm, ↓reduceIte, Option.some.injEq] at h
      subst h
      refine ⟨?_, by simpa using hm⟩
      have := congrArg List.length hm
      simp only [List.length_take] at this
      omega
    · simp only [hm, ↓reduceIte, Option.map_eq_some'] at h
      obtain ⟨j, hj, rfl⟩ := h
      have := ih j hj
      simp only [List.length_cons, List.drop_succ_cons]
      exact ⟨by omega, this.2⟩

theorem scan_of_occurrence (d : List Nat) (hne : d ≠ []) (l acc : List Nat) (i : Nat)
    (h : first_occurrence d l = some i) :
    scan_occurrences d l 0 acc
      = ((acc ++ l.take i) :: (scan_occurrences d (l.drop (i + d.length)) 0 []).1,
          (scan_occurrences d (l.drop (i + d.length)) 0 []).2) := by
  have hpos : 1 ≤ d.length := by
    have : d.length ≠ 0 := fun h => hne (List.length_eq_zero.mp h)
    omega
  induction l generalizing acc i with
  | nil => simp [first_occurrence] at h
  | cons b r ih =>
    rw [first_occurrence] at h
    by_cases hm : (b :: r).take d.length = d
    · simp only [hm, ↓reduceIte, Option.some.injEq] at h
      subst h
      rw [scan_occurrences, if_pos hm, scan_skip d r (d.length - 1) []]
      have hdrop : (b :: r).drop (0 + d.length) = r.drop (d.length - 1) := by
        obtain ⟨k, hk⟩ : ∃ k, d.length = k + 1 := ⟨d.length - 1, by omega⟩
        simp [hk]
      rw [hdrop]
      simp
    · simp only [hm, ↓reduceIte, Option.map_eq_some'] at h
      obtain ⟨j, hj, rfl⟩ := h
      rw [scan_occurrences, if_neg hm, ih (acc ++ [b]) j hj]
      have hdrop : (b :: r).drop (j + 1 + d.length) = r.drop (j + d.length) := by
        have : j + 1 + d.length = (j + d.length) + 1 := by omega
        rw [this, List.drop_succ_cons]
      rw [hdrop]
      simp

theorem scan_remainder_drop (d : List Nat) (hne : d ≠ []) (m : Nat) :
    ∀ l : List Nat, l.length ≤ m →
      ∃ j, j ≤ l.length ∧ (scan_occurrences d l 0 []).2 = l.drop j := by
  have hpos : 1 ≤ d.length := by
    have : d.length ≠ 0 := fun h => hne (List.length_eq_zero.mp h)
    omega
  induction m with
  | zero =>
    intro l hl
    have : l = [] := List.length_eq_zero.mp (by omega)
    subst this
    exact ⟨0, by simp, by simp [scan_occurrences]⟩
  | succ m ih =>
    intro l hl
    cases hf : first_occurrence d l with
    | none =>
      rw [scan_of_no_occurrence d l [] hf]
      exact ⟨0, by simp, by simp⟩
    | some i =>
      rw [scan_of_occurrence d hne l [] i hf]
      have hb := (first_occurrence_bound d l i hf).1
      obtain ⟨j, hj, hrem⟩ := ih (l.drop (i + d.length)) (by simp only [List.length_drop]; omega)
      refine ⟨j + (i + d.length), ?_, ?_⟩
      · simp only [List.length_drop] at hj
        omega
      · simp only [hrem, List.drop_drop]
        congr 1
        omega

theorem fixed_next_text (s pad d tpad : List Nat) (hs : 0 ∉ s) (hd : 0 ∉ d) (hne : d ≠ [])
    (ls : Nat) :
    ∀ (fuel p : Nat), ls ≤ p → p ≤ s.length → s.length - p ≤ fuel →
      fixed_next (s ++ 0 :: pad) s.length (d ++ 0 :: tpad) d.length ls fuel p
        = .ok ((first_occurrence d (s.drop p)).map
            (fun i => ((s.drop ls).take (p + i - ls), p + i + d.length))) := by
  have hpos : 1 ≤ d.length := by
    have : d.length ≠ 0 := fun h => hne (List.length_eq_zero.mp h)
    omega
  intro fuel
  induction fuel with
  | zero =>
    intro p _ hp hf
    have : p = s.length := by omega
    subst this
    simp [fixed_next, first_occurrence]
  | succ fuel ih =>
    intro p hlp hp hf
    rw [fixed_next]
    by_cases hlt : p < s.length
    · obtain ⟨x, _, hdx, _⟩ := text_at s pad p hs hlt
      rw [if_pos hlt, fixed_match_text s pad d tpad hs hd hne p hlt]
      by_cases hm : (s.drop p).take d.length = d
      · have hslen : d.length ≠ 0 := by omega
        have hread := readN_append_left s (0 :: pad) (p - ls) ls (by omega)
        have hfo : first_occurrence d (s.drop p) = some 0 := by
          rw [hdx] at hm ⊢
          rw [first_occurrence, if_pos hm]
        simp only [hm, decide_True, bind, Except.bind, pure, Except.pure, ↓reduceIte, ne_eq,
          hslen, not_false_eq_true, hread, hfo, Option.map_some', Nat.add_zero]
        rw [mkChar_append_nul _ (not_mem_take_drop s _ _ hs)]
        have : p + (d.length - 1) + 1 = p + d.length := by omega
        rw [this]
      · have hfo : first_occurrence d (s.drop p)
            = (first_occurrence d (s.drop (p + 1))).map (fun i => i + 1) := by
          rw [hdx] at hm ⊢
          rw [first_occurrence, if_neg hm]
        simp only [hm, decide_False, bind, Except.bind, Bool.false_eq_true, ↓reduceIte]
        rw [ih (p + 1) (by omega) (by omega) (by omega), hfo, Option.map_map]
        congr 1
        apply congrArg (fun f => Option.map f _)
        funext i
        simp only [Function.comp]
        have h1 : p + 1 + i - ls = p + (i + 1) - ls := by omega
        have h2 : p + 1 + i + d.length = p + (i + 1) + d.length := by omega
        rw [h1, h2]
    · have : p = s.length := by omega
      subst this
      simp [first_occurrence]

theorem fixed_count_text (s pad d tpad : List Nat) (hs : 0 ∉ s) (hd : 0 ∉ d) (hne : d ≠ []) :
    ∀ (fuel p ntok ls : Nat) (acc : List Nat), ls ≤ p → p ≤ s.length → s.length - p ≤ fuel →
      acc.length = p - ls →
      fixed_count (s ++ 0 :: pad) s.length (d ++ 0 :: tpad) d.length fuel p ntok ls
        = .ok (ntok + (scan_occurrences d (s.drop p) 0 acc).1.length,
            s.length - (scan_occurrences d (s.drop p) 0 acc).2.length) := by
  have hpos : 1 ≤ d.length := by
    have : d.length ≠ 0 := fun h => hne (List.length_eq_zero.mp h)
    omega
  intro fuel
  induction fuel with
  | zero =>
    intro p ntok ls acc hlp hp hf hacc
    have : p = s.length := by omega
    subst this
    simp only [fixed_count, List.drop_length, scan_occurrences, List.length_nil, Nat.add_zero]
    congr 2
    omega
  | succ fuel ih =>
    intro p ntok ls acc hlp hp hf hacc
    rw [fixed_count]
    by_cases hlt : p < s.length
    · obtain ⟨x, _, hdx, _⟩ := text_at s pad p hs hlt
      rw [if_pos hlt, fixed_match_text s pad d tpad hs hd hne p hlt]
      by_cases hm : (s.drop p).take d.length = d
      · have hlen : p + d.length ≤ s.length := by
          have := congrArg List.length hm
          simp only [List.length_take, List.length_drop] at this
          omega
        have h1 : p + (d.length - 1) + 1 = p + d.length := by omega
        simp only [hm, decide_True, bind, Except.bind, ↓reduceIte, h1]
        rw [ih (p + d.length) (ntok + 1) (p + d.length) [] (by omega) hlen (by omega) (by simp)]
        have hsc : scan_occurrences d (s.drop p) 0 acc
            = (acc :: (scan_occurrences d (s.drop (p + d.length)) 0 []).1,
                (scan_occurrences d (s.drop (p + d.length)) 0 []).2) := by
          rw [hdx] at hm ⊢
          rw [scan_occurrences, if_pos hm, scan_skip d _ (d.length - 1) [], List.drop_drop]
          have : p + 1 + (d.length - 1) = p + d.length := by omega
          rw [this]
        rw [hsc]
        simp only [List.length_cons]
        congr 2
        omega
      · simp only [hm, decide_False, bind, Except.bind, Bool.false_eq_true, ↓reduceIte]
        rw [ih (p + 1) ntok ls (acc ++ [x]) (by omega) (by omega) (by omega)
          (by simp only [List.length_append, List.length_singleton]; omega)]
        have hsc : scan_occurrences d (s.drop p) 0 acc
            = scan_occurrences d (s.drop (p + 1)) 0 (acc ++ [x]) := by
          rw [hdx] at hm ⊢
          rw [scan_occurrences, if_neg hm]
        rw [hsc]
    · have : p = s.length := by omega
      subst this
      simp only [Nat.lt_irrefl, ↓reduceIte, List.drop_length, scan_occurrences, List.length_nil,
        Nat.add_zero]
      congr 2
      omega

theorem fixed_fill_text (s pad d tpad : List Nat) (hs : 0 ∉ s) (hd : 0 ∉ d) (hne : d ≠ []) :
    ∀ (k ls : Nat), ls ≤ s.length → (scan_occurrences d (s.drop ls) 0 []).1.length = k →
      fixed_fill (s ++ 0 :: pad) s.length (d ++ 0 :: tpad) d.length k ls
        = .ok ((scan_occurrences d (s.drop ls) 0 []).1,
            s.length - (scan_occurrences d (s.drop ls) 0 []).2.length) := by
  intro k
  induction k with
  | zero =>
    intro ls hls hk
    cases hf : first_occurrence d (s.drop ls) with
    | none =>
      rw [scan_of_no_occurrence d _ [] hf]
      simp only [fixed_fill, List.nil_append, List.length_drop]
      congr 2
      omega
    | some i =>
      rw [scan_of_occurrence d hne _ [] i hf] at hk
      simp at hk
  | succ k ih =>
    intro ls hls hk
    cases hf : first_occurrence d (s.drop ls) with
    | none =>
      rw [scan_of_no_occurrence d _ [] hf] at hk
      simp at hk
    | some i =>
      have hb := (first_occurrence_bound d _ i hf).1
      simp only [List.length_drop] at hb
      have hsc := scan_of_occurrence d hne (s.drop ls) [] i hf
      have hdd : (s.drop ls).drop (i + d.length) = s.drop (ls + i + d.length) := by
        rw [List.drop_drop]
        congr 1
        omega
      rw [hdd] at hsc
      rw [hsc] at hk ⊢
      simp only [List.length_cons, Nat.add_right_cancel_iff] at hk
      rw [fixed_fill, fixed_next_text s pad d tpad hs hd hne ls (s.length + 1 - ls) ls
        (Nat.le_refl _) hls (by omega), hf]
      simp only [Option.map_some', bind, Except.bind, pure, Except.pure]
      rw [ih (ls + i + d.length) (by omega) hk]
      have : ls + i - ls = i := by omega
      simp [this]

theorem strsplit_fixed_eq_scan (s pad d tpad : List Nat) (hs : 0 ∉ s) (hd : 0 ∉ d)
    (hne : d ≠ []) :
    strsplit_fixed (s ++ 0 :: pad) (d ++ 0 :: tpad)
      = .ok ((scan_occurrences d s 0 []).1,
          if (scan_occurrences d s 0 []).2 = [] then none
          else some (scan_occurrences d s 0 []).2) := by
  obtain ⟨j, hj, hrem⟩ := scan_remainder_drop d hne s.length s (Nat.le_refl _)
  have hcount := fixed_count_text s pad d tpad hs hd hne s.length 0 0 0 [] (Nat.le_refl _)
    (Nat.zero_le _) (by omega) (by simp)
  have hfill := fixed_fill_text s pad d tpad hs hd hne _ 0 (Nat.zero_le _) rfl
  simp only [List.drop_zero, Nat.zero_add] at hcount hfill
  have hpos : s.length - (scan_occurrences d s 0 []).2.length = j := by
    rw [hrem, List.length_drop]
    omega
  rw [hpos] at hcount hfill
  unfold strsplit_fixed
  simp only [strlen_zero s pad hs, strlen_zero d tpad hd, hcount, hfill, bind, Except.bind,
    pure, Except.pure]
  rw [hrem]
  by_cases hlt : j < s.length
  · obtain ⟨x, hrx, hdx, hx⟩ := text_at s pad j hs hlt
    have hne2 : s.drop j ≠ [] := by rw [hdx]; simp
    simp only [hrx, strsplit_trailing, bind, Except.bind, pure, Except.pure, ne_eq, hx,
      not_false_eq_true, decide_True, ↓reduceIte, cstrAt_text s pad j hs hj, hne2]
  · have hj2 : j = s.length := by omega
    subst hj2
    simp [rd_terminator s pad, strsplit_trailing, bind, Except.bind, pure, Except.pure]

/-- C7: for the fixed branch of `strsplit` with a non-empty delimiter `d` and a text `s`, let
the scan of `s` from left to right for non-overlapping occurrences of `d` give the pieces that
end at an occurrence (one for each occurrence) and the remainder after the last occurrence.
The branch returns exactly one token for each occurrence, the piece that ends there; when the
remainder is empty (the text is used up at the end of an occurrence, or is empty) there is no
trailing token, and otherwise there is one more, final token, equal to the remainder. -/
theorem strsplit_fixed_tokens (s pad d tpad : List Nat) (hs : 0 ∉ s) (hd : 0 ∉ d)
    (hne : d ≠ []) :
    ∃ toks trailing, strsplit_fixed (s ++ 0 :: pad) (d ++ 0 :: tpad) = .ok (toks, trailing)
      ∧ toks = (scan_occurrences d s 0 []).1
      ∧ ((scan_occurrences d s 0 []).2 = [] → trailing = none)
      ∧ ((scan_occurrences d s 0 []).2 ≠ [] → trailing = some (scan_occurrences d s 0 []).2) := by
  refine ⟨_, _, strsplit_fixed_eq_scan s pad d tpad hs hd hne, rfl, ?_, ?_⟩
  · intro h
    rw [if_pos h]
  · intro h
    rw [if_neg h]

theorem strsplit_fixed_tokens_witness :
    (0 ∉ [97, 44, 98, 44, 44, 99, 44]) ∧ (0 ∉ [44]) ∧ ([44] : List Nat) ≠ []
      ∧ ∃ toks trailing,
          strsplit_fixed ([97, 44, 98, 44, 44, 99, 44] ++ 0 :: [7]) ([44] ++ 0 :: [])
            = .ok (toks, trailing)
          ∧ toks = (scan_occurrences [44] [97, 44, 98, 44, 44, 99, 44] 0 []).1
          ∧ ((scan_occurrences [44] [97, 44, 98, 44, 44, 99, 44] 0 []).2 = [] → trailing = none)
          ∧ ((scan_occurrences [44] [97, 44, 98, 44, 44, 99, 44] 0 []).2 ≠ [] →
              trailing = some (scan_occurrences [44] [97, 44, 98, 44, 44, 99, 44] 0 []).2) :=
  ⟨by decide, by decide, by decide,
    strsplit_fixed_tokens [97, 44, 98, 44, 44, 99, 44] [7] [44] [] (by decide) (by decide)
      (by decide)⟩

/-! ## Theorems: `strsplit` into characters -/

theorem chars_bytes_text (s pad : List Nat) (hs : 0 ∉ s) :
    ∀ (k j : Nat), j + k = s.length →
      chars_bytes (s ++ 0 :: pad) k j = .ok ((s.drop j).map (fun b => [b])) := by
  intro k
  induction k with
  | zero =>
    intro j hj
    have : s.drop j = [] := List.drop_eq_nil_of_le (by omega)
    simp [chars_bytes, this]
  | succ k ih =>
    intro j hj
    obtain ⟨x, hrx, hdx, hx⟩ := text_at s pad j hs (by omega)
    rw [chars_bytes, hrx, hdx]
    simp only [bind, Except.bind, pure, Except.pure, ih (j + 1) (by omega), List.map_cons]
    simp [mkChar, List.takeWhile, hx]

theorem char_walk_cons (step : List Nat → Option Nat) (n : Nat) (l : List Nat)
    (h : char_walk step (n + 1) l = true) :
    ∃ u, step l = some u ∧ 1 ≤ u ∧ u ≤ l.length ∧ l ≠ [] ∧ char_walk step n (l.drop u) = true := by
  cases l with
  | nil => simp [char_walk] at h
  | cons b r =>
    cases hst : step (b :: r) with
    | none => simp [char_walk, hst] at h
    | some u =>
      simp only [char_walk, hst, Bool.and_eq_true, decide_eq_true_eq] at h
      exact ⟨u, rfl, h.1.1, h.1.2, by simp, h.2⟩

theorem chars_utf8_text (s pad : List Nat) (hs : 0 ∉ s) (L : Env) :
    ∀ (n p : Nat), p ≤ s.length → char_walk (chars_step L true) n (s.drop p) = true →
      ∃ toks, chars_utf8 (s ++ 0 :: pad) n p = .ok toks ∧ toks.flatten = s.drop p := by
  intro n
  induction n with
  | zero =>
    intro p hp hw
    simp only [char_walk, List.isEmpty_eq_true] at hw
    exact ⟨[], rfl, by simp [hw]⟩
  | succ n ih =>
    intro p hp hw
    obtain ⟨u, hst, hu1, hu2, hne, hrest⟩ := char_walk_cons _ n _ hw
    have hlt : p < s.length := by
      by_contra hc
      exact hne (List.drop_eq_nil_of_le (by omega))
    obtain ⟨x, hrx, hdx, hx⟩ := text_at s pad p hs hlt
    have hux : utf8clen x = u := by
      rw [hdx] at hst
      simpa [chars_step] using hst
    simp only [List.length_drop] at hu2
    rw [List.drop_drop] at hrest
    obtain ⟨toks, htoks, hjoin⟩ := ih (p + u) (by omega) hrest
    refine ⟨(s.drop p).take u :: toks, ?_, ?_⟩
    · rw [chars_utf8, hrx]
      simp only [bind, Except.bind, pure, Except.pure, hux,
        readN_append_left s (0 :: pad) u p (by omega), htoks]
      rw [mkChar_append_nul _ (not_mem_take_drop s _ _ hs)]
    · rw [List.flatten_cons, hjoin, ← List.drop_drop, List.take_append_drop]

theorem chars_mbcs_text (s pad : List Nat) (hs : 0 ∉ s) (L : Env) :
    ∀ (n p : Nat), p ≤ s.length → char_walk (chars_step L false) n (s.drop p) = true →
      ∃ toks, chars_mbcs L (s ++ 0 :: pad) n p = .ok toks ∧ toks.flatten = s.drop p := by
  intro n
  induction n with
  | zero =>
    intro p hp hw
    simp only [char_walk, List.isEmpty_eq_true] at hw
    exact ⟨[], rfl, by simp [hw]⟩
  | succ n ih =>
    intro p hp hw
    obtain ⟨u, hst, hu1, hu2, hne, hrest⟩ := char_walk_cons _ n _ hw
    have hst2 : L.mbrtowc (s.drop p) = some u := by simpa [chars_step] using hst
    simp only [List.length_drop] at hu2
    rw [List.drop_drop] at hrest
    obtain ⟨toks, htoks, hjoin⟩ := ih (p + u) (by omega) hrest
    refine ⟨(s.drop p).take u :: toks, ?_, ?_⟩
    · rw [chars_mbcs, cstrAt_text s pad p hs hp]
      simp only [bind, Except.bind, pure, Except.pure, hne, ↓reduceIte, hst2,
        readN_append_left s (0 :: pad) u p (by omega), htoks]
      rw [mkChar_append_nul _ (not_mem_take_drop s _ _ hs)]
    · rw [List.flatten_cons, hjoin, ← List.drop_drop, List.take_append_drop]

theorem flatten_singletons (l : List Nat) : (l.map (fun b => [b])).flatten = l := by
  induction l with
  | nil => rfl
  | cons a t ih => simp [List.flatten_cons, ih]

theorem strsplit_chars_rejoin (L : Env) (use_UTF8 : Bool) (text pad : List Nat)
    (xenc : cetype_t) (h0 : 0 ∉ text) (hdec : chars_decodable L use_UTF8 text) :
    ∃ toks, strsplit_chars L use_UTF8 (text ++ 0 :: pad) xenc = .ok toks
      ∧ (∀ t ∈ toks, t ≠ .NA_STRING) ∧ (toks.map CHAR).flatten = text := by
  unfold strsplit_chars
  simp only [cstrAt_zero text pad h0, bind, Except.bind, pure, Except.pure]
  by_cases hc : ((use_UTF8 || L.mbcslocale) && !strIsASCII text) = true
  · obtain ⟨n, hn, hw⟩ := hdec hc
    rw [if_pos hc]
    simp only [hn]
    cases use_UTF8 with
    | true =>
      obtain ⟨toks, ht, hj⟩ := chars_utf8_text text pad h0 L n 0 (Nat.zero_le _) hw
      refine ⟨toks.map (fun b => RString.chr b .CE_UTF8), ?_, ?_, ?_⟩
      · simp [ht]
      · intro t htm
        obtain ⟨b, _, rfl⟩ := List.mem_map.mp htm
        simp
      · rw [List.map_map]
        have : (CHAR ∘ fun b => RString.chr b cetype_t.CE_UTF8) = id := by
          funext b; rfl
        rw [this, List.map_id, hj, List.drop_zero]
    | false =>
      obtain ⟨toks, ht, hj⟩ := chars_mbcs_text text pad h0 L n 0 (Nat.zero_le _) hw
      refine ⟨toks.map (fun b => markKnown L b xenc), ?_, ?_, ?_⟩
      · simp [ht]
      · intro t htm
        obtain ⟨b, _, rfl⟩ := List.mem_map.mp htm
        simp [markKnown]
      · rw [List.map_map]
        have : (CHAR ∘ fun b => markKnown L b xenc) = id := by
          funext b; rfl
        rw [this, List.map_id, hj, List.drop_zero]
  · rw [if_neg hc]
    have hb := chars_bytes_text text pad h0 text.length 0 (by omega)
    rw [List.drop_zero] at hb
    refine ⟨(text.map (fun b => [b])).map (fun b => markKnown L b xenc), ?_, ?_, ?_⟩
    · simp [hb]
    · intro t htm
      obtain ⟨b, _, rfl⟩ := List.mem_map.mp htm
      simp [markKnown]
    · rw [List.map_map]
      have : (CHAR ∘ fun b => markKnown L b xenc) = id := by
        funext b; rfl
      rw [this, List.map_id, flatten_singletons]

/-- C5 (amended): for a non-NA string `s` whose working text (the bytes of `s` translated to
UTF-8 when `fixed` or `perl` is on and `s` is tagged UTF-8, and to the native encoding
otherwise; the bytes of `s` itself when no translation is needed) decodes in the locale,
`strsplit(s, "")` returns one vector without `NA` whose elements, concatenated in order with
an empty separator, are exactly the bytes of the working text. -/
theorem do_strsplit_chars_rejoin (L : Env) (R : RegexLib) (bytes text : List Nat)
    (enc tenc : cetype_t) (pads tpads : Nat → List Nat)
    (extended_opt fixed_opt perl_opt use_UTF8 : Bool)
    (huse : use_UTF8 = ((fixed_opt || perl_opt) && decide (enc = .CE_UTF8)))
    (htext : text = if use_UTF8 then L.translateCharUTF8 bytes enc
      else L.translateChar bytes enc)
    (h0 : 0 ∉ text) (hdec : chars_decodable L use_UTF8 text) :
    ∃ toks, do_strsplit L R [.chr bytes enc] [.chr [] tenc] pads tpads extended_opt fixed_opt
        perl_opt = .ok [toks]
      ∧ (∀ t ∈ toks, t ≠ .NA_STRING) ∧ (toks.map CHAR).flatten = text := by
  obtain ⟨toks, ht, hna, hj⟩ := strsplit_chars_rejoin L use_UTF8 text (pads 0) enc h0 hdec
  refine ⟨toks, ?_, hna, hj⟩
  have hu : strsplit_use_UTF8 fixed_opt perl_opt [RString.chr bytes enc]
      [RString.chr [] tenc] 0 = use_UTF8 := by
    rw [huse]
    simp [strsplit_use_UTF8, getCharCE]
  simp only [do_strsplit, List.length_singleton, List.getD_cons_zero, CHAR, List.head?_nil,
    and_self, ↓reduceIte, hu, do_strsplit_loop, do_strsplit_elt, Nat.lt_irrefl, ← htext,
    ht, bind, Except.bind, pure, Except.pure]

theorem do_strsplit_chars_rejoin_witness :
    ∃ toks, do_strsplit utf8Locale aStarLib [.chr [0xC3, 0xA9, 0x61] .CE_UTF8]
        [.chr [] .CE_NATIVE] (fun _ => []) (fun _ => []) true true false = .ok [toks]
      ∧ (∀ t ∈ toks, t ≠ .NA_STRING) ∧ (toks.map CHAR).flatten = [0xC3, 0xA9, 0x61] :=
  do_strsplit_chars_rejoin utf8Locale aStarLib [0xC3, 0xA9, 0x61] [0xC3, 0xA9, 0x61] .CE_UTF8
    .CE_NATIVE (fun _ => []) (fun _ => []) true true false true rfl rfl (by decide)
    (fun _ => ⟨2, rfl, by decide⟩)

/-- C5 (counterexample): in a UTF-8 locale, `strsplit(s, "")` of the native string with the
single byte FF (not valid UTF-8) is one `NA`, and `strsplit(s, "")` of the Latin-1 string "é"
(byte E9) is the translated character with the bytes C3 A9; neither rejoins to the bytes
of `s`. -/
theorem do_strsplit_chars_not_bytes :
    do_strsplit utf8Locale aStarLib [.chr [0xFF] .CE_NATIVE] [.chr [] .CE_NATIVE]
        (fun _ => []) (fun _ => []) true false false = .ok [[.NA_STRING]]
    ∧ do_strsplit utf8Locale aStarLib [.chr [0xE9] .CE_LATIN1] [.chr [] .CE_NATIVE]
        (fun _ => []) (fun _ => []) true false false = .ok [[.chr [0xC3, 0xA9] .CE_UTF8]]
    ∧ ([RString.chr [0xC3, 0xA9] .CE_UTF8].map CHAR).flatten ≠ [0xE9] :=
  ⟨rfl, rfl, by decide⟩

/-! ## Theorems: `sub` and `gsub` without a match -/

theorem infix_of_take_drop (p text : List Nat) (i : Nat) (h : (text.drop i).take p.length = p) :
    p <:+: text := by
  refine ⟨text.take i, (text.drop i).drop p.length, ?_⟩
  have h2 : p ++ (text.drop i).drop p.length = text.drop i := by
    conv_lhs => rw [← h]
    have hl : ((text.drop i).take p.length).length ≤ p.length := by
      rw [List.length_take]; omega
    have hl2 : ((text.drop i).take p.length).length = p.length := by rw [h]
    rw [hl2, List.take_append_drop]
  rw [List.append_assoc, h2, List.take_append_drop]

theorem fgrep_scan1_none (text pad : List Nat) (c : Nat) (hs : 0 ∉ text) (hc : c ∉ text) :
    ∀ (n i : Nat), i + n = text.length →
      fgrep_scan1 (text ++ 0 :: pad) 0 c n i = .ok (-1) := by
  intro n
  induction n with
  | zero => intro i _; rfl
  | succ n ih =>
    intro i hi
    obtain ⟨x, hrx, hdx, _⟩ := text_at text pad i hs (by omega)
    have hxc : x ≠ c := by
      intro h
      apply hc
      have : x ∈ text.drop i := by rw [hdx]; simp
      exact h ▸ List.mem_of_mem_drop this
    rw [fgrep_scan1, Nat.zero_add, hrx]
    simp only [bind, Except.bind, pure, Except.pure, hxc, ↓reduceIte]
    exact ih (i + 1) (by omega)

theorem fgrep_scan_bytes_none (spat text pad : List Nat) (hs : 0 ∉ text) (hp : 0 ∉ spat)
    (hno : ¬ spat <:+: text) :
    ∀ (n i : Nat), i + n ≤ text.length + 1 →
      fgrep_scan_bytes (spat ++ [0]) (text ++ 0 :: pad) 0 spat.length n i = .ok (-1) := by
  intro n
  induction n with
  | zero => intro i _; rfl
  | succ n ih =>
    intro i hi
    have hcmp := strncmp_eq_text spat [] text pad hp hs spat.length 0 i (Nat.zero_le _)
      (by omega)
    have hne : ¬ (spat = (text.drop i).take spat.length) :=
      fun h => hno (infix_of_take_drop spat text i h.symm)
    rw [fgrep_scan_bytes, Nat.zero_add, hcmp]
    simp only [List.drop_zero, List.take_length, hne, decide_False, bind, Except.bind,
      Bool.false_eq_true, ↓reduceIte]
    exact ih (i + 1) (by omega)

theorem fgrep_scan_mbcs_none (L : Env) (spat text pad : List Nat) (hs : 0 ∉ text)
    (hp : 0 ∉ spat) (hno : ¬ spat <:+: text) :
    ∀ (fuel ib n : Nat), ib ≤ text.length → text.length - ib < fuel →
      char_walk L.mbrtowc n (text.drop ib) = true →
      fgrep_scan_mbcs L (spat ++ [0]) (text ++ 0 :: pad) 0 spat.length text.length fuel ib
        = .ok (-1) := by
  intro fuel
  induction fuel with
  | zero => intro ib n _ hf _; omega
  | succ fuel ih =>
    intro ib n hib hf hw
    rw [fgrep_scan_mbcs]
    by_cases hle : (ib : Int) ≤ (text.length : Int) - spat.length
    · rw [if_pos hle]
      have hcmp := strncmp_eq_text spat [] text pad hp hs spat.length 0 ib (Nat.zero_le _) hib
      have hne : ¬ (spat = (text.drop ib).take spat.length) :=
        fun h => hno (infix_of_take_drop spat text ib h.symm)
      rw [Nat.zero_add, hcmp]
      simp only [List.drop_zero, List.take_length, hne, decide_False, bind, Except.bind,
        Bool.false_eq_true, ↓reduceIte, Mbrtowc, cstrAt_text text pad ib hs hib, pure,
        Except.pure]
      cases n with
      | zero =>
        simp only [char_walk, List.isEmpty_eq_true] at hw
        simp [hw]
      | succ n =>
        obtain ⟨u, hst, hu1, hu2, hnil, hrest⟩ := char_walk_cons _ n _ hw
        simp only [List.length_drop] at hu2
        rw [List.drop_drop] at hrest
        have hu0 : u ≠ 0 := by omega
        simp only [hnil, ↓reduceIte, hst, hu0]
        exact ih (ib + u) n (by omega) (by omega) hrest
    · rw [if_neg hle]

theorem fgrep_one_bytes_none (L : Env) (spat text pad : List Nat) (useBytes : Bool)
    (hs : 0 ∉ text) (hp : 0 ∉ spat) (hno : ¬ spat <:+: text)
    (hwalk : (!useBytes && L.mbcslocale) = true → ∃ n, char_walk L.mbrtowc n text = true) :
    fgrep_one_bytes L (spat ++ [0]) (text ++ 0 :: pad) 0 useBytes = .ok (-1) := by
  have hne : spat ≠ [] := by
    intro h
    apply hno
    rw [h]
    exact List.nil_infix
  have hlen : spat.length ≠ 0 := fun h => hne (List.length_eq_zero.mp h)
  unfold fgrep_one_bytes
  simp only [strlen_zero spat [] hp, strlen_zero text pad hs, bind, Except.bind, pure,
    Except.pure, hlen, ↓reduceIte]
  by_cases h1 : spat.length = 1
  · obtain ⟨c, rfl⟩ := List.length_eq_one.mp h1
    have hrd : rd ([c] ++ [0]) 0 = .ok c := rfl
    have hc : c ∉ text := by
      intro hmem
      apply hno
      obtain ⟨a, b, hab⟩ := List.append_of_mem hmem
      exact ⟨a, b, by rw [hab]; simp⟩
    simp only [List.length_singleton, ↓reduceIte, hrd]
    exact fgrep_scan1_none text pad c hs hc text.length 0 (by omega)
  · rw [if_neg h1]
    by_cases hm : (!useBytes && L.mbcslocale) = true
    · obtain ⟨n, hw⟩ := hwalk hm
      rw [if_pos hm]
      exact fgrep_scan_mbcs_none L spat text pad hs hp hno (text.length + 1) 0 n
        (Nat.zero_le _) (by omega) (by simpa using hw)
    · rw [if_neg hm]
      exact fgrep_scan_bytes_none spat text pad hs hp hno _ 0 (by omega)

theorem do_gsub_elt_no_match (L : Env) (re : regex_t)
    (global fixed_opt useBytes use_UTF8 : Bool) (pat rep : RString) (spat srep : List Nat)
    (bytes : List Nat) (enc : cetype_t) (pad : List Nat) (fuel : Nat)
    (hpat : pat ≠ .NA_STRING)
    (h0 : 0 ∉ gsub_text L useBytes use_UTF8 (.chr bytes enc)) (h0p : 0 ∉ spat)
    (hvalid : mbcsInvalid L (gsub_text L useBytes use_UTF8 (.chr bytes enc)) = false)
    (hfuel : 0 < fuel)
    (hno : (fixed_opt = true ∧ ¬ spat <:+: gsub_text L useBytes use_UTF8 (.chr bytes enc)
          ∧ ((!useBytes && L.mbcslocale) = true →
              ∃ n, char_walk L.mbrtowc n (gsub_text L useBytes use_UTF8 (.chr bytes enc)) = true))
        ∨ (fixed_opt = false
          ∧ re.Rregexec (gsub_text L useBytes use_UTF8 (.chr bytes enc)) 0 0 = none)) :
    do_gsub_elt L re global fixed_opt useBytes use_UTF8 pat rep spat srep (.chr bytes enc) pad
      fuel = .ok (.chr bytes enc) := by
  unfold do_gsub_elt
  have hne : RString.chr bytes enc ≠ .NA_STRING := by simp
  simp only [hne, hpat, ↓reduceIte, strlen_zero _ pad h0, cstrAt_zero _ pad h0, hvalid, bind,
    Except.bind, pure, Except.pure, Bool.false_eq_true]
  rcases hno with ⟨hf, hinf, hwalk⟩ | ⟨hf, hrx⟩
  · subst hf
    simp only [↓reduceIte, fgrep_one_bytes_none L spat _ pad useBytes h0 h0p hinf hwalk]
    simp
  · subst hf
    obtain ⟨f, rfl⟩ : ∃ f, fuel = f + 1 := ⟨fuel - 1, by omega⟩
    simp only [Bool.false_eq_true, ↓reduceIte, gsub_size_loop, gsub_init,
      cstrAt_zero _ pad h0, bind, Except.bind, pure, Except.pure, hrx]

theorem do_gsub_loop_identity (L : Env) (re : regex_t)
    (global fixed_opt useBytes use_UTF8 : Bool) (pat rep : RString) (spat srep : List Nat)
    (pads : Nat → List Nat) (fuel : Nat) :
    ∀ (vec : List RString) (i : Nat),
      (∀ e ∈ vec, ∀ pad, do_gsub_elt L re global fixed_opt useBytes use_UTF8 pat rep spat srep e
        pad fuel = .ok e) →
      do_gsub_loop L re global fixed_opt useBytes use_UTF8 pat rep spat srep pads fuel vec i
        = .ok vec := by
  intro vec
  induction vec with
  | nil => intro i _; rfl
  | cons e rest ih =>
    intro i h
    rw [do_gsub_loop, h e (by simp) (pads i)]
    simp only [bind, Except.bind, pure, Except.pure]
    rw [ih (i + 1) (fun e he pad => h e (by simp [he]) pad)]

/-- C9 (amended): for a non-NA pattern, a replacement (NA or not) and a vector of texts such
that pattern and replacement are valid in the locale (`mbcsValid`), the pattern compiles (regex
mode) or is not empty (fixed mode), and every non-NA text is valid in the locale and has no
match (fixed mode: the pattern is not a run of consecutive bytes of the text, and in a multibyte
locale without `useBytes` the text consists of characters for `mbrtowc`; regex mode: the matcher
reports no match at offset 0), `sub` and `gsub` return the vector itself: every element is
unchanged. -/
theorem do_gsub_no_match_identity (L : Env) (R : RegexLib)
    (do_pgsub : RString → RString → List RString → Bool → Bool → Bool →
      Except Fault (List RString))
    (global : Bool) (pat rep : RString) (vec : List RString) (pads : Nat → List Nat)
    (igcase_opt extended_opt perl_opt fixed_opt useBytes0 : Bool) (fuel : Nat)
    (useBytes use_UTF8 : Bool) (spat srep : List Nat) (re : regex_t)
    (hpat : pat ≠ .NA_STRING) (hperl : (perl_opt && !fixed_opt) = false)
    (huB : useBytes = if !(fixed_opt || perl_opt) && useBytes0 then false else useBytes0)
    (hU8 : use_UTF8 = (fixed_opt &&
      (decide (getCharCE pat = .CE_UTF8) || decide (getCharCE rep = .CE_UTF8)
        || vec.any (fun e => getCharCE e = .CE_UTF8))))
    (hspat : spat = gsub_text L useBytes use_UTF8 pat)
    (hsrep : srep = gsub_text L useBytes use_UTF8 rep)
    (hvp : mbcsInvalid L spat = false) (hvr : mbcsInvalid L srep = false)
    (hre : fixed_opt = false →
      R.regcomp spat ((if extended_opt then 1 else 0) + (if igcase_opt then 2 else 0)) = some re)
    (hnz : fixed_opt = true → spat ≠ []) (h0p : 0 ∉ spat) (hfuel : 0 < fuel)
    (helts : ∀ e ∈ vec, e = .NA_STRING ∨
      (0 ∉ gsub_text L useBytes use_UTF8 e
        ∧ mbcsInvalid L (gsub_text L useBytes use_UTF8 e) = false
        ∧ ((fixed_opt = true ∧ ¬ spat <:+: gsub_text L useBytes use_UTF8 e
              ∧ ((!useBytes && L.mbcslocale) = true →
                ∃ n, char_walk L.mbrtowc n (gsub_text L useBytes use_UTF8 e) = true))
          ∨ (fixed_opt = false ∧ re.Rregexec (gsub_text L useBytes use_UTF8 e) 0 0 = none)))) :
    do_gsub L R do_pgsub global pat rep vec pads igcase_opt extended_opt perl_opt fixed_opt
      useBytes0 fuel = .ok vec := by
  have helt : ∀ (re1 : regex_t), (fixed_opt = false → re1 = re) → ∀ e ∈ vec, ∀ pad,
      do_gsub_elt L re1 global fixed_opt useBytes use_UTF8 pat rep spat srep e pad fuel
        = .ok e := by
    intro re1 hre1 e he pad
    rcases helts e he with hna | ⟨h0, hv, hno⟩
    · subst hna
      simp [do_gsub_elt, hpat]
    · cases e with
      | NA_STRING => simp [do_gsub_elt, hpat]
      | chr bytes enc =>
        refine do_gsub_elt_no_match L re1 global fixed_opt useBytes use_UTF8 pat rep spat srep
          bytes enc pad fuel hpat h0 h0p hv hfuel ?_
        rcases hno with h | ⟨hf, hrx⟩
        · exact Or.inl h
        · exact Or.inr ⟨hf, by rw [hre1 hf]; exact hrx⟩
  unfold do_gsub
  simp only [hpat, ↓reduceIte, hperl, Bool.false_eq_true, ← huB, ← hU8, ← hspat, ← hsrep, hvp,
    hvr]
  cases hfx : fixed_opt with
  | true =>
    have hlen : ¬ (True ∧ spat.length = 0) := by
      intro h
      exact hnz hfx (List.length_eq_zero.mp h.2)
    simp only [↓reduceIte, true_and] at hlen ⊢
    rw [if_neg hlen]
    exact do_gsub_loop_identity L regex_none global true useBytes use_UTF8 pat rep spat srep
      pads fuel vec 0 (by
        intro e he pad
        have := helt regex_none (by intro h; rw [hfx] at h; cases h) e he pad
        rwa [hfx] at this)
  | false =>
    simp only [Bool.false_eq_true, ↓reduceIte, hre hfx, false_and]
    exact do_gsub_loop_identity L re global false useBytes use_UTF8 pat rep spat srep
      pads fuel vec 0 (by
        intro e he pad
        have := helt re (fun _ => rfl) e he pad
        rwa [hfx] at this)

theorem do_gsub_no_match_identity_witness :
    do_gsub utf8Locale aStarLib no_pgsub true (.chr [122, 122] .CE_NATIVE) .NA_STRING
        [.chr [97, 98, 99] .CE_NATIVE, .NA_STRING] (fun _ => []) false true false true false 1
      = .ok [.chr [97, 98, 99] .CE_NATIVE, .NA_STRING] :=
  do_gsub_no_match_identity utf8Locale aStarLib no_pgsub true (.chr [122, 122] .CE_NATIVE)
    .NA_STRING [.chr [97, 98, 99] .CE_NATIVE, .NA_STRING] (fun _ => []) false true false true
    false 1 false false [122, 122] [78, 65] regex_none (by decide) rfl rfl rfl rfl rfl rfl rfl
    (fun h => by cases h) (fun _ => by decide) (by decide) (by decide)
    (by
      intro e he
      simp only [List.mem_cons, List.mem_singleton, List.not_mem_nil, or_false] at he
      rcases he with rfl | rfl
      · exact Or.inr ⟨by decide, rfl, Or.inl ⟨rfl, by decide, fun _ => ⟨3, by decide⟩⟩⟩
      · exact Or.inl rfl)

/-- C9 (counterexample): in a UTF-8 locale the pattern "a" is not a substring of the native
text with the single byte FF, and `gsub("a", "b", s, fixed = TRUE)` does not return the text:
the call fails with the error for an input string that is invalid in the locale. -/
theorem do_gsub_no_match_invalid_input :
    ¬ ([97] <:+: [0xFF])
    ∧ do_gsub utf8Locale aStarLib no_pgsub true (.chr [97] .CE_NATIVE) (.chr [98] .CE_NATIVE)
        [.chr [0xFF] .CE_NATIVE] (fun _ => []) false true false true false 5
      = .error (.error .invalidInput) :=
  ⟨by decide, rfl⟩

/-! ## Theorems: the replacement text of `sub` and `gsub` -/

/-- C12 (the code at the failing input): in a UTF-8 locale, for the replacement made of a
backslash followed by the character "é" (bytes 5C C3 A9), `string_adj` copies the byte C3 and
then applies `Mbrtowc` to the byte A9 alone, which raises the error for an invalid multibyte
string; `length_adj` does the same, so `gsub("a*", "\\é", "a")` fails where the claim gives
"é".  In a single-byte locale the same call gives the two bytes of "é". -/
theorem string_adj_escaped_multibyte :
    string_adj utf8Locale [97, 0] [92, 0xC3, 0xA9] ((0, 1) :: List.replicate 9 (-1, -1))
      = .error (.error .invalidMultibyte)
    ∧ do_gsub utf8Locale aStarLib no_pgsub true (.chr [97, 42] .CE_NATIVE)
        (.chr [92, 0xC3, 0xA9] .CE_NATIVE) [.chr [97] .CE_NATIVE] (fun _ => [])
        false true false false false 8
      = .error (.error .invalidMultibyte)
    ∧ do_gsub sbcsLocale aStarLib no_pgsub true (.chr [97, 42] .CE_NATIVE)
        (.chr [92, 0xC3, 0xA9] .CE_NATIVE) [.chr [97] .CE_NATIVE] (fun _ => [])
        false true false false false 8
      = .ok [.chr [0xC3, 0xA9] .CE_NATIVE] :=
  ⟨rfl, rfl, rfl⟩

/-! ## Theorems: `fgrep_one`, `regexpr` and `gregexpr` -/

/-- C16 (the code at the failing input): for the one-byte pattern "a" and the UTF-8 text "éa"
(bytes C3 A9 61), `fgrep_one` with `useBytes` off and `ienc = CE_UTF8` returns 2, the byte
offset of the match, where the claim gives the character offset 1; the two-byte pattern "ab"
in "éab" gives the character offset 1. -/
theorem fgrep_one_single_byte_offset (L : Env) :
    fgrep_one L [97, 0] [0xC3, 0xA9, 97, 0] 0 false .CE_UTF8 = .ok (2, some 3)
    ∧ fgrep_one sbcsLocale [97, 98, 0] [0xC3, 0xA9, 97, 98, 0] 0 false .CE_UTF8
        = .ok (1, some 4) :=
  ⟨rfl, rfl⟩

/-- C17 (the code at the failing input): `regexpr("a", x, fixed = TRUE)` for the UTF-8-tagged
text "éa" gives the position 3 (1 + the byte offset) and the match length 1, where the claim
gives the position 2 counted in characters. -/
theorem do_regexpr_fixed_single_byte_position :
    do_regexpr utf8Locale aStarLib (.chr [97] .CE_NATIVE) [.chr [0xC3, 0xA9, 97] .CE_UTF8]
        (fun _ => []) false true false true false = .ok [(3, 1)]
    ∧ do_regexpr sbcsLocale aStarLib (.chr [97] .CE_NATIVE) [.chr [0xC3, 0xA9, 97] .CE_UTF8]
        (fun _ => []) false true false true false = .ok [(3, 1)] :=
  ⟨rfl, rfl⟩

/-- C18 (counterexample): in a UTF-8 locale, for the native text with the single byte FF,
`regexpr` and `gregexpr` give the position -1 and the match length -1, not `NA`. -/
theorem regexpr_invalid_input_minus_one :
    do_regexpr utf8Locale aStarLib (.chr [97, 42] .CE_NATIVE) [.chr [0xFF] .CE_NATIVE]
        (fun _ => []) false true false false false = .ok [(-1, -1)]
    ∧ do_gregexpr utf8Locale aStarLib no_gpregexpr (.chr [97, 42] .CE_NATIVE)
        [.chr [0xFF] .CE_NATIVE] (fun _ => []) false true false false false 8
        = .ok [[(-1, -1)]]
    ∧ (-1 : Int) ≠ NA_INTEGER :=
  ⟨rfl, rfl, by decide⟩

/-- C18 (amended): for `regexpr` and `gregexpr` without `useBytes` and without UTF-8
processing, a non-NA text element whose text is invalid in the current multibyte locale yields
the position -1 and the match length -1, the same values as for no match. -/
theorem regexpr_invalid_input (L : Env) (re : regex_t) (fixed_opt perl_opt : Bool)
    (spat bytes pad : List Nat) (enc : cetype_t) (fuel : Nat)
    (h0 : 0 ∉ L.translateChar bytes enc)
    (hinv : mbcsInvalid L (L.translateChar bytes enc) = true) :
    regexpr_elt L re fixed_opt perl_opt false .CE_NATIVE spat (.chr bytes enc) pad
        = .ok (-1, -1)
    ∧ gregexpr_elt L re fixed_opt false false .CE_NATIVE spat (.chr bytes enc) pad fuel
        = .ok [(-1, -1)] := by
  constructor
  · simp [regexpr_elt, cstrAt_zero _ pad h0, hinv, bind, Except.bind, pure, Except.pure]
  · simp [gregexpr_elt, cstrAt_zero _ pad h0, hinv, bind, Except.bind, pure, Except.pure]

theorem regexpr_invalid_input_witness :
    regexpr_elt utf8Locale aStar false false false .CE_NATIVE [97, 42]
        (.chr [0xFF] .CE_NATIVE) [] = .ok (-1, -1)
    ∧ gregexpr_elt utf8Locale aStar false false false .CE_NATIVE [97, 42]
        (.chr [0xFF] .CE_NATIVE) [] 8 = .ok [(-1, -1)] :=
  regexpr_invalid_input utf8Locale aStar false false [97, 42] [0xFF] [] .CE_NATIVE 8
    (by decide) rfl

/-- C19 (the code at the failing input): `gregexpr("ab", x, fixed = TRUE)` for the
UTF-8-tagged text "éab" in a single-byte locale gives the position 3, counted in bytes, where
the claim gives 2: `do_gregexpr` passes `CE_NATIVE`, not `ienc`, to `gregexpr_fixed`.  In a
UTF-8 locale the one-byte pattern "a" in "éa" also gives the position 3. -/
theorem do_gregexpr_fixed_utf8_positions :
    do_gregexpr sbcsLocale aStarLib no_gpregexpr (.chr [97, 98] .CE_NATIVE)
        [.chr [0xC3, 0xA9, 97, 98] .CE_UTF8] (fun _ => []) false true false true false 8
      = .ok [[(3, 2)]]
    ∧ do_gregexpr utf8Locale aStarLib no_gpregexpr (.chr [97] .CE_NATIVE)
        [.chr [0xC3, 0xA9, 97] .CE_UTF8] (fun _ => []) false true false true false 8
      = .ok [[(3, 1)]] :=
  ⟨rfl, rfl⟩

/-! ## Theorems: `grep` -/

/-- C15 (counterexample): `grep(NA, "a")` with `value` off is the integer vector with the one
element `NA`, not an empty result. -/
theorem do_grep_NA_pattern_not_empty :
    do_grep sbcsLocale aStarLib false .NA_STRING [.chr [97] .CE_NATIVE] (fun _ => [])
        false true false false false false false = .ok (.integers [NA_INTEGER])
    ∧ GrepResult.integers [NA_INTEGER] ≠ .integers [] :=
  ⟨rfl, by decide⟩

/-- C15 (amended): when the pattern given to `grep` is `NA`, the result has the length `n` of
the input in both value modes: with `value` on it is a vector of `n` NA strings, and with
`value` off it is a vector of `n` NA integers. -/
theorem do_grep_NA_pattern (L : Env) (R : RegexLib) (grepl : Bool) (vec : List RString)
    (pads : Nat → List Nat)
    (igcase_opt extended_opt value_opt perl_opt fixed_opt useBytes invert : Bool) :
    do_grep L R grepl .NA_STRING vec pads igcase_opt extended_opt value_opt perl_opt fixed_opt
        useBytes invert
      = if value_opt then .ok (.strings (List.replicate vec.length .NA_STRING))
        else .ok (.integers (List.replicate vec.length NA_INTEGER)) := by
  simp only [do_grep, ↓reduceIte, List.map_const']

/-- C14 (counterexample): `grep("a", c("b", NA), fixed = TRUE, invert = TRUE)` is `(1, 2)`: the
index 2 of the NA element is in the result with `invert` on, and `value = TRUE` returns the
NA element itself. -/
theorem do_grep_invert_includes_NA :
    do_grep sbcsLocale aStarLib false (.chr [97] .CE_NATIVE)
        [.chr [98] .CE_NATIVE, .NA_STRING] (fun _ => [])
        false true false false true false true = .ok (.integers [1, 2])
    ∧ do_grep sbcsLocale aStarLib false (.chr [97] .CE_NATIVE)
        [.chr [98] .CE_NATIVE, .NA_STRING] (fun _ => [])
        false true true false true false true
        = .ok (.strings [.chr [98] .CE_NATIVE, .NA_STRING]) :=
  ⟨rfl, rfl⟩

/-- C13 (counterexample): in a UTF-8 locale the native text with the bytes 61 FF contains the
pattern "a", and `grepl("a", x, fixed = TRUE)` is `FALSE` for it: a text that is invalid in the
locale is not searched. -/
theorem do_grepl_invalid_input_false :
    ([97] <:+: [97, 0xFF])
    ∧ do_grep utf8Locale aStarLib true (.chr [97] .CE_NATIVE) [.chr [97, 0xFF] .CE_NATIVE]
        (fun _ => []) false true false false true false false = .ok (.logical [false]) :=
  ⟨by decide, rfl⟩

theorem grep_elt_counted (L : Env) (re : regex_t)
    (fixed_opt perl_opt useBytes use_UTF8 : Bool) (ienc : cetype_t) (cpat : List Nat)
    (e : RString) (pad : List Nat) (a : Bool × Bool)
    (h : grep_elt L re fixed_opt perl_opt useBytes use_UTF8 false ienc cpat e pad = .ok a) :
    a.2 = a.1 := by
  cases e with
  | NA_STRING =>
    simp only [grep_elt] at h
    injection h with h; subst h; rfl
  | chr bytes enc =>
    simp only [grep_elt, bind, Except.bind, pure, Except.pure] at h
    split at h
    · cases h
    · split at h
      · injection h with h; subst h; rfl
      · split at h
        · split at h
          · cases h
          · injection h with h; subst h; simp
        · split at h
          · injection h with h; subst h; simp
          · injection h with h; subst h; simp

theorem grep_loop_returns (L : Env) (re : regex_t)
    (fixed_opt perl_opt useBytes use_UTF8 invert : Bool) (ienc : cetype_t) (cpat : List Nat)
    (pads : Nat → List Nat) :
    ∀ (vec : List RString) (i0 : Nat),
      (∀ j e, vec[j]? = some e → ∃ a,
        grep_elt L re fixed_opt perl_opt useBytes use_UTF8 invert ienc cpat e (pads (i0 + j))
          = .ok a) →
      ∃ r, grep_loop L re fixed_opt perl_opt useBytes use_UTF8 invert ienc cpat pads vec i0
          = .ok r
        ∧ r.length = vec.length
        ∧ ∀ j e, vec[j]? = some e → ∃ a,
            grep_elt L re fixed_opt perl_opt useBytes use_UTF8 invert ienc cpat e (pads (i0 + j))
              = .ok a ∧ r[j]? = some a := by
  intro vec
  induction vec with
  | nil =>
    intro i0 _
    exact ⟨[], rfl, rfl, by intro j e h; simp at h⟩
  | cons x rest ih =>
    intro i0 h
    obtain ⟨a, ha⟩ := h 0 x (by simp)
    rw [Nat.add_zero] at ha
    obtain ⟨r, hr, hlen, hget⟩ := ih (i0 + 1) (fun j e he => by
      have := h (j + 1) e (by simpa using he)
      have hidx : i0 + (j + 1) = i0 + 1 + j := by omega
      rw [hidx] at this
      exact this)
    refine ⟨a :: r, ?_, by simp [hlen], ?_⟩
    · simp only [grep_loop, ha, hr, bind, Except.bind, pure, Except.pure]
    · intro j e hj
      cases j with
      | zero =>
        simp only [List.getElem?_cons_zero, Option.some.injEq] at hj
        subst hj
        exact ⟨a, ha, by simp⟩
      | succ j =>
        simp only [List.getElem?_cons_succ] at hj
        obtain ⟨b, hb, hrb⟩ := hget j e hj
        refine ⟨b, ?_, by simpa using hrb⟩
        have : i0 + (j + 1) = i0 + 1 + j := by omega
        rw [this]
        exact hb

theorem grep_indices_length (invert : Bool) :
    ∀ (ind : List Bool) (i0 : Nat),
      (grep_indices invert ind i0).length = (ind.filter (fun b => xor invert b)).length := by
  intro ind
  induction ind with
  | nil => intro i0; rfl
  | cons b rest ih =>
    intro i0
    by_cases hb : xor invert b = true
    · simp [grep_indices, hb, List.filter_cons, ih (i0 + 1)]
    · simp only [Bool.not_eq_true] at hb
      simp [grep_indices, hb, List.filter_cons, ih (i0 + 1)]

theorem grep_indices_mem (invert : Bool) :
    ∀ (ind : List Bool) (i0 : Nat) (k : Int),
      k ∈ grep_indices invert ind i0 ↔
        ∃ j b, ind[j]? = some b ∧ xor invert b = true ∧ k = ((i0 + j : Nat) : Int) + 1 := by
  intro ind
  induction ind with
  | nil => intro i0 k; simp [grep_indices]
  | cons b rest ih =>
    intro i0 k
    have hstep : (∃ j c, (b :: rest)[j]? = some c ∧ xor invert c = true
          ∧ k = ((i0 + j : Nat) : Int) + 1)
        ↔ ((xor invert b = true ∧ k = (i0 : Int) + 1)
          ∨ ∃ j c, rest[j]? = some c ∧ xor invert c = true
              ∧ k = ((i0 + 1 + j : Nat) : Int) + 1) := by
      constructor
      · rintro ⟨j, c, hj, hc, hk⟩
        cases j with
        | zero =>
          simp only [List.getElem?_cons_zero, Option.some.injEq] at hj
          subst hj
          exact Or.inl ⟨hc, by simpa using hk⟩
        | succ j =>
          simp only [List.getElem?_cons_succ] at hj
          refine Or.inr ⟨j, c, hj, hc, ?_⟩
          have : i0 + (j + 1) = i0 + 1 + j := by omega
          rw [hk, this]
      · rintro (⟨hc, hk⟩ | ⟨j, c, hj, hc, hk⟩)
        · exact ⟨0, b, by simp, hc, by simpa using hk⟩
        · refine ⟨j + 1, c, by simpa using hj, hc, ?_⟩
          have : i0 + (j + 1) = i0 + 1 + j := by omega
          rw [hk, this]
    rw [hstep]
    by_cases hb : xor invert b = true
    · simp only [grep_indices, hb, ↓reduceIte, List.mem_cons, ih (i0 + 1) k, true_and]
    · have hb2 : xor invert b = false := by simpa using hb
      simp only [grep_indices, hb2, Bool.false_eq_true, ↓reduceIte, ih (i0 + 1) k, false_and,
        false_or]

theorem grep_indices_sorted (invert : Bool) :
    ∀ (ind : List Bool) (i0 : Nat), (grep_indices invert ind i0).Pairwise (fun a b => a < b) := by
  intro ind
  induction ind with
  | nil => intro i0; simp [grep_indices]
  | cons b rest ih =>
    intro i0
    by_cases hb : xor invert b = true
    · simp only [grep_indices, hb, ↓reduceIte, List.pairwise_cons]
      refine ⟨?_, ih (i0 + 1)⟩
      intro k hk
      obtain ⟨j, c, _, _, hkj⟩ := (grep_indices_mem invert rest (i0 + 1) k).mp hk
      rw [hkj]
      push_cast
      omega
    · have hb2 : xor invert b = false := by simpa using hb
      simp only [grep_indices, hb2, Bool.false_eq_true, ↓reduceIte]
      exact ih (i0 + 1)

theorem grep_values_length_le (invert : Bool) :
    ∀ (ind : List Bool) (vec : List RString),
      (grep_values invert ind vec).length ≤ (ind.filter (fun b => xor invert b)).length := by
  intro ind
  induction ind with
  | nil => intro vec; simp [grep_values]
  | cons b rest ih =>
    intro vec
    cases vec with
    | nil => simp [grep_values]
    | cons e es =>
      have := ih es
      by_cases hb : xor invert b = true
      · simp only [grep_values, hb, ↓reduceIte, List.length_cons, List.filter_cons]
        omega
      · have hb2 : xor invert b = false := by simpa using hb
        simp only [grep_values, hb2, Bool.false_eq_true, ↓reduceIte, List.filter_cons]
        exact this

theorem grep_values_mem (invert : Bool) (x : RString) :
    ∀ (ind : List Bool) (vec : List RString),
      x ∈ grep_values invert ind vec ↔
        ∃ (j : Nat) (b : Bool), ind[j]? = some b ∧ vec[j]? = some x ∧ xor invert b = true := by
  intro ind
  induction ind with
  | nil => intro vec; simp [grep_values]
  | cons b rest ih =>
    intro vec
    cases vec with
    | nil => simp [grep_values]
    | cons e es =>
      have hstep : (∃ (j : Nat) (c : Bool), (b :: rest)[j]? = some c ∧ (e :: es)[j]? = some x
            ∧ xor invert c = true)
          ↔ ((xor invert b = true ∧ e = x)
            ∨ ∃ (j : Nat) (c : Bool), rest[j]? = some c ∧ es[j]? = some x
              ∧ xor invert c = true) := by
        constructor
        · rintro ⟨j, c, hj, hx, hc⟩
          cases j with
          | zero =>
            simp only [List.getElem?_cons_zero, Option.some.injEq] at hj hx
            subst hj
            exact Or.inl ⟨hc, hx⟩
          | succ j =>
            simp only [List.getElem?_cons_succ] at hj hx
            exact Or.inr ⟨j, c, hj, hx, hc⟩
        · rintro (⟨hc, hx⟩ | ⟨j, c, hj, hx, hc⟩)
          · exact ⟨0, b, by simp, by simp [hx], hc⟩
          · exact ⟨j + 1, c, by simpa using hj, by simpa using hx, hc⟩
      rw [hstep]
      by_cases hb : xor invert b = true
      · simp only [grep_values, hb, ↓reduceIte, List.mem_cons, ih es, true_and]
        constructor
        · rintro (h | h)
          · exact Or.inl h.symm
          · exact Or.inr h
        · rintro (h | h)
          · exact Or.inl h.symm
          · exact Or.inr h
      · have hb2 : xor invert b = false := by simpa using hb
        simp only [grep_values, hb2, Bool.false_eq_true, ↓reduceIte, ih es, false_and, false_or]

theorem filter_counted (invert : Bool) (r : List (Bool × Bool))
    (hcount : ∀ a ∈ r, a.2 = xor invert a.1) :
    (r.filter (fun a => a.2)).length
      = ((r.map (fun a => a.1)).filter (fun b => xor invert b)).length := by
  induction r with
  | nil => rfl
  | cons a rest ih =>
    have ha := hcount a (by simp)
    have hrest := ih (fun b hb => hcount b (by simp [hb]))
    by_cases h2 : a.2 = true
    · have h1 : xor invert a.1 = true := by rw [← ha]; exact h2
      simp [List.filter_cons, h2, h1, hrest]
    · have h2f : a.2 = false := by simpa using h2
      have h1 : xor invert a.1 = false := by rw [← ha]; exact h2f
      simp [List.filter_cons, h2f, h1, hrest]

theorem do_grep_eq (L : Env) (R : RegexLib) (grepl : Bool) (pat : RString)
    (vec : List RString) (pads : Nat → List Nat)
    (igcase_opt extended_opt value_opt perl_opt fixed_opt useBytes0 invert : Bool)
    (useBytes use_UTF8 : Bool) (cpat : List Nat) (ienc : cetype_t) (re : regex_t)
    (r : List (Bool × Bool))
    (hpat : pat ≠ .NA_STRING)
    (huB : useBytes = if !(fixed_opt || perl_opt) && useBytes0 then false else useBytes0)
    (hU8 : use_UTF8 = ((fixed_opt || perl_opt) && !useBytes &&
      (decide (getCharCE pat = .CE_UTF8) || vec.any (fun e => getCharCE e = .CE_UTF8))))
    (hcpat : cpat = gsub_text L useBytes use_UTF8 pat)
    (hienc : ienc = if useBytes then cetype_t.CE_NATIVE
      else if use_UTF8 then cetype_t.CE_UTF8 else cetype_t.CE_NATIVE)
    (hvalid : (!useBytes && decide (ienc ≠ .CE_UTF8) && mbcsInvalid L cpat) = false)
    (hre : grep_compile R fixed_opt perl_opt cpat
      (grep_cflags L igcase_opt extended_opt perl_opt useBytes use_UTF8) = some re)
    (hloop : grep_loop L re fixed_opt perl_opt useBytes use_UTF8 invert ienc cpat pads vec 0
      = .ok r)
    (hcount : ∀ a ∈ r, a.2 = xor invert a.1) :
    do_grep L R grepl pat vec pads igcase_opt extended_opt value_opt perl_opt fixed_opt
        useBytes0 invert
      = if grepl then .ok (.logical (r.map (fun a => a.1)))
        else if value_opt then .ok (.strings (grep_values invert (r.map (fun a => a.1)) vec))
        else .ok (.integers (grep_indices invert (r.map (fun a => a.1)) 0)) := by
  have hn := filter_counted invert r hcount
  have hv := grep_values_length_le invert (r.map (fun a => a.1)) vec
  have hi := grep_indices_length invert (r.map (fun a => a.1)) 0
  unfold do_grep
  simp only [hpat, ↓reduceIte, ← huB, ← hU8, ← hcpat, ← hienc, hvalid, Bool.false_eq_true,
    hre, hloop, bind, Except.bind, pure, Except.pure]
  cases grepl with
  | true => simp
  | false =>
    cases value_opt with
    | true =>
      have : ¬ (grep_values invert (r.map (fun a => a.1)) vec).length
          > (r.filter (fun a => a.2)).length := by omega
      simp [this]
    | false =>
      have : ¬ (grep_indices invert (r.map (fun a => a.1)) 0).length
          > (r.filter (fun a => a.2)).length := by omega
      simp [this]

theorem utf8_mbrtowc_some (b : Nat) (r : List Nat) (u : Nat)
    (h : utf8_mbrtowc (b :: r) = some u) :
    u = utf8clen b ∧ 1 ≤ u ∧ u ≤ r.length + 1 ∧ (!(decide (0x80 ≤ b) && decide (b < 0xC0))) = true
      ∧ (r.take (u - 1)).all (fun x => decide (0x80 ≤ x) && decide (x < 0xC0)) = true := by
  have hcont : ∀ k, utf8_cont r k = true →
      k ≤ r.length ∧ (r.take k).all (fun x => decide (0x80 ≤ x) && decide (x < 0xC0)) = true := by
    intro k hk
    simp only [utf8_cont, Bool.and_eq_true, decide_eq_true_eq] at hk
    refine ⟨?_, hk.2⟩
    have := hk.1
    rw [List.length_take] at this
    omega
  simp only [utf8_mbrtowc] at h
  split at h
  · injection h with h; subst h
    rename_i hb
    refine ⟨?_, by omega, by omega, ?_, by simp⟩
    · simp only [utf8clen]
      rw [if_pos (by omega)]
    · simp only [Bool.not_eq_true', Bool.and_eq_false_imp, decide_eq_true_eq,
        decide_eq_false_iff_not]
      omega
  · split at h
    · rename_i hb1 hb2
      split at h
      · rename_i hc
        injection h with h; subst h
        obtain ⟨hk, hall⟩ := hcont 1 hc
        refine ⟨?_, by omega, by omega, ?_, hall⟩
        · simp only [utf8clen]
          rw [if_neg (by omega), if_pos (by omega)]
        · simp only [Bool.not_eq_true', Bool.and_eq_false_imp, decide_eq_true_eq,
            decide_eq_false_iff_not]
          omega
      · cases h
    · split at h
      · rename_i hb1 hb2 hb3
        split at h
        · rename_i hc
          injection h with h; subst h
          obtain ⟨hk, hall⟩ := hcont 2 hc
          refine ⟨?_, by omega, by omega, ?_, hall⟩
          · simp only [utf8clen]
            rw [if_neg (by omega), if_neg (by omega), if_pos (by omega)]
          · simp only [Bool.not_eq_true', Bool.and_eq_false_imp, decide_eq_true_eq,
              decide_eq_false_iff_not]
            omega
        · cases h
      · split at h
        · rename_i hb1 hb2 hb3 hb4
          split at h
          · rename_i hc
            injection h with h; subst h
            obtain ⟨hk, hall⟩ := hcont 3 hc
            refine ⟨?_, by omega, by omega, ?_, hall⟩
            · simp only [utf8clen]
              rw [if_neg (by omega), if_neg (by omega), if_neg (by omega), if_pos (by omega)]
            · simp only [Bool.not_eq_true', Bool.and_eq_false_imp, decide_eq_true_eq,
                decide_eq_false_iff_not]
              omega
          · cases h
        · cases h

theorem nchar_utf8_chars_valid (s pad : List Nat) (hs : 0 ∉ s) :
    ∀ (fuel p nc n fuelc : Nat), p ≤ s.length →
      utf8_mbstowcs fuel (s.drop p) = some n → s.length - p < fuelc →
      nchar_utf8_chars (s ++ 0 :: pad) fuelc p nc = .ok (nc + n)
        ∧ n = ((s.drop p).filter
            (fun b => !(decide (0x80 ≤ b) && decide (b < 0xC0)))).length := by
  intro fuel
  induction fuel with
  | zero => intro p nc n fuelc _ h; simp [utf8_mbstowcs] at h
  | succ fuel ih =>
    intro p nc n fuelc hp h hfc
    obtain ⟨fc, rfl⟩ : ∃ fc, fuelc = fc + 1 := ⟨fuelc - 1, by omega⟩
    by_cases hlt : p < s.length
    · obtain ⟨x, hrx, hdx, hx⟩ := text_at s pad p hs hlt
      rw [hdx] at h ⊢
      simp only [utf8_mbstowcs] at h
      cases hu : utf8_mbrtowc (x :: s.drop (p + 1)) with
      | none => simp [hu] at h
      | some u =>
        obtain ⟨hclen, hu1, hule, hlead, hcont⟩ := utf8_mbrtowc_some x _ u hu
        simp only [hu, Option.map_eq_some'] at h
        obtain ⟨m, hm, hn⟩ := h
        have hdrop : (x :: s.drop (p + 1)).drop u = s.drop (p + u) := by
          rw [← hdx, List.drop_drop]
        rw [hdrop] at hm
        have hlen : (s.drop (p + 1)).length = s.length - (p + 1) := List.length_drop _ _
        obtain ⟨hrun, hcount⟩ := ih (p + u) (nc + 1) m fc (by omega) hm (by omega)
        refine ⟨?_, ?_⟩
        · rw [nchar_utf8_chars]
          simp only [hrx, hx, ↓reduceIte, bind, Except.bind, pure, Except.pure, ← hclen]
          rw [hrun]
          congr 1
          omega
        · have hsplit : x :: s.drop (p + 1)
              = (x :: (s.drop (p + 1)).take (u - 1)) ++ s.drop (p + u) := by
            have h1 : (x :: s.drop (p + 1)).take u = x :: (s.drop (p + 1)).take (u - 1) := by
              obtain ⟨v, rfl⟩ : ∃ v, u = v + 1 := ⟨u - 1, by omega⟩
              simp
            rw [← h1, ← hdrop, List.take_append_drop]
          have hnone : ((s.drop (p + 1)).take (u - 1)).filter
              (fun b => !(decide (0x80 ≤ b) && decide (b < 0xC0))) = [] := by
            rw [List.filter_eq_nil_iff]
            intro a ha
            have := List.all_eq_true.mp hcont a ha
            simp [this]
          rw [hsplit, List.filter_append, List.filter_cons, if_pos hlead, hnone, ← hn, hcount]
          simp
    · have hpe : p = s.length := by omega
      subst hpe
      rw [List.drop_length] at h ⊢
      simp only [utf8_mbstowcs] at h
      injection h with h
      subst h
      refine ⟨?_, rfl⟩
      rw [nchar_utf8_chars]
      simp only [rd_terminator, ↓reduceIte, bind, Except.bind, pure, Except.pure, Nat.add_zero]

/-- C20: for a string `s` tagged as UTF-8 whose bytes are a sequence of complete UTF-8
sequences (`n` of them) without a zero byte, `nchar` with type "chars" returns `n`, which is the
number of the bytes of `s` that are not continuation bytes (80 to BF), and with type "bytes" it
returns the number of bytes of `s`, in every locale and for both values of `allowNA`. -/
theorem do_nchar_utf8_chars_bytes (L : Env) (W : WidthLib) (s : List Nat) (n : Nat)
    (pads : Nat → List Nat) (allowNA : Bool) (hs : 0 ∉ s)
    (hvalid : utf8_mbstowcs (s.length + 1) s = some n) :
    do_nchar L W [.chr s .CE_UTF8] pads [99, 104, 97, 114, 115] allowNA = .ok [(n : Int)]
    ∧ n = (s.filter (fun b => !(decide (0x80 ≤ b) && decide (b < 0xC0)))).length
    ∧ do_nchar L W [.chr s .CE_UTF8] pads [98, 121, 116, 101, 115] allowNA
        = .ok [(s.length : Int)] := by
  obtain ⟨hrun, hcount⟩ := nchar_utf8_chars_valid s (pads 0) hs (s.length + 1) 0 0 n
    (s.length + ((pads 0).length + 1) + 1) (Nat.zero_le _) hvalid (by omega)
  rw [Nat.zero_add] at hrun
  rw [List.drop_zero] at hcount
  have hb : strncmp_eq [98, 121, 116, 101, 115, 0] 0 [98, 121, 116, 101, 115, 0] 0 5
      = .ok true := by decide
  have hc1 : strncmp_eq [99, 104, 97, 114, 115, 0] 0 [98, 121, 116, 101, 115, 0] 0 5
      = .ok false := by decide
  have hc2 : strncmp_eq [99, 104, 97, 114, 115, 0] 0 [99, 104, 97, 114, 115, 0] 0 5
      = .ok true := by decide
  refine ⟨?_, hcount, ?_⟩
  · simp only [do_nchar, nchar_loop, nchar_elt, List.length_cons, List.length_nil]
    simp [hc1, hc2, hrun, bind, Except.bind, pure, Except.pure]
  · simp only [do_nchar, nchar_loop, nchar_elt, List.length_cons, List.length_nil]
    simp [hb, bind, Except.bind, pure, Except.pure]

theorem do_nchar_utf8_chars_bytes_witness :
    do_nchar utf8Locale unitWidth [.chr [99, 97, 102, 0xC3, 0xA9] .CE_UTF8] (fun _ => [])
        [99, 104, 97, 114, 115] false = .ok [((4 : Nat) : Int)]
    ∧ 4 = ([99, 97, 102, 0xC3, 0xA9].filter
        (fun b => !(decide (0x80 ≤ b) && decide (b < 0xC0)))).length
    ∧ do_nchar utf8Locale unitWidth [.chr [99, 97, 102, 0xC3, 0xA9] .CE_UTF8] (fun _ => [])
        [98, 121, 116, 101, 115] false = .ok [(([99, 97, 102, 0xC3, 0xA9].length : Nat) : Int)] :=
  do_nchar_utf8_chars_bytes utf8Locale unitWidth [99, 97, 102, 0xC3, 0xA9] 4 (fun _ => []) false
    (by decide) (by decide)

theorem strlen_text (s pad : List Nat) (p : Nat) (hs : 0 ∉ s) (h : p ≤ s.length) :
    strlen (s ++ 0 :: pad) p = .ok (s.length - p) := by
  simp [strlen, cstrAt_text s pad p hs h, Except.map]

theorem find_step_found (step : List Nat → Option Nat) (d : List Nat) (hd : d ≠ []) :
    ∀ (fuel : Nat) (l : List Nat) (off j : Nat),
      find_step step d fuel l off = some (some j) →
      ∃ i, j = off + i ∧ i + d.length ≤ l.length ∧ (l.drop i).take d.length = d := by
  intro fuel
  induction fuel with
  | zero => intro l off j h; simp [find_step] at h
  | succ fuel ih =>
    intro l off j h
    rw [find_step] at h
    split at h
    · cases h
    · rename_i hlen
      split at h
      · rename_i htake
        injection h with h
        injection h with h
        exact ⟨0, by omega, by omega, by simpa using htake⟩
      · split at h
        · cases h
        · cases h
        · rename_i u hu
          obtain ⟨i, hj, hle, htk⟩ := ih _ _ _ h
          rw [List.length_drop] at hle
          rw [List.drop_drop] at htk
          have hdl : 0 < d.length := List.length_pos.mpr hd
          exact ⟨u + 1 + i, by omega, by omega, htk⟩

theorem fgrep_scan1_find (text pad : List Nat) (tp c : Nat) (hs : 0 ∉ text) :
    ∀ (fuel n i : Nat) (r : Option Nat), tp + i + n = text.length →
      find_step (fun _ => some 1) [c] fuel (text.drop (tp + i)) i = some r →
      fgrep_scan1 (text ++ 0 :: pad) tp c n i
        = .ok (find_value r) := by
  intro fuel
  induction fuel with
  | zero => intro n i r _ h; simp [find_step] at h
  | succ fuel ih =>
    intro n i r hn h
    rw [find_step] at h
    cases n with
    | zero =>
      have hl : (text.drop (tp + i)).length < [c].length := by
        rw [List.length_drop]; simp; omega
      rw [if_pos hl] at h
      injection h with h
      subst h
      rfl
    | succ n =>
      have hl : ¬ (text.drop (tp + i)).length < [c].length := by
        rw [List.length_drop]; simp; omega
      rw [if_neg hl] at h
      obtain ⟨x, hrx, hdx, _⟩ := text_at text pad (tp + i) hs (by omega)
      rw [hdx] at h
      rw [fgrep_scan1, hrx]
      simp only [bind, Except.bind, pure, Except.pure]
      by_cases hxc : x = c
      · subst hxc
        simp only [List.length_singleton, List.take_succ_cons, List.take_zero, ↓reduceIte] at h
        injection h with h
        subst h
        simp [find_value]
      · have hne : ¬ (List.take [c].length (x :: List.drop (tp + i + 1) text) = [c]) := by
          simp [hxc]
        rw [if_neg hne] at h
        simp only [List.drop_succ_cons, List.drop_zero] at h
        rw [if_neg hxc]
        exact ih n (i + 1) r (by omega) h

theorem fgrep_scan_bytes_find (spat text pad : List Nat) (tp : Nat) (hs : 0 ∉ text)
    (hp : 0 ∉ spat) :
    ∀ (fuel n i : Nat) (r : Option Nat), tp + i ≤ text.length →
      n = text.length - (tp + i) + 1 - spat.length →
      find_step (fun _ => some 1) spat fuel (text.drop (tp + i)) i = some r →
      fgrep_scan_bytes (spat ++ [0]) (text ++ 0 :: pad) tp spat.length n i
        = .ok (find_value r) := by
  intro fuel
  induction fuel with
  | zero => intro n i r _ _ h; simp [find_step] at h
  | succ fuel ih =>
    intro n i r hi hn h
    rw [find_step] at h
    by_cases hl : (text.drop (tp + i)).length < spat.length
    · rw [if_pos hl] at h
      injection h with h
      subst h
      rw [List.length_drop] at hl
      have hn0 : n = 0 := by omega
      subst hn0
      rfl
    · rw [if_neg hl] at h
      rw [List.length_drop] at hl
      obtain ⟨m, rfl⟩ : ∃ m, n = m + 1 := ⟨n - 1, by omega⟩
      have hcmp := strncmp_eq_text spat [] text pad hp hs spat.length 0 (tp + i)
        (Nat.zero_le _) hi
      rw [fgrep_scan_bytes, hcmp]
      simp only [List.drop_zero, List.take_length, bind, Except.bind, pure, Except.pure]
      by_cases hm : (text.drop (tp + i)).take spat.length = spat
      · rw [if_pos hm] at h
        injection h with h
        subst h
        simp [hm, find_value]
      · rw [if_neg hm] at h
        have hm2 : ¬ (spat = (text.drop (tp + i)).take spat.length) := fun e => hm e.symm
        simp only [hm2, decide_False, Bool.false_eq_true, ↓reduceIte]
        have hlt : tp + i < text.length := by
          by_contra hge
          have : text.drop (tp + i) = [] := List.drop_eq_nil_of_le (by omega)
          have hsl : spat.length = 0 := by omega
          apply hm
          rw [this, List.length_eq_zero.mp hsl]
          rfl
        simp only [List.drop_drop] at h
        exact ih m (i + 1) r (by omega) (by omega) h

theorem fgrep_scan_mbcs_find (L : Env) (spat text pad : List Nat) (tp : Nat) (hs : 0 ∉ text)
    (hp : 0 ∉ spat) (hne : spat ≠ []) (htp : tp ≤ text.length) :
    ∀ (cf ib ff : Nat) (r : Option Nat), text.length - tp - ib < cf →
      find_step L.mbrtowc spat ff (text.drop (tp + ib)) ib = some r →
      fgrep_scan_mbcs L (spat ++ [0]) (text ++ 0 :: pad) tp spat.length (text.length - tp) cf ib
        = .ok (find_value r) := by
  have hpl : 0 < spat.length := List.length_pos.mpr hne
  intro cf
  induction cf with
  | zero => intro ib ff r hf _; omega
  | succ cf ih =>
    intro ib ff r hf h
    cases ff with
    | zero => simp [find_step] at h
    | succ ff =>
      rw [find_step] at h
      rw [fgrep_scan_mbcs]
      by_cases hl : (text.drop (tp + ib)).length < spat.length
      · rw [if_pos hl] at h
        injection h with h
        subst h
        rw [List.length_drop] at hl
        have : ¬ ((ib : Int) ≤ ((text.length - tp : Nat) : Int) - spat.length) := by omega
        rw [if_neg this]
        rfl
      · rw [if_neg hl] at h
        rw [List.length_drop] at hl
        have hle : (ib : Int) ≤ ((text.length - tp : Nat) : Int) - spat.length := by omega
        have hi : tp + ib ≤ text.length := by omega
        rw [if_pos hle]
        have hcmp := strncmp_eq_text spat [] text pad hp hs spat.length 0 (tp + ib)
          (Nat.zero_le _) hi
        rw [hcmp]
        simp only [List.drop_zero, List.take_length, bind, Except.bind, pure, Except.pure]
        by_cases hm : (text.drop (tp + ib)).take spat.length = spat
        · rw [if_pos hm] at h
          injection h with h
          subst h
          simp [hm, find_value]
        · rw [if_neg hm] at h
          have hm2 : ¬ (spat = (text.drop (tp + ib)).take spat.length) := fun e => hm e.symm
          have hnil : text.drop (tp + ib) ≠ [] := by
            intro e
            have := congrArg List.length e
            rw [List.length_drop] at this
            simp at this
            omega
          simp only [hm2, decide_False, Bool.false_eq_true, ↓reduceIte, Mbrtowc,
            cstrAt_text text pad (tp + ib) hs hi, bind, Except.bind, pure, Except.pure, hnil]
          cases hst : L.mbrtowc (text.drop (tp + ib)) with
          | none => simp [hst] at h
          | some u =>
            cases u with
            | zero =>
              simp only [hst] at h
              injection h with h
              subst h
              simp [find_value]
            | succ u =>
              simp only [hst, List.drop_drop] at h
              have hu0 : u + 1 ≠ 0 := by omega
              simp only [hu0, ↓reduceIte]
              have hidx : tp + ib + (u + 1) = tp + (ib + (u + 1)) := by omega
              rw [hidx] at h
              exact ih (ib + (u + 1)) ff r (by omega) h

theorem fgrep_one_bytes_find (L : Env) (spat text pad : List Nat) (tp : Nat) (useBytes : Bool)
    (hs : 0 ∉ text) (hp : 0 ∉ spat) (hne : spat ≠ []) (htp : tp ≤ text.length)
    (ff : Nat) (r : Option Nat)
    (h : find_step (gsub_scan L useBytes spat) spat ff (text.drop tp) 0 = some r) :
    fgrep_one_bytes L (spat ++ [0]) (text ++ 0 :: pad) tp useBytes
      = .ok (find_value r) := by
  have hlen : spat.length ≠ 0 := fun h => hne (List.length_eq_zero.mp h)
  unfold fgrep_one_bytes
  simp only [strlen_zero spat [] hp, strlen_text text pad tp hs htp, bind, Except.bind, pure,
    Except.pure, hlen, ↓reduceIte]
  by_cases h1 : spat.length = 1
  · obtain ⟨c, rfl⟩ := List.length_eq_one.mp h1
    have hrd : rd ([c] ++ [0]) 0 = .ok c := rfl
    simp only [List.length_singleton, ↓reduceIte, hrd]
    have hstep : gsub_scan L useBytes [c] = fun _ => some 1 := by
      simp [gsub_scan]
    rw [hstep] at h
    have h2 : find_step (fun _ => some 1) [c] ff (text.drop (tp + 0)) 0 = some r := h
    exact fgrep_scan1_find text pad tp c hs ff (text.length - tp) 0 r (by omega) h2
  · rw [if_neg h1]
    by_cases hm : (!useBytes && L.mbcslocale) = true
    · rw [if_pos hm]
      have hstep : gsub_scan L useBytes spat = L.mbrtowc := by
        simp only [gsub_scan]
        rw [if_pos ⟨h1, hm⟩]
      rw [hstep] at h
      have h2 : find_step L.mbrtowc spat ff (text.drop (tp + 0)) 0 = some r := h
      exact fgrep_scan_mbcs_find L spat text pad tp hs hp hne htp _ 0 ff r (by omega) h2
    · rw [if_neg hm]
      have hstep : gsub_scan L useBytes spat = fun _ => some 1 := by
        simp only [gsub_scan]
        rw [if_neg (fun hh => hm hh.2)]
      rw [hstep] at h
      have h2 : find_step (fun _ => some 1) spat ff (text.drop (tp + 0)) 0 = some r := h
      refine fgrep_scan_bytes_find spat text pad tp hs hp ff _ 0 r (by omega) ?_ h2
      have hpl : 0 < spat.length := List.length_pos.mpr hne
      omega

theorem weave_cons (p : List Nat) (ps : List (List Nat)) (sep rem : List Nat) :
    weave (p :: ps) sep rem = p ++ sep ++ weave ps sep rem := by
  simp [weave]

theorem weave_nil (sep rem : List Nat) : weave [] sep rem = rem := by
  simp [weave]

theorem weave_length (ps : List (List Nat)) (a b rem : List Nat) :
    (weave ps a rem).length + ps.length * b.length
      = (weave ps b rem).length + ps.length * a.length := by
  induction ps with
  | nil => simp [weave]
  | cons p ps ih =>
    rw [weave_cons, weave_cons]
    simp only [List.length_append, List.length_cons, Nat.add_mul, Nat.one_mul]
    omega

theorem weave_not_mem (ps : List (List Nat)) (sep rem : List Nat)
    (hps : ∀ p ∈ ps, 0 ∉ p) (hsep : 0 ∉ sep) (hrem : 0 ∉ rem) : 0 ∉ weave ps sep rem := by
  induction ps with
  | nil => simpa [weave] using hrem
  | cons p ps ih =>
    rw [weave_cons]
    have h1 := hps p (by simp)
    have h2 := ih (fun q hq => hps q (by simp [hq]))
    simp only [List.mem_append, not_or]
    exact ⟨⟨h1, hsep⟩, h2⟩

theorem scan_step_cons (step : List Nat → Option Nat) (d : List Nat) (hd : d ≠ [])
    (fs : Nat) (l piece : List Nat) (pieces : List (List Nat)) (rem : List Nat)
    (h : scan_step step d fs l = some (piece :: pieces, rem)) :
    ∃ fs1, piece.length + d.length ≤ l.length ∧ piece = l.take piece.length
      ∧ (l.drop piece.length).take d.length = d
      ∧ find_step step d (l.length + 1) l 0 = some (some piece.length)
      ∧ scan_step step d fs1 (l.drop (piece.length + d.length)) = some (pieces, rem) := by
  cases fs with
  | zero => simp [scan_step] at h
  | succ fs =>
    rw [scan_step] at h
    cases hf : find_step step d (l.length + 1) l 0 with
    | none => simp [hf] at h
    | some r =>
      cases r with
      | none => simp [hf] at h
      | some i =>
        simp only [hf, Option.map_eq_some'] at h
        obtain ⟨r2, hr2, heq⟩ := h
        obtain ⟨i2, hi2, hle, htk⟩ := find_step_found step d hd _ _ _ _ hf
        have hii : i2 = i := by omega
        subst hii
        injection heq with h1 h2
        injection h1 with h1 h3
        have hlen : piece.length = i2 := by
          rw [← h1, List.length_take]
          omega
        refine ⟨fs, by omega, ?_, ?_, ?_, ?_⟩
        · rw [hlen]; exact h1.symm
        · rw [hlen]; exact htk
        · rw [hlen]
        · rw [hlen, hr2]
          cases r2
          simp only at h3 h2
          rw [h3, h2]

theorem scan_step_weave (step : List Nat → Option Nat) (d : List Nat) (hd : d ≠ []) :
    ∀ (pieces : List (List Nat)) (fs : Nat) (l rem : List Nat),
      scan_step step d fs l = some (pieces, rem) → l = weave pieces d rem := by
  intro pieces
  induction pieces with
  | nil =>
    intro fs l rem h
    cases fs with
    | zero => simp [scan_step] at h
    | succ fs =>
      rw [scan_step] at h
      cases hf : find_step step d (l.length + 1) l 0 with
      | none => simp [hf] at h
      | some r =>
        cases r with
        | none =>
          simp only [hf] at h
          injection h with h
          injection h with _ h2
        | some i =>
          simp only [hf, Option.map_eq_some'] at h
          obtain ⟨r2, _, heq⟩ := h
          injection heq with h1 _
          cases h1
  | cons piece pieces ih =>
    intro fs l rem h
    obtain ⟨fs1, hle, hpiece, htk, _, hrest⟩ := scan_step_cons step d hd fs l piece pieces rem h
    rw [weave_cons, ← ih fs1 _ rem hrest]
    have h1 : l = l.take piece.length ++ l.drop piece.length := (List.take_append_drop _ _).symm
    have h2 : l.drop piece.length
        = (l.drop piece.length).take d.length ++ (l.drop piece.length).drop d.length :=
      (List.take_append_drop _ _).symm
    rw [htk, List.drop_drop] at h2
    rw [List.append_assoc, ← h2, ← hpiece] at *
    exact h1

theorem scan_step_pieces_mem (step : List Nat → Option Nat) (d : List Nat) (hd : d ≠ []) :
    ∀ (pieces : List (List Nat)) (fs : Nat) (l rem : List Nat),
      scan_step step d fs l = some (pieces, rem) → 0 ∉ l →
      (∀ p ∈ pieces, 0 ∉ p) ∧ 0 ∉ rem := by
  intro pieces fs l rem h hl
  have hw := scan_step_weave step d hd pieces fs l rem h
  rw [hw] at hl
  constructor
  · intro p hp h0
    apply hl
    simp only [weave, List.mem_append, List.mem_flatten, List.mem_map]
    exact Or.inl ⟨p ++ d, ⟨p, hp, rfl⟩, by simp [h0]⟩
  · intro h0
    apply hl
    simp only [weave, List.mem_append]
    exact Or.inr h0

theorem scan_step_nil (step : List Nat → Option Nat) (d : List Nat)
    (fs : Nat) (l rem : List Nat) (h : scan_step step d fs l = some ([], rem)) :
    rem = l ∧ find_step step d (l.length + 1) l 0 = some none := by
  cases fs with
  | zero => simp [scan_step] at h
  | succ fs =>
    rw [scan_step] at h
    cases hf : find_step step d (l.length + 1) l 0 with
    | none => simp [hf] at h
    | some r =>
      cases r with
      | none =>
        simp only [hf] at h
        injection h with h
        injection h with _ h2
        exact ⟨h2.symm, rfl⟩
      | some i =>
        simp only [hf, Option.map_eq_some'] at h
        obtain ⟨r2, _, heq⟩ := h
        injection heq with h1 _
        cases h1

theorem gsub_fixed_count_scan (L : Env) (spat text pad : List Nat) (useBytes : Bool)
    (hs : 0 ∉ text) (hp : 0 ∉ spat) (hne : spat ≠ []) :
    ∀ (pieces : List (List Nat)) (fs ss sst nr fuel : Nat) (rem : List Nat),
      ss + sst + spat.length ≤ text.length →
      scan_step (gsub_scan L useBytes spat) spat fs (text.drop (ss + sst + spat.length))
        = some (pieces, rem) →
      pieces.length < fuel →
      gsub_fixed_count L (spat ++ [0]) (text ++ 0 :: pad) spat.length useBytes fuel ss sst nr
        = .ok (nr + 1 + pieces.length) := by
  intro pieces
  induction pieces with
  | nil =>
    intro fs ss sst nr fuel rem hle h hfuel
    obtain ⟨f, rfl⟩ : ∃ f, fuel = f + 1 := ⟨fuel - 1, by omega⟩
    obtain ⟨_, hf⟩ := scan_step_nil _ spat fs _ rem h
    have hfind := fgrep_one_bytes_find L spat text pad (ss + sst + spat.length) useBytes
      hs hp hne hle _ _ hf
    rw [gsub_fixed_count]
    simp only [hfind, find_value, bind, Except.bind, pure, Except.pure]
    simp
  | cons piece pieces ih =>
    intro fs ss sst nr fuel rem hle h hfuel
    obtain ⟨f, rfl⟩ : ∃ f, fuel = f + 1 := ⟨fuel - 1, by omega⟩
    obtain ⟨fs1, hple, _, _, hf, hrest⟩ := scan_step_cons _ spat hne fs _ piece pieces rem h
    rw [List.length_drop] at hple
    have hfind := fgrep_one_bytes_find L spat text pad (ss + sst + spat.length) useBytes
      hs hp hne hle _ _ hf
    rw [List.drop_drop] at hrest
    have hidx : ss + sst + spat.length + (piece.length + spat.length)
        = ss + sst + spat.length + piece.length + spat.length := by omega
    rw [hidx] at hrest
    have hrec := ih fs1 (ss + sst + spat.length) piece.length (nr + 1) f rem (by omega) hrest
      (by simp at hfuel; omega)
    rw [gsub_fixed_count]
    simp only [hfind, find_value, bind, Except.bind, pure, Except.pure]
    have hge : (piece.length : Int) ≥ 0 := by omega
    simp only [hge, ↓reduceIte, Int.toNat_ofNat, hrec, List.length_cons]
    congr 1
    omega

theorem gsub_fixed_write_scan (L : Env) (spat text t pad : List Nat) (useBytes : Bool)
    (hs : 0 ∉ text) (hp : 0 ∉ spat) (hne : spat ≠ []) :
    ∀ (pieces : List (List Nat)) (fs sp st fuel : Nat) (u rem : List Nat),
      sp + st + spat.length ≤ text.length →
      scan_step (gsub_scan L useBytes spat) spat fs (text.drop (sp + st + spat.length))
        = some (pieces, rem) →
      pieces.length < fuel →
      ∃ spf, gsub_fixed_write L (spat ++ [0]) (text ++ 0 :: pad) t spat.length useBytes true
            fuel sp st u
          = .ok (u ++ (text.drop sp).take st ++ t ++ (pieces.map (fun p => p ++ t)).flatten, spf)
        ∧ spf ≤ text.length ∧ text.drop spf = rem := by
  intro pieces
  induction pieces with
  | nil =>
    intro fs sp st fuel u rem hle h hfuel
    obtain ⟨f, rfl⟩ : ∃ f, fuel = f + 1 := ⟨fuel - 1, by omega⟩
    obtain ⟨h2, hf⟩ := scan_step_nil _ spat fs _ rem h
    have hfind := fgrep_one_bytes_find L spat text pad (sp + st + spat.length) useBytes
      hs hp hne hle _ _ hf
    refine ⟨sp + st + spat.length, ?_, hle, h2.symm⟩
    rw [gsub_fixed_write]
    simp only [cstrAt_text text pad sp hs (by omega), hfind, find_value, bind,
      Except.bind, pure, Except.pure]
    simp
  | cons piece pieces ih =>
    intro fs sp st fuel u rem hle h hfuel
    obtain ⟨f, rfl⟩ : ∃ f, fuel = f + 1 := ⟨fuel - 1, by omega⟩
    obtain ⟨fs1, hple, hpiece, _, hf, hrest⟩ := scan_step_cons _ spat hne fs _ piece pieces rem h
    rw [List.length_drop] at hple
    have hfind := fgrep_one_bytes_find L spat text pad (sp + st + spat.length) useBytes
      hs hp hne hle _ _ hf
    rw [List.drop_drop] at hrest
    have hidx : sp + st + spat.length + (piece.length + spat.length)
        = sp + st + spat.length + piece.length + spat.length := by omega
    rw [hidx] at hrest
    obtain ⟨spf, hrec, hspf, hrem⟩ := ih fs1 (sp + st + spat.length) piece.length f
      (u ++ (text.drop sp).take st ++ t) rem (by omega) hrest (by simp at hfuel; omega)
    refine ⟨spf, ?_, hspf, hrem⟩
    rw [gsub_fixed_write]
    simp only [cstrAt_text text pad sp hs (by omega), hfind, find_value, bind,
      Except.bind, pure, Except.pure]
    have hge : (piece.length : Int) ≥ 0 := by omega
    rw [← hpiece] at hrec
    simp only [hge, ↓reduceIte, Int.toNat_ofNat]
    rw [hrec]
    simp only [List.map_cons, List.flatten_cons, List.append_assoc]

theorem do_gsub_elt_fixed_scan (L : Env) (re : regex_t) (global useBytes use_UTF8 : Bool)
    (pat rep : RString) (spat srep bytes : List Nat) (enc : cetype_t) (pad : List Nat)
    (fuel fs : Nat) (piece : List Nat) (pieces : List (List Nat)) (rem : List Nat)
    (hpat : pat ≠ .NA_STRING) (hrep : rep ≠ .NA_STRING)
    (h0 : 0 ∉ gsub_text L useBytes use_UTF8 (.chr bytes enc)) (h0p : 0 ∉ spat)
    (h0r : 0 ∉ srep) (hne : spat ≠ [])
    (hvalid : mbcsInvalid L (gsub_text L useBytes use_UTF8 (.chr bytes enc)) = false)
    (hscan : scan_step (gsub_scan L useBytes spat) spat fs
      (gsub_text L useBytes use_UTF8 (.chr bytes enc)) = some (piece :: pieces, rem))
    (hfuel : pieces.length < fuel) :
    do_gsub_elt L re global true useBytes use_UTF8 pat rep spat srep (.chr bytes enc) pad fuel
      = .ok (if useBytes then
          .chr (if global then weave (piece :: pieces) srep rem
            else weave [piece] srep (weave pieces spat rem)) .CE_NATIVE
        else markKnown L (if global then weave (piece :: pieces) srep rem
            else weave [piece] srep (weave pieces spat rem)) enc) := by
  generalize htext : gsub_text L useBytes use_UTF8 (.chr bytes enc) = text at *
  obtain ⟨fs1, hple, hpiece, _, hf, hrest⟩ := scan_step_cons _ spat hne fs _ piece pieces rem
    hscan
  have hfind := fgrep_one_bytes_find L spat text pad 0 useBytes h0 h0p hne (Nat.zero_le _) _ _
    hf
  have hw := scan_step_weave _ spat hne (piece :: pieces) fs text rem hscan
  have hwr := scan_step_weave _ spat hne pieces fs1 _ rem hrest
  obtain ⟨hpm, hrm⟩ := scan_step_pieces_mem _ spat hne (piece :: pieces) fs text rem hscan h0
  have hrest2 : scan_step (gsub_scan L useBytes spat) spat fs1
      (text.drop (0 + piece.length + spat.length)) = some (pieces, rem) := by
    rw [Nat.zero_add]; exact hrest
  have hge : ¬ ((piece.length : Int) < 0) := by omega
  have hlen := weave_length (piece :: pieces) spat srep rem
  rw [← hw] at hlen
  simp only [List.length_cons] at hlen
  unfold do_gsub_elt
  have hnna : RString.chr bytes enc ≠ .NA_STRING := by simp
  simp only [hnna, hpat, hrep, ↓reduceIte, htext, strlen_zero _ pad h0, cstrAt_zero _ pad h0,
    hvalid, bind, Except.bind, pure, Except.pure, Bool.false_eq_true, hfind, find_value, hge,
    Int.toNat_ofNat]
  cases global with
  | true =>
    obtain ⟨spf, hwrite, hspf, hrem⟩ := gsub_fixed_write_scan L spat text srep pad useBytes h0
      h0p hne pieces fs1 0 piece.length fuel [] rem (by omega) hrest2 hfuel
    have hcount := gsub_fixed_count_scan L spat text pad useBytes h0 h0p hne pieces fs1 0
      piece.length 0 fuel rem (by omega) hrest2 hfuel
    have hu : [] ++ (text.drop 0).take piece.length ++ srep
          ++ (pieces.map (fun p => p ++ srep)).flatten ++ rem
        = weave (piece :: pieces) srep rem := by
      rw [List.drop_zero, ← hpiece]
      simp [weave]
    have h0u : 0 ∉ weave (piece :: pieces) srep rem := weave_not_mem _ _ _ hpm h0r hrm
    simp only [↓reduceIte, hcount, hwrite, cstrAt_text text pad spf h0 hspf, hrem, hu,
      mkChar_append_nul _ h0u]
    have hcap : ¬ (((weave (piece :: pieces) srep rem).length : Int)
        > (text.length : Int) + ((0 + 1 + pieces.length : Nat) : Int)
            * ((srep.length : Int) - (spat.length : Int))) := by
      have : ((weave (piece :: pieces) srep rem).length : Int)
          = (text.length : Int) + ((pieces.length + 1 : Nat) : Int)
              * ((srep.length : Int) - (spat.length : Int)) := by
        have h2 : ((text.length + (pieces.length + 1) * srep.length : Nat) : Int)
            = (((weave (piece :: pieces) srep rem).length
              + (pieces.length + 1) * spat.length : Nat) : Int) := by rw [hlen]
        push_cast at h2 ⊢
        linarith
      have e : ((0 + 1 + pieces.length : Nat) : Int) = ((pieces.length + 1 : Nat) : Int) := by
        congr 1
        omega
      rw [this, e]
      exact lt_irrefl _
    simp only [hcap, ↓reduceIte]
    cases useBytes <;> rfl
  | false =>
    obtain ⟨f, rfl⟩ : ∃ f, fuel = f + 1 := ⟨fuel - 1, by omega⟩
    have hu : [] ++ (text.drop 0).take piece.length ++ srep ++ text.drop (piece.length + spat.length)
        = weave [piece] srep (weave pieces spat rem) := by
      rw [List.drop_zero, ← hpiece, ← hwr]
      simp [weave]
    have h0u : 0 ∉ weave [piece] srep (weave pieces spat rem) := by
      refine weave_not_mem _ _ _ ?_ h0r ?_
      · intro p hp
        exact hpm p (by simp at hp; simp [hp])
      · exact weave_not_mem _ _ _ (fun p hp => hpm p (by simp [hp])) h0p hrm
    simp only [Bool.false_eq_true, ↓reduceIte, gsub_fixed_write,
      cstrAt_text text pad 0 h0 (Nat.zero_le _), bind, Except.bind, pure, Except.pure,
      Nat.zero_add, cstrAt_text text pad (piece.length + spat.length) h0 hple, hu,
      mkChar_append_nul _ h0u]
    have hcap : ¬ (((weave [piece] srep (weave pieces spat rem)).length : Int)
        > (text.length : Int) + ((1 : Nat) : Int)
            * ((srep.length : Int) - (spat.length : Int))) := by
      have h1 : (weave [piece] srep (weave pieces spat rem)).length + spat.length
          = text.length + srep.length := by
        have := weave_length [piece] srep spat (weave pieces spat rem)
        have e2 : weave [piece] spat (weave pieces spat rem) = text := by
          rw [hw]
          simp [weave]
        rw [e2] at this
        simp only [List.length_cons, List.length_nil, Nat.zero_add, Nat.one_mul] at this
        exact this
      omega
    simp only [hcap, ↓reduceIte]
    cases useBytes <;> rfl

/-- C11: in fixed mode, for a pattern `spat` that is not empty, a replacement that is not `NA`
and a text in which the left-to-right scan `scan_step` finds the occurrences of the pattern
after the pieces `piece :: pieces` and leaves the remainder `rem` (so the text is the pieces,
each followed by the pattern, and the remainder), `gsub` returns the pieces each followed by
the replacement, and the remainder; the byte length of this result is
`length(text) + n * (length(srep) - length(spat))` for the number `n` of occurrences, which is
the count that the counting pass `gsub_fixed_count` returns; `sub` replaces the first occurrence
only, and the length of its result is that formula with `n = 1`. -/
theorem do_gsub_fixed_replaces (L : Env) (R : RegexLib)
    (do_pgsub : RString → RString → List RString → Bool → Bool → Bool →
      Except Fault (List RString))
    (pat rep : RString) (bytes : List Nat) (enc : cetype_t) (pads : Nat → List Nat)
    (igcase_opt extended_opt perl_opt useBytes : Bool) (fuel : Nat) (use_UTF8 : Bool)
    (spat srep text piece : List Nat) (pieces : List (List Nat)) (rem : List Nat)
    (hpat : pat ≠ .NA_STRING) (hrep : rep ≠ .NA_STRING)
    (hU8 : use_UTF8 = (decide (getCharCE pat = .CE_UTF8) || decide (getCharCE rep = .CE_UTF8)
      || decide (enc = .CE_UTF8)))
    (hspat : spat = gsub_text L useBytes use_UTF8 pat)
    (hsrep : srep = gsub_text L useBytes use_UTF8 rep)
    (htext : text = gsub_text L useBytes use_UTF8 (.chr bytes enc))
    (hvp : mbcsInvalid L spat = false) (hvr : mbcsInvalid L srep = false)
    (hvt : mbcsInvalid L text = false)
    (h0p : 0 ∉ spat) (h0r : 0 ∉ srep) (h0t : 0 ∉ text) (hne : spat ≠ [])
    (hscan : scan_step (gsub_scan L useBytes spat) spat (text.length + 1) text
      = some (piece :: pieces, rem))
    (hfuel : pieces.length < fuel) :
    text = weave (piece :: pieces) spat rem
    ∧ do_gsub L R do_pgsub true pat rep [.chr bytes enc] pads igcase_opt extended_opt perl_opt
        true useBytes fuel
      = .ok [if useBytes then .chr (weave (piece :: pieces) srep rem) .CE_NATIVE
          else markKnown L (weave (piece :: pieces) srep rem) enc]
    ∧ ((weave (piece :: pieces) srep rem).length : Int)
      = (text.length : Int)
        + ((piece :: pieces).length : Int) * ((srep.length : Int) - (spat.length : Int))
    ∧ gsub_fixed_count L (spat ++ [0]) (text ++ 0 :: pads 0) spat.length useBytes fuel 0
        piece.length 0 = .ok (piece :: pieces).length
    ∧ do_gsub L R do_pgsub false pat rep [.chr bytes enc] pads igcase_opt extended_opt perl_opt
        true useBytes fuel
      = .ok [if useBytes then .chr (weave [piece] srep (weave pieces spat rem)) .CE_NATIVE
          else markKnown L (weave [piece] srep (weave pieces spat rem)) enc]
    ∧ ((weave [piece] srep (weave pieces spat rem)).length : Int)
      = (text.length : Int) + 1 * ((srep.length : Int) - (spat.length : Int)) := by
  have hw := scan_step_weave _ spat hne (piece :: pieces) _ text rem hscan
  obtain ⟨fs1, hple, _, _, _, hrest⟩ := scan_step_cons _ spat hne _ _ piece pieces rem hscan
  have hlen := weave_length (piece :: pieces) spat srep rem
  rw [← hw] at hlen
  have hU : (true && (decide (getCharCE pat = .CE_UTF8) || decide (getCharCE rep = .CE_UTF8)
      || [RString.chr bytes enc].any (fun e => getCharCE e = .CE_UTF8))) = use_UTF8 := by
    rw [hU8]
    simp [getCharCE]
  have hB : (if (!(true || perl_opt) && useBytes) = true then false else useBytes)
      = useBytes := by simp
  have hnz : ¬ (True ∧ spat.length = 0) := fun h => hne (List.length_eq_zero.mp h.2)
  have hrun : ∀ global, do_gsub L R do_pgsub global pat rep [.chr bytes enc] pads igcase_opt
      extended_opt perl_opt true useBytes fuel
      = .ok [if useBytes then
          .chr (if global then weave (piece :: pieces) srep rem
            else weave [piece] srep (weave pieces spat rem)) .CE_NATIVE
        else markKnown L (if global then weave (piece :: pieces) srep rem
            else weave [piece] srep (weave pieces spat rem)) enc] := by
    intro global
    have helt := do_gsub_elt_fixed_scan L regex_none global useBytes use_UTF8 pat rep spat srep
      bytes enc (pads 0) fuel _ piece pieces rem hpat hrep (htext ▸ h0t) h0p h0r hne
      (htext ▸ hvt) (htext ▸ hscan) hfuel
    unfold do_gsub
    simp only [hpat, ↓reduceIte, hB, hU, ← hspat, ← hsrep, hvp, hvr, Bool.not_true,
      Bool.and_false, Bool.false_eq_true, do_gsub_loop, helt, bind, Except.bind, pure,
      Except.pure]
    rw [if_neg hnz]
  refine ⟨hw, ?_, ?_, ?_, ?_, ?_⟩
  · rw [hrun true]
    rfl
  · have h2 : ((text.length + (piece :: pieces).length * srep.length : Nat) : Int)
        = (((weave (piece :: pieces) srep rem).length
          + (piece :: pieces).length * spat.length : Nat) : Int) := by rw [hlen]
    push_cast at h2 ⊢
    linarith
  · have hcount := gsub_fixed_count_scan L spat text (pads 0) useBytes h0t h0p hne pieces fs1 0
      piece.length 0 fuel rem (by omega) (by rw [Nat.zero_add]; exact hrest) hfuel
    rw [hcount, List.length_cons]
    congr 1
    omega
  · rw [hrun false]
    rfl
  · have := weave_length [piece] srep spat (weave pieces spat rem)
    have e2 : weave [piece] spat (weave pieces spat rem) = text := by
      rw [hw]
      simp [weave]
    rw [e2] at this
    simp only [List.length_cons, List.length_nil, Nat.zero_add, Nat.one_mul] at this
    omega

theorem do_gsub_fixed_replaces_witness :
    [99, 97, 98, 100, 97, 98, 101] = weave [[99], [100]] [97, 98] [101]
    ∧ do_gsub utf8Locale aStarLib no_pgsub true (.chr [97, 98] .CE_NATIVE)
        (.chr [120, 121, 122] .CE_NATIVE) [.chr [99, 97, 98, 100, 97, 98, 101] .CE_NATIVE]
        (fun _ => []) false true false true false 2
      = .ok [if false then .chr (weave [[99], [100]] [120, 121, 122] [101]) .CE_NATIVE
          else markKnown utf8Locale (weave [[99], [100]] [120, 121, 122] [101]) .CE_NATIVE]
    ∧ ((weave [[99], [100]] [120, 121, 122] [101]).length : Int)
      = ([99, 97, 98, 100, 97, 98, 101].length : Int)
        + (([[99], [100]] : List (List Nat)).length : Int)
          * (([120, 121, 122].length : Int) - ([97, 98].length : Int))
    ∧ gsub_fixed_count utf8Locale ([97, 98] ++ [0]) ([99, 97, 98, 100, 97, 98, 101] ++ 0 :: [])
        [97, 98].length false 2 0 [99].length 0 = .ok ([[99], [100]] : List (List Nat)).length
    ∧ do_gsub utf8Locale aStarLib no_pgsub false (.chr [97, 98] .CE_NATIVE)
        (.chr [120, 121, 122] .CE_NATIVE) [.chr [99, 97, 98, 100, 97, 98, 101] .CE_NATIVE]
        (fun _ => []) false true false true false 2
      = .ok [if false then .chr (weave [[99]] [120, 121, 122] (weave [[100]] [97, 98] [101]))
            .CE_NATIVE
          else markKnown utf8Locale (weave [[99]] [120, 121, 122] (weave [[100]] [97, 98] [101]))
            .CE_NATIVE]
    ∧ ((weave [[99]] [120, 121, 122] (weave [[100]] [97, 98] [101])).length : Int)
      = ([99, 97, 98, 100, 97, 98, 101].length : Int)
        + 1 * (([120, 121, 122].length : Int) - ([97, 98].length : Int)) :=
  do_gsub_fixed_replaces utf8Locale aStarLib no_pgsub (.chr [97, 98] .CE_NATIVE)
    (.chr [120, 121, 122] .CE_NATIVE) [99, 97, 98, 100, 97, 98, 101] .CE_NATIVE (fun _ => [])
    false true false false 2 false [97, 98] [120, 121, 122] [99, 97, 98, 100, 97, 98, 101] [99]
    [[100]] [101] (by decide) (by decide) rfl rfl rfl rfl rfl rfl rfl (by decide) (by decide)
    (by decide) (by decide) rfl (by decide)

theorem utf8clen_pos (b : Nat) : 1 ≤ utf8clen b := by
  unfold utf8clen
  split_ifs <;> omega

theorem fgrep_one_mbcs_find (L : Env) (spat text pad : List Nat) (tp : Nat) (hs : 0 ∉ text)
    (hp : 0 ∉ spat) (hne : spat ≠ []) (htp : tp ≤ text.length) :
    ∀ (cf ib i ff off : Nat) (r : Option Nat), text.length - tp - ib < cf →
      find_step L.mbrtowc spat ff (text.drop (tp + ib)) off = some r →
      ∃ v, fgrep_one_mbcs L (spat ++ [0]) (text ++ 0 :: pad) tp spat.length (text.length - tp)
          cf ib i = .ok v ∧ (v.1 ≥ 0 ↔ r.isSome = true) := by
  have hpl : 0 < spat.length := List.length_pos.mpr hne
  intro cf
  induction cf with
  | zero => intro ib i ff off r hf _; omega
  | succ cf ih =>
    intro ib i ff off r hf h
    cases ff with
    | zero => simp [find_step] at h
    | succ ff =>
      rw [find_step] at h
      rw [fgrep_one_mbcs]
      by_cases hl : (text.drop (tp + ib)).length < spat.length
      · rw [if_pos hl] at h
        injection h with h
        subst h
        rw [List.length_drop] at hl
        have : ¬ ((ib : Int) ≤ ((text.length - tp : Nat) : Int) - spat.length) := by omega
        rw [if_neg this]
        exact ⟨_, rfl, by simp⟩
      · rw [if_neg hl] at h
        rw [List.length_drop] at hl
        have hle : (ib : Int) ≤ ((text.length - tp : Nat) : Int) - spat.length := by omega
        have hi : tp + ib ≤ text.length := by omega
        rw [if_pos hle]
        have hcmp := strncmp_eq_text spat [] text pad hp hs spat.length 0 (tp + ib)
          (Nat.zero_le _) hi
        rw [hcmp]
        simp only [List.drop_zero, List.take_length, bind, Except.bind, pure, Except.pure]
        by_cases hm : (text.drop (tp + ib)).take spat.length = spat
        · rw [if_pos hm] at h
          injection h with h
          subst h
          refine ⟨((i : Int), some (ib + spat.length)), by simp [hm], ?_⟩
          simp
        · rw [if_neg hm] at h
          have hm2 : ¬ (spat = (text.drop (tp + ib)).take spat.length) := fun e => hm e.symm
          have hnil : text.drop (tp + ib) ≠ [] := by
            intro e
            have := congrArg List.length e
            rw [List.length_drop] at this
            simp at this
            omega
          simp only [hm2, decide_False, Bool.false_eq_true, ↓reduceIte, Mbrtowc,
            cstrAt_text text pad (tp + ib) hs hi, bind, Except.bind, pure, Except.pure, hnil]
          cases hst : L.mbrtowc (text.drop (tp + ib)) with
          | none => simp [hst] at h
          | some u =>
            cases u with
            | zero =>
              simp only [hst] at h
              injection h with h
              subst h
              exact ⟨(-1, none), by simp, by simp⟩
            | succ u =>
              simp only [hst, List.drop_drop] at h
              have hu0 : u + 1 ≠ 0 := by omega
              simp only [hu0, ↓reduceIte]
              have hidx : tp + ib + (u + 1) = tp + (ib + (u + 1)) := by omega
              rw [hidx] at h
              exact ih (ib + (u + 1)) (i + 1) ff _ r (by omega) h

theorem fgrep_one_utf8_find (spat text pad : List Nat) (tp : Nat) (hs : 0 ∉ text)
    (hp : 0 ∉ spat) (hne : spat ≠ []) (htp : tp ≤ text.length) :
    ∀ (cf ib i ff off : Nat) (r : Option Nat), text.length - tp - ib < cf →
      find_step (fun l => some (utf8clen (l.headD 0))) spat ff (text.drop (tp + ib)) off
        = some r →
      ∃ v, fgrep_one_utf8 (spat ++ [0]) (text ++ 0 :: pad) tp spat.length (text.length - tp)
          cf ib i = .ok v ∧ (v.1 ≥ 0 ↔ r.isSome = true) := by
  have hpl : 0 < spat.length := List.length_pos.mpr hne
  intro cf
  induction cf with
  | zero => intro ib i ff off r hf _; omega
  | succ cf ih =>
    intro ib i ff off r hf h
    cases ff with
    | zero => simp [find_step] at h
    | succ ff =>
      rw [find_step] at h
      rw [fgrep_one_utf8]
      by_cases hl : (text.drop (tp + ib)).length < spat.length
      · rw [if_pos hl] at h
        injection h with h
        subst h
        rw [List.length_drop] at hl
        have : ¬ ((ib : Int) ≤ ((text.length - tp : Nat) : Int) - spat.length) := by omega
        rw [if_neg this]
        exact ⟨_, rfl, by simp⟩
      · rw [if_neg hl] at h
        rw [List.length_drop] at hl
        have hle : (ib : Int) ≤ ((text.length - tp : Nat) : Int) - spat.length := by omega
        have hi : tp + ib < text.length := by omega
        rw [if_pos hle]
        have hcmp := strncmp_eq_text spat [] text pad hp hs spat.length 0 (tp + ib)
          (Nat.zero_le _) (by omega)
        rw [hcmp]
        simp only [List.drop_zero, List.take_length, bind, Except.bind, pure, Except.pure]
        by_cases hm : (text.drop (tp + ib)).take spat.length = spat
        · rw [if_pos hm] at h
          injection h with h
          subst h
          refine ⟨((i : Int), some (ib + spat.length)), by simp [hm], ?_⟩
          simp
        · rw [if_neg hm] at h
          have hm2 : ¬ (spat = (text.drop (tp + ib)).take spat.length) := fun e => hm e.symm
          obtain ⟨x, hrx, hdx, _⟩ := text_at text pad (tp + ib) hs hi
          obtain ⟨u, hu⟩ : ∃ u, utf8clen x = u + 1 :=
            ⟨utf8clen x - 1, by have := utf8clen_pos x; omega⟩
          simp only [hm2, decide_False, Bool.false_eq_true, ↓reduceIte, hrx]
          have hhead : (text.drop (tp + ib)).headD 0 = x := by rw [hdx]; rfl
          simp only [hhead, hu, List.drop_drop] at h
          have hidx : tp + ib + (u + 1) = tp + (ib + (u + 1)) := by omega
          rw [hidx] at h
          rw [hu]
          exact ih (ib + (u + 1)) (i + 1) ff _ r (by omega) h

theorem fgrep_one_find (L : Env) (cpat text pad : List Nat) (useBytes : Bool)
    (ienc : cetype_t) (hs : 0 ∉ text) (hp : 0 ∉ cpat) (ff : Nat) (r : Option Nat)
    (h : find_step (grep_scan L useBytes ienc cpat) cpat ff text 0 = some r) :
    ∃ v, fgrep_one L (cpat ++ [0]) (text ++ 0 :: pad) 0 useBytes ienc = .ok v
      ∧ (v.1 ≥ 0 ↔ r.isSome = true) := by
  unfold fgrep_one
  simp only [strlen_zero cpat [] hp, strlen_zero text pad hs, bind, Except.bind, pure,
    Except.pure]
  by_cases h0 : cpat.length = 0
  · have hnil : cpat = [] := List.length_eq_zero.mp h0
    subst hnil
    cases ff with
    | zero => simp [find_step] at h
    | succ ff =>
      simp only [find_step, List.length_nil, Nat.not_lt_zero, ↓reduceIte, List.take_zero] at h
      injection h with h
      subst h
      exact ⟨(0, some 1), by simp, by simp⟩
  · rw [if_neg h0]
    have hne : cpat ≠ [] := fun e => h0 (by rw [e]; rfl)
    by_cases h1 : cpat.length = 1
    · obtain ⟨c, rfl⟩ := List.length_eq_one.mp h1
      have hrd : rd ([c] ++ [0]) 0 = .ok c := rfl
      have hstep : grep_scan L useBytes ienc [c] = fun _ => some 1 := by
        simp [grep_scan]
      rw [hstep] at h
      have h2 : find_step (fun _ => some 1) [c] ff (text.drop (0 + 0)) 0 = some r := h
      have := fgrep_scan1_find text pad 0 c hs ff text.length 0 r (by omega) h2
      simp only [List.length_singleton, ↓reduceIte, hrd, this]
      refine ⟨_, rfl, ?_⟩
      cases r <;> simp [find_value]
    · rw [if_neg h1]
      by_cases hm : (!useBytes && L.mbcslocale) = true
      · rw [if_pos hm]
        have hstep : grep_scan L useBytes ienc cpat = L.mbrtowc := by
          simp only [grep_scan]
          rw [if_neg h1, if_pos hm]
        rw [hstep] at h
        have h2 : find_step L.mbrtowc cpat ff (text.drop (0 + 0)) 0 = some r := h
        exact fgrep_one_mbcs_find L cpat text pad 0 hs hp hne (Nat.zero_le _) _ 0 0 ff 0 r
          (by omega) h2
      · rw [if_neg hm]
        by_cases hu : (!useBytes && decide (ienc = .CE_UTF8)) = true
        · rw [if_pos hu]
          have hstep : grep_scan L useBytes ienc cpat
              = fun l => some (utf8clen (l.headD 0)) := by
            simp only [grep_scan]
            rw [if_neg h1, if_neg hm, if_pos hu]
          rw [hstep] at h
          have h2 : find_step (fun l => some (utf8clen (l.headD 0))) cpat ff
              (text.drop (0 + 0)) 0 = some r := h
          exact fgrep_one_utf8_find cpat text pad 0 hs hp hne (Nat.zero_le _) _ 0 0 ff 0 r
            (by omega) h2
        · rw [if_neg hu]
          have hstep : grep_scan L useBytes ienc cpat = fun _ => some 1 := by
            simp only [grep_scan]
            rw [if_neg h1, if_neg hm, if_neg hu]
          rw [hstep] at h
          have h2 : find_step (fun _ => some 1) cpat ff (text.drop (0 + 0)) 0 = some r := h
          have hpl : 0 < cpat.length := List.length_pos.mpr hne
          have := fgrep_scan_bytes_find cpat text pad 0 hs hp ff
            (((text.length : Int) - (cpat.length : Int) + 1).toNat) 0 r (by omega) (by omega) h2
          simp only [this]
          refine ⟨_, rfl, ?_⟩
          cases r <;> simp [find_value]

theorem find_step_total (step : List Nat → Option Nat) (d : List Nat)
    (hstep : ∀ l, step l ≠ none) :
    ∀ (fuel : Nat) (l : List Nat) (off : Nat), l.length < fuel →
      ∃ r, find_step step d fuel l off = some r := by
  intro fuel
  induction fuel with
  | zero => intro l off h; omega
  | succ fuel ih =>
    intro l off h
    rw [find_step]
    by_cases hl : l.length < d.length
    · rw [if_pos hl]; exact ⟨_, rfl⟩
    · rw [if_neg hl]
      by_cases hm : l.take d.length = d
      · rw [if_pos hm]; exact ⟨_, rfl⟩
      · rw [if_neg hm]
        cases hs : step l with
        | none => exact absurd hs (hstep l)
        | some u =>
          cases u with
          | zero => exact ⟨_, rfl⟩
          | succ u =>
            have hne : l ≠ [] := by
              intro e
              apply hm
              subst e
              have : d.length = 0 := by simpa using hl
              rw [List.length_eq_zero.mp this]
              rfl
            have hpos : 0 < l.length := List.length_pos.mpr hne
            exact ih (l.drop (u + 1)) (off + (u + 1)) (by rw [List.length_drop]; omega)

theorem find_step_bytes_infix (d : List Nat) :
    ∀ (fuel : Nat) (l : List Nat) (off : Nat), l.length < fuel →
      ((∃ j, find_step (fun _ => some 1) d fuel l off = some (some j)) ↔ d <:+: l) := by
  intro fuel
  induction fuel with
  | zero => intro l off h; omega
  | succ fuel ih =>
    intro l off h
    rw [find_step]
    by_cases hl : l.length < d.length
    · rw [if_pos hl]
      constructor
      · rintro ⟨j, hj⟩
        cases hj
      · intro hinf
        have := hinf.length_le
        omega
    · rw [if_neg hl]
      by_cases hm : l.take d.length = d
      · rw [if_pos hm]
        refine ⟨fun _ => ?_, fun _ => ⟨off, rfl⟩⟩
        exact infix_of_take_drop d l 0 (by simpa using hm)
      · rw [if_neg hm]
        cases l with
        | nil =>
          exfalso
          apply hm
          have : d.length = 0 := by simpa using hl
          rw [List.length_eq_zero.mp this]
          rfl
        | cons x l1 =>
          simp only [List.drop_succ_cons, List.drop_zero]
          rw [ih l1 (off + (0 + 1)) (by simp at h; omega), List.infix_cons_iff]
          constructor
          · intro hi; exact Or.inr hi
          · rintro (hp | hi)
            · exact absurd (List.prefix_iff_eq_take.mp hp).symm hm
            · exact hi

theorem grep_scan_bytes (L : Env) (useBytes : Bool) (ienc : cetype_t) (cpat : List Nat)
    (h : cpat.length = 1 ∨ ((!useBytes && L.mbcslocale) = false
      ∧ (!useBytes && decide (ienc = .CE_UTF8)) = false)) :
    grep_scan L useBytes ienc cpat = fun _ => some 1 := by
  simp only [grep_scan]
  rcases h with h1 | ⟨hm, hu⟩
  · rw [if_pos h1]
  · rw [hm, hu]
    simp

theorem grep_elt_hit (L : Env) (re : regex_t)
    (fixed_opt perl_opt useBytes use_UTF8 invert : Bool) (ienc : cetype_t) (cpat : List Nat)
    (e : RString) (pad : List Nat) (a : Bool × Bool)
    (h0 : 0 ∉ gsub_text L useBytes use_UTF8 e) (h0c : 0 ∉ cpat)
    (hdef : fixed_opt = true → ∃ r, find_step (grep_scan L useBytes ienc cpat) cpat
      ((gsub_text L useBytes use_UTF8 e).length + 1) (gsub_text L useBytes use_UTF8 e) 0
        = some r)
    (h : grep_elt L re fixed_opt perl_opt useBytes use_UTF8 invert ienc cpat e pad = .ok a) :
    a.1 = true ↔ grep_hit L re fixed_opt useBytes use_UTF8 ienc cpat e := by
  cases e with
  | NA_STRING =>
    simp only [grep_elt] at h
    injection h with h; subst h
    simp [grep_hit]
  | chr bytes enc =>
    have htext : (if useBytes then bytes
        else if use_UTF8 then L.translateCharUTF8 bytes enc
        else L.translateChar bytes enc) = gsub_text L useBytes use_UTF8 (.chr bytes enc) := rfl
    simp only [grep_elt, htext, cstrAt_zero _ pad h0, bind, Except.bind, pure,
      Except.pure] at h
    simp only [grep_hit]
    by_cases hinv : (!useBytes && !use_UTF8
        && mbcsInvalid L (gsub_text L useBytes use_UTF8 (.chr bytes enc))) = true
    · rw [if_pos hinv] at h
      injection h with h; subst h
      simp [hinv]
    · rw [if_neg hinv] at h
      have hinv2 : (!useBytes && !use_UTF8
          && mbcsInvalid L (gsub_text L useBytes use_UTF8 (.chr bytes enc))) = false := by
        simpa using hinv
      cases fixed_opt with
      | true =>
        obtain ⟨r, hr⟩ := hdef rfl
        obtain ⟨v, hv, hiff⟩ := fgrep_one_find L cpat _ pad useBytes ienc h0 h0c _ r hr
        simp only [↓reduceIte, hv] at h
        injection h with h; subst h
        simp only [hinv2, true_and, ↓reduceIte, decide_eq_true_eq, hiff, hr]
        cases r <;> simp
      | false =>
        simp only [Bool.false_eq_true, ↓reduceIte, ite_self] at h
        injection h with h; subst h
        simp [hinv2]

theorem grep_elt_returns (L : Env) (re : regex_t)
    (fixed_opt perl_opt useBytes use_UTF8 invert : Bool) (ienc : cetype_t) (cpat : List Nat)
    (e : RString) (pad : List Nat)
    (h0 : 0 ∉ gsub_text L useBytes use_UTF8 e) (h0c : 0 ∉ cpat)
    (hdef : fixed_opt = true → ∃ r, find_step (grep_scan L useBytes ienc cpat) cpat
      ((gsub_text L useBytes use_UTF8 e).length + 1) (gsub_text L useBytes use_UTF8 e) 0
        = some r) :
    ∃ a, grep_elt L re fixed_opt perl_opt useBytes use_UTF8 invert ienc cpat e pad = .ok a
      ∧ (e = .NA_STRING → a = (false, invert))
      ∧ ((!useBytes && !use_UTF8 && mbcsInvalid L (gsub_text L useBytes use_UTF8 e)) = false →
          a.2 = xor invert a.1) := by
  cases e with
  | NA_STRING =>
    refine ⟨(false, invert), rfl, fun _ => rfl, fun _ => ?_⟩
    simp
  | chr bytes enc =>
    have htext : (if useBytes then bytes
        else if use_UTF8 then L.translateCharUTF8 bytes enc
        else L.translateChar bytes enc) = gsub_text L useBytes use_UTF8 (.chr bytes enc) := rfl
    simp only [grep_elt, htext, cstrAt_zero _ pad h0, bind, Except.bind, pure, Except.pure]
    by_cases hinv : (!useBytes && !use_UTF8
        && mbcsInvalid L (gsub_text L useBytes use_UTF8 (.chr bytes enc))) = true
    · rw [if_pos hinv]
      refine ⟨(false, false), rfl, ?_, ?_⟩
      · intro h; cases h
      · intro h; rw [hinv] at h; exact absurd h (by decide)
    · rw [if_neg hinv]
      cases fixed_opt with
      | true =>
        obtain ⟨r, hr⟩ := hdef rfl
        obtain ⟨v, hv, _⟩ := fgrep_one_find L cpat _ pad useBytes ienc h0 h0c _ r hr
        simp only [↓reduceIte, hv]
        refine ⟨_, rfl, ?_, fun _ => rfl⟩
        intro h; cases h
      | false =>
        simp only [Bool.false_eq_true, ↓reduceIte, ite_self]
        refine ⟨_, rfl, ?_, fun _ => rfl⟩
        intro h; cases h

theorem grep_loop_run (L : Env) (re : regex_t)
    (fixed_opt perl_opt useBytes use_UTF8 invert : Bool) (ienc : cetype_t) (cpat : List Nat)
    (pads : Nat → List Nat) (vec : List RString)
    (h0 : ∀ e ∈ vec, 0 ∉ gsub_text L useBytes use_UTF8 e) (h0c : 0 ∉ cpat)
    (hdef : fixed_opt = true → ∀ e ∈ vec, ∃ r, find_step (grep_scan L useBytes ienc cpat) cpat
      ((gsub_text L useBytes use_UTF8 e).length + 1) (gsub_text L useBytes use_UTF8 e) 0
        = some r) :
    ∃ r, grep_loop L re fixed_opt perl_opt useBytes use_UTF8 invert ienc cpat pads vec 0 = .ok r
      ∧ r.length = vec.length
      ∧ ∀ j e, vec[j]? = some e → ∃ a,
          grep_elt L re fixed_opt perl_opt useBytes use_UTF8 invert ienc cpat e (pads j) = .ok a
          ∧ r[j]? = some a
          ∧ (e = .NA_STRING → a = (false, invert))
          ∧ ((!useBytes && !use_UTF8 && mbcsInvalid L (gsub_text L useBytes use_UTF8 e)) = false
              → a.2 = xor invert a.1) := by
  have hret : ∀ j e, vec[j]? = some e → ∃ a,
      grep_elt L re fixed_opt perl_opt useBytes use_UTF8 invert ienc cpat e (pads j) = .ok a
      ∧ (e = .NA_STRING → a = (false, invert))
      ∧ ((!useBytes && !use_UTF8 && mbcsInvalid L (gsub_text L useBytes use_UTF8 e)) = false
          → a.2 = xor invert a.1) := by
    intro j e hj
    exact grep_elt_returns L re fixed_opt perl_opt useBytes use_UTF8 invert ienc cpat e (pads j)
      (h0 e (List.getElem?_mem hj)) h0c (fun hf => hdef hf e (List.getElem?_mem hj))
  obtain ⟨r, hr, hlen, hget⟩ := grep_loop_returns L re fixed_opt perl_opt useBytes use_UTF8
    invert ienc cpat pads vec 0 (fun j e hj => by
      obtain ⟨a, ha, _⟩ := hret j e hj
      rw [Nat.zero_add]
      exact ⟨a, ha⟩)
  refine ⟨r, hr, hlen, ?_⟩
  intro j e hj
  obtain ⟨a, ha, hrj⟩ := hget j e hj
  rw [Nat.zero_add] at ha
  obtain ⟨a2, ha2, hna, hcnt⟩ := hret j e hj
  rw [ha] at ha2
  injection ha2 with ha2
  subst ha2
  exact ⟨a, ha, hrj, hna, hcnt⟩

/-- C13 (amended): with a pattern that is not `NA` and compiles, `grepl` returns a logical
vector of the length of the input whose entry `i` is `TRUE` exactly when element `i` is not
`NA`, its working text is not passed over as invalid in the locale, and it contains a match of
the pattern (the entry of an `NA` element is `FALSE`); `grep` with `value` and `invert` off
returns, in strictly increasing order, exactly the 1-based indices of the `TRUE` entries.
Here the working texts hold no zero byte and, with `fixed`, the scan for the pattern is
defined on every element (`mbrtowc` gives a length wherever the scan needs one). -/
theorem do_grep_match_indices (L : Env) (R : RegexLib) (pat : RString)
    (vec : List RString) (pads : Nat → List Nat)
    (igcase_opt extended_opt perl_opt fixed_opt useBytes0 : Bool)
    (useBytes use_UTF8 : Bool) (cpat : List Nat) (ienc : cetype_t) (re : regex_t)
    (hpat : pat ≠ .NA_STRING)
    (huB : useBytes = if !(fixed_opt || perl_opt) && useBytes0 then false else useBytes0)
    (hU8 : use_UTF8 = ((fixed_opt || perl_opt) && !useBytes &&
      (decide (getCharCE pat = .CE_UTF8) || vec.any (fun e => getCharCE e = .CE_UTF8))))
    (hcpat : cpat = gsub_text L useBytes use_UTF8 pat)
    (hienc : ienc = if useBytes then cetype_t.CE_NATIVE
      else if use_UTF8 then cetype_t.CE_UTF8 else cetype_t.CE_NATIVE)
    (hvalid : (!useBytes && decide (ienc ≠ .CE_UTF8) && mbcsInvalid L cpat) = false)
    (hre : grep_compile R fixed_opt perl_opt cpat
      (grep_cflags L igcase_opt extended_opt perl_opt useBytes use_UTF8) = some re)
    (h0 : ∀ e ∈ vec, 0 ∉ gsub_text L useBytes use_UTF8 e) (h0c : 0 ∉ cpat)
    (hdef : fixed_opt = true → ∀ e ∈ vec, ∃ r, find_step (grep_scan L useBytes ienc cpat) cpat
      ((gsub_text L useBytes use_UTF8 e).length + 1) (gsub_text L useBytes use_UTF8 e) 0
        = some r) :
    ∃ ind idx,
      (∀ value_opt, do_grep L R true pat vec pads igcase_opt extended_opt value_opt perl_opt
          fixed_opt useBytes0 false = .ok (.logical ind))
      ∧ ind.length = vec.length
      ∧ (∀ (i : Nat) (e : RString), vec[i]? = some e →
          (ind[i]? = some true ↔ grep_hit L re fixed_opt useBytes use_UTF8 ienc cpat e))
      ∧ (∀ i : Nat, vec[i]? = some RString.NA_STRING → ind[i]? = some false)
      ∧ do_grep L R false pat vec pads igcase_opt extended_opt false perl_opt fixed_opt
          useBytes0 false = .ok (.integers idx)
      ∧ idx.Pairwise (fun a b => a < b)
      ∧ ∀ k : Int, k ∈ idx ↔ ∃ i : Nat, ind[i]? = some true ∧ k = (i : Int) + 1 := by
  obtain ⟨r, hr, hlen, hget⟩ := grep_loop_run L re fixed_opt perl_opt useBytes use_UTF8 false
    ienc cpat pads vec h0 h0c hdef
  have hcount : ∀ a ∈ r, a.2 = xor false a.1 := by
    intro a ha
    obtain ⟨j, hjlt, hj⟩ := List.getElem_of_mem ha
    have hjv : j < vec.length := by omega
    obtain ⟨a2, ha2, hrj, _, _⟩ := hget j (vec.get ⟨j, hjv⟩) (by simp)
    have : r[j]? = some a := by rw [List.getElem?_eq_getElem hjlt, hj]
    rw [this] at hrj
    injection hrj with hrj
    subst hrj
    rw [grep_elt_counted L re fixed_opt perl_opt useBytes use_UTF8 ienc cpat _ _ a ha2]
    simp
  have heq := fun grepl value_opt => do_grep_eq L R grepl pat vec pads igcase_opt extended_opt
    value_opt perl_opt fixed_opt useBytes0 false useBytes use_UTF8 cpat ienc re r hpat huB hU8
    hcpat hienc hvalid hre hr hcount
  refine ⟨r.map (fun a => a.1), grep_indices false (r.map (fun a => a.1)) 0, ?_, ?_, ?_, ?_, ?_,
    grep_indices_sorted false _ 0, ?_⟩
  · intro value_opt
    rw [heq true value_opt]
    rfl
  · simp [hlen]
  · intro i e hi
    obtain ⟨a, ha, hri, _, _⟩ := hget i e hi
    have hmem := List.getElem?_mem hi
    rw [List.getElem?_map, hri, ← grep_elt_hit L re fixed_opt perl_opt useBytes use_UTF8 false
      ienc cpat e (pads i) a (h0 e hmem) h0c (fun hf => hdef hf e hmem) ha]
    simp
  · intro i hi
    obtain ⟨a, _, hri, hna, _⟩ := hget i _ hi
    rw [List.getElem?_map, hri, hna rfl]
    rfl
  · rw [heq false false]
    rfl
  · intro k
    rw [grep_indices_mem]
    constructor
    · rintro ⟨j, b, hj, hb, hk⟩
      refine ⟨j, ?_, by simpa using hk⟩
      rw [hj]
      simpa using hb
    · rintro ⟨i, hi, hk⟩
      exact ⟨i, true, hi, by simp, by simpa using hk⟩

theorem do_grep_match_indices_witness :
    do_grep utf8Locale aStarLib false (.chr [97, 112, 112, 108, 101] .CE_NATIVE)
        [.chr [97, 112, 112, 108, 101] .CE_NATIVE, .chr [98, 97, 110, 97, 110, 97] .CE_NATIVE,
          .NA_STRING] (fun _ => []) false true false false true false false
      = .ok (.integers [1])
    ∧ ∃ ind idx,
      (∀ value_opt, do_grep utf8Locale aStarLib true (.chr [97, 112, 112, 108, 101] .CE_NATIVE)
          [.chr [97, 112, 112, 108, 101] .CE_NATIVE,
            .chr [98, 97, 110, 97, 110, 97] .CE_NATIVE, .NA_STRING] (fun _ => [])
          false true value_opt false true false false = .ok (.logical ind))
      ∧ ind.length = [RString.chr [97, 112, 112, 108, 101] .CE_NATIVE,
            .chr [98, 97, 110, 97, 110, 97] .CE_NATIVE, .NA_STRING].length
      ∧ (∀ (i : Nat) (e : RString), [RString.chr [97, 112, 112, 108, 101] .CE_NATIVE,
            .chr [98, 97, 110, 97, 110, 97] .CE_NATIVE, .NA_STRING][i]? = some e →
          (ind[i]? = some true
            ↔ grep_hit utf8Locale regex_none true false false .CE_NATIVE
                [97, 112, 112, 108, 101] e))
      ∧ (∀ i : Nat, [RString.chr [97, 112, 112, 108, 101] .CE_NATIVE,
            .chr [98, 97, 110, 97, 110, 97] .CE_NATIVE, .NA_STRING][i]? = some RString.NA_STRING →
          ind[i]? = some false)
      ∧ do_grep utf8Locale aStarLib false (.chr [97, 112, 112, 108, 101] .CE_NATIVE)
          [.chr [97, 112, 112, 108, 101] .CE_NATIVE,
            .chr [98, 97, 110, 97, 110, 97] .CE_NATIVE, .NA_STRING] (fun _ => [])
          false true false false true false false = .ok (.integers idx)
      ∧ idx.Pairwise (fun a b => a < b)
      ∧ ∀ k : Int, k ∈ idx ↔ ∃ i : Nat, ind[i]? = some true ∧ k = (i : Int) + 1 :=
  ⟨rfl, do_grep_match_indices utf8Locale aStarLib (.chr [97, 112, 112, 108, 101] .CE_NATIVE)
    [.chr [97, 112, 112, 108, 101] .CE_NATIVE, .chr [98, 97, 110, 97, 110, 97] .CE_NATIVE,
      .NA_STRING] (fun _ => []) false true false true false false false
    [97, 112, 112, 108, 101] .CE_NATIVE regex_none (by decide) rfl rfl rfl rfl rfl rfl
    (by decide) (by decide)
    (by
      intro _ e he
      simp only [List.mem_cons, List.mem_singleton, List.not_mem_nil, or_false] at he
      rcases he with rfl | rfl | rfl <;> exact ⟨_, rfl⟩)⟩

/-- C14 (amended): an `NA` element of the input is counted as an element without a match: its
index is never in the result of `grep` with `invert` off and always in the result with `invert`
on, and with `value` on the result holds an `NA` element exactly when `invert` is on.  Here
the pattern is not `NA` and compiles, the working texts hold no zero byte, with `fixed` the
scan for the pattern is defined on every element, and with `invert` no element is passed over
as invalid in the locale. -/
theorem do_grep_NA_element (L : Env) (R : RegexLib) (pat : RString)
    (vec : List RString) (pads : Nat → List Nat)
    (igcase_opt extended_opt perl_opt fixed_opt useBytes0 invert : Bool)
    (useBytes use_UTF8 : Bool) (cpat : List Nat) (ienc : cetype_t) (re : regex_t) (i : Nat)
    (hpat : pat ≠ .NA_STRING)
    (huB : useBytes = if !(fixed_opt || perl_opt) && useBytes0 then false else useBytes0)
    (hU8 : use_UTF8 = ((fixed_opt || perl_opt) && !useBytes &&
      (decide (getCharCE pat = .CE_UTF8) || vec.any (fun e => getCharCE e = .CE_UTF8))))
    (hcpat : cpat = gsub_text L useBytes use_UTF8 pat)
    (hienc : ienc = if useBytes then cetype_t.CE_NATIVE
      else if use_UTF8 then cetype_t.CE_UTF8 else cetype_t.CE_NATIVE)
    (hvalid : (!useBytes && decide (ienc ≠ .CE_UTF8) && mbcsInvalid L cpat) = false)
    (hre : grep_compile R fixed_opt perl_opt cpat
      (grep_cflags L igcase_opt extended_opt perl_opt useBytes use_UTF8) = some re)
    (h0 : ∀ e ∈ vec, 0 ∉ gsub_text L useBytes use_UTF8 e) (h0c : 0 ∉ cpat)
    (hdef : fixed_opt = true → ∀ e ∈ vec, ∃ r, find_step (grep_scan L useBytes ienc cpat) cpat
      ((gsub_text L useBytes use_UTF8 e).length + 1) (gsub_text L useBytes use_UTF8 e) 0
        = some r)
    (hok : invert = true → ∀ e ∈ vec,
      (!useBytes && !use_UTF8 && mbcsInvalid L (gsub_text L useBytes use_UTF8 e)) = false)
    (hi : vec[i]? = some .NA_STRING) :
    ∃ idx vals,
      do_grep L R false pat vec pads igcase_opt extended_opt false perl_opt fixed_opt useBytes0
          invert = .ok (.integers idx)
      ∧ ((i : Int) + 1 ∈ idx ↔ invert = true)
      ∧ do_grep L R false pat vec pads igcase_opt extended_opt true perl_opt fixed_opt useBytes0
          invert = .ok (.strings vals)
      ∧ (RString.NA_STRING ∈ vals ↔ invert = true) := by
  obtain ⟨r, hr, hlen, hget⟩ := grep_loop_run L re fixed_opt perl_opt useBytes use_UTF8 invert
    ienc cpat pads vec h0 h0c hdef
  have hcount : ∀ a ∈ r, a.2 = xor invert a.1 := by
    intro a ha
    obtain ⟨j, hjlt, hj⟩ := List.getElem_of_mem ha
    have hjv : j < vec.length := by omega
    obtain ⟨a2, ha2, hrj, _, hcnt⟩ := hget j (vec.get ⟨j, hjv⟩) (by simp)
    have : r[j]? = some a := by rw [List.getElem?_eq_getElem hjlt, hj]
    rw [this] at hrj
    injection hrj with hrj
    subst hrj
    cases invert with
    | false =>
      rw [grep_elt_counted L re fixed_opt perl_opt useBytes use_UTF8 ienc cpat _ _ a ha2]
      simp
    | true => exact hcnt (hok rfl _ (List.get_mem vec j hjv))
  have heq := fun value_opt => do_grep_eq L R false pat vec pads igcase_opt extended_opt
    value_opt perl_opt fixed_opt useBytes0 invert useBytes use_UTF8 cpat ienc re r hpat huB hU8
    hcpat hienc hvalid hre hr hcount
  have hna : ∀ j : Nat, vec[j]? = some RString.NA_STRING →
      (r.map (fun a => a.1))[j]? = some false := by
    intro j hj
    obtain ⟨a, _, hrj, hna, _⟩ := hget j _ hj
    rw [List.getElem?_map, hrj, hna rfl]
    rfl
  refine ⟨grep_indices invert (r.map (fun a => a.1)) 0,
    grep_values invert (r.map (fun a => a.1)) vec, ?_, ?_, ?_, ?_⟩
  · rw [heq false]
    rfl
  · rw [grep_indices_mem]
    constructor
    · rintro ⟨j, b, hj, hb, hk⟩
      have hji : j = i := by
        have : ((0 + j : Nat) : Int) = (i : Int) := by omega
        simpa using this
      subst hji
      rw [hna j hi] at hj
      injection hj with hj
      subst hj
      simpa using hb
    · intro hinv
      exact ⟨i, false, hna i hi, by simp [hinv], by simp⟩
  · rw [heq true]
    rfl
  · rw [grep_values_mem]
    constructor
    · rintro ⟨j, b, hj, hv, hb⟩
      rw [hna j hv] at hj
      injection hj with hj
      subst hj
      simpa using hb
    · intro hinv
      exact ⟨i, false, hna i hi, hi, by simp [hinv]⟩

theorem do_grep_NA_element_witness :
    ∃ idx vals,
      do_grep utf8Locale aStarLib false (.chr [97] .CE_NATIVE)
          [.chr [98] .CE_NATIVE, .NA_STRING] (fun _ => []) false true false false true false
          true = .ok (.integers idx)
      ∧ (((1 : Nat) : Int) + 1 ∈ idx ↔ true = true)
      ∧ do_grep utf8Locale aStarLib false (.chr [97] .CE_NATIVE)
          [.chr [98] .CE_NATIVE, .NA_STRING] (fun _ => []) false true true false true false
          true = .ok (.strings vals)
      ∧ (RString.NA_STRING ∈ vals ↔ true = true) :=
  do_grep_NA_element utf8Locale aStarLib (.chr [97] .CE_NATIVE)
    [.chr [98] .CE_NATIVE, .NA_STRING] (fun _ => []) false true false true false true false false
    [97] .CE_NATIVE regex_none 1 (by decide) rfl rfl rfl rfl rfl rfl (by decide) (by decide)
    (by
      intro _ e he
      simp only [List.mem_cons, List.mem_singleton, List.not_mem_nil, or_false] at he
      rcases he with rfl | rfl <;> exact ⟨_, rfl⟩)
    (by intro _; decide) rfl

theorem grep_scan_total (L : Env) (useBytes : Bool) (ienc : cetype_t) (cpat : List Nat)
    (h : cpat.length = 1 ∨ (!useBytes && L.mbcslocale) = false) :
    ∀ l, grep_scan L useBytes ienc cpat l ≠ none := by
  intro l
  simp only [grep_scan]
  rcases h with h1 | hm
  · rw [if_pos h1]
    simp
  · rw [hm]
    split_ifs with h1 h2 h3
    · simp
    · exact absurd h2 (by decide)
    · simp
    · simp

theorem gsub_scan_total (L : Env) (useBytes : Bool) (spat : List Nat)
    (h : spat.length = 1 ∨ (!useBytes && L.mbcslocale) = false) :
    ∀ l, gsub_scan L useBytes spat l ≠ none := by
  intro l
  simp only [gsub_scan]
  rcases h with h1 | hm
  · rw [if_neg (fun hh => hh.1 h1)]
    simp
  · rw [hm]
    simp

theorem scan_step_total (step : List Nat → Option Nat) (d : List Nat) (hd : d ≠ [])
    (hstep : ∀ l, step l ≠ none) :
    ∀ (fs : Nat) (l : List Nat), l.length < fs → ∃ r, scan_step step d fs l = some r := by
  have hdl : 0 < d.length := List.length_pos.mpr hd
  intro fs
  induction fs with
  | zero => intro l h; omega
  | succ fs ih =>
    intro l h
    rw [scan_step]
    obtain ⟨r, hr⟩ := find_step_total step d hstep (l.length + 1) l 0 (by omega)
    rw [hr]
    cases r with
    | none => exact ⟨_, rfl⟩
    | some i =>
      obtain ⟨i2, hi2, hle, _⟩ := find_step_found step d hd _ _ _ _ hr
      obtain ⟨r2, hr2⟩ := ih (l.drop (i + d.length)) (by rw [List.length_drop]; omega)
      simp only [hr2, Option.map_some']
      exact ⟨_, rfl⟩

/-! ## Theorems: `nchar` on strings that do not decode -/

/-- C21 (the code at the failing input): in a UTF-8 locale, for the native string with the
single byte FF, `nchar(x, "width", allowNA = FALSE)` returns `NA` where the claim gives the
error, and `nchar(x, "width", allowNA = TRUE)` raises the error for an invalid multibyte string
where the claim gives `NA`: the width mode tests `allowNA` the wrong way round.  The mode
"chars" on the same string raises the error with `allowNA = FALSE` and gives `NA` with
`allowNA = TRUE`, the next element being counted. -/
theorem do_nchar_width_allowNA_reversed :
    do_nchar utf8Locale unitWidth [.chr [0xFF] .CE_NATIVE] (fun _ => [])
        [119, 105, 100, 116, 104] false = .ok [NA_INTEGER]
    ∧ do_nchar utf8Locale unitWidth [.chr [0xFF] .CE_NATIVE, .chr [97] .CE_NATIVE] (fun _ => [])
        [119, 105, 100, 116, 104] true = .error (.error .invalidMultibyte)
    ∧ do_nchar utf8Locale unitWidth [.chr [0xFF] .CE_NATIVE] (fun _ => [])
        [99, 104, 97, 114, 115] false = .error (.error .invalidMultibyte)
    ∧ do_nchar utf8Locale unitWidth [.chr [0xFF] .CE_NATIVE, .chr [97] .CE_NATIVE] (fun _ => [])
        [99, 104, 97, 114, 115] true = .ok [NA_INTEGER, 1] :=
  ⟨rfl, rfl, rfl, rfl⟩

/-! ## Theorems: `make.names` -/

theorem mkChar_not_mem (s : List Nat) : 0 ∉ mkChar s := by
  intro h
  have := List.mem_takeWhile_imp h
  simp at this

theorem makenames_tmp_spec (L : Env) (C : CType) (W : WideLib) (This : List Nat)
    (h0 : 0 ∉ This) (ha0 : C.isalpha 0 = false) (hd0 : C.isdigit 0 = false)
    (hdec : L.mbcslocale = true → This ≠ [] →
      ∃ used, L.mbrtowc This = some used
        ∧ (W.mbrtowc_wc This = 46 → used < This.length →
            ∃ u2, L.mbrtowc (This.drop used) = some u2)) :
    makenames_tmp L C W This
      = .ok (if needs_X (if L.mbcslocale then C.iswalpha else C.isalpha)
            (if L.mbcslocale then C.iswdigit else C.isdigit) (makenames_first_chars L W This)
          then 88 :: This else This) := by
  have hmem : This ++ [0] = This ++ 0 :: [] := rfl
  cases This with
  | nil =>
    cases hm : L.mbcslocale <;>
      simp [makenames_tmp, makenames_need_prefix, makenames_first_chars, needs_X, rd, hm, ha0,
        bind, Except.bind, pure, Except.pure]
  | cons c rest =>
    have hc : c ≠ 0 := fun h => h0 (by simp [h])
    have hrd0 : rd ((c :: rest) ++ [0]) 0 = .ok c := by simp [rd]
    cases hm : L.mbcslocale with
    | false =>
      simp only [makenames_tmp, makenames_need_prefix, makenames_first_chars, hrd0, hm,
        Bool.false_and, Bool.false_eq_true, ↓reduceIte, bind, Except.bind, pure, Except.pure]
      by_cases hdot : c = 46
      · subst hdot
        cases rest with
        | nil => simp [needs_X, rd, hd0]
        | cons d r =>
          simp [needs_X, rd]
          split <;> rfl
      · cases rest with
        | nil =>
          simp [needs_X, hdot]
          split <;> rfl
        | cons d r =>
          simp [needs_X, hdot]
          split <;> rfl
    | true =>
      obtain ⟨used, hu, hsec⟩ := hdec hm (by simp)
      have hcs0 : cstrAt ((c :: rest) ++ [0]) 0 = .ok (c :: rest) := by
        rw [hmem]; exact cstrAt_zero _ [] h0
      simp only [makenames_tmp, makenames_need_prefix, makenames_first_chars, hrd0, hm, hc,
        ne_eq, not_false_eq_true, decide_True, Bool.and_self, ↓reduceIte, Mbrtowc, hcs0, hu,
        bind, Except.bind, pure, Except.pure, reduceCtorEq]
      by_cases hdot : W.mbrtowc_wc (c :: rest) = 46
      · by_cases hlt : used < (c :: rest).length
        · obtain ⟨u2, hu2⟩ := hsec hdot hlt
          have hcs : cstrAt ((c :: rest) ++ [0]) used = .ok ((c :: rest).drop used) := by
            rw [hmem]; exact cstrAt_text _ [] used h0 (by omega)
          have hne : (c :: rest).drop used ≠ [] := by
            intro e
            have := congrArg List.length e
            rw [List.length_drop] at this
            simp at this
            simp at hlt
            omega
          have hpos : ((c :: rest).length : Int) - (used : Int) > 0 := by omega
          simp only [hdot, ↓reduceIte, hpos, hcs, hne, hu2, hlt, needs_X]
          split <;> rfl
        · have hpos : ¬ (((c :: rest).length : Int) - (used : Int) > 0) := by omega
          simp only [hdot, ↓reduceIte, hpos, hlt, needs_X]
          simp
      · simp only [hdot, ↓reduceIte, needs_X]
        split <;> rfl

/-- C25: `make.names` prefixes a name with "X" exactly when its first character is not a letter
and not a dot (this includes the empty name) or when it starts with a dot immediately followed
by a digit: the buffer that is then sanitised is "X" followed by the name in these cases and
the name itself in every other case.  The characters are the bytes of the name, or its wide
characters in a multibyte locale, where the first character (and the one after a leading dot)
has to decode; the NUL byte is neither a letter nor a digit. -/
theorem do_makenames_prefix (L : Env) (C : CType) (W : WideLib)
    (isValidName : List Nat → Bool) (allow_ : Bool) (el : RString) (This : List Nat)
    (hThis : This = mkChar (L.translateChar (CHAR el) (getCharCE el)))
    (ha0 : C.isalpha 0 = false) (hd0 : C.isdigit 0 = false)
    (hdec : L.mbcslocale = true → This ≠ [] →
      ∃ used, L.mbrtowc This = some used
        ∧ (W.mbrtowc_wc This = 46 → used < This.length →
            ∃ u2, L.mbrtowc (This.drop used) = some u2)) :
    makenames_tmp L C W This
      = .ok (if needs_X (if L.mbcslocale then C.iswalpha else C.isalpha)
            (if L.mbcslocale then C.iswdigit else C.isdigit) (makenames_first_chars L W This)
          then 88 :: This else This)
    ∧ makenames_elt L C W isValidName allow_ el
      = (makenames_sanitise L C W allow_
          (if needs_X (if L.mbcslocale then C.iswalpha else C.isalpha)
            (if L.mbcslocale then C.iswdigit else C.isdigit) (makenames_first_chars L W This)
          then 88 :: This else This)).map
        (fun tmp1 => if isValidName tmp1 then .chr tmp1 .CE_NATIVE
          else .chr (tmp1 ++ [46]) .CE_NATIVE) := by
  have h0 : 0 ∉ This := by rw [hThis]; exact mkChar_not_mem _
  have htmp := makenames_tmp_spec L C W This h0 ha0 hd0 hdec
  refine ⟨htmp, ?_⟩
  unfold makenames_elt
  simp only [← hThis, htmp, bind, Except.bind, pure, Except.pure]
  cases makenames_sanitise L C W allow_ _ with
  | error e => rfl
  | ok tmp1 =>
    simp only [Except.map]
    cases isValidName tmp1 <;> rfl

theorem do_makenames_prefix_witness :
    do_makenames sbcsLocale asciiCType sbcsWide isValidName_ex
        [.chr [49, 120] .CE_NATIVE, .chr [118, 97, 108, 105, 100, 46, 110, 97, 109, 101] .CE_NATIVE,
          .chr [] .CE_NATIVE, .chr [46, 49] .CE_NATIVE, .chr [46, 120] .CE_NATIVE] (some false)
      = .ok [.chr [88, 49, 120] .CE_NATIVE,
          .chr [118, 97, 108, 105, 100, 46, 110, 97, 109, 101] .CE_NATIVE,
          .chr [88] .CE_NATIVE, .chr [88, 46, 49] .CE_NATIVE, .chr [46, 120] .CE_NATIVE]
    ∧ makenames_tmp utf8Locale asciiCType utf8Wide [46, 49]
      = .ok (if needs_X (if utf8Locale.mbcslocale then asciiCType.iswalpha else asciiCType.isalpha)
            (if utf8Locale.mbcslocale then asciiCType.iswdigit else asciiCType.isdigit)
            (makenames_first_chars utf8Locale utf8Wide [46, 49])
          then 88 :: [46, 49] else [46, 49])
    ∧ makenames_elt utf8Locale asciiCType utf8Wide isValidName_ex false (.chr [46, 49] .CE_NATIVE)
      = (makenames_sanitise utf8Locale asciiCType utf8Wide false
          (if needs_X (if utf8Locale.mbcslocale then asciiCType.iswalpha else asciiCType.isalpha)
            (if utf8Locale.mbcslocale then asciiCType.iswdigit else asciiCType.isdigit)
            (makenames_first_chars utf8Locale utf8Wide [46, 49])
          then 88 :: [46, 49] else [46, 49])).map
        (fun tmp1 => if isValidName_ex tmp1 then .chr tmp1 .CE_NATIVE
          else .chr (tmp1 ++ [46]) .CE_NATIVE) :=
  ⟨rfl, do_makenames_prefix utf8Locale asciiCType utf8Wide isValidName_ex false
    (.chr [46, 49] .CE_NATIVE) [46, 49] rfl rfl rfl
    (fun _ _ => ⟨1, rfl, fun _ _ => ⟨1, rfl⟩⟩)⟩

theorem makenames_byte_eq (C : CType) (allow_ : Bool) (c : Nat) :
    makenames_byte C allow_ c = keep_or_dot C allow_ c := by
  unfold makenames_byte keep_or_dot
  by_cases h2 : (decide (c = 46) || (allow_ && decide (c = 95))) = true
  · have h3 : (C.isalnum c || decide (c = 46) || (allow_ && decide (c = 95))) = true := by
      rw [Bool.or_assoc, h2, Bool.or_true]
    rw [if_pos h2, if_pos h3]
  · rw [if_neg h2]
    have h2f : (decide (c = 46) || (allow_ && decide (c = 95))) = false := by simpa using h2
    cases h1 : C.isalnum c
    · have h3 : ¬ (false || decide (c = 46) || (allow_ && decide (c = 95))) = true := by
        rw [Bool.or_assoc, h2f]
        simp
      rw [if_neg h3]
      rfl
    · simp

theorem keep_or_dot_class (C : CType) (allow_ : Bool) (c : Nat) :
    C.isalnum (keep_or_dot C allow_ c) = true ∨ keep_or_dot C allow_ c = 46
      ∨ (allow_ = true ∧ keep_or_dot C allow_ c = 95) := by
  unfold keep_or_dot
  split
  · rename_i h
    simp only [Bool.or_eq_true, decide_eq_true_eq, Bool.and_eq_true] at h
    rcases h with (h | h) | h
    · exact Or.inl h
    · exact Or.inr (Or.inl h)
    · exact Or.inr (Or.inr h)
  · exact Or.inr (Or.inl rfl)

theorem keep_or_dot_cases (C : CType) (allow_ : Bool) (c : Nat) :
    keep_or_dot C allow_ c = c ∨ keep_or_dot C allow_ c = 46 := by
  unfold keep_or_dot
  split
  · exact Or.inl rfl
  · exact Or.inr rfl

/-- C26: on the single-byte path, the output of `make.names` for a name is the possibly
"X"-prefixed name in which every byte that is alphanumeric, a dot or (when `allow_` is true) an
underscore is kept and every other byte is replaced by a dot, with the length unchanged,
followed by one extra dot exactly when this sanitised name is a reserved word; every byte of
the output is alphanumeric, a dot or an allowed underscore.  Here "X" is a letter, letters are
alphanumeric, the dot and the NUL byte are neither letters nor digits, and `isValidName` rejects
a name with the syntax of a name exactly when it is one of the reserved words. -/
theorem do_makenames_sanitised (L : Env) (C : CType) (W : WideLib)
    (isValidName : List Nat → Bool) (reserved : List (List Nat)) (allow_ : Bool) (el : RString)
    (This : List Nat)
    (hThis : This = mkChar (L.translateChar (CHAR el) (getCharCE el)))
    (hsb : L.mbcslocale = false)
    (hX : C.isalpha 88 = true) (ha0 : C.isalpha 0 = false) (hd0 : C.isdigit 0 = false)
    (hal : ∀ c, C.isalpha c = true → C.isalnum c = true) (hd : C.isdigit 46 = false)
    (hres : ∀ s, name_syntax C s → (isValidName s = false ↔ s ∈ reserved)) :
    ∃ tmp out, makenames_tmp L C W This = .ok tmp ∧ (tmp = This ∨ tmp = 88 :: This)
      ∧ makenames_elt L C W isValidName allow_ el = .ok (.chr out .CE_NATIVE)
      ∧ out = tmp.map (keep_or_dot C allow_)
          ++ (if tmp.map (keep_or_dot C allow_) ∈ reserved then [46] else [])
      ∧ (tmp.map (keep_or_dot C allow_)).length = tmp.length
      ∧ ∀ c ∈ out, C.isalnum c = true ∨ c = 46 ∨ (allow_ = true ∧ c = 95) := by
  have h0 : 0 ∉ This := by rw [hThis]; exact mkChar_not_mem _
  have htmp := makenames_tmp_spec L C W This h0 ha0 hd0
    (fun hm => by rw [hsb] at hm; cases hm)
  simp only [hsb, Bool.false_eq_true, ↓reduceIte, makenames_first_chars] at htmp
  have hXn : C.isalnum 88 = true := hal 88 hX
  have hk88 : keep_or_dot C allow_ 88 = 88 := by simp [keep_or_dot, hXn]
  -- the sanitised name has the syntax of a name
  have hsyn : name_syntax C ((if needs_X C.isalpha C.isdigit (This.take 2) then 88 :: This
      else This).map (keep_or_dot C allow_)) := by
    refine ⟨?_, ?_⟩
    · by_cases hn : needs_X C.isalpha C.isdigit (This.take 2) = true
      · rw [if_pos hn, List.map_cons, hk88]
        exact Or.inl hX
      · rw [if_neg hn]
        cases This with
        | nil => simp [needs_X] at hn
        | cons c rest =>
          by_cases hdot : c = 46
          · subst hdot
            have hk : keep_or_dot C allow_ 46 = 46 := by simp [keep_or_dot]
            rw [List.map_cons, hk]
            refine Or.inr ⟨rfl, ?_⟩
            cases rest with
            | nil => simp
            | cons d r =>
              simp only [List.take_succ_cons, List.take_zero, needs_X, ↓reduceIte,
                Bool.not_eq_true] at hn
              intro x hx
              simp only [List.map_cons, List.head?_cons, Option.mem_def,
                Option.some.injEq] at hx
              subst hx
              rcases keep_or_dot_cases C allow_ d with h | h
              · rw [h]; exact hn
              · rw [h]; exact hd
          · have hac : C.isalpha c = true := by
              cases rest <;> simpa [needs_X, hdot] using hn
            have : keep_or_dot C allow_ c = c := by simp [keep_or_dot, hal c hac]
            rw [List.map_cons, this]
            exact Or.inl hac
    · intro c hc
      obtain ⟨a, _, rfl⟩ := List.mem_map.mp hc
      rcases keep_or_dot_class C allow_ a with h | h | h
      · exact Or.inl h
      · exact Or.inr (Or.inl h)
      · exact Or.inr (Or.inr h.2)
  refine ⟨_, _, htmp, ?_, ?_, rfl, List.length_map _ _, ?_⟩
  · split
    · exact Or.inr rfl
    · exact Or.inl rfl
  · have hmap : ∀ t : List Nat, t.map (makenames_byte C allow_) = t.map (keep_or_dot C allow_) :=
      fun t => List.map_congr_left (fun c _ => makenames_byte_eq C allow_ c)
    unfold makenames_elt
    simp only [← hThis, htmp, makenames_sanitise, hsb, Bool.false_eq_true, ↓reduceIte, hmap,
      bind, Except.bind, pure, Except.pure]
    by_cases hv : isValidName ((if needs_X C.isalpha C.isdigit (This.take 2) then 88 :: This
        else This).map (keep_or_dot C allow_)) = true
    · have hnr : ¬ ((if needs_X C.isalpha C.isdigit (This.take 2) then 88 :: This
          else This).map (keep_or_dot C allow_)) ∈ reserved := by
        rw [← hres _ hsyn, hv]
        simp
      simp [hv, hnr]
    · have hv2 : isValidName ((if needs_X C.isalpha C.isdigit (This.take 2) then 88 :: This
          else This).map (keep_or_dot C allow_)) = false := by simpa using hv
      have hr : ((if needs_X C.isalpha C.isdigit (This.take 2) then 88 :: This
          else This).map (keep_or_dot C allow_)) ∈ reserved := (hres _ hsyn).mp hv2
      simp [hv2, hr]
  · intro c hc
    rcases List.mem_append.mp hc with h | h
    · obtain ⟨a, _, rfl⟩ := List.mem_map.mp h
      exact keep_or_dot_class C allow_ a
    · by_cases hr : ((if needs_X C.isalpha C.isdigit (This.take 2) then 88 :: This
          else This).map (keep_or_dot C allow_)) ∈ reserved
      · rw [if_pos hr, List.mem_singleton] at h
        exact Or.inr (Or.inl h)
      · rw [if_neg hr] at h
        exact absurd h (List.not_mem_nil c)

theorem do_makenames_sanitised_witness :
    ∃ tmp out, makenames_tmp sbcsLocale asciiCType sbcsWide [105, 102] = .ok tmp
      ∧ (tmp = [105, 102] ∨ tmp = 88 :: [105, 102])
      ∧ makenames_elt sbcsLocale asciiCType sbcsWide isValidName_ex false
          (.chr [105, 102] .CE_NATIVE) = .ok (.chr out .CE_NATIVE)
      ∧ out = tmp.map (keep_or_dot asciiCType false)
          ++ (if tmp.map (keep_or_dot asciiCType false) ∈ keywords_ex then [46] else [])
      ∧ (tmp.map (keep_or_dot asciiCType false)).length = tmp.length
      ∧ ∀ c ∈ out, asciiCType.isalnum c = true ∨ c = 46 ∨ (false = true ∧ c = 95) :=
  do_makenames_sanitised sbcsLocale asciiCType sbcsWide isValidName_ex keywords_ex false
    (.chr [105, 102] .CE_NATIVE) [105, 102] rfl rfl rfl rfl rfl
    (by
      intro c hc
      simp only [asciiCType, Bool.or_eq_true, Bool.and_eq_true, decide_eq_true_eq] at hc ⊢
      exact Or.inl hc)
    rfl (by intro s _; simp [isValidName_ex])

/-! ## Theorems: `strtrim` -/

theorem strtrim_loop_chars (L : Env) (W : WideLib) (text : List Nat) (w : Int)
    (hs : 0 ∉ text) :
    ∀ (fuel fuel2 p : Nat) (wsum : Int) (out : List Nat) (chars : List (List Nat × Int)),
      p ≤ text.length → chars_with_width L W fuel2 (text.drop p) = some chars →
      text.length - p < fuel →
      strtrim_loop L W (text ++ [0]) w fuel p wsum out
        = .ok (out ++ (trim_chars w chars wsum).flatten) := by
  have hmem : text ++ [0] = text ++ 0 :: [] := rfl
  intro fuel
  induction fuel with
  | zero => intro fuel2 p wsum out chars _ _ hf; omega
  | succ fuel ih =>
    intro fuel2 p wsum out chars hp h hf
    cases fuel2 with
    | zero => simp [chars_with_width] at h
    | succ fuel2 =>
      rw [strtrim_loop]
      by_cases hlt : p < text.length
      · obtain ⟨x, hrx, hdx, hx⟩ := text_at text [] p hs hlt
        rw [hdx] at h
        simp only [chars_with_width] at h
        cases hu : L.mbrtowc (x :: text.drop (p + 1)) with
        | none => simp [hu] at h
        | some u =>
          simp only [hu] at h
          by_cases hub : 1 ≤ u ∧ u ≤ (x :: text.drop (p + 1)).length
          · rw [if_pos hub, Option.map_eq_some'] at h
            obtain ⟨cs, hcs, hchars⟩ := h
            have hlen : (x :: text.drop (p + 1)).length = text.length - p := by
              rw [← hdx, List.length_drop]
            rw [hlen] at hub
            have hdrop : (x :: text.drop (p + 1)).drop u = text.drop (p + u) := by
              rw [← hdx, List.drop_drop]
            rw [hdrop] at hcs
            have hne : x :: text.drop (p + 1) ≠ [] := by simp
            have hrec := fun ws o => ih fuel2 (p + u) ws o cs (by omega) hcs (by omega)
            have hread : readN (text ++ [0]) p u = .ok ((x :: text.drop (p + 1)).take u) := by
              rw [readN_append_left text [0] u p (by omega), hdx]
            rw [hmem] at hread ⊢
            simp only [hrx, hx, ↓reduceIte, Mbrtowc, cstrAt_text text [] p hs hp, hdx, hne, hu,
              bind, Except.bind, pure, Except.pure]
            subst hchars
            by_cases hneg : W.wcwidth (W.mbrtowc_wc (x :: text.drop (p + 1))) < 0
            · simp only [hneg, ↓reduceIte, trim_chars]
              rw [← hmem]
              exact hrec wsum out
            · simp only [hneg, ↓reduceIte, trim_chars]
              by_cases hfit : wsum + W.wcwidth (W.mbrtowc_wc (x :: text.drop (p + 1))) ≤ w
              · simp only [hfit, ↓reduceIte, hread, List.flatten_cons]
                rw [← hmem, hrec, List.append_assoc]
              · simp only [hfit, ↓reduceIte, List.flatten_nil, List.append_nil]
          · rw [if_neg hub] at h
            cases h
      · have hpe : p = text.length := by omega
        subst hpe
        rw [List.drop_length] at h
        simp only [chars_with_width] at h
        injection h with h
        subst h
        rw [hmem]
        simp only [rd_terminator, ↓reduceIte, bind, Except.bind, pure, Except.pure, trim_chars,
          List.flatten_nil, List.append_nil]

theorem trim_chars_unit (w : Int) :
    ∀ (chars : List (List Nat × Int)) (sum : Int), (∀ c ∈ chars, c.2 = 1) →
      trim_chars w chars sum = (chars.take (w - sum).toNat).map Prod.fst := by
  intro chars
  induction chars with
  | nil => intro sum _; simp [trim_chars]
  | cons c cs ih =>
    intro sum h
    obtain ⟨bytes, w0⟩ := c
    have hw0 : w0 = 1 := h (bytes, w0) (by simp)
    subst hw0
    have hcs := ih (sum + 1) (fun c hc => h c (by simp [hc]))
    simp only [trim_chars]
    have hn : ¬ ((1 : Int) < 0) := by omega
    rw [if_neg hn]
    by_cases hfit : sum + 1 ≤ w
    · rw [if_pos hfit, hcs]
      obtain ⟨n, hn⟩ : ∃ n, (w - sum).toNat = n + 1 := ⟨(w - sum).toNat - 1, by omega⟩
      have hn2 : (w - (sum + 1)).toNat = n := by omega
      rw [hn, hn2]
      simp
    · rw [if_neg hfit]
      have : (w - sum).toNat = 0 := by omega
      rw [this]
      simp

theorem trim_chars_not_mem (w : Int) :
    ∀ (chars : List (List Nat × Int)) (sum : Int), (∀ c ∈ chars, 0 ∉ c.1) →
      0 ∉ (trim_chars w chars sum).flatten := by
  intro chars
  induction chars with
  | nil => intro sum _; simp [trim_chars]
  | cons c cs ih =>
    intro sum h
    obtain ⟨bytes, w0⟩ := c
    have hb : 0 ∉ bytes := h (bytes, w0) (by simp)
    have hcs := fun s => ih s (fun c hc => h c (by simp [hc]))
    simp only [trim_chars]
    split
    · exact hcs sum
    · split
      · simp only [List.flatten_cons, List.mem_append, not_or]
        exact ⟨hb, hcs _⟩
      · simp

theorem chars_with_width_not_mem (L : Env) (W : WideLib) :
    ∀ (fuel : Nat) (text : List Nat) (chars : List (List Nat × Int)),
      chars_with_width L W fuel text = some chars → 0 ∉ text → ∀ c ∈ chars, 0 ∉ c.1 := by
  intro fuel
  induction fuel with
  | zero => intro text chars h; simp [chars_with_width] at h
  | succ fuel ih =>
    intro text chars h hs
    cases text with
    | nil =>
      simp only [chars_with_width] at h
      injection h with h
      subst h
      simp
    | cons b r =>
      simp only [chars_with_width] at h
      cases hu : L.mbrtowc (b :: r) with
      | none => simp [hu] at h
      | some u =>
        simp only [hu] at h
        split at h
        · rw [Option.map_eq_some'] at h
          obtain ⟨cs, hcs, hchars⟩ := h
          subst hchars
          intro c hc
          rcases List.mem_cons.mp hc with rfl | hc
          · exact fun h0 => hs (List.mem_of_mem_take h0)
          · exact ih _ cs hcs (fun h0 => hs (List.mem_of_mem_drop h0)) c hc
        · cases h

/-- C27: for a non-NA string whose text consists of characters of the locale, and a width `w`,
`strtrim` returns the bytes of the characters that trimming in the words of the specification
keeps (`trim_chars`): characters are copied in order while the running sum of their widths
stays at most `w`, the first character whose width would make the sum exceed `w` ends the
copy, and characters of negative width are dropped and add nothing.  When every character has
width 1 the result is the first `min(w, n)` characters. -/
theorem do_strtrim_widths (L : Env) (W : WideLib) (bytes : List Nat) (enc : cetype_t)
    (w : Int) (chars : List (List Nat × Int))
    (hchars : chars_with_width L W ((mkChar (L.translateChar bytes enc)).length + 1)
      (mkChar (L.translateChar bytes enc)) = some chars) :
    strtrim_elt L W (.chr bytes enc) w = .ok (markKnown L (trim_chars w chars 0).flatten enc)
    ∧ ((∀ c ∈ chars, c.2 = 1) →
        trim_chars w chars 0 = (chars.take w.toNat).map Prod.fst) := by
  have h0 : 0 ∉ mkChar (L.translateChar bytes enc) := mkChar_not_mem _
  have hloop := strtrim_loop_chars L W _ w h0
    ((mkChar (L.translateChar bytes enc) ++ [0]).length + 1) _ 0 0 [] chars (Nat.zero_le _)
    hchars (by simp only [List.length_append, List.length_singleton, Nat.sub_zero]; omega)
  have hnz := trim_chars_not_mem w chars 0
    (chars_with_width_not_mem L W _ _ chars hchars h0)
  constructor
  · simp only [strtrim_elt, hloop, List.nil_append, bind, Except.bind, pure, Except.pure,
      mkChar_append_nul _ hnz]
  · intro hunit
    have := trim_chars_unit w chars 0 hunit
    simpa using this

theorem do_strtrim_widths_witness :
    do_strtrim sbcsLocale sbcsWide [.chr [104, 101, 108, 108, 111] .CE_NATIVE] [3]
      = .ok [.chr [104, 101, 108] .CE_NATIVE]
    ∧ do_strtrim utf8Locale utf8Wide
        [.chr [97, 0xE4, 0xB8, 0xAD, 98] .CE_NATIVE, .chr [97, 0xE4, 0xB8, 0xAD, 98] .CE_NATIVE]
        [2, 3]
      = .ok [.chr [97] .CE_NATIVE, .chr [97, 0xE4, 0xB8, 0xAD] .CE_NATIVE]
    ∧ strtrim_elt sbcsLocale sbcsWide (.chr [104, 101, 108, 108, 111] .CE_NATIVE) 3
      = .ok (markKnown sbcsLocale
          (trim_chars 3 [([104], 1), ([101], 1), ([108], 1), ([108], 1), ([111], 1)] 0).flatten
          .CE_NATIVE)
    ∧ ((∀ c ∈ [(([104] : List Nat), (1 : Int)), ([101], 1), ([108], 1), ([108], 1), ([111], 1)],
          c.2 = 1) →
        trim_chars 3 [([104], 1), ([101], 1), ([108], 1), ([108], 1), ([111], 1)] 0
          = ([(([104] : List Nat), (1 : Int)), ([101], 1), ([108], 1), ([108], 1),
              ([111], 1)].take (3 : Int).toNat).map Prod.fst) :=
  ⟨rfl, rfl, do_strtrim_widths sbcsLocale sbcsWide [104, 101, 108, 108, 111] .CE_NATIVE 3
    [([104], 1), ([101], 1), ([108], 1), ([108], 1), ([111], 1)] rfl⟩

/-! ## Theorems: `tolower` and `toupper` -/

theorem mkChar_of_not_mem (s : List Nat) (h : 0 ∉ s) : mkChar s = s := by
  induction s with
  | nil => rfl
  | cons c r ih =>
    have hc : c ≠ 0 := fun e => h (by simp [e])
    have hr : 0 ∉ r := fun e => h (by simp [e])
    have := ih hr
    unfold mkChar at this ⊢
    rw [List.takeWhile_cons, this]
    simp [hc]

theorem mkChar_append_zero (s : List Nat) : mkChar (s ++ [0]) = mkChar s := by
  induction s with
  | nil => simp [mkChar]
  | cons c r ih =>
    unfold mkChar at ih ⊢
    rw [List.cons_append, List.takeWhile_cons, List.takeWhile_cons, ih]

theorem mkChar_idem (s : List Nat) : mkChar (mkChar s) = mkChar s :=
  mkChar_of_not_mem _ (mkChar_not_mem s)

theorem map_mkChar_idem (f : Nat → Nat) (hf : ∀ c, f (f c) = f c) (s : List Nat) :
    (mkChar (s.map f)).map f = mkChar (s.map f) := by
  have : ∀ c ∈ mkChar (s.map f), f c = c := by
    intro c hc
    have hc2 : c ∈ s.map f := List.takeWhile_subset _ hc
    obtain ⟨a, _, rfl⟩ := List.mem_map.mp hc2
    exact hf a
  conv_rhs => rw [← List.map_id (mkChar (s.map f))]
  exact List.map_congr_left this

theorem case_mapped_idem (f : Nat → Nat) (hf : ∀ c, f (f c) = f c) (wc : List Nat) :
    case_mapped f (case_mapped f wc) = case_mapped f wc := by
  have h1 : ∀ l, case_mapped f l = mkChar (l.map f) := fun _ => rfl
  rw [h1, h1, map_mkChar_idem f hf, mkChar_idem]

theorem vec_loop_fixed (f g : RString → Except Fault RString) :
    ∀ (x y : List RString), vec_loop f x = .ok y →
      (∀ el ∈ x, ∀ a, f el = .ok a → g a = .ok a) → vec_loop g y = .ok y := by
  intro x
  induction x with
  | nil =>
    intro y h _
    simp only [vec_loop] at h
    injection h with h
    subst h
    rfl
  | cons el rest ih =>
    intro y h hfix
    simp only [vec_loop, bind, Except.bind, pure, Except.pure] at h
    cases ha : f el with
    | error e => simp [ha] at h
    | ok a =>
      cases hr : vec_loop f rest with
      | error e => simp [ha, hr] at h
      | ok r =>
        simp only [ha, hr] at h
        injection h with h
        subst h
        have h1 := hfix el (by simp) a ha
        have h2 := ih r hr (fun e he => hfix e (by simp [he]))
        simp only [vec_loop, h1, h2, bind, Except.bind, pure, Except.pure]

theorem vec_loop_mem (f : RString → Except Fault RString) :
    ∀ (x y : List RString), vec_loop f x = .ok y → ∀ a ∈ y, ∃ el ∈ x, f el = .ok a := by
  intro x
  induction x with
  | nil =>
    intro y h a ha
    simp only [vec_loop] at h
    injection h with h
    subst h
    simp at ha
  | cons el rest ih =>
    intro y h a ha
    simp only [vec_loop, bind, Except.bind, pure, Except.pure] at h
    cases hf : f el with
    | error e => simp [hf] at h
    | ok b =>
      cases hr : vec_loop f rest with
      | error e => simp [hf, hr] at h
      | ok r =>
        simp only [hf, hr] at h
        injection h with h
        subst h
        rcases List.mem_cons.mp ha with rfl | ha
        · exact ⟨el, by simp, hf⟩
        · obtain ⟨e2, he2, hfe⟩ := ih r hr a ha
          exact ⟨e2, by simp [he2], hfe⟩

theorem vec_loop_all (f : RString → Except Fault RString) :
    ∀ (x y : List RString), vec_loop f x = .ok y → ∀ el ∈ x, ∃ a ∈ y, f el = .ok a := by
  intro x
  induction x with
  | nil => intro y _ el hel; simp at hel
  | cons e rest ih =>
    intro y h el hel
    simp only [vec_loop, bind, Except.bind, pure, Except.pure] at h
    cases hf : f e with
    | error err => simp [hf] at h
    | ok b =>
      cases hr : vec_loop f rest with
      | error err => simp [hf, hr] at h
      | ok r =>
        simp only [hf, hr] at h
        injection h with h
        subst h
        rcases List.mem_cons.mp hel with rfl | hel
        · exact ⟨b, by simp, hf⟩
        · obtain ⟨a, ha, hfa⟩ := ih r hr el hel
          exact ⟨a, by simp [ha], hfa⟩

theorem tolower_sbcs_idem (L : Env) (C : CType) (W : WideLib) (ul : Bool) (el a : RString)
    (hlib : case_lib_coherent L C W ul) (h : tolower_sbcs L C ul el = .ok a) :
    tolower_sbcs L C ul a = .ok a := by
  obtain ⟨hf, _, htr, hmm, _, _⟩ := hlib
  cases el with
  | NA_STRING =>
    simp only [tolower_sbcs] at h
    injection h with h
    subst h
    rfl
  | chr bytes enc =>
    simp only [tolower_sbcs] at h
    split at h
    · cases h
    · injection h with h
      subst h
      simp only [tolower_sbcs, markKnown, htr, mkChar_append_zero, mkChar_idem, Nat.lt_irrefl,
        gt_iff_lt, ↓reduceIte, hmm, map_mkChar_idem _ hf]

theorem tolower_wide_idem (L : Env) (C : CType) (W : WideLib) (ul u1 u2 : Bool)
    (el a : RString) (hlib : case_lib_coherent L C W ul)
    (hrt : case_roundtrip L C W ul el)
    (hu : (u1 && decide (getCharCE el = .CE_UTF8)) = true → u2 = true)
    (h : tolower_wide L C W ul u1 el = .ok a) :
    tolower_wide L C W ul u2 a = .ok a
      ∧ ((u1 && decide (getCharCE el = .CE_UTF8)) = true → getCharCE a = .CE_UTF8) := by
  obtain ⟨_, hg, htr, hmm, _, hutf⟩ := hlib
  obtain ⟨hrt8, hrtN⟩ := hrt
  cases el with
  | NA_STRING =>
    simp only [tolower_wide] at h
    injection h with h
    subst h
    exact ⟨rfl, by simp [getCharCE]⟩
  | chr bytes enc =>
    simp only [CHAR, getCharCE] at hrt8 hrtN hu
    simp only [tolower_wide] at h
    by_cases hA : (u1 && decide (enc = .CE_UTF8)) = true
    · rw [if_pos hA] at h
      have hu2 := hu hA
      subst hu2
      cases hdec : W.utf8towcs (mkChar bytes) with
      | none => simp [hdec] at h
      | some wc =>
        simp only [hdec] at h
        injection h with h
        subst h
        obtain ⟨hback, hz⟩ := hrt8 wc hdec
        have hidem := case_mapped_idem _ hg wc
        have hcm : ∀ l, (l.map (if ul then C.towupper else C.towlower)).takeWhile
            (fun c => c ≠ 0) = case_mapped (if ul then C.towupper else C.towlower) l :=
          fun _ => rfl
        refine ⟨?_, fun _ => rfl⟩
        simp only [tolower_wide, Bool.true_and, decide_True, ↓reduceIte, hcm,
          mkChar_append_nul _ hz, mkChar_of_not_mem _ hz, hback, hidem]
    · rw [if_neg hA] at h
      cases hdec : W.mbstowcs (mkChar (L.translateChar bytes enc)) with
      | none => simp [hdec] at h
      | some wc =>
        simp only [hdec] at h
        injection h with h
        subst h
        obtain ⟨hback, hz⟩ := hrtN wc hdec
        have hidem := case_mapped_idem _ hg wc
        have hcm : ∀ l, (l.map (if ul then C.towupper else C.towlower)).takeWhile
            (fun c => c ≠ 0) = case_mapped (if ul then C.towupper else C.towlower) l :=
          fun _ => rfl
        refine ⟨?_, fun hh => absurd hh hA⟩
        simp only [tolower_wide, markKnown, hcm, mkChar_append_nul _ hz]
        by_cases hB : (u2 && decide (L.markEnc enc = .CE_UTF8)) = true
        · have hm : L.markEnc enc = .CE_UTF8 := by
            simp only [Bool.and_eq_true, decide_eq_true_eq] at hB
            exact hB.2
          obtain ⟨h1, h2⟩ := hutf ⟨enc, hm⟩
          rw [if_pos hB, ← h1, ← h2, mkChar_of_not_mem _ hz, hback]
          simp only [hcm, hidem, mkChar_append_nul _ hz, hm]
        · rw [if_neg hB, htr, mkChar_of_not_mem _ hz, hback]
          simp only [hcm, hidem, mkChar_append_nul _ hz, hmm]

theorem vec_loop_get (f : RString → Except Fault RString) :
    ∀ (x y : List RString), vec_loop f x = .ok y →
      y.length = x.length
        ∧ ∀ (i : Nat) (el : RString), x[i]? = some el → ∃ a, f el = .ok a ∧ y[i]? = some a := by
  intro x
  induction x with
  | nil =>
    intro y h
    simp only [vec_loop] at h
    injection h with h
    subst h
    exact ⟨rfl, by intro i el hi; simp at hi⟩
  | cons e rest ih =>
    intro y h
    simp only [vec_loop, bind, Except.bind, pure, Except.pure] at h
    cases hf : f e with
    | error err => simp [hf] at h
    | ok b =>
      cases hr : vec_loop f rest with
      | error err => simp [hf, hr] at h
      | ok r =>
        simp only [hf, hr] at h
        injection h with h
        subst h
        obtain ⟨hlen, hget⟩ := ih r hr
        refine ⟨by simp [hlen], ?_⟩
        intro i el hi
        cases i with
        | zero =>
          simp only [List.getElem?_cons_zero, Option.some.injEq] at hi
          subst hi
          exact ⟨b, hf, by simp⟩
        | succ i =>
          simp only [List.getElem?_cons_succ] at hi
          obtain ⟨a, ha, hya⟩ := hget i el hi
          exact ⟨a, ha, by simpa using hya⟩

theorem tolower_sbcs_tag (L : Env) (C : CType) (ul : Bool) (el a : RString)
    (hmark : ∀ e, L.markEnc e ≠ .CE_UTF8) (h : tolower_sbcs L C ul el = .ok a) :
    getCharCE a ≠ .CE_UTF8 ∧ (a = .NA_STRING ↔ el = .NA_STRING) := by
  cases el with
  | NA_STRING =>
    simp only [tolower_sbcs] at h
    injection h with h
    subst h
    exact ⟨by simp [getCharCE], by simp⟩
  | chr bytes enc =>
    simp only [tolower_sbcs] at h
    split at h
    · cases h
    · injection h with h
      subst h
      exact ⟨by simpa [getCharCE, markKnown] using hmark enc, by simp [markKnown]⟩

theorem tolower_wide_NA (L : Env) (C : CType) (W : WideLib) (ul u1 : Bool) (el a : RString)
    (h : tolower_wide L C W ul u1 el = .ok a) : a = .NA_STRING ↔ el = .NA_STRING := by
  cases el with
  | NA_STRING =>
    simp only [tolower_wide] at h
    injection h with h
    subst h
    simp
  | chr bytes enc =>
    simp only [tolower_wide] at h
    split at h
    · split at h
      · cases h
      · injection h with h
        subst h
        simp
    · split at h
      · cases h
      · injection h with h
        subst h
        simp [markKnown]

/-- C28: `tolower` and `toupper` are idempotent: when `tolower(s)` (or `toupper(s)`) returns the
vector `y`, applying the same function to `y` returns `y` itself; `y` has the length of `s` and
its NA elements are those of `s`.  Here the case conversions of the C library are idempotent,
the tags that `markKnown` gives are those of the native encoding, and the conversions between
bytes and wide characters give back the converted characters of every element. -/
theorem do_tolower_idempotent (L : Env) (C : CType) (W : WideLib) (ul : Bool)
    (x y : List RString) (hlib : case_lib_coherent L C W ul)
    (hrt : ∀ el ∈ x, case_roundtrip L C W ul el)
    (h : do_tolower L C W ul x = .ok y) :
    do_tolower L C W ul y = .ok y
    ∧ y.length = x.length
    ∧ ∀ i : Nat, y[i]? = some RString.NA_STRING ↔ x[i]? = some RString.NA_STRING := by
  have hlib2 := hlib
  obtain ⟨_, _, _, _, hmark, _⟩ := hlib2
  unfold do_tolower at h ⊢
  by_cases hw : (L.mbcslocale || x.any (fun el => getCharCE el = .CE_UTF8)) = true
  · simp only [hw, ↓reduceIte] at h
    obtain ⟨hlen, hget⟩ := vec_loop_get _ x y h
    have hidem : ∀ el ∈ x, ∀ a, tolower_wide L C W ul
          (x.any (fun el => getCharCE el = .CE_UTF8)) el = .ok a →
        a ∈ y ∧ tolower_wide L C W ul (y.any (fun el => getCharCE el = .CE_UTF8)) a = .ok a := by
      intro el hel a ha
      obtain ⟨a2, ha2, hfa⟩ := vec_loop_all _ x y h el hel
      rw [ha] at hfa
      injection hfa with hfa
      subst hfa
      refine ⟨ha2, ?_⟩
      have htag := (tolower_wide_idem L C W ul _ true el a hlib (hrt el hel) (fun _ => rfl)
        ha).2
      refine (tolower_wide_idem L C W ul _ _ el a hlib (hrt el hel) ?_ ha).1
      intro hu
      rw [List.any_eq_true]
      exact ⟨a, ha2, by simpa using htag hu⟩
    have hw2 : (L.mbcslocale || y.any (fun el => getCharCE el = .CE_UTF8)) = true := by
      cases hm : L.mbcslocale with
      | true => rfl
      | false =>
        rw [hm, Bool.false_or, List.any_eq_true] at hw
        obtain ⟨el, hel, htag⟩ := hw
        obtain ⟨a, ha2, hfa⟩ := vec_loop_all _ x y h el hel
        have := (tolower_wide_idem L C W ul _ true el a hlib (hrt el hel) (fun _ => rfl)
          hfa).2 (by
            rw [Bool.and_eq_true]
            refine ⟨?_, htag⟩
            rw [List.any_eq_true]
            exact ⟨el, hel, htag⟩)
        rw [Bool.false_or, List.any_eq_true]
        exact ⟨a, ha2, by simpa using this⟩
    refine ⟨?_, hlen, ?_⟩
    · simp only [hw2, ↓reduceIte]
      exact vec_loop_fixed _ _ x y h (fun el hel a ha => (hidem el hel a ha).2)
    · intro i
      constructor
      · intro hy
        have hi : i < x.length := by
          rw [← hlen]
          exact (List.getElem?_eq_some_iff.mp hy).1
        obtain ⟨a, ha, hya⟩ := hget i x[i] (List.getElem?_eq_getElem hi)
        rw [hy] at hya
        injection hya with hya
        subst hya
        rw [List.getElem?_eq_getElem hi, (tolower_wide_NA L C W ul _ _ _ ha).mp rfl]
      · intro hx
        obtain ⟨a, ha, hya⟩ := hget i _ hx
        rw [hya, (tolower_wide_NA L C W ul _ _ _ ha).mpr rfl]
  · have hw' : (L.mbcslocale || x.any (fun el => getCharCE el = .CE_UTF8)) = false := by
      simpa using hw
    have hm : L.mbcslocale = false := by
      cases hmm : L.mbcslocale with
      | false => rfl
      | true => rw [hmm] at hw'; cases hw'
    simp only [hw', Bool.false_eq_true, ↓reduceIte] at h
    obtain ⟨hlen, hget⟩ := vec_loop_get _ x y h
    have hy : y.any (fun el => getCharCE el = .CE_UTF8) = false := by
      rw [List.any_eq_false]
      intro a ha
      obtain ⟨el, _, hfa⟩ := vec_loop_mem _ x y h a ha
      simpa using (tolower_sbcs_tag L C ul el a (hmark hm) hfa).1
    refine ⟨?_, hlen, ?_⟩
    · simp only [hm, hy, Bool.or_self, Bool.false_eq_true, ↓reduceIte]
      exact vec_loop_fixed _ _ x y h
        (fun el _ a ha => tolower_sbcs_idem L C W ul el a hlib ha)
    · intro i
      constructor
      · intro hyi
        have hi : i < x.length := by
          rw [← hlen]
          exact (List.getElem?_eq_some_iff.mp hyi).1
        obtain ⟨a, ha, hya⟩ := hget i x[i] (List.getElem?_eq_getElem hi)
        rw [hyi] at hya
        injection hya with hya
        subst hya
        rw [List.getElem?_eq_getElem hi,
          (tolower_sbcs_tag L C ul _ _ (hmark hm) ha).2.mp rfl]
      · intro hx
        obtain ⟨a, ha, hya⟩ := hget i _ hx
        rw [hya, (tolower_sbcs_tag L C ul _ _ (hmark hm) ha).2.mpr rfl]

theorem do_tolower_idempotent_witness :
    do_tolower sbcsLocale asciiCType sbcsWide false
        [.chr [97, 98, 99] .CE_UTF8, .NA_STRING, .chr [100] .CE_NATIVE]
      = .ok [.chr [97, 98, 99] .CE_UTF8, .NA_STRING, .chr [100] .CE_NATIVE]
    ∧ [RString.chr [97, 98, 99] .CE_UTF8, .NA_STRING, .chr [100] .CE_NATIVE].length
      = [RString.chr [65, 98, 67] .CE_UTF8, .NA_STRING, .chr [68] .CE_NATIVE].length
    ∧ ∀ i : Nat,
      [RString.chr [97, 98, 99] .CE_UTF8, .NA_STRING, .chr [100] .CE_NATIVE][i]?
          = some RString.NA_STRING
        ↔ [RString.chr [65, 98, 67] .CE_UTF8, .NA_STRING, .chr [68] .CE_NATIVE][i]?
          = some RString.NA_STRING :=
  do_tolower_idempotent sbcsLocale asciiCType sbcsWide false
    [.chr [65, 98, 67] .CE_UTF8, .NA_STRING, .chr [68] .CE_NATIVE]
    [.chr [97, 98, 99] .CE_UTF8, .NA_STRING, .chr [100] .CE_NATIVE]
    (by
      refine ⟨?_, ?_, fun _ _ => rfl, fun _ => rfl, fun _ e => ?_, ?_⟩
      · intro c
        simp only [asciiCType, Bool.false_eq_true, ↓reduceIte]
        split
        · have : ¬ (65 ≤ c + 32 ∧ c + 32 ≤ 90) := by omega
          rw [if_neg this]
        · rfl
      · intro c
        simp only [asciiCType, Bool.false_eq_true, ↓reduceIte]
        split
        · have : ¬ (65 ≤ c + 32 ∧ c + 32 ≤ 90) := by omega
          rw [if_neg this]
        · rfl
      · simp [sbcsLocale]
      · rintro ⟨e, he⟩
        simp [sbcsLocale] at he)
    (by
      intro el hel
      simp only [List.mem_cons, List.mem_singleton, List.not_mem_nil, or_false] at hel
      have hsecond : ∀ s : List Nat, ∀ wc, sbcsWide.mbstowcs s = some wc →
          sbcsWide.mbstowcs (sbcsWide.wcstombs (case_mapped asciiCType.towlower wc))
              = some (case_mapped asciiCType.towlower wc)
            ∧ 0 ∉ sbcsWide.wcstombs (case_mapped asciiCType.towlower wc) :=
        fun _ wc _ => ⟨rfl, mkChar_not_mem _⟩
      refine ⟨?_, hsecond _⟩
      intro wc hwc
      rcases hel with rfl | rfl | rfl
      · have : wc = [65, 98, 67] := by
          have h2 : sbcsWide.utf8towcs (mkChar (CHAR (.chr [65, 98, 67] .CE_UTF8)))
              = some [65, 98, 67] := by decide
          rw [h2] at hwc
          injection hwc with hwc
          exact hwc.symm
        subst this
        exact ⟨by decide, by decide⟩
      · have : wc = [78, 65] := by
          have h2 : sbcsWide.utf8towcs (mkChar (CHAR .NA_STRING)) = some [78, 65] := by decide
          rw [h2] at hwc
          injection hwc with hwc
          exact hwc.symm
        subst this
        exact ⟨by decide, by decide⟩
      · have : wc = [68] := by
          have h2 : sbcsWide.utf8towcs (mkChar (CHAR (.chr [68] .CE_NATIVE))) = some [68] := by
            decide
          rw [h2] at hwc
          injection hwc with hwc
          exact hwc.symm
        subst this
        exact ⟨by decide, by decide⟩)
    rfl

/-! ## Theorems: `chartr` -/

theorem tr_next_expand (m : Nat) (s : List tr_spec) (hwf : tr_wf m s = true) :
    (tr_expand s = [] → (tr_get_next_char_from_spec m s).1 = 0)
    ∧ (∀ c cs, tr_expand s = c :: cs →
        (tr_get_next_char_from_spec m s).1 = c ∧ c ≠ 0
          ∧ tr_expand (tr_get_next_char_from_spec m s).2 = cs
          ∧ tr_wf m (tr_get_next_char_from_spec m s).2 = true) := by
  cases s with
  | nil =>
    exact ⟨fun _ => rfl, fun c cs h => by simp [tr_expand] at h⟩
  | cons t rest =>
    have hrest : tr_wf m rest = true := by
      simp only [tr_wf, List.all_cons, Bool.and_eq_true] at hwf ⊢
      exact hwf.2
    cases t with
    | TR_CHAR c0 =>
      have hc0 : 0 < c0 := by
        simp only [tr_wf, List.all_cons, Bool.and_eq_true, decide_eq_true_eq] at hwf
        exact hwf.1
      refine ⟨fun h => by simp [tr_expand] at h, ?_⟩
      intro c cs h
      simp only [tr_expand, List.cons.injEq] at h
      obtain ⟨rfl, rfl⟩ := h
      exact ⟨rfl, by omega, rfl, hrest⟩
    | TR_RANGE first last =>
      have hr : 0 < first ∧ first ≤ last ∧ last < m := by
        simp only [tr_wf, List.all_cons, Bool.and_eq_true, decide_eq_true_eq] at hwf
        exact ⟨hwf.1.1.1, hwf.1.1.2, hwf.1.2⟩
      have hexp : tr_expand (.TR_RANGE first last :: rest)
          = first :: (List.range' (first + 1) (last - first) ++ tr_expand rest) := by
        simp only [tr_expand]
        rw [List.range'_succ]
        rfl
      refine ⟨fun h => ?_, ?_⟩
      · rw [hexp] at h
        cases h
      intro c cs h
      rw [hexp] at h
      simp only [List.cons.injEq] at h
      obtain ⟨rfl, rfl⟩ := h
      simp only [tr_get_next_char_from_spec]
      by_cases hfl : first = last
      · subst hfl
        rw [if_pos rfl]
        exact ⟨rfl, by omega, by simp, hrest⟩
      · rw [if_neg hfl]
        have hmod : (first + 1) % m = first + 1 := Nat.mod_eq_of_lt (by omega)
        refine ⟨rfl, by omega, ?_, ?_⟩
        · simp only [tr_expand, hmod]
          have : last - (first + 1) + 1 = last - first := by omega
          rw [this]
        · simp only [tr_wf, List.all_cons, Bool.and_eq_true, decide_eq_true_eq, hmod]
          simp only [tr_wf] at hrest
          exact ⟨⟨⟨by omega, by omega⟩, hr.2.2⟩, hrest⟩

theorem tr_pairs_expand (m : Nat) :
    ∀ (fuel : Nat) (o n : List tr_spec), tr_wf m o = true → tr_wf m n = true →
      (tr_expand o).length < fuel →
      tr_pairs m fuel o n
        = if (tr_expand o).length ≤ (tr_expand n).length
          then .ok ((tr_expand o).zip (tr_expand n))
          else .error (.error .oldLongerThanNew) := by
  intro fuel
  induction fuel with
  | zero => intro o n _ _ h; omega
  | succ fuel ih =>
    intro o n ho hn hf
    obtain ⟨ho0, ho1⟩ := tr_next_expand m o ho
    obtain ⟨hn0, hn1⟩ := tr_next_expand m n hn
    rw [tr_pairs]
    cases heo : tr_expand o with
    | nil =>
      simp [ho0 heo]
    | cons c cs =>
      obtain ⟨hc, hcz, hcs, hwo⟩ := ho1 c cs heo
      rw [heo] at hf
      simp only [hc, hcz, ↓reduceIte]
      cases hen : tr_expand n with
      | nil =>
        simp [hn0 hen]
      | cons d ds =>
        obtain ⟨hd, hdz, hds, hwn⟩ := hn1 d ds hen
        simp only [hd, hdz, ↓reduceIte]
        rw [ih _ _ hwo hwn (by rw [hcs]; simp at hf; omega), hcs, hds]
        by_cases hle : cs.length ≤ ds.length
        · simp [hle, Except.map]
        · simp [hle, Except.map]

theorem tr_xtable_eq :
    ∀ (pairs : List (Nat × Nat)) (t : Nat → Nat) (c : Nat),
      tr_xtable t pairs c
        = match pairs.reverse.find? (fun p => p.1 = c) with
          | some p => p.2
          | none => t c := by
  intro pairs
  induction pairs with
  | nil => intro t c; rfl
  | cons p rest ih =>
    intro t c
    obtain ⟨a, b⟩ := p
    rw [tr_xtable, ih, List.reverse_cons, List.find?_append]
    cases hfind : rest.reverse.find? (fun p => decide (p.1 = c)) with
    | some q => rfl
    | none =>
      by_cases hac : a = c
      · subst hac
        simp
      · have hca : ¬ c = a := fun e => hac e.symm
        simp [hac, hca]

theorem isort_insert_filter (c : Nat) (e : Nat × Nat) :
    ∀ acc : List (Nat × Nat),
      (isort_insert e acc).filter (fun p => p.1 = c) = (e :: acc).filter (fun p => p.1 = c) := by
  intro acc
  induction acc with
  | nil => rfl
  | cons p ps ih =>
    rw [isort_insert]
    by_cases hgt : p.1 > e.1
    · rw [if_pos hgt, List.filter_cons, ih]
      by_cases hp : p.1 = c
      · have he : ¬ e.1 = c := by omega
        simp [List.filter_cons, hp, he]
      · simp [List.filter_cons, hp]
    · rw [if_neg hgt]

theorem isort_insert_mem (e x : Nat × Nat) :
    ∀ acc : List (Nat × Nat), x ∈ isort_insert e acc → x = e ∨ x ∈ acc := by
  intro acc
  induction acc with
  | nil => intro h; simp [isort_insert] at h; exact Or.inl h
  | cons p ps ih =>
    intro h
    rw [isort_insert] at h
    by_cases hgt : p.1 > e.1
    · rw [if_pos hgt] at h
      rcases List.mem_cons.1 h with h | h
      · exact Or.inr (by rw [h]; exact List.mem_cons_self _ _)
      · rcases ih h with h | h
        · exact Or.inl h
        · exact Or.inr (List.mem_cons_of_mem _ h)
    · rw [if_neg hgt] at h
      rcases List.mem_cons.1 h with h | h
      · exact Or.inl h
      · exact Or.inr h

theorem isort_insert_sorted (e : Nat × Nat) :
    ∀ acc : List (Nat × Nat), acc.Pairwise (fun a b => b.1 ≤ a.1) →
      (isort_insert e acc).Pairwise (fun a b => b.1 ≤ a.1) := by
  intro acc
  induction acc with
  | nil => intro _; simp [isort_insert]
  | cons p ps ih =>
    intro h
    rw [isort_insert]
    rw [List.pairwise_cons] at h
    by_cases hgt : p.1 > e.1
    · rw [if_pos hgt, List.pairwise_cons]
      refine ⟨?_, ih h.2⟩
      intro x hx
      rcases isort_insert_mem e x ps hx with hx | hx
      · rw [hx]; omega
      · exact h.1 x hx
    · rw [if_neg hgt, List.pairwise_cons, List.pairwise_cons]
      refine ⟨?_, h⟩
      intro x hx
      rcases List.mem_cons.1 hx with hx | hx
      · rw [hx]; omega
      · have := h.1 x hx
        omega

theorem isort_foldl_filter (c : Nat) :
    ∀ (l acc : List (Nat × Nat)),
      (l.foldl (fun acc e => isort_insert e acc) acc).filter (fun p => p.1 = c)
        = (l.reverse ++ acc).filter (fun p => p.1 = c) := by
  intro l
  induction l with
  | nil => intro acc; rfl
  | cons e l ih =>
    intro acc
    rw [List.foldl_cons, ih, List.filter_append, isort_insert_filter, List.reverse_cons,
      List.append_assoc, List.filter_append]
    rfl

theorem isort_foldl_sorted :
    ∀ (l acc : List (Nat × Nat)), acc.Pairwise (fun a b => b.1 ≤ a.1) →
      (l.foldl (fun acc e => isort_insert e acc) acc).Pairwise (fun a b => b.1 ≤ a.1) := by
  intro l
  induction l with
  | nil => intro acc h; exact h
  | cons e l ih =>
    intro acc h
    rw [List.foldl_cons]
    exact ih _ (isort_insert_sorted e acc h)

/-- The sort keeps, for every key, the entries of that key in their order. -/
theorem ISORT_filter (c : Nat) (l : List (Nat × Nat)) :
    (ISORT l).filter (fun p => p.1 = c) = l.filter (fun p => p.1 = c) := by
  rw [ISORT, List.filter_reverse, isort_foldl_filter, List.append_nil, List.filter_reverse,
    List.reverse_reverse]

theorem ISORT_sorted (l : List (Nat × Nat)) :
    (ISORT l).Pairwise (fun a b => a.1 ≤ b.1) := by
  rw [ISORT, List.pairwise_reverse]
  exact isort_foldl_sorted l [] List.Pairwise.nil

theorem COMPRESS_mem (x : Nat × Nat) :
    ∀ t : List (Nat × Nat), x ∈ COMPRESS t → x ∈ t := by
  intro t
  induction t with
  | nil => intro h; exact h
  | cons a rest ih =>
    cases rest with
    | nil => intro h; exact h
    | cons b rest =>
      intro h
      rw [COMPRESS] at h
      by_cases hab : a.1 = b.1
      · rw [if_pos hab] at h
        exact List.mem_cons_of_mem _ (ih h)
      · rw [if_neg hab] at h
        rcases List.mem_cons.1 h with h | h
        · rw [h]; exact List.mem_cons_self _ _
        · exact List.mem_cons_of_mem _ (ih h)

theorem COMPRESS_sorted :
    ∀ t : List (Nat × Nat), t.Pairwise (fun a b => a.1 ≤ b.1) →
      (COMPRESS t).Pairwise (fun a b => a.1 < b.1) := by
  intro t
  induction t with
  | nil => intro _; exact List.Pairwise.nil
  | cons a rest ih =>
    cases rest with
    | nil => intro _; simp [COMPRESS]
    | cons b rest =>
      intro h
      rw [List.pairwise_cons] at h
      rw [COMPRESS]
      by_cases hab : a.1 = b.1
      · rw [if_pos hab]
        exact ih h.2
      · rw [if_neg hab, List.pairwise_cons]
        refine ⟨?_, ih h.2⟩
        intro x hx
        have hx2 := COMPRESS_mem x _ hx
        have hb := h.1 b (List.mem_cons_self _ _)
        rcases List.mem_cons.1 hx2 with hx3 | hx3
        · rw [hx3]; omega
        · have := (List.pairwise_cons.1 h.2).1 x hx3
          omega

/-- On a sorted table the compression keeps, for every key, the last entry of that key. -/
theorem COMPRESS_filter (c : Nat) :
    ∀ t : List (Nat × Nat), t.Pairwise (fun a b => a.1 ≤ b.1) →
      (COMPRESS t).filter (fun p => p.1 = c)
        = ((t.filter (fun p => p.1 = c)).getLast?).toList := by
  intro t
  induction t with
  | nil => intro _; rfl
  | cons a rest ih =>
    cases rest with
    | nil =>
      intro _
      by_cases ha : a.1 = c
      · simp [COMPRESS, List.filter_cons, ha]
      · simp [COMPRESS, List.filter_cons, ha]
    | cons b rest =>
      intro h
      rw [List.pairwise_cons] at h
      have ih2 := ih h.2
      have hpos : ∀ (x : Nat × Nat) (l : List (Nat × Nat)), x.1 = c →
          (x :: l).filter (fun p => decide (p.1 = c)) = x :: l.filter (fun p => decide (p.1 = c)) := by
        intro x l hx
        simp [List.filter_cons, hx]
      have hneg : ∀ (x : Nat × Nat) (l : List (Nat × Nat)), ¬ x.1 = c →
          (x :: l).filter (fun p => decide (p.1 = c)) = l.filter (fun p => decide (p.1 = c)) := by
        intro x l hx
        simp [List.filter_cons, hx]
      rw [COMPRESS]
      by_cases hab : a.1 = b.1
      · rw [if_pos hab, ih2]
        by_cases ha : a.1 = c
        · have hb : b.1 = c := by omega
          rw [hpos a _ ha, hpos b _ hb, List.getLast?_cons_cons]
        · rw [hneg a _ ha]
      · rw [if_neg hab]
        by_cases ha : a.1 = c
        · have hnone : (b :: rest).filter (fun p => decide (p.1 = c)) = [] := by
            rw [List.filter_eq_nil_iff]
            intro x hx
            have hb := h.1 b (List.mem_cons_self _ _)
            have hxa : b.1 ≤ x.1 := by
              rcases List.mem_cons.1 hx with hx3 | hx3
              · rw [hx3]
              · exact (List.pairwise_cons.1 h.2).1 x hx3
            simp only [decide_eq_true_eq]
            omega
          rw [hpos a _ ha, ih2, hnone, hpos a _ ha, hnone]
          rfl
        · rw [hneg a _ ha, ih2, hneg a _ ha]

theorem find_sorted_unique (key : Nat) :
    ∀ (tbl : List (Nat × Nat)) (idx : Nat) (p : Nat × Nat),
      tbl.Pairwise (fun a b => a.1 < b.1) → tbl[idx]? = some p → p.1 = key →
      tbl.find? (fun q => q.1 = key) = some p := by
  intro tbl
  induction tbl with
  | nil => intro idx p _ h; simp at h
  | cons a rest ih =>
    intro idx p hs h hp
    rw [List.pairwise_cons] at hs
    cases idx with
    | zero =>
      simp only [List.getElem?_cons_zero, Option.some.injEq] at h
      subst h
      simp [List.find?_cons, hp]
    | succ idx =>
      simp only [List.getElem?_cons_succ] at h
      have hlt := hs.1 p (List.getElem?_mem h)
      have hne : ¬ a.1 = key := by omega
      rw [List.find?_cons]
      simp only [hne, decide_False]
      exact ih idx p hs.2 h hp

theorem BSEARCH_sorted (key : Nat) (tbl : List (Nat × Nat))
    (hs : tbl.Pairwise (fun a b => a.1 < b.1)) :
    ∀ (fuel l u : Nat), l ≤ u → u ≤ tbl.length → u - l < fuel →
      (∀ (i : Nat) (p : Nat × Nat), i < l → tbl[i]? = some p → p.1 < key) →
      (∀ (i : Nat) (p : Nat × Nat), u ≤ i → tbl[i]? = some p → key < p.1) →
      BSEARCH key tbl fuel l u = .ok (tbl.find? (fun p => p.1 = key)) := by
  have hidx := List.pairwise_iff_getElem.1 hs
  intro fuel
  induction fuel with
  | zero => intro l u _ _ h; omega
  | succ fuel ih =>
    intro l u hlu hu hf hlo hhi
    rw [BSEARCH]
    by_cases hlt : l < u
    · rw [if_pos hlt]
      have hi : (l + u) / 2 < tbl.length := by omega
      have hget : tbl[(l + u) / 2]? = some (tbl.get ⟨(l + u) / 2, hi⟩) := by
        simp [List.getElem?_eq_getElem hi]
      simp only [hget]
      generalize hp : tbl.get ⟨(l + u) / 2, hi⟩ = p at hget
      by_cases h1 : key < p.1
      · rw [if_pos h1]
        refine ih l ((l + u) / 2) (by omega) (by omega) (by omega) hlo ?_
        intro i q hiq hq
        rcases Nat.eq_or_lt_of_le hiq with he | hgt
        · rw [← he, hget] at hq
          injection hq with hq
          rw [← hq]; exact h1
        · have hi2 : i < tbl.length := by
            rcases Nat.lt_or_ge i tbl.length with h | h
            · exact h
            · rw [List.getElem?_eq_none h] at hq; cases hq
          have := hidx ((l + u) / 2) i hi hi2 hgt
          rw [List.getElem?_eq_getElem hi2] at hq
          injection hq with hq
          rw [List.getElem?_eq_getElem hi] at hget
          injection hget with hget
          rw [hq, hget] at this
          omega
      · rw [if_neg h1]
        by_cases h2 : key > p.1
        · rw [if_pos h2]
          refine ih ((l + u) / 2 + 1) u (by omega) hu (by omega) ?_ hhi
          intro i q hiq hq
          rcases Nat.eq_or_lt_of_le (Nat.le_of_lt_succ hiq) with he | hgt
          · rw [he, hget] at hq
            injection hq with hq
            rw [← hq]; exact h2
          · have hi2 : i < tbl.length := by omega
            have := hidx i ((l + u) / 2) hi2 hi hgt
            rw [List.getElem?_eq_getElem hi2] at hq
            injection hq with hq
            rw [List.getElem?_eq_getElem hi] at hget
            injection hget with hget
            rw [hq, hget] at this
            omega
        · rw [if_neg h2]
          have hk : p.1 = key := by omega
          rw [find_sorted_unique key tbl _ p hs hget hk]
    · rw [if_neg hlt]
      have hnone : tbl.find? (fun p => decide (p.1 = key)) = none := by
        rw [List.find?_eq_none]
        intro q hq
        obtain ⟨i, hi, hiq⟩ := List.getElem_of_mem hq
        have hq2 : tbl[i]? = some q := by rw [List.getElem?_eq_getElem hi, hiq]
        simp only [decide_eq_true_eq]
        rcases Nat.lt_or_ge i l with h | h
        · have := hlo i q h hq2
          omega
        · have := hhi i q (by omega) hq2
          omega
      rw [hnone]

theorem find_eq_head_filter (c : Nat) (l : List (Nat × Nat)) :
    l.find? (fun p => p.1 = c) = (l.filter (fun p => p.1 = c)).head? := by
  induction l with
  | nil => rfl
  | cons a rest ih =>
    by_cases ha : a.1 = c
    · simp [List.find?_cons, List.filter_cons, ha]
    · simp only [List.find?_cons, List.filter_cons, ha, decide_False]
      exact ih

theorem find_reverse_getLast (c : Nat) (l : List (Nat × Nat)) :
    l.reverse.find? (fun p => p.1 = c) = (l.filter (fun p => p.1 = c)).getLast? := by
  rw [find_eq_head_filter, List.filter_reverse, List.head?_reverse]

/-- The binary search in the sorted and compressed table finds the last pair of the key. -/
theorem BSEARCH_table (pairs : List (Nat × Nat)) (c : Nat) :
    BSEARCH c (COMPRESS (ISORT pairs)) ((COMPRESS (ISORT pairs)).length + 1) 0
        (COMPRESS (ISORT pairs)).length
      = .ok (pairs.reverse.find? (fun p => p.1 = c)) := by
  have hs := COMPRESS_sorted (ISORT pairs) (ISORT_sorted pairs)
  rw [BSEARCH_sorted c _ hs _ 0 _ (Nat.zero_le _) (Nat.le_refl _) (by omega)
    (fun i p hi _ => absurd hi (Nat.not_lt_zero _))
    (fun i p hi hp => by rw [List.getElem?_eq_none hi] at hp; cases hp)]
  rw [find_eq_head_filter, COMPRESS_filter c _ (ISORT_sorted pairs), ISORT_filter,
    find_reverse_getLast]
  cases (pairs.filter (fun p => decide (p.1 = c))).getLast? <;> rfl

theorem chartr_wc_eq (o n : List Nat) :
    ∀ wc : List Nat,
      chartr_wc (COMPRESS (ISORT (o.zip n))) wc = .ok (wc.map (tr_apply o n)) := by
  intro wc
  induction wc with
  | nil => rfl
  | cons c rest ih =>
    rw [chartr_wc, BSEARCH_table, ih]
    rfl

theorem last_find (c : Nat) (l : List (Nat × Nat)) (j : Nat) (x : Nat × Nat)
    (hx : l[j]? = some x) (hp : x.1 = c)
    (hlast : ∀ (i : Nat) (y : Nat × Nat), j < i → l[i]? = some y → y.1 ≠ c) :
    l.reverse.find? (fun p => p.1 = c) = some x := by
  have hj : j < l.length := by
    rcases Nat.lt_or_ge j l.length with h | h
    · exact h
    · rw [List.getElem?_eq_none h] at hx; cases hx
  have hsplit : l = l.take j ++ x :: l.drop (j + 1) := by
    rw [List.getElem?_eq_getElem hj] at hx
    injection hx with hx
    rw [← hx]
    simp
  rw [hsplit, List.reverse_append, List.reverse_cons, List.find?_append, List.find?_append]
  have hnone : (l.drop (j + 1)).reverse.find? (fun p => decide (p.1 = c)) = none := by
    rw [List.find?_eq_none]
    intro y hy
    rw [List.mem_reverse] at hy
    obtain ⟨i, hi, hiy⟩ := List.getElem_of_mem hy
    simp only [decide_eq_true_eq]
    refine hlast (j + 1 + i) y (by omega) ?_
    rw [List.getElem_drop] at hiy
    rw [← hiy]
    exact List.getElem?_eq_getElem _
  rw [hnone]
  simp [hp]

theorem tr_expand_pos (m : Nat) :
    ∀ s : List tr_spec, tr_wf m s = true → ∀ c ∈ tr_expand s, 0 < c := by
  intro s
  induction s with
  | nil => intro _ c hc; simp [tr_expand] at hc
  | cons t rest ih =>
    intro hwf c hc
    have hrest : tr_wf m rest = true := by
      simp only [tr_wf, List.all_cons, Bool.and_eq_true] at hwf ⊢
      exact hwf.2
    cases t with
    | TR_CHAR c0 =>
      simp only [tr_wf, List.all_cons, Bool.and_eq_true, decide_eq_true_eq] at hwf
      simp only [tr_expand, List.mem_cons] at hc
      rcases hc with hc | hc
      · rw [hc]; exact hwf.1
      · exact ih hrest c hc
    | TR_RANGE first last =>
      simp only [tr_wf, List.all_cons, Bool.and_eq_true, decide_eq_true_eq] at hwf
      simp only [tr_expand, List.mem_append, List.mem_range'_1] at hc
      rcases hc with hc | hc
      · omega
      · exact ih hrest c hc

theorem tr_apply_ne_zero (o n : List Nat) (hn : ∀ c ∈ n, 0 < c) (c : Nat) (hc : c ≠ 0) :
    tr_apply o n c ≠ 0 := by
  unfold tr_apply
  cases hf : (o.zip n).reverse.find? (fun p => decide (p.1 = c)) with
  | none => exact hc
  | some p =>
    have hmem := List.mem_of_find?_eq_some hf
    rw [List.mem_reverse] at hmem
    have := hn p.2 (List.of_mem_zip hmem).2
    simp only
    omega

theorem chartr_wide_elt_eq (L : Env) (W : WideLib) (u : Bool) (o n : List Nat) (el : RString) :
    chartr_wide_elt L W u (COMPRESS (ISORT (o.zip n))) el
      = chartr_by L W true u (tr_apply o n) el := by
  cases el with
  | NA_STRING => rfl
  | chr bytes enc =>
    simp only [chartr_wide_elt, chartr_by, if_true]
    split
    · cases W.utf8towcs (mkChar bytes) with
      | none => rfl
      | some wc => simp only [chartr_wc_eq]; rfl
    · cases W.mbstowcs (mkChar (L.translateChar bytes enc)) with
      | none => rfl
      | some wc => simp only [chartr_wc_eq]; rfl

theorem chartr_sbcs_elt_eq (L : Env) (W : WideLib) (u : Bool) (o n : List Nat)
    (hn : ∀ c ∈ n, 0 < c) (el : RString) :
    chartr_sbcs_elt L (tr_xtable (fun c => c) (o.zip n)) el
      = chartr_by L W false u (tr_apply o n) el := by
  cases el with
  | NA_STRING => rfl
  | chr bytes enc =>
    have hx : tr_xtable (fun c => c) (o.zip n) = tr_apply o n := by
      funext c
      rw [tr_xtable_eq]
      rfl
    simp only [chartr_sbcs_elt, chartr_by, hx]
    have h0 : 0 ∉ (mkChar (L.translateChar bytes enc)).map (tr_apply o n) := by
      intro h
      obtain ⟨c, hc, hc0⟩ := List.mem_map.1 h
      have hcz : c ≠ 0 := fun e => mkChar_not_mem _ (e ▸ hc)
      exact tr_apply_ne_zero o n hn c hcz hc0
    rw [mkChar_append_zero, mkChar_of_not_mem _ h0]
    rfl

theorem do_chartr_eq (L : Env) (W : WideLib) (sc : Bool) (old new : RString)
    (x : List RString) (fuel : Nat) (so sn : List tr_spec)
    (hold : old ≠ .NA_STRING) (hnew : new ≠ .NA_STRING)
    (hso : chartr_build L W sc old new x old = .ok so)
    (hsn : chartr_build L W sc old new x new = .ok sn)
    (hwo : tr_wf (chartr_modulus L old new x) so = true)
    (hwn : tr_wf (chartr_modulus L old new x) sn = true)
    (hfuel : (tr_expand so).length < fuel) :
    do_chartr L W sc old new x fuel
      = if (tr_expand so).length ≤ (tr_expand sn).length
        then vec_loop (chartr_by L W (chartr_wide L old new x) (chartr_use_UTF8 old new x)
          (tr_apply (tr_expand so) (tr_expand sn))) x
        else .error (.error .oldLongerThanNew) := by
  have hpos := tr_expand_pos _ sn hwn
  unfold do_chartr
  rw [if_neg hold, if_neg hnew]
  unfold chartr_build at hso hsn
  unfold chartr_modulus at hwo hwn
  by_cases hw : chartr_wide L old new x = true
  · rw [if_pos hw] at hso hsn hwo hwn
    have hw2 := hw
    unfold chartr_wide chartr_use_UTF8 at hw2
    simp only [hw2, if_true]
    cases h1 : chartr_spec_wcs L W (chartr_use_UTF8 old new x) old with
    | error e => rw [h1] at hso; cases hso
    | ok wold =>
      cases h2 : chartr_spec_wcs L W (chartr_use_UTF8 old new x) new with
      | error e => rw [h2] at hsn; cases hsn
      | ok wnew =>
        rw [h1] at hso
        rw [h2] at hsn
        simp only [Except.bind] at hso hsn
        unfold chartr_use_UTF8 at h1 h2
        simp only [h1, h2, hso, hsn, bind, Except.bind]
        rw [tr_pairs_expand _ fuel so sn hwo hwn hfuel, hw]
        by_cases hlen : (tr_expand so).length ≤ (tr_expand sn).length
        · rw [if_pos hlen, if_pos hlen]
          simp only []
          have : chartr_wide_elt L W (chartr_use_UTF8 old new x)
                (COMPRESS (ISORT ((tr_expand so).zip (tr_expand sn))))
              = chartr_by L W true (chartr_use_UTF8 old new x)
                (tr_apply (tr_expand so) (tr_expand sn)) :=
            funext (chartr_wide_elt_eq L W _ _ _)
          unfold chartr_use_UTF8 at this
          rw [this]
          rfl
        · rw [if_neg hlen, if_neg hlen]
  · have hwf : chartr_wide L old new x = false := by
      cases h : chartr_wide L old new x
      · rfl
      · exact absurd h hw
    rw [hwf] at hso hsn hwo hwn
    simp only [Bool.false_eq_true, if_false] at hso hsn hwo hwn
    have hw2 := hwf
    unfold chartr_wide chartr_use_UTF8 at hw2
    simp only [hw2, Bool.false_eq_true, if_false]
    simp only [hso, hsn, bind, Except.bind]
    rw [tr_pairs_expand _ fuel so sn hwo hwn hfuel, hwf]
    by_cases hlen : (tr_expand so).length ≤ (tr_expand sn).length
    · rw [if_pos hlen, if_pos hlen]
      simp only []
      have : chartr_sbcs_elt L (tr_xtable (fun c => c) ((tr_expand so).zip (tr_expand sn)))
          = chartr_by L W false (chartr_use_UTF8 old new x)
            (tr_apply (tr_expand so) (tr_expand sn)) :=
        funext (chartr_sbcs_elt_eq L W _ _ _ hpos)
      rw [this]
    · rw [if_neg hlen, if_neg hlen]

/-- C22: for `chartr` with specifications `old` and `new` that are built (`so`, `sn`), are
well formed and have range-expanded forms `o` and `n` with `o` not longer than `n`,
`do_chartr` returns the loop over the elements in which every character `c` of every non-NA
element is replaced by `tr_apply o n c`, each character of the result depending only on the
character at the same position (`chartr_by`); `tr_apply o n c` is `c` when `c` does not occur
in `o`, and is `n_i` for a position `i` with `o_i = c` when it does. -/
theorem do_chartr_translates (L : Env) (W : WideLib) (sc : Bool) (old new : RString)
    (x : List RString) (fuel : Nat) (so sn : List tr_spec)
    (hold : old ≠ .NA_STRING) (hnew : new ≠ .NA_STRING)
    (hso : chartr_build L W sc old new x old = .ok so)
    (hsn : chartr_build L W sc old new x new = .ok sn)
    (hwo : tr_wf (chartr_modulus L old new x) so = true)
    (hwn : tr_wf (chartr_modulus L old new x) sn = true)
    (hlen : (tr_expand so).length ≤ (tr_expand sn).length)
    (hfuel : (tr_expand so).length < fuel) :
    do_chartr L W sc old new x fuel
        = vec_loop (chartr_by L W (chartr_wide L old new x) (chartr_use_UTF8 old new x)
            (tr_apply (tr_expand so) (tr_expand sn))) x
      ∧ (∀ c : Nat, c ∉ tr_expand so → tr_apply (tr_expand so) (tr_expand sn) c = c)
      ∧ (∀ c : Nat, c ∈ tr_expand so →
          ∃ i : Nat, (tr_expand so)[i]? = some c
            ∧ (tr_expand sn)[i]? = some (tr_apply (tr_expand so) (tr_expand sn) c)) := by
  refine ⟨?_, ?_, ?_⟩
  · rw [do_chartr_eq L W sc old new x fuel so sn hold hnew hso hsn hwo hwn hfuel, if_pos hlen]
  · intro c hc
    unfold tr_apply
    have hnone : ((tr_expand so).zip (tr_expand sn)).reverse.find? (fun p => decide (p.1 = c))
        = none := by
      rw [List.find?_eq_none]
      intro p hp
      rw [List.mem_reverse] at hp
      simp only [decide_eq_true_eq]
      intro e
      exact hc (e ▸ (List.of_mem_zip hp).1)
    rw [hnone]
  · intro c hc
    obtain ⟨j, hj, hjc⟩ := List.getElem_of_mem hc
    have hjn : j < (tr_expand sn).length := by omega
    have hmem : (c, (tr_expand sn).get ⟨j, hjn⟩) ∈ ((tr_expand so).zip (tr_expand sn)).reverse := by
      rw [List.mem_reverse, List.mem_iff_getElem?]
      refine ⟨j, ?_⟩
      rw [List.getElem?_zip_eq_some]
      exact ⟨by rw [List.getElem?_eq_getElem hj, hjc], by simp [List.getElem?_eq_getElem hjn]⟩
    unfold tr_apply
    cases hf : ((tr_expand so).zip (tr_expand sn)).reverse.find? (fun p => decide (p.1 = c)) with
    | none =>
      rw [List.find?_eq_none] at hf
      exact absurd (by simp) (hf _ hmem)
    | some p =>
      have hp1 : p.1 = c := by simpa using List.find?_some hf
      have hpm := List.mem_of_find?_eq_some hf
      rw [List.mem_reverse, List.mem_iff_getElem?] at hpm
      obtain ⟨i, hi⟩ := hpm
      rw [List.getElem?_zip_eq_some] at hi
      exact ⟨i, by rw [hi.1, hp1], hi.2⟩

theorem do_chartr_translates_witness :
    do_chartr sbcsLocale sbcsWide false (.chr [97, 45, 99] .CE_NATIVE)
        (.chr [65, 45, 67] .CE_NATIVE)
        [.chr [97, 98, 99, 97, 98, 99] .CE_NATIVE, .NA_STRING, .chr [99, 100] .CE_NATIVE] 10
      = .ok [.chr [65, 66, 67, 65, 66, 67] .CE_NATIVE, .NA_STRING, .chr [67, 100] .CE_NATIVE]
    ∧ tr_expand [.TR_RANGE 97 99] = [97, 98, 99]
    ∧ do_chartr utf8Locale utf8Wide false (.chr [97, 45, 99] .CE_NATIVE)
        (.chr [65, 45, 67] .CE_NATIVE) [.chr [97, 98, 99, 97, 98, 99] .CE_NATIVE] 10
      = .ok [.chr [65, 66, 67, 65, 66, 67] .CE_NATIVE] :=
  ⟨(do_chartr_translates sbcsLocale sbcsWide false (.chr [97, 45, 99] .CE_NATIVE)
      (.chr [65, 45, 67] .CE_NATIVE)
      [.chr [97, 98, 99, 97, 98, 99] .CE_NATIVE, .NA_STRING, .chr [99, 100] .CE_NATIVE] 10
      [.TR_RANGE 97 99] [.TR_RANGE 65 67] (by decide) (by decide) rfl rfl rfl rfl
      (by decide) (by decide)).1.trans rfl,
    rfl,
    (do_chartr_translates utf8Locale utf8Wide false (.chr [97, 45, 99] .CE_NATIVE)
      (.chr [65, 45, 67] .CE_NATIVE) [.chr [97, 98, 99, 97, 98, 99] .CE_NATIVE] 10
      [.TR_RANGE 97 99] [.TR_RANGE 65 67] (by decide) (by decide) rfl rfl rfl rfl
      (by decide) (by decide)).1.trans rfl⟩

/-- C24: when the range-expanded `old` (`o`) holds the character `c` at several positions,
the later entry overrides the earlier ones: with `j` the last position of `c` in `o` and `d`
the character of the range-expanded `new` (`n`) at that position, the table of the
single-byte branch (`tr_xtable`, filled from the identity in the order of the pairs) gives `d`
for `c`, and the binary search for `c` in the sorted and compressed table of the branch on
wide characters finds the pair of `c` and `d`. -/
theorem chartr_tables_last_occurrence (o n : List Nat) (c j d : Nat)
    (hj : o[j]? = some c) (hd : n[j]? = some d)
    (hlast : ∀ i : Nat, j < i → i < n.length → o[i]? ≠ some c) :
    tr_xtable (fun b => b) (o.zip n) c = d
      ∧ BSEARCH c (COMPRESS (ISORT (o.zip n))) ((COMPRESS (ISORT (o.zip n))).length + 1) 0
          (COMPRESS (ISORT (o.zip n))).length = .ok (some (c, d))
      ∧ chartr_wc (COMPRESS (ISORT (o.zip n))) [c] = .ok [d] := by
  have hfind : (o.zip n).reverse.find? (fun p => p.1 = c) = some (c, d) := by
    refine last_find c _ j (c, d) ?_ rfl ?_
    · rw [List.getElem?_zip_eq_some]
      exact ⟨hj, hd⟩
    · intro i y hji hy
      rw [List.getElem?_zip_eq_some] at hy
      have hin : i < n.length := by
        rcases Nat.lt_or_ge i n.length with h | h
        · exact h
        · rw [List.getElem?_eq_none h] at hy; cases hy.2
      intro e
      exact hlast i hji hin (by rw [hy.1, e])
  refine ⟨?_, ?_, ?_⟩
  · rw [tr_xtable_eq, hfind]
  · rw [BSEARCH_table, hfind]
  · rw [chartr_wc_eq]
    simp only [List.map_cons, List.map_nil, tr_apply, hfind]

theorem chartr_tables_last_occurrence_witness :
    (tr_xtable (fun b => b) ([97, 98, 97].zip [120, 121, 122]) 97 = 122
      ∧ BSEARCH 97 (COMPRESS (ISORT ([97, 98, 97].zip [120, 121, 122])))
          ((COMPRESS (ISORT ([97, 98, 97].zip [120, 121, 122]))).length + 1) 0
          (COMPRESS (ISORT ([97, 98, 97].zip [120, 121, 122]))).length = .ok (some (97, 122))
      ∧ chartr_wc (COMPRESS (ISORT ([97, 98, 97].zip [120, 121, 122]))) [97] = .ok [122])
    ∧ COMPRESS (ISORT ([97, 98, 97].zip [120, 121, 122])) = [(97, 122), (98, 121)]
    ∧ do_chartr sbcsLocale sbcsWide false (.chr [97, 98, 97] .CE_NATIVE)
        (.chr [120, 121, 122] .CE_NATIVE) [.chr [97, 98, 99] .CE_NATIVE] 10
      = .ok [.chr [122, 121, 99] .CE_NATIVE]
    ∧ do_chartr utf8Locale utf8Wide false (.chr [97, 98, 97] .CE_NATIVE)
        (.chr [120, 121, 122] .CE_NATIVE) [.chr [97, 98, 99] .CE_NATIVE] 10
      = .ok [.chr [122, 121, 99] .CE_NATIVE] :=
  ⟨chartr_tables_last_occurrence [97, 98, 97] [120, 121, 122] 97 2 122 rfl rfl
      (fun i h1 h2 => by
        simp only [List.length_cons, List.length_nil] at h2
        omega),
    rfl, rfl, rfl⟩

theorem vec_loop_error (f : RString → Except Fault RString) (e : Fault) :
    ∀ x : List RString, vec_loop f x = .error e → ∃ el ∈ x, f el = .error e := by
  intro x
  induction x with
  | nil => intro h; cases h
  | cons a rest ih =>
    intro h
    simp only [vec_loop, bind, Except.bind, pure, Except.pure] at h
    cases hf : f a with
    | error e1 =>
      rw [hf] at h
      simp only at h
      injection h with h
      exact ⟨a, List.mem_cons_self _ _, by rw [hf, h]⟩
    | ok b =>
      rw [hf] at h
      simp only at h
      cases hr : vec_loop f rest with
      | error e2 =>
        rw [hr] at h
        simp only at h
        injection h with h
        obtain ⟨el, hel, hfe⟩ := ih (by rw [hr, h])
        exact ⟨el, List.mem_cons_of_mem _ hel, hfe⟩
      | ok r =>
        rw [hr] at h
        cases h

theorem vec_loop_ok (f : RString → Except Fault RString) :
    ∀ x : List RString, (∀ el ∈ x, ∃ a, f el = .ok a) →
      ∃ y, vec_loop f x = .ok y ∧ y.length = x.length := by
  intro x
  induction x with
  | nil => intro _; exact ⟨[], rfl, rfl⟩
  | cons a rest ih =>
    intro h
    obtain ⟨b, hb⟩ := h a (List.mem_cons_self _ _)
    obtain ⟨r, hr, hlen⟩ := ih (fun el hel => h el (List.mem_cons_of_mem _ hel))
    refine ⟨b :: r, ?_, by simp [hlen]⟩
    simp only [vec_loop, bind, Except.bind, pure, Except.pure, hb, hr]

theorem chartr_by_error (L : Env) (W : WideLib) (wide u : Bool) (f : Nat → Nat)
    (el : RString) (e : Fault) (h : chartr_by L W wide u f el = .error e) :
    e = .error .invalidInput ∧ chartr_decodes L W wide u el = false := by
  cases el with
  | NA_STRING => cases h
  | chr bytes enc =>
    simp only [chartr_by, chartr_decodes] at h ⊢
    split at h
    · rw [if_pos (by assumption)]
      split at h
      · rw [if_pos (by assumption)]
        cases hd : W.utf8towcs (mkChar bytes) with
        | none =>
          rw [hd] at h
          injection h with h
          exact ⟨h.symm, rfl⟩
        | some wc => rw [hd] at h; cases h
      · rw [if_neg (by assumption)]
        cases hd : W.mbstowcs (mkChar (L.translateChar bytes enc)) with
        | none =>
          rw [hd] at h
          injection h with h
          exact ⟨h.symm, rfl⟩
        | some wc => rw [hd] at h; cases h
    · cases h

theorem chartr_by_ok (L : Env) (W : WideLib) (wide u : Bool) (f : Nat → Nat)
    (el : RString) (h : chartr_decodes L W wide u el = true) :
    ∃ a, chartr_by L W wide u f el = .ok a := by
  cases hr : chartr_by L W wide u f el with
  | ok a => exact ⟨a, rfl⟩
  | error e =>
    have := (chartr_by_error L W wide u f el e hr).2
    rw [h] at this
    cases this

/-- C23: for `chartr` with specifications `old` and `new` that are built (`so`, `sn`: they
are not NA, they decode and no range is decreasing) and well formed, `do_chartr` fails with
the error that `old` is longer than `new` exactly when the range-expanded `old` has more
characters than the range-expanded `new`, whatever the vector `x` is; when it has not, the
call succeeds provided every element of `x` decodes in the branch taken (always so in the
branch on bytes), and the result then has the length of `x`. -/
theorem do_chartr_old_longer (L : Env) (W : WideLib) (sc : Bool) (old new : RString)
    (x : List RString) (fuel : Nat) (so sn : List tr_spec)
    (hold : old ≠ .NA_STRING) (hnew : new ≠ .NA_STRING)
    (hso : chartr_build L W sc old new x old = .ok so)
    (hsn : chartr_build L W sc old new x new = .ok sn)
    (hwo : tr_wf (chartr_modulus L old new x) so = true)
    (hwn : tr_wf (chartr_modulus L old new x) sn = true)
    (hfuel : (tr_expand so).length < fuel) :
    (do_chartr L W sc old new x fuel = .error (.error .oldLongerThanNew)
        ↔ (tr_expand sn).length < (tr_expand so).length)
      ∧ ((tr_expand so).length ≤ (tr_expand sn).length →
          (∀ el ∈ x, chartr_decodes L W (chartr_wide L old new x) (chartr_use_UTF8 old new x) el
            = true) →
          ∃ y, do_chartr L W sc old new x fuel = .ok y ∧ y.length = x.length)
      ∧ (chartr_wide L old new x = false →
          ∀ el : RString, chartr_decodes L W (chartr_wide L old new x)
            (chartr_use_UTF8 old new x) el = true) := by
  have heq := do_chartr_eq L W sc old new x fuel so sn hold hnew hso hsn hwo hwn hfuel
  refine ⟨⟨?_, ?_⟩, ?_, ?_⟩
  · intro h
    by_cases hlen : (tr_expand so).length ≤ (tr_expand sn).length
    · rw [heq, if_pos hlen] at h
      obtain ⟨el, _, hel⟩ := vec_loop_error _ _ x h
      have := (chartr_by_error L W _ _ _ el _ hel).1
      cases this
    · omega
  · intro h
    rw [heq, if_neg (by omega)]
  · intro hlen hdec
    rw [heq, if_pos hlen]
    exact vec_loop_ok _ x (fun el hel => chartr_by_ok L W _ _ _ el (hdec el hel))
  · intro hw el
    rw [hw]
    cases el <;> rfl

theorem do_chartr_old_longer_witness :
    do_chartr sbcsLocale sbcsWide false (.chr [97, 98] .CE_NATIVE) (.chr [97] .CE_NATIVE)
        [.chr [120] .CE_NATIVE] 10 = .error (.error .oldLongerThanNew)
    ∧ do_chartr sbcsLocale sbcsWide false (.chr [97, 98] .CE_NATIVE) (.chr [97] .CE_NATIVE)
        [] 10 = .error (.error .oldLongerThanNew)
    ∧ do_chartr utf8Locale utf8Wide false (.chr [97, 98] .CE_NATIVE) (.chr [97] .CE_NATIVE)
        [.chr [0xFF] .CE_NATIVE] 10 = .error (.error .oldLongerThanNew) :=
  ⟨(do_chartr_old_longer sbcsLocale sbcsWide false (.chr [97, 98] .CE_NATIVE)
      (.chr [97] .CE_NATIVE) [.chr [120] .CE_NATIVE] 10 [.TR_CHAR 97, .TR_CHAR 98]
      [.TR_CHAR 97] (by decide) (by decide) rfl rfl rfl rfl (by decide)).1.mpr (by decide),
    rfl, rfl⟩

/-- C23 (counterexample): in a UTF-8 locale, with `old` the letter a and `new` the letter b
(specifications of one character each, no range), `do_chartr` on the element of the single
byte 0xFF does not succeed: it stops with the error for an invalid input string. -/
theorem do_chartr_undecodable_input_fails :
    do_chartr utf8Locale utf8Wide false (.chr [97] .CE_NATIVE) (.chr [98] .CE_NATIVE)
        [.chr [0xFF] .CE_NATIVE] 10 = .error (.error .invalidInput)
    ∧ chartr_build utf8Locale utf8Wide false (.chr [97] .CE_NATIVE) (.chr [98] .CE_NATIVE)
        [.chr [0xFF] .CE_NATIVE] (.chr [97] .CE_NATIVE) = .ok [.TR_CHAR 97]
    ∧ chartr_build utf8Locale utf8Wide false (.chr [97] .CE_NATIVE) (.chr [98] .CE_NATIVE)
        [.chr [0xFF] .CE_NATIVE] (.chr [98] .CE_NATIVE) = .ok [.TR_CHAR 98]
    ∧ (tr_expand [.TR_CHAR 97]).length ≤ (tr_expand [.TR_CHAR 98]).length :=
  ⟨rfl, rfl, rfl, by decide⟩

/-! ## Theorems: `abbreviate` -/

theorem word_heads_from_erase (C : CType) :
    ∀ (b : List Nat) (i : Nat) (p : Bool),
      C.isspace (b.getD i 0) = false → C.isspace (b.getD (i + 1) 0) = false →
      word_heads_from C p (b.eraseIdx (i + 1)) = word_heads_from C p b := by
  intro b
  induction b with
  | nil => intro i p _ _; rfl
  | cons c r ih =>
    intro i p h1 h2
    cases i with
    | zero =>
      cases r with
      | nil => rfl
      | cons d r2 =>
        simp only [List.getD_cons_zero, List.getD_cons_succ, Nat.zero_add] at h1 h2
        simp only [Nat.zero_add, List.eraseIdx_cons_succ, List.eraseIdx_cons_zero,
          word_heads_from, h1, h2, Bool.false_eq_true, if_false]
    | succ i =>
      simp only [List.getD_cons_succ] at h1 h2
      simp only [List.eraseIdx_cons_succ, word_heads_from]
      rw [ih i true h1 h2, ih i false h1 h2]

theorem non_blanks_erase_blank (C : CType) :
    ∀ (b : List Nat) (i : Nat), C.isspace (b.getD i 0) = true →
      non_blanks C (b.eraseIdx i) = non_blanks C b := by
  intro b
  induction b with
  | nil => intro i _; rfl
  | cons c r ih =>
    intro i h
    cases i with
    | zero =>
      simp only [List.getD_cons_zero] at h
      simp [non_blanks, List.filter_cons, h]
    | succ i =>
      simp only [List.getD_cons_succ] at h
      have := ih i h
      simp only [non_blanks] at this ⊢
      simp only [List.eraseIdx_cons_succ, List.filter_cons, this]

theorem word_heads_sub_non_blanks (C : CType) :
    ∀ (b : List Nat) (p : Bool), (word_heads_from C p b).Sublist (non_blanks C b) := by
  intro b
  induction b with
  | nil => intro p; exact List.Sublist.slnil
  | cons c r ih =>
    intro p
    cases hc : C.isspace c with
    | true =>
      simp only [word_heads_from, non_blanks, List.filter_cons, hc, if_true, Bool.not_true,
        Bool.false_eq_true, if_false]
      exact ih true
    | false =>
      simp only [word_heads_from, non_blanks, List.filter_cons, hc, Bool.false_eq_true,
        if_false, Bool.not_false, if_true]
      cases p with
      | true => exact (ih false).cons₂ c
      | false => exact (ih false).cons c

theorem word_heads_append_blanks (C : CType) (t : List Nat)
    (ht : ∀ c ∈ t, C.isspace c = true) :
    ∀ (l : List Nat) (p : Bool), word_heads_from C p (l ++ t) = word_heads_from C p l := by
  have htail : ∀ (t : List Nat), (∀ c ∈ t, C.isspace c = true) →
      ∀ p : Bool, word_heads_from C p t = [] := by
    intro t
    induction t with
    | nil => intro _ p; rfl
    | cons c r ih =>
      intro h p
      simp only [word_heads_from, h c (List.mem_cons_self _ _), if_true]
      exact ih (fun x hx => h x (List.mem_cons_of_mem _ hx)) true
  intro l
  induction l with
  | nil => intro p; simp only [List.nil_append, word_heads_from]; exact htail t ht p
  | cons c r ih =>
    intro p
    have e : (c :: r) ++ t = c :: (r ++ t) := rfl
    rw [e]
    simp only [word_heads_from, ih]

theorem non_blanks_append_blanks (C : CType) (l t : List Nat)
    (ht : ∀ c ∈ t, C.isspace c = true) : non_blanks C (l ++ t) = non_blanks C l := by
  have : t.filter (fun c => !C.isspace c) = [] := by
    rw [List.filter_eq_nil_iff]
    intro c hc
    simp [ht c hc]
  simp only [non_blanks, List.filter_append, this, List.append_nil]

theorem leading_blanks_drop (C : CType) :
    ∀ s : List Nat,
      word_heads C (s.drop (leading_blanks C s)) = word_heads C s
        ∧ non_blanks C (s.drop (leading_blanks C s)) = non_blanks C s
        ∧ ((s.drop (leading_blanks C s)).length ≤ 1
            ∨ C.isspace ((s.drop (leading_blanks C s)).getD 0 0) = false) := by
  intro s
  induction s with
  | nil => exact ⟨rfl, rfl, Or.inl (by simp [leading_blanks])⟩
  | cons c r ih =>
    cases r with
    | nil => exact ⟨rfl, rfl, Or.inl (by simp [leading_blanks])⟩
    | cons d r2 =>
      cases hc : C.isspace c with
      | true =>
        have hlb : leading_blanks C (c :: d :: r2) = leading_blanks C (d :: r2) + 1 := by
          simp [leading_blanks, hc]
        rw [hlb, List.drop_succ_cons]
        refine ⟨?_, ?_, ih.2.2⟩
        · rw [ih.1]
          simp only [word_heads]
          rw [word_heads_from.eq_2 C true c (d :: r2), if_pos hc]
        · rw [ih.2.1]
          simp [non_blanks, List.filter_cons, hc]
      | false =>
        have hlb : leading_blanks C (c :: d :: r2) = 0 := by
          simp [leading_blanks, hc]
        rw [hlb]
        exact ⟨rfl, rfl, Or.inr (by simpa using hc)⟩

theorem strip_passes_nonblank (C : CType)
    (hvow : ∀ c ∈ [97, 101, 105, 111, 117], C.isspace c = false)
    (hlow : ∀ c : Nat, C.islower c = true → C.isspace c = false) :
    ∀ del ∈ strip_passes C, ∀ (b : List Nat) (i : Nat), del b (i + 1) = true →
      C.isspace (b.getD i 0) = false ∧ C.isspace (b.getD (i + 1) 0) = false := by
  have hv : ∀ (b : List Nat) (i : Nat), LOWVOW b i = true → C.isspace (b.getD i 0) = false := by
    intro b i h
    apply hvow
    simp only [LOWVOW, Bool.or_eq_true, decide_eq_true_eq] at h
    simp only [List.mem_cons, List.mem_singleton, List.not_mem_nil, or_false]
    tauto
  have hl : ∀ (b : List Nat) (i : Nat), LASTCHAR C b (i + 1) = true →
      C.isspace (b.getD i 0) = false := by
    intro b i h
    simp only [LASTCHAR, Nat.add_sub_cancel, Bool.and_eq_true, Bool.not_eq_true'] at h
    exact h.1
  have hf : ∀ (b : List Nat) (i : Nat), (!FIRSTCHAR C b (i + 1)) = true →
      C.isspace (b.getD i 0) = false := by
    intro b i h
    simpa [FIRSTCHAR] using h
  intro del hdel b i h
  simp only [strip_passes, List.mem_cons, List.mem_singleton, List.not_mem_nil, or_false]
    at hdel
  rcases hdel with rfl | rfl | rfl | rfl | rfl
  · simp only [Bool.and_eq_true] at h
    exact ⟨hl b i h.2, hv b _ h.1⟩
  · simp only [Bool.and_eq_true] at h
    exact ⟨hf b i h.2, hv b _ h.1⟩
  · simp only [Bool.and_eq_true] at h
    exact ⟨hl b i h.2, hlow _ h.1⟩
  · simp only [Bool.and_eq_true] at h
    exact ⟨hf b i h.2, hlow _ h.1⟩
  · simp only [Bool.and_eq_true] at h
    exact ⟨hf b i h.1, by simpa using h.2⟩

theorem strip_loop_succ (del : List Nat → Nat → Bool) (minlen : Int) (nspace i : Nat)
    (b : List Nat) :
    strip_loop del minlen nspace (i + 1) b
      = if to_size_t (((if del b (i + 1) then b.eraseIdx (i + 1) else b).length : Int)
            - (nspace : Int)) ≤ to_size_t minlen
        then ((if del b (i + 1) then b.eraseIdx (i + 1) else b), true)
        else strip_loop del minlen nspace i (if del b (i + 1) then b.eraseIdx (i + 1) else b) :=
  rfl

theorem strip_trailing_succ (C : CType) (minlen : Int) (i : Nat) (j : Bool) (nspace : Nat)
    (b : List Nat) :
    strip_trailing C minlen (i + 1) j nspace b
      = if to_size_t (((if C.isspace (b.getD (i + 1) 0) && j then b.take (i + 1) else b).length
              : Int)
            - ((if C.isspace (b.getD (i + 1) 0) && !j then nspace + 1 else nspace : Nat) : Int))
            ≤ to_size_t minlen
        then ((if C.isspace (b.getD (i + 1) 0) && j then b.take (i + 1) else b),
          (if C.isspace (b.getD (i + 1) 0) && !j then nspace + 1 else nspace), true)
        else strip_trailing C minlen i (C.isspace (b.getD (i + 1) 0) && j)
          (if C.isspace (b.getD (i + 1) 0) && !j then nspace + 1 else nspace)
          (if C.isspace (b.getD (i + 1) 0) && j then b.take (i + 1) else b) :=
  rfl

theorem strip_loop_heads (C : CType) (del : List Nat → Nat → Bool) (minlen : Int)
    (nspace : Nat)
    (hdel : ∀ (b : List Nat) (i : Nat), del b (i + 1) = true →
      C.isspace (b.getD i 0) = false ∧ C.isspace (b.getD (i + 1) 0) = false) :
    ∀ (i : Nat) (b : List Nat),
      word_heads C (strip_loop del minlen nspace i b).1 = word_heads C b := by
  intro i
  induction i with
  | zero => intro b; rfl
  | succ i ih =>
    intro b
    have hb1 : word_heads C (if del b (i + 1) then b.eraseIdx (i + 1) else b)
        = word_heads C b := by
      by_cases hd : del b (i + 1) = true
      · rw [if_pos hd]
        exact word_heads_from_erase C b i true (hdel b i hd).1 (hdel b i hd).2
      · rw [if_neg hd]
    rw [strip_loop_succ]
    generalize (if del b (i + 1) = true then b.eraseIdx (i + 1) else b) = b1 at hb1 ⊢
    by_cases hchk : to_size_t ((b1.length : Int) - (nspace : Int)) ≤ to_size_t minlen
    · rw [if_pos hchk]
      exact hb1
    · rw [if_neg hchk, ih, hb1]

theorem strip_run_heads (C : CType) (minlen : Int) (nspace : Nat) :
    ∀ (passes : List (List Nat → Nat → Bool)),
      (∀ del ∈ passes, ∀ (b : List Nat) (i : Nat), del b (i + 1) = true →
        C.isspace (b.getD i 0) = false ∧ C.isspace (b.getD (i + 1) 0) = false) →
      ∀ b : List Nat, word_heads C (strip_run minlen nspace passes b) = word_heads C b := by
  intro passes
  induction passes with
  | nil => intro _ b; rfl
  | cons del rest ih =>
    intro h b
    have h1 := strip_loop_heads C del minlen nspace (h del (List.mem_cons_self _ _))
      (b.length - 1) b
    rw [strip_run]
    split
    · exact h1
    · rw [ih (fun d hd => h d (List.mem_cons_of_mem _ hd)), h1]

theorem strip_spaces_non_blanks (C : CType) :
    ∀ (i : Nat) (b : List Nat), non_blanks C (strip_spaces C i b) = non_blanks C b := by
  intro i
  induction i with
  | zero => intro b; rfl
  | succ i ih =>
    intro b
    rw [strip_spaces, ih]
    by_cases hs : C.isspace (b.getD (i + 1) 0) = true
    · rw [if_pos hs, non_blanks_erase_blank C b _ hs]
    · rw [if_neg hs]

theorem donesc_non_blanks (C : CType) (minlen : Int) (b : List Nat) :
    non_blanks C (donesc C minlen b) = non_blanks C b := by
  unfold donesc
  split
  · exact strip_spaces_non_blanks C _ b
  · rfl

theorem strip_trailing_prefix (C : CType) (minlen : Int) :
    ∀ (i : Nat) (j : Bool) (nspace : Nat) (b : List Nat), (j = true → b.length ≤ i + 1) →
      ∃ t : List Nat, b = (strip_trailing C minlen i j nspace b).1 ++ t
        ∧ ∀ c ∈ t, C.isspace c = true := by
  intro i
  induction i with
  | zero => intro j nspace b _; exact ⟨[], by simp [strip_trailing], by simp⟩
  | succ i ih =>
    intro j nspace b hj
    have hcut : ∃ t : List Nat,
        b = (if (C.isspace (b.getD (i + 1) 0) && j) = true then b.take (i + 1) else b) ++ t
          ∧ ∀ c ∈ t, C.isspace c = true := by
      by_cases hc : (C.isspace (b.getD (i + 1) 0) && j) = true
      · rw [if_pos hc]
        simp only [Bool.and_eq_true] at hc
        refine ⟨b.drop (i + 1), (List.take_append_drop _ _).symm, ?_⟩
        intro c hcm
        have hlen := hj hc.2
        obtain ⟨k, hk, hkc⟩ := List.getElem_of_mem hcm
        simp only [List.length_drop] at hk
        have hk0 : k = 0 := by omega
        subst hk0
        rw [List.getElem_drop] at hkc
        have hget : b.getD (i + 1) 0 = c := by
          rw [List.getD_eq_getElem?_getD, List.getElem?_eq_getElem (by omega)]
          simpa using hkc
        rw [← hget]
        exact hc.1
      · rw [if_neg hc]
        exact ⟨[], by simp, by simp⟩
    have hj1 : (C.isspace (b.getD (i + 1) 0) && j) = true →
        (if (C.isspace (b.getD (i + 1) 0) && j) = true then b.take (i + 1) else b).length
          ≤ i + 1 := by
      intro hc
      rw [if_pos hc, List.length_take]
      omega
    obtain ⟨t1, ht1, hsp1⟩ := hcut
    rw [strip_trailing_succ]
    generalize (if (C.isspace (b.getD (i + 1) 0) && j) = true then b.take (i + 1) else b) = b1
      at ht1 hj1 ⊢
    generalize (if (C.isspace (b.getD (i + 1) 0) && !j) = true then nspace + 1 else nspace)
      = ns1
    by_cases hchk : to_size_t ((b1.length : Int) - (ns1 : Int)) ≤ to_size_t minlen
    · rw [if_pos hchk]
      exact ⟨t1, ht1, hsp1⟩
    · rw [if_neg hchk]
      obtain ⟨t2, ht2, hsp2⟩ := ih (C.isspace (b.getD (i + 1) 0) && j) ns1 b1 hj1
      refine ⟨t2 ++ t1, ?_, ?_⟩
      · rw [← List.append_assoc, ← ht2]
        exact ht1
      · intro c hc
        rcases List.mem_append.1 hc with h | h
        · exact hsp2 c h
        · exact hsp1 c h

theorem ascii_mkChar (s : List Nat) (hs : ∀ b ∈ s, 0 < b ∧ b < 128) : mkChar s = s :=
  mkChar_of_not_mem s (fun h => absurd (hs 0 h).1 (by decide))

theorem non_blanks_sublist_donesc (C : CType) (minlen : Int) (b : List Nat) :
    (non_blanks C b).Sublist (donesc C minlen b) := by
  rw [← donesc_non_blanks C minlen b]
  exact List.filter_sublist _

/-- C30: `stripchars` retains the first letter of every word: for every ASCII string `s` and
every `minlen`, the first characters of the words of `s` (the characters that are not blanks
and stand at the start of the string or after a blank) are all present in the result, in their
order; the functions `isspace` and `islower` are only taken to hold no lower case vowel and no
lower case letter for a blank. -/
theorem stripchars_keeps_word_heads (C : CType) (s : List Nat) (minlen : Int)
    (hs : ∀ b ∈ s, 0 < b ∧ b < 128)
    (hvow : ∀ c ∈ [97, 101, 105, 111, 117], C.isspace c = false)
    (hlow : ∀ c : Nat, C.islower c = true → C.isspace c = false) :
    (word_heads C s).Sublist (stripchars C s minlen) := by
  have hfin : ∀ bp : List Nat, word_heads C bp = word_heads C s →
      (word_heads C s).Sublist (donesc C minlen bp) := by
    intro bp h
    rw [← h]
    exact (word_heads_sub_non_blanks C bp true).trans (non_blanks_sublist_donesc C minlen bp)
  have h0 := (leading_blanks_drop C s).1
  unfold stripchars
  rw [ascii_mkChar s hs]
  simp only []
  generalize s.drop (leading_blanks C s) = b0 at h0 ⊢
  obtain ⟨t, ht, hsp⟩ := strip_trailing_prefix C minlen (b0.length - 1) true 0 b0
    (fun _ => by omega)
  have h1 : word_heads C (strip_trailing C minlen (b0.length - 1) true 0 b0).1
      = word_heads C s := by
    rw [← h0]
    conv => rhs; rw [ht]
    exact (word_heads_append_blanks C t hsp _ true).symm
  by_cases hlt : to_size_t (b0.length : Int) < to_size_t minlen
  · rw [if_pos hlt]
    exact hfin b0 h0
  · rw [if_neg hlt]
    by_cases hdone : (strip_trailing C minlen (b0.length - 1) true 0 b0).2.2 = true
    · rw [if_pos hdone]
      exact hfin _ h1
    · rw [if_neg hdone]
      refine hfin _ ?_
      rw [strip_run_heads C minlen _ (strip_passes C) (strip_passes_nonblank C hvow hlow), h1]

theorem stripchars_keeps_word_heads_witness :
    (word_heads asciiCType [78, 101, 119, 32, 72, 97, 109, 112, 115, 104, 105, 114, 101]).Sublist
        (stripchars asciiCType [78, 101, 119, 32, 72, 97, 109, 112, 115, 104, 105, 114, 101] 4)
    ∧ word_heads asciiCType [78, 101, 119, 32, 72, 97, 109, 112, 115, 104, 105, 114, 101]
      = [78, 72]
    ∧ stripchars asciiCType [78, 101, 119, 32, 72, 97, 109, 112, 115, 104, 105, 114, 101] 4
      = [78, 119, 72, 109]
    ∧ stripchars asciiCType [78, 101, 119, 32, 72, 97, 109, 112, 115, 104, 105, 114, 101] 0
      = [78, 72]
    ∧ stripchars asciiCType [78, 101, 119, 32, 72, 97, 109, 112, 115, 104, 105, 114, 101] (-1)
      = [78, 101, 119, 72, 97, 109, 112, 115, 104, 105, 114, 101] :=
  ⟨stripchars_keeps_word_heads asciiCType
      [78, 101, 119, 32, 72, 97, 109, 112, 115, 104, 105, 114, 101] 4 (by decide) (by decide)
      (fun c h => by
        simp only [asciiCType, Bool.and_eq_true, decide_eq_true_eq] at h
        simp only [asciiCType, Bool.or_eq_false_iff, decide_eq_false_iff_not,
          Bool.and_eq_false_imp, decide_eq_true_eq]
        omega),
    by decide, by decide, by decide, by decide⟩

theorem non_blanks_length_add (C : CType) :
    ∀ b : List Nat, (non_blanks C b).length + b.countP (fun c => C.isspace c) = b.length := by
  intro b
  induction b with
  | nil => rfl
  | cons c r ih =>
    cases hc : C.isspace c with
    | true =>
      simp only [non_blanks, List.filter_cons, hc, Bool.not_true, Bool.false_eq_true, if_false,
        List.countP_cons, if_true, List.length_cons]
      simp only [non_blanks] at ih
      omega
    | false =>
      simp only [non_blanks, List.filter_cons, hc, Bool.not_false, if_true,
        List.countP_cons, Bool.false_eq_true, if_false, List.length_cons]
      simp only [non_blanks] at ih
      omega

theorem non_blanks_erase_nonblank (C : CType) :
    ∀ (b : List Nat) (i : Nat), i < b.length → C.isspace (b.getD i 0) = false →
      (non_blanks C (b.eraseIdx i)).length + 1 = (non_blanks C b).length
        ∧ (b.eraseIdx i).length + 1 = b.length := by
  intro b
  induction b with
  | nil => intro i h; simp at h
  | cons c r ih =>
    intro i hi h
    cases i with
    | zero =>
      simp only [List.getD_cons_zero] at h
      simp [non_blanks, List.filter_cons, h]
    | succ i =>
      simp only [List.getD_cons_succ] at h
      simp only [List.length_cons] at hi
      have := ih i (by omega) h
      simp only [non_blanks] at this
      cases hc : C.isspace c <;>
        simp only [non_blanks, List.eraseIdx_cons_succ, List.filter_cons, hc, Bool.not_true,
          Bool.not_false, Bool.false_eq_true, if_false, if_true, List.length_cons] <;> omega

theorem to_size_t_of_range (z : Int) (h0 : 0 ≤ z) (h1 : z < 2 ^ 31) : to_size_t z = z := by
  unfold to_size_t
  exact Int.emod_eq_of_lt h0 (by omega)

theorem strip_loop_count (C : CType) (del : List Nat → Nat → Bool) (minlen : Int)
    (nspace : Nat) (hmin : 0 ≤ minlen) (hmax : minlen < 2 ^ 31)
    (hdel : ∀ (b : List Nat) (i : Nat), del b (i + 1) = true →
      C.isspace (b.getD i 0) = false ∧ C.isspace (b.getD (i + 1) 0) = false) :
    ∀ (i : Nat) (b : List Nat), b.length < 2 ^ 31 →
      b.length = (non_blanks C b).length + nspace →
      minlen < ((non_blanks C b).length : Int) →
      (strip_loop del minlen nspace i b).1.length
          = (non_blanks C (strip_loop del minlen nspace i b).1).length + nspace
        ∧ minlen ≤ ((non_blanks C (strip_loop del minlen nspace i b).1).length : Int)
        ∧ ((strip_loop del minlen nspace i b).2 = false →
            minlen < ((non_blanks C (strip_loop del minlen nspace i b).1).length : Int))
        ∧ (strip_loop del minlen nspace i b).1.length ≤ b.length := by
  intro i
  induction i with
  | zero =>
    intro b _ hq hP
    exact ⟨hq, by simp only [strip_loop]; omega, fun _ => hP, Nat.le_refl _⟩
  | succ i ih =>
    intro b hlen hq hP
    have hb1 : ∀ b1 : List Nat, b1 = (if del b (i + 1) = true then b.eraseIdx (i + 1) else b) →
        b1.length = (non_blanks C b1).length + nspace
          ∧ minlen ≤ ((non_blanks C b1).length : Int) ∧ b1.length ≤ b.length := by
      intro b1 hb1
      by_cases hd : del b (i + 1) = true
      · rw [if_pos hd] at hb1
        by_cases hin : i + 1 < b.length
        · have := non_blanks_erase_nonblank C b (i + 1) hin (hdel b i hd).2
          rw [← hb1] at this
          omega
        · rw [List.eraseIdx_of_length_le (by omega)] at hb1
          rw [hb1]
          omega
      · rw [if_neg hd] at hb1
        rw [hb1]
        omega
    rw [strip_loop_succ]
    generalize (if del b (i + 1) = true then b.eraseIdx (i + 1) else b) = b1 at hb1 ⊢
    obtain ⟨hq1, hm1, hl1⟩ := hb1 b1 rfl
    have hz : to_size_t ((b1.length : Int) - (nspace : Int))
        = ((non_blanks C b1).length : Int) := by
      rw [to_size_t_of_range _ (by omega) (by omega)]
      omega
    rw [hz, to_size_t_of_range minlen hmin hmax]
    by_cases hchk : ((non_blanks C b1).length : Int) ≤ minlen
    · rw [if_pos hchk]
      exact ⟨hq1, hm1, (fun h => by cases h), hl1⟩
    · rw [if_neg hchk]
      obtain ⟨a1, a2, a3, a4⟩ := ih b1 (by omega) hq1 (by omega)
      exact ⟨a1, a2, a3, by omega⟩

theorem strip_run_short (minlen : Int) (nspace : Nat) :
    ∀ (passes : List (List Nat → Nat → Bool)) (b : List Nat), b.length ≤ 1 →
      strip_run minlen nspace passes b = b := by
  intro passes
  induction passes with
  | nil => intro b _; rfl
  | cons del rest ih =>
    intro b hb
    have h0 : b.length - 1 = 0 := by omega
    rw [strip_run, h0]
    simp only [strip_loop, Bool.false_eq_true, if_false]
    exact ih b hb

theorem strip_run_count (C : CType) (minlen : Int) (nspace : Nat) (hmin : 0 ≤ minlen)
    (hmax : minlen < 2 ^ 31) :
    ∀ (passes : List (List Nat → Nat → Bool)),
      (∀ del ∈ passes, ∀ (b : List Nat) (i : Nat), del b (i + 1) = true →
        C.isspace (b.getD i 0) = false ∧ C.isspace (b.getD (i + 1) 0) = false) →
      ∀ b : List Nat, b.length < 2 ^ 31 →
        b.length = (non_blanks C b).length + nspace →
        minlen < ((non_blanks C b).length : Int) →
        minlen ≤ ((non_blanks C (strip_run minlen nspace passes b)).length : Int) := by
  intro passes
  induction passes with
  | nil =>
    intro _ b _ _ hP
    simp only [strip_run]
    omega
  | cons del rest ih =>
    intro h b hlen hq hP
    obtain ⟨a1, a2, a3, a4⟩ := strip_loop_count C del minlen nspace hmin hmax
      (h del (List.mem_cons_self _ _)) (b.length - 1) b hlen hq hP
    rw [strip_run]
    by_cases hdone : (strip_loop del minlen nspace (b.length - 1) b).2 = true
    · rw [if_pos hdone]
      exact a2
    · rw [if_neg hdone]
      have hd2 : (strip_loop del minlen nspace (b.length - 1) b).2 = false := by
        cases hx : (strip_loop del minlen nspace (b.length - 1) b).2
        · rfl
        · exact absurd hx hdone
      exact ih (fun d hd => h d (List.mem_cons_of_mem _ hd)) _ (by omega) a1 (a3 hd2)

theorem strip_trailing_count (C : CType) (minlen : Int) :
    ∀ (i : Nat) (j : Bool) (nspace : Nat) (b : List Nat), i < b.length →
      (j = true → b.length ≤ i + 1) →
      nspace = (b.drop (i + 1)).countP (fun c => C.isspace c) →
      (strip_trailing C minlen i j nspace b).2.2 = false →
      (strip_trailing C minlen i j nspace b).2.1
          = ((strip_trailing C minlen i j nspace b).1.drop 1).countP (fun c => C.isspace c)
        ∧ (1 ≤ i →
            ¬ to_size_t (((strip_trailing C minlen i j nspace b).1.length : Int)
                - ((strip_trailing C minlen i j nspace b).2.1 : Int)) ≤ to_size_t minlen) := by
  intro i
  induction i with
  | zero =>
    intro j nspace b _ _ hns _
    exact ⟨hns, fun h => absurd h (by decide)⟩
  | succ i ih =>
    intro j nspace b hi hj hns
    have hget : b.getD (i + 1) 0 = b.get ⟨i + 1, hi⟩ := by
      rw [List.getD_eq_getElem?_getD, List.getElem?_eq_getElem hi]
      rfl
    have hdrop : b.drop (i + 1) = b.get ⟨i + 1, hi⟩ :: b.drop (i + 2) := by
      rw [List.drop_eq_getElem_cons hi]
      rfl
    have hstep : ∀ (b1 : List Nat) (ns1 : Nat),
        b1 = (if (C.isspace (b.getD (i + 1) 0) && j) = true then b.take (i + 1) else b) →
        ns1 = (if (C.isspace (b.getD (i + 1) 0) && !j) = true then nspace + 1 else nspace) →
        i < b1.length ∧ ((C.isspace (b.getD (i + 1) 0) && j) = true → b1.length ≤ i + 1)
          ∧ ns1 = (b1.drop (i + 1)).countP (fun c => C.isspace c) := by
      intro b1 ns1 hb1 hns1
      cases hsp : C.isspace (b.getD (i + 1) 0) with
      | false =>
        rw [hsp] at hb1 hns1
        simp only [Bool.false_and, Bool.false_eq_true, if_false] at hb1 hns1
        subst hb1
        refine ⟨by omega, (fun h => by cases h), ?_⟩
        rw [hns1, hns, hdrop, List.countP_cons, ← hget, hsp]
        simp
      | true =>
        rw [hsp] at hb1 hns1
        cases j with
        | true =>
          simp only [Bool.and_self, if_true, Bool.not_true, Bool.and_false, Bool.false_eq_true,
            if_false] at hb1 hns1
          have hl := hj rfl
          have hl1 : b1.length = i + 1 := by
            rw [hb1, List.length_take]
            omega
          refine ⟨by omega, fun _ => by omega, ?_⟩
          rw [hns1, hns, List.drop_of_length_le (by omega), List.drop_of_length_le (by omega)]
        | false =>
          simp only [Bool.and_false, Bool.false_eq_true, if_false, Bool.not_false,
            Bool.and_self, if_true] at hb1 hns1
          subst hb1
          refine ⟨by omega, (fun h => by cases h), ?_⟩
          rw [hns1, hns, hdrop, List.countP_cons, ← hget, hsp]
          simp
    rw [strip_trailing_succ]
    generalize (if (C.isspace (b.getD (i + 1) 0) && j) = true then b.take (i + 1) else b) = b1
      at hstep ⊢
    generalize (if (C.isspace (b.getD (i + 1) 0) && !j) = true then nspace + 1 else nspace)
      = ns1 at hstep ⊢
    obtain ⟨s1, s2, s3⟩ := hstep b1 ns1 rfl rfl
    by_cases hchk : to_size_t ((b1.length : Int) - (ns1 : Int)) ≤ to_size_t minlen
    · rw [if_pos hchk]
      intro h
      cases h
    · rw [if_neg hchk]
      intro hdone
      obtain ⟨r1, r2⟩ := ih (C.isspace (b.getD (i + 1) 0) && j) ns1 b1 s1 s2 s3 hdone
      refine ⟨r1, fun _ => ?_⟩
      cases i with
      | zero => exact hchk
      | succ k => exact r2 (by omega)

theorem leading_blanks_zero (C : CType) (s : List Nat)
    (h : ∀ c : Nat, s.head? = some c → C.isspace c = false) : leading_blanks C s = 0 := by
  cases s with
  | nil => rfl
  | cons c r =>
    cases r with
    | nil => rfl
    | cons d r2 =>
      simp [leading_blanks, h c rfl]

theorem non_blanks_length_le_donesc (C : CType) (minlen : Int) (b : List Nat) :
    (non_blanks C b).length ≤ (donesc C minlen b).length :=
  (non_blanks_sublist_donesc C minlen b).length_le

theorem strip_trailing_hq (C : CType) (minlen : Int) (i : Nat) (b : List Nat)
    (hb : 2 ≤ b.length) (hi : i = b.length - 1) (h0 : C.isspace (b.getD 0 0) = false)
    (hdone : (strip_trailing C minlen i true 0 b).2.2 = false) :
    (strip_trailing C minlen i true 0 b).1.length
        = (non_blanks C (strip_trailing C minlen i true 0 b).1).length
          + (strip_trailing C minlen i true 0 b).2.1
      ∧ ¬ to_size_t (((strip_trailing C minlen i true 0 b).1.length : Int)
            - ((strip_trailing C minlen i true 0 b).2.1 : Int)) ≤ to_size_t minlen
      ∧ (strip_trailing C minlen i true 0 b).1.length ≤ b.length := by
  obtain ⟨t, ht, hsp⟩ := strip_trailing_prefix C minlen i true 0 b (fun _ => by omega)
  obtain ⟨hns, hchk⟩ := strip_trailing_count C minlen i true 0 b (by omega) (fun _ => by omega)
    (by rw [List.drop_of_length_le (by omega)]; rfl) hdone
  generalize (strip_trailing C minlen i true 0 b).1 = b1 at ht hns hchk ⊢
  generalize (strip_trailing C minlen i true 0 b).2.1 = ns1 at hns hchk ⊢
  have hlen : b1.length ≤ b.length := by
    have := congrArg List.length ht
    simp only [List.length_append] at this
    omega
  refine ⟨?_, hchk (by omega), hlen⟩
  cases b1 with
  | nil =>
    exfalso
    rw [List.nil_append] at ht
    cases b with
    | nil => simp at hb
    | cons c r =>
      simp only [List.getD_cons_zero] at h0
      have := hsp c (by rw [← ht]; exact List.mem_cons_self _ _)
      rw [h0] at this
      cases this
  | cons c r =>
    have hc : C.isspace c = false := by
      rw [ht] at h0
      simpa using h0
    have := non_blanks_length_add C r
    simp only [List.drop_succ_cons, List.drop_zero] at hns
    simp only [non_blanks, List.filter_cons, hc, Bool.not_false, if_true, List.length_cons]
    simp only [non_blanks] at this
    omega

/-- C29: `stripchars` stops dropping characters as soon as the length without the blanks
reaches `minlen`: for every ASCII string `s` with `k` characters that are not blanks and every
`minlen` from 0 on, the result has at least `min minlen k` characters; and a string that does
not start with a blank and whose length is less than `minlen` is returned unchanged.  The
functions `isspace` and `islower` are only taken to hold no lower case vowel and no lower case
letter for a blank. -/
theorem stripchars_min_length (C : CType) (s : List Nat) (minlen : Int)
    (hs : ∀ b ∈ s, 0 < b ∧ b < 128) (hlen : s.length < 2 ^ 31)
    (hmin : 0 ≤ minlen) (hmax : minlen < 2 ^ 31)
    (hvow : ∀ c ∈ [97, 101, 105, 111, 117], C.isspace c = false)
    (hlow : ∀ c : Nat, C.islower c = true → C.isspace c = false) :
    min minlen ((non_blanks C s).length : Int) ≤ ((stripchars C s minlen).length : Int)
      ∧ ((∀ c : Nat, s.head? = some c → C.isspace c = false) → (s.length : Int) < minlen →
          stripchars C s minlen = s) := by
  refine ⟨?_, ?_⟩
  · have hfin : ∀ bp : List Nat,
        min minlen ((non_blanks C s).length : Int) ≤ ((non_blanks C bp).length : Int) →
        min minlen ((non_blanks C s).length : Int) ≤ ((donesc C minlen bp).length : Int) := by
      intro bp h
      have := non_blanks_length_le_donesc C minlen bp
      omega
    obtain ⟨_, hnb, hhead⟩ := leading_blanks_drop C s
    have hl0 : (s.drop (leading_blanks C s)).length ≤ s.length := by
      rw [List.length_drop]
      omega
    unfold stripchars
    rw [ascii_mkChar s hs]
    simp only []
    generalize s.drop (leading_blanks C s) = b0 at hnb hhead hl0 ⊢
    by_cases hlt : to_size_t (b0.length : Int) < to_size_t minlen
    · rw [if_pos hlt]
      exact hfin b0 (by rw [hnb]; omega)
    · rw [if_neg hlt]
      obtain ⟨t, ht, hsp⟩ := strip_trailing_prefix C minlen (b0.length - 1) true 0 b0
        (fun _ => by omega)
      have hnb1 : non_blanks C (strip_trailing C minlen (b0.length - 1) true 0 b0).1
          = non_blanks C s := by
        rw [← hnb]
        conv => rhs; rw [ht]
        exact (non_blanks_append_blanks C _ t hsp).symm
      by_cases hdone : (strip_trailing C minlen (b0.length - 1) true 0 b0).2.2 = true
      · rw [if_pos hdone]
        exact hfin _ (by rw [hnb1]; omega)
      · rw [if_neg hdone]
        have hd2 : (strip_trailing C minlen (b0.length - 1) true 0 b0).2.2 = false := by
          cases hx : (strip_trailing C minlen (b0.length - 1) true 0 b0).2.2
          · rfl
          · exact absurd hx hdone
        refine hfin _ ?_
        by_cases hshort : b0.length ≤ 1
        · have hi0 : b0.length - 1 = 0 := by omega
          rw [hi0]
          simp only [strip_trailing]
          rw [strip_run_short minlen 0 _ b0 hshort, hnb]
          omega
        · have h0 : C.isspace (b0.getD 0 0) = false := by
            rcases hhead with h | h
            · exact absurd h hshort
            · exact h
          obtain ⟨hq, hchk, hl1⟩ := strip_trailing_hq C minlen (b0.length - 1) b0 (by omega)
            rfl h0 hd2
          have hP : minlen
              < ((non_blanks C (strip_trailing C minlen (b0.length - 1) true 0 b0).1).length
                  : Int) := by
            rw [to_size_t_of_range _ (by omega) (by omega),
              to_size_t_of_range minlen hmin hmax] at hchk
            omega
          have := strip_run_count C minlen
            (strip_trailing C minlen (b0.length - 1) true 0 b0).2.1 hmin hmax (strip_passes C)
            (strip_passes_nonblank C hvow hlow) _ (by omega) hq hP
          omega
  · intro hhead hshort
    unfold stripchars
    rw [ascii_mkChar s hs, leading_blanks_zero C s hhead]
    simp only [List.drop_zero]
    have hlt : to_size_t (s.length : Int) < to_size_t minlen := by
      rw [to_size_t_of_range _ (by omega) (by omega), to_size_t_of_range minlen hmin hmax]
      exact hshort
    rw [if_pos hlt]
    unfold donesc
    rw [if_neg (by omega)]

theorem stripchars_min_length_witness :
    (min (5 : Int)
          ((non_blanks asciiCType
            [105, 110, 116, 101, 114, 110, 97, 116, 105, 111, 110, 97, 108]).length : Int)
        ≤ ((stripchars asciiCType
            [105, 110, 116, 101, 114, 110, 97, 116, 105, 111, 110, 97, 108] 5).length : Int)
      ∧ ((∀ c : Nat,
            [105, 110, 116, 101, 114, 110, 97, 116, 105, 111, 110, 97, 108].head? = some c →
            asciiCType.isspace c = false) →
          (([105, 110, 116, 101, 114, 110, 97, 116, 105, 111, 110, 97, 108].length : Nat) : Int)
            < 5 →
          stripchars asciiCType
            [105, 110, 116, 101, 114, 110, 97, 116, 105, 111, 110, 97, 108] 5
            = [105, 110, 116, 101, 114, 110, 97, 116, 105, 111, 110, 97, 108]))
    ∧ stripchars asciiCType [105, 110, 116, 101, 114, 110, 97, 116, 105, 111, 110, 97, 108] 5
      = [105, 110, 116, 114, 110]
    ∧ stripchars asciiCType [97, 32, 32, 98] 3 = [97, 98]
    ∧ stripchars asciiCType [97, 98, 99] 5 = [97, 98, 99] :=
  ⟨stripchars_min_length asciiCType
      [105, 110, 116, 101, 114, 110, 97, 116, 105, 111, 110, 97, 108] 5 (by decide) (by decide)
      (by decide) (by decide) (by decide)
      (fun c h => by
        simp only [asciiCType, Bool.and_eq_true, decide_eq_true_eq] at h
        simp only [asciiCType, Bool.or_eq_false_iff, decide_eq_false_iff_not,
          Bool.and_eq_false_imp, decide_eq_true_eq]
        omega),
    by decide, by decide, by decide⟩

/-! ## Theorems: `abbreviate` only deletes -/

theorem strip_loop_sublist (del : List Nat → Nat → Bool) (minlen : Int) (nspace : Nat) :
    ∀ (i : Nat) (b : List Nat), (strip_loop del minlen nspace i b).1.Sublist b := by
  intro i
  induction i with
  | zero => intro b; exact List.Sublist.refl b
  | succ i ih =>
    intro b
    have hb1 : (if del b (i + 1) = true then b.eraseIdx (i + 1) else b).Sublist b := by
      by_cases hd : del b (i + 1) = true
      · rw [if_pos hd]
        exact List.eraseIdx_sublist b (i + 1)
      · rw [if_neg hd]
    rw [strip_loop_succ]
    generalize (if del b (i + 1) = true then b.eraseIdx (i + 1) else b) = b1 at hb1 ⊢
    by_cases hchk : to_size_t ((b1.length : Int) - (nspace : Int)) ≤ to_size_t minlen
    · rw [if_pos hchk]
      exact hb1
    · rw [if_neg hchk]
      exact (ih b1).trans hb1

theorem strip_run_sublist (minlen : Int) (nspace : Nat) :
    ∀ (passes : List (List Nat → Nat → Bool)) (b : List Nat),
      (strip_run minlen nspace passes b).Sublist b := by
  intro passes
  induction passes with
  | nil => intro b; exact List.Sublist.refl b
  | cons del rest ih =>
    intro b
    have h1 := strip_loop_sublist del minlen nspace (b.length - 1) b
    rw [strip_run]
    by_cases hdone : (strip_loop del minlen nspace (b.length - 1) b).2 = true
    · rw [if_pos hdone]
      exact h1
    · rw [if_neg hdone]
      exact (ih _).trans h1

theorem strip_spaces_sublist (C : CType) :
    ∀ (i : Nat) (b : List Nat), (strip_spaces C i b).Sublist b := by
  intro i
  induction i with
  | zero => intro b; exact List.Sublist.refl b
  | succ i ih =>
    intro b
    rw [strip_spaces]
    by_cases hs : C.isspace (b.getD (i + 1) 0) = true
    · rw [if_pos hs]
      exact (ih _).trans (List.eraseIdx_sublist b (i + 1))
    · rw [if_neg hs]
      exact ih b

theorem donesc_sublist (C : CType) (minlen : Int) (b : List Nat) :
    (donesc C minlen b).Sublist b := by
  unfold donesc
  split
  · exact strip_spaces_sublist C _ b
  · exact List.Sublist.refl b

/-- C35: for every ASCII string `s` and every `minlen`, the result of `stripchars` is a
subsequence of `s`: it is obtained from `s` by deleting characters only. -/
theorem stripchars_sublist (C : CType) (s : List Nat) (minlen : Int)
    (hs : ∀ b ∈ s, 0 < b ∧ b < 128) :
    (stripchars C s minlen).Sublist s := by
  unfold stripchars
  rw [ascii_mkChar s hs]
  simp only []
  have h0 : (s.drop (leading_blanks C s)).Sublist s := List.drop_sublist _ s
  generalize s.drop (leading_blanks C s) = b0 at h0 ⊢
  obtain ⟨t, ht, _⟩ := strip_trailing_prefix C minlen (b0.length - 1) true 0 b0
    (fun _ => by omega)
  have h1 : (strip_trailing C minlen (b0.length - 1) true 0 b0).1.Sublist b0 := by
    conv => rhs; rw [ht]
    exact List.sublist_append_left _ t
  by_cases hlt : to_size_t (b0.length : Int) < to_size_t minlen
  · rw [if_pos hlt]
    exact (donesc_sublist C minlen b0).trans h0
  · rw [if_neg hlt]
    by_cases hdone : (strip_trailing C minlen (b0.length - 1) true 0 b0).2.2 = true
    · rw [if_pos hdone]
      exact ((donesc_sublist C minlen _).trans h1).trans h0
    · rw [if_neg hdone]
      exact (((donesc_sublist C minlen _).trans (strip_run_sublist minlen _ _ _)).trans
        h1).trans h0

theorem stripchars_sublist_witness :
    (stripchars asciiCType [32, 78, 101, 119, 32, 89, 111, 114, 107, 32] 3).Sublist
        [32, 78, 101, 119, 32, 89, 111, 114, 107, 32]
    ∧ stripchars asciiCType [32, 78, 101, 119, 32, 89, 111, 114, 107, 32] 3 = [78, 119, 89] :=
  ⟨stripchars_sublist asciiCType [32, 78, 101, 119, 32, 89, 111, 114, 107, 32] 3 (by decide),
    by decide⟩

/-! ## Theorems: `nchar` on `NA` and the type argument -/

theorem strncmp_type (type full : List Nat) (ht : 0 ∉ type) (hf : 0 ∉ full) :
    strncmp_eq (type ++ [0]) 0 (full ++ [0]) 0 type.length
      = .ok (decide (type = full.take type.length)) := by
  have h := strncmp_eq_text type [] full [] ht hf type.length 0 0 (Nat.zero_le _)
    (Nat.zero_le _)
  simp only [List.drop_zero, List.take_length] at h
  exact h

theorem nchar_loop_NA (L : Env) (W : WidthLib) (type : List Nat) (allowNA : Bool)
    (pads : Nat → List Nat) :
    ∀ (x : List RString) (i : Nat) (r : List Int),
      nchar_loop L W type allowNA pads x i = .ok r →
      r.length = x.length ∧ ∀ k : Nat, x[k]? = some RString.NA_STRING → r[k]? = some 2 := by
  intro x
  induction x with
  | nil =>
    intro i r h
    simp only [nchar_loop] at h
    injection h with h
    subst h
    exact ⟨rfl, fun k hk => by simp at hk⟩
  | cons e rest ih =>
    intro i r h
    simp only [nchar_loop, bind, Except.bind, pure, Except.pure] at h
    cases ha : nchar_elt L W type allowNA e (pads i) with
    | error err => rw [ha] at h; cases h
    | ok a =>
      rw [ha] at h
      simp only at h
      cases hr : nchar_loop L W type allowNA pads rest (i + 1) with
      | error err => rw [hr] at h; cases h
      | ok r2 =>
        rw [hr] at h
        simp only at h
        injection h with h
        subst h
        obtain ⟨hl, hna⟩ := ih (i + 1) r2 hr
        refine ⟨by simp [hl], ?_⟩
        intro k hk
        cases k with
        | zero =>
          simp only [List.getElem?_cons_zero, Option.some.injEq] at hk
          subst hk
          simp only [nchar_elt] at ha
          injection ha with ha
          simp [ha]
        | succ k =>
          simp only [List.getElem?_cons_succ] at hk ⊢
          exact hna k hk

theorem nchar_elt_invalid_type (L : Env) (W : WidthLib) (type : List Nat) (allowNA : Bool)
    (bytes : List Nat) (enc : cetype_t) (pad : List Nat) (ht : 0 ∉ type)
    (hb : type ≠ [98, 121, 116, 101, 115].take type.length)
    (hc : type ≠ [99, 104, 97, 114, 115].take type.length)
    (hw : type ≠ [119, 105, 100, 116, 104].take type.length) :
    nchar_elt L W type allowNA (.chr bytes enc) pad = .error (.error .invalidArgument) := by
  simp only [nchar_elt, strncmp_type type _ ht (by decide : (0 : Nat) ∉ [98, 121, 116, 101, 115]),
    strncmp_type type _ ht (by decide : (0 : Nat) ∉ [99, 104, 97, 114, 115]),
    strncmp_type type _ ht (by decide : (0 : Nat) ∉ [119, 105, 100, 116, 104]),
    hb, hc, hw, bind, Except.bind, decide_False, Bool.false_eq_true, if_false]

theorem nchar_elt_type_prefix (L : Env) (W : WidthLib) (type full : List Nat) (allowNA : Bool)
    (el : RString) (pad : List Nat) (ht : type ≠ []) (hp : type <+: full)
    (hfull : full = [98, 121, 116, 101, 115] ∨ full = [99, 104, 97, 114, 115]
      ∨ full = [119, 105, 100, 116, 104]) :
    nchar_elt L W type allowNA el pad = nchar_elt L W full allowNA el pad := by
  cases el with
  | NA_STRING => rfl
  | chr bytes enc =>
    have htake : type = full.take type.length := List.prefix_iff_eq_take.1 hp
    have hlen : 1 ≤ type.length ∧ type.length ≤ 5 := by
      constructor
      · cases type with
        | nil => exact absurd rfl ht
        | cons a r => simp
      · have := hp.length_le
        rcases hfull with h | h | h <;> subst h <;> simpa using this
    obtain ⟨h1, h5⟩ := hlen
    generalize type.length = k at htake h1 h5
    rcases hfull with h | h | h <;> subst h <;> interval_cases k <;>
      simp only [List.take_succ_cons, List.take_zero, List.take_nil] at htake <;>
      subst htake <;> rfl

theorem nchar_loop_type_prefix (L : Env) (W : WidthLib) (type full : List Nat)
    (allowNA : Bool) (pads : Nat → List Nat) (ht : type ≠ []) (hp : type <+: full)
    (hfull : full = [98, 121, 116, 101, 115] ∨ full = [99, 104, 97, 114, 115]
      ∨ full = [119, 105, 100, 116, 104]) :
    ∀ (x : List RString) (i : Nat),
      nchar_loop L W type allowNA pads x i = nchar_loop L W full allowNA pads x i := by
  intro x
  induction x with
  | nil => intro i; rfl
  | cons e rest ih =>
    intro i
    simp only [nchar_loop, nchar_elt_type_prefix L W type full allowNA e (pads i) ht hp hfull,
      ih (i + 1)]

theorem nchar_loop_all_NA (L : Env) (W : WidthLib) (type : List Nat) (allowNA : Bool)
    (pads : Nat → List Nat) :
    ∀ (x : List RString) (i : Nat), (∀ el ∈ x, el = RString.NA_STRING) →
      nchar_loop L W type allowNA pads x i = .ok (x.map (fun _ => 2)) := by
  intro x
  induction x with
  | nil => intro i _; rfl
  | cons e rest ih =>
    intro i h
    have he : e = RString.NA_STRING := h e (List.mem_cons_self _ _)
    subst he
    simp only [nchar_loop, nchar_elt, ih (i + 1) (fun el hel => h el (List.mem_cons_of_mem _ hel)),
      bind, Except.bind, pure, Except.pure, List.map_cons]

theorem nchar_loop_invalid_type (L : Env) (W : WidthLib) (type : List Nat) (allowNA : Bool)
    (pads : Nat → List Nat) (ht : 0 ∉ type)
    (hb : type ≠ [98, 121, 116, 101, 115].take type.length)
    (hc : type ≠ [99, 104, 97, 114, 115].take type.length)
    (hw : type ≠ [119, 105, 100, 116, 104].take type.length) :
    ∀ (x : List RString) (i : Nat), (∃ el ∈ x, el ≠ RString.NA_STRING) →
      nchar_loop L W type allowNA pads x i = .error (.error .invalidArgument) := by
  intro x
  induction x with
  | nil => intro i h; obtain ⟨el, hel, _⟩ := h; simp at hel
  | cons e rest ih =>
    intro i h
    cases e with
    | NA_STRING =>
      have hrest : ∃ el ∈ rest, el ≠ RString.NA_STRING := by
        obtain ⟨el, hel, hne⟩ := h
        rcases List.mem_cons.1 hel with h1 | h1
        · exact absurd h1 hne
        · exact ⟨el, h1, hne⟩
      simp only [nchar_loop, nchar_elt, ih (i + 1) hrest, bind, Except.bind]
    | chr bytes enc =>
      simp only [nchar_loop, nchar_elt_invalid_type L W type allowNA bytes enc (pads i) ht hb hc hw,
        bind, Except.bind]

/-- C38: in `do_nchar` an `NA` element gives 2 whatever the type and `allowNA` are (whenever the
call returns, and it returns on a vector of `NA` only for every type that is not empty); a type
that is a non-empty prefix of "bytes", "chars" or "width" gives what the full word gives; the
empty type is an error; and a non-empty type that is a prefix of none of the three words is an
error as soon as the vector has an element that is not `NA`. -/
theorem do_nchar_NA_and_type (L : Env) (W : WidthLib) (x : List RString)
    (pads : Nat → List Nat) (type : List Nat) (allowNA : Bool) :
    (∀ r : List Int, do_nchar L W x pads type allowNA = .ok r →
        r.length = x.length ∧ ∀ k : Nat, x[k]? = some RString.NA_STRING → r[k]? = some 2)
      ∧ (type ≠ [] → (∀ el ∈ x, el = RString.NA_STRING) →
          do_nchar L W x pads type allowNA = .ok (x.map (fun _ => 2)))
      ∧ (∀ full : List Nat, full = [98, 121, 116, 101, 115] ∨ full = [99, 104, 97, 114, 115]
            ∨ full = [119, 105, 100, 116, 104] → type ≠ [] → type <+: full →
          do_nchar L W x pads type allowNA = do_nchar L W x pads full allowNA)
      ∧ (type = [] → do_nchar L W x pads type allowNA = .error (.error .invalidArgument))
      ∧ (type ≠ [] → 0 ∉ type → ¬ type <+: [98, 121, 116, 101, 115] →
          ¬ type <+: [99, 104, 97, 114, 115] → ¬ type <+: [119, 105, 100, 116, 104] →
          (∃ el ∈ x, el ≠ RString.NA_STRING) →
          do_nchar L W x pads type allowNA = .error (.error .invalidArgument)) := by
  have hne : ∀ t : List Nat, t ≠ [] → ¬ t.length = 0 := by
    intro t ht h
    exact ht (List.length_eq_zero.1 h)
  refine ⟨?_, ?_, ?_, ?_, ?_⟩
  · intro r h
    unfold do_nchar at h
    by_cases ht : type.length = 0
    · rw [if_pos ht] at h
      cases h
    · rw [if_neg ht] at h
      exact nchar_loop_NA L W type allowNA pads x 0 r h
  · intro ht hall
    unfold do_nchar
    rw [if_neg (hne type ht)]
    exact nchar_loop_all_NA L W type allowNA pads x 0 hall
  · intro full hfull ht hp
    have hfne : full ≠ [] := by
      rcases hfull with h | h | h <;> subst h <;> simp
    unfold do_nchar
    rw [if_neg (hne type ht), if_neg (hne full hfne)]
    exact nchar_loop_type_prefix L W type full allowNA pads ht hp hfull x 0
  · intro ht
    unfold do_nchar
    rw [if_pos (by rw [ht]; rfl)]
  · intro ht h0 hb hc hw hex
    unfold do_nchar
    rw [if_neg (hne type ht)]
    exact nchar_loop_invalid_type L W type allowNA pads h0
      (fun h => hb (List.prefix_iff_eq_take.2 h))
      (fun h => hc (List.prefix_iff_eq_take.2 h))
      (fun h => hw (List.prefix_iff_eq_take.2 h)) x 0 hex

/-- C38 (counterexample): with the type "xyz", which is a prefix of none of "bytes", "chars"
and "width", `do_nchar` on a vector that holds only `NA` returns 2 and raises no error; the
same type on a vector with a string raises the error. -/
theorem do_nchar_invalid_type_on_NA :
    do_nchar sbcsLocale unitWidth [.NA_STRING] (fun _ => []) [120, 121, 122] false = .ok [2]
    ∧ do_nchar sbcsLocale unitWidth [] (fun _ => []) [120, 121, 122] false = .ok []
    ∧ do_nchar sbcsLocale unitWidth [.NA_STRING, .chr [97] .CE_NATIVE] (fun _ => [])
        [120, 121, 122] false = .error (.error .invalidArgument)
    ∧ do_nchar sbcsLocale unitWidth [.NA_STRING, .chr [97, 98] .CE_NATIVE] (fun _ => [])
        [99, 104] true = .ok [2, 2]
    ∧ do_nchar sbcsLocale unitWidth [.NA_STRING, .chr [97, 98, 99] .CE_NATIVE] (fun _ => [])
        [98] false = .ok [2, 3] :=
  ⟨rfl, rfl, rfl, rfl, rfl⟩

/-! ## Theorems: recycled arguments of length zero -/

theorem do_strsplit_elt_no_delimiter (L : Env) (R : RegexLib)
    (extended_opt fixed_opt perl_opt use_UTF8 : Bool) (options : Nat) (x_i : RString)
    (pad : List Nat) (tok_i tok_j : RString) (tpad tpad2 : List Nat) :
    do_strsplit_elt L R extended_opt fixed_opt perl_opt use_UTF8 options 0 x_i pad tok_i tpad
      = do_strsplit_elt L R extended_opt fixed_opt perl_opt use_UTF8 options 0 x_i pad tok_j
          tpad2 := by
  cases x_i with
  | NA_STRING => rfl
  | chr bytes xenc =>
    simp only [do_strsplit_elt, Nat.lt_irrefl, gt_iff_lt, if_false]

theorem do_strsplit_loop_no_delimiter (L : Env) (R : RegexLib)
    (extended_opt fixed_opt perl_opt use_UTF8 : Bool) (options : Nat) (tok tok2 : List RString)
    (pads tpads tpads2 : Nat → List Nat) :
    ∀ (x : List RString) (i : Nat),
      do_strsplit_loop L R extended_opt fixed_opt perl_opt use_UTF8 options 0 tok pads tpads x i
        = do_strsplit_loop L R extended_opt fixed_opt perl_opt use_UTF8 options 0 tok2 pads
            tpads2 x i := by
  intro x
  induction x with
  | nil => intro i; rfl
  | cons e rest ih =>
    intro i
    simp only [do_strsplit_loop, ih (i + 1)]
    rw [do_strsplit_elt_no_delimiter L R extended_opt fixed_opt perl_opt use_UTF8 options e
      (pads i) (tok.getD (i % 0) .NA_STRING) (tok2.getD (i % 0) .NA_STRING) (tpads (i % 0))
      (tpads2 (i % 0))]

/-- C31: for a non-empty vector `x`, `do_substr` with a `start` or `stop` of length zero and
`do_substrgets` with a `start`, `stop` or `value` of length zero stop with an error, and so
does `do_strtrim` with a `width` of length zero; `do_strsplit` with a delimiter vector of length
zero raises no such error: it does what it does for the single delimiter "", which splits the
elements into their characters. -/
theorem zero_length_recycled_argument (L : Env) (R : RegexLib) (W : WideLib)
    (x : List RString) (hx : x ≠ []) :
    (∀ (sa so : List Int) (pads : Nat → List Nat), sa = [] ∨ so = [] →
        do_substr L x sa so pads = .error (.error .invalidArgument))
      ∧ (∀ (sa so : List Int) (value : List RString) (pads vpads stale : Nat → List Nat),
          sa = [] ∨ so = [] →
          do_substrgets L x sa so value pads vpads stale = .error (.error .invalidArgument))
      ∧ (∀ (sa so : List Int) (pads vpads stale : Nat → List Nat), sa ≠ [] → so ≠ [] →
          do_substrgets L x sa so [] pads vpads stale = .error (.error .invalidValue))
      ∧ do_strtrim L W x [] = .error (.error .invalidArgument)
      ∧ (∀ (pads tpads tpads2 : Nat → List Nat) (extended_opt fixed_opt perl_opt : Bool),
          do_strsplit L R x [] pads tpads extended_opt fixed_opt perl_opt
            = do_strsplit L R x [.chr [] .CE_NATIVE] pads tpads2 extended_opt fixed_opt
                perl_opt) := by
  have hlen : x.length > 0 := List.length_pos.2 hx
  have hz : ∀ l : List Int, l ≠ [] → ¬ l.length = 0 := fun l hl h =>
    hl (List.length_eq_zero.1 h)
  refine ⟨?_, ?_, ?_, ?_, ?_⟩
  · intro sa so pads h
    have h2 : sa.length = 0 ∨ so.length = 0 := by
      rcases h with h | h <;> subst h <;> simp
    unfold do_substr
    rw [if_pos hlen, if_pos h2]
  · intro sa so value pads vpads stale h
    have h2 : sa.length = 0 ∨ so.length = 0 := by
      rcases h with h | h <;> subst h <;> simp
    unfold do_substrgets
    rw [if_pos hlen, if_pos h2]
  · intro sa so pads vpads stale hsa hso
    have h2 : ¬ (sa.length = 0 ∨ so.length = 0) := by
      intro h
      rcases h with h | h
      · exact hz sa hsa h
      · exact hz so hso h
    unfold do_substrgets
    rw [if_pos hlen, if_neg h2]
    rfl
  · unfold do_strtrim
    simp
  · intro pads tpads tpads2 extended_opt fixed_opt perl_opt
    simp only [do_strsplit, List.length_nil, List.length_singleton, List.getD_cons_zero, CHAR,
      List.head?_nil, and_self, if_true, Nat.zero_ne_one, false_and, if_false,
      strsplit_use_UTF8, List.take_zero]
    exact do_strsplit_loop_no_delimiter L R extended_opt fixed_opt perl_opt _ _ _ _ pads tpads
      tpads2 x 0

theorem zero_length_recycled_argument_witness :
    (∀ (sa so : List Int) (pads : Nat → List Nat), sa = [] ∨ so = [] →
        do_substr sbcsLocale [.chr [97, 98] .CE_NATIVE] sa so pads
          = .error (.error .invalidArgument))
      ∧ (∀ (sa so : List Int) (value : List RString) (pads vpads stale : Nat → List Nat),
          sa = [] ∨ so = [] →
          do_substrgets sbcsLocale [.chr [97, 98] .CE_NATIVE] sa so value pads vpads stale
            = .error (.error .invalidArgument))
      ∧ (∀ (sa so : List Int) (pads vpads stale : Nat → List Nat), sa ≠ [] → so ≠ [] →
          do_substrgets sbcsLocale [.chr [97, 98] .CE_NATIVE] sa so [] pads vpads stale
            = .error (.error .invalidValue))
      ∧ do_strtrim sbcsLocale sbcsWide [.chr [97, 98] .CE_NATIVE] []
          = .error (.error .invalidArgument)
      ∧ (∀ (pads tpads tpads2 : Nat → List Nat) (extended_opt fixed_opt perl_opt : Bool),
          do_strsplit sbcsLocale aStarLib [.chr [97, 98] .CE_NATIVE] [] pads tpads extended_opt
              fixed_opt perl_opt
            = do_strsplit sbcsLocale aStarLib [.chr [97, 98] .CE_NATIVE] [.chr [] .CE_NATIVE]
                pads tpads2 extended_opt fixed_opt perl_opt) :=
  zero_length_recycled_argument sbcsLocale aStarLib sbcsWide [.chr [97, 98] .CE_NATIVE]
    (by decide)

/-- C31 (counterexample): `strsplit` of the vector of "ab" and `NA` with a delimiter vector of
length zero does not fail: it returns the characters "a" and "b" for the first element and
`NA` for the second. -/
theorem do_strsplit_zero_length_delimiter :
    do_strsplit sbcsLocale aStarLib [.chr [97, 98] .CE_NATIVE, .NA_STRING] [] (fun _ => [])
        (fun _ => []) true true false
      = .ok [[.chr [97] .CE_NATIVE, .chr [98] .CE_NATIVE], [.NA_STRING]]
    ∧ do_strsplit sbcsLocale aStarLib [.chr [97, 98] .CE_NATIVE, .NA_STRING] [] (fun _ => [])
        (fun _ => []) true false false
      = .ok [[.chr [97] .CE_NATIVE, .chr [98] .CE_NATIVE], [.NA_STRING]] :=
  ⟨rfl, rfl⟩

/-! ## Theorems: `fgrep_one` and `fgrep_one_bytes` on bytes -/

theorem first_occurrence_short (d : List Nat) :
    ∀ l : List Nat, l.length < d.length → first_occurrence d l = none := by
  intro l
  induction l with
  | nil => intro _; rfl
  | cons b r ih =>
    intro h
    have hne : ¬ (b :: r).take d.length = d := by
      intro e
      have := congrArg List.length e
      simp only [List.length_take] at this
      omega
    rw [first_occurrence, if_neg hne, ih (by simp only [List.length_cons] at h; omega)]
    rfl

theorem first_occurrence_least (d : List Nat) (hd : d ≠ []) :
    ∀ l : List Nat,
      (∀ i : Nat, first_occurrence d l = some i →
        ∀ j : Nat, j < i → (l.drop j).take d.length ≠ d)
      ∧ (first_occurrence d l = none → ∀ j : Nat, (l.drop j).take d.length ≠ d) := by
  have hdl : 0 < d.length := List.length_pos.2 hd
  intro l
  induction l with
  | nil =>
    refine ⟨fun i h => by simp [first_occurrence] at h, fun _ j e => ?_⟩
    have := congrArg List.length e
    simp at this
    omega
  | cons b r ih =>
    by_cases hm : (b :: r).take d.length = d
    · refine ⟨fun i h j hj => ?_, fun h => ?_⟩
      · rw [first_occurrence, if_pos hm] at h
        injection h with h
        omega
      · rw [first_occurrence, if_pos hm] at h
        cases h
    · refine ⟨fun i h j hj => ?_, fun h j => ?_⟩
      · rw [first_occurrence, if_neg hm] at h
        cases hr : first_occurrence d r with
        | none => rw [hr] at h; cases h
        | some k =>
          rw [hr] at h
          simp only [Option.map_some', Option.some.injEq] at h
          cases j with
          | zero => exact hm
          | succ j =>
            rw [List.drop_succ_cons]
            exact ih.1 k hr j (by omega)
      · rw [first_occurrence, if_neg hm] at h
        have hr : first_occurrence d r = none := by
          cases hr : first_occurrence d r with
          | none => rfl
          | some k => rw [hr] at h; cases h
        cases j with
        | zero => exact hm
        | succ j =>
          rw [List.drop_succ_cons]
          exact ih.2 hr j

theorem find_step_bytes_first (d : List Nat) (hd : d ≠ []) :
    ∀ (fuel : Nat) (l : List Nat) (off : Nat), l.length < fuel →
      find_step (fun _ => some 1) d fuel l off
        = some ((first_occurrence d l).map (fun i => off + i)) := by
  have hdl : 0 < d.length := List.length_pos.2 hd
  intro fuel
  induction fuel with
  | zero => intro l off h; omega
  | succ fuel ih =>
    intro l off h
    rw [find_step]
    by_cases hl : l.length < d.length
    · rw [if_pos hl, first_occurrence_short d l hl]
      rfl
    · rw [if_neg hl]
      cases l with
      | nil => exact absurd hdl hl
      | cons b r =>
        by_cases hm : (b :: r).take d.length = d
        · rw [if_pos hm, first_occurrence, if_pos hm]
          rfl
        · rw [if_neg hm, first_occurrence, if_neg hm]
          simp only [List.drop_succ_cons, List.drop_zero]
          rw [ih r (off + (0 + 1)) (by simp only [List.length_cons] at h; omega)]
          cases first_occurrence d r with
          | none => rfl
          | some k =>
            simp only [Option.map_some', Option.some.injEq]
            omega

/-- C40: in byte mode (`useBytes` on, or a locale that is not multibyte with an encoding
argument other than UTF-8), `fgrep_one` and `fgrep_one_bytes` return the same value for every
pattern and target: 0 for the empty pattern, else the least byte index at which the pattern
occurs in the target (`first_occurrence`), and -1 when it does not occur; `fgrep_one` stores
through `next` the index after the occurrence, 1 for the empty pattern, and nothing when there
is no occurrence. -/
theorem fgrep_one_bytes_agree (L : Env) (pat text pad : List Nat) (useBytes : Bool)
    (ienc : cetype_t) (hs : 0 ∉ text) (hp : 0 ∉ pat)
    (hmode : useBytes = true ∨ (L.mbcslocale = false ∧ ienc ≠ .CE_UTF8)) :
    fgrep_one_bytes L (pat ++ [0]) (text ++ 0 :: pad) 0 useBytes
        = .ok (if pat = [] then 0 else find_value (first_occurrence pat text))
      ∧ fgrep_one L (pat ++ [0]) (text ++ 0 :: pad) 0 useBytes ienc
        = .ok (if pat = [] then 0 else find_value (first_occurrence pat text),
            if pat = [] then some 1
            else (first_occurrence pat text).map (fun i => i + pat.length))
      ∧ (pat ≠ [] → ∀ i : Nat, first_occurrence pat text = some i →
          i + pat.length ≤ text.length ∧ (text.drop i).take pat.length = pat
            ∧ ∀ j : Nat, j < i → (text.drop j).take pat.length ≠ pat)
      ∧ (pat ≠ [] → first_occurrence pat text = none →
          ∀ j : Nat, (text.drop j).take pat.length ≠ pat) := by
  have hm1 : (!useBytes && L.mbcslocale) = false := by
    rcases hmode with h | h
    · rw [h]; rfl
    · rw [h.1]; simp
  have hm2 : (!useBytes && decide (ienc = .CE_UTF8)) = false := by
    rcases hmode with h | h
    · rw [h]; rfl
    · simp [h.2]
  refine ⟨?_, ?_, ?_, ?_⟩
  · unfold fgrep_one_bytes
    simp only [strlen_zero pat [] hp, strlen_zero text pad hs, bind, Except.bind, pure,
      Except.pure]
    by_cases h0 : pat = []
    · subst h0
      rfl
    · have hlen : pat.length ≠ 0 := fun h => h0 (List.length_eq_zero.mp h)
      rw [if_neg hlen, if_neg h0]
      have hfs := find_step_bytes_first pat h0 (text.length + 1) text 0 (by omega)
      have hmap : (first_occurrence pat text).map (fun i => 0 + i) = first_occurrence pat text := by
        cases first_occurrence pat text <;> simp
      rw [hmap] at hfs
      by_cases h1 : pat.length = 1
      · obtain ⟨c, rfl⟩ := List.length_eq_one.mp h1
        have hrd : rd ([c] ++ [0]) 0 = .ok c := rfl
        simp only [List.length_singleton, ↓reduceIte, hrd]
        exact fgrep_scan1_find text pad 0 c hs (text.length + 1) text.length 0 _ (by omega) hfs
      · rw [if_neg h1, hm1]
        simp only [Bool.false_eq_true, if_false]
        exact fgrep_scan_bytes_find pat text pad 0 hs hp (text.length + 1) _ 0 _ (by omega)
          (by omega) hfs
  · unfold fgrep_one
    simp only [strlen_zero pat [] hp, strlen_zero text pad hs, bind, Except.bind, pure,
      Except.pure]
    by_cases h0 : pat = []
    · subst h0
      rfl
    · have hlen : pat.length ≠ 0 := fun h => h0 (List.length_eq_zero.mp h)
      rw [if_neg hlen, if_neg h0, if_neg h0]
      have hfs := find_step_bytes_first pat h0 (text.length + 1) text 0 (by omega)
      have hmap : (first_occurrence pat text).map (fun i => 0 + i) = first_occurrence pat text := by
        cases first_occurrence pat text <;> simp
      rw [hmap] at hfs
      have hnext : ∀ (r : Option Nat) (n : Nat),
          (if find_value r ≥ 0 then some ((find_value r).toNat + n) else none)
            = r.map (fun i => i + n) := by
        intro r n
        cases r with
        | none => rfl
        | some k =>
          simp only [find_value, Option.map_some']
          rw [if_pos (by omega)]
          simp
      by_cases h1 : pat.length = 1
      · obtain ⟨c, rfl⟩ := List.length_eq_one.mp h1
        have hrd : rd ([c] ++ [0]) 0 = .ok c := rfl
        simp only [List.length_singleton, ↓reduceIte, hrd]
        rw [fgrep_scan1_find text pad 0 c hs (text.length + 1) text.length 0 _ (by omega) hfs]
        simp only [hnext]
      · rw [if_neg h1, hm1, hm2]
        simp only [Bool.false_eq_true, if_false]
        rw [fgrep_scan_bytes_find pat text pad 0 hs hp (text.length + 1) _ 0 _ (by omega)
          (by omega) hfs]
        simp only [hnext]
  · intro h0 i hi
    obtain ⟨hb1, hb2⟩ := first_occurrence_bound pat text i hi
    exact ⟨hb1, hb2, (first_occurrence_least pat h0 text).1 i hi⟩
  · intro h0 hn
    exact (first_occurrence_least pat h0 text).2 hn

theorem fgrep_one_bytes_agree_witness :
    fgrep_one_bytes utf8Locale ([0xA9, 97] ++ [0]) ([0xC3, 0xA9, 97, 0xC3, 0xA9, 97] ++ 0 :: [])
        0 true = .ok 1
    ∧ fgrep_one utf8Locale ([0xA9, 97] ++ [0]) ([0xC3, 0xA9, 97, 0xC3, 0xA9, 97] ++ 0 :: []) 0
        true .CE_UTF8 = .ok (1, some 3)
    ∧ fgrep_one sbcsLocale ([] ++ [0]) ([97] ++ 0 :: []) 0 false .CE_NATIVE = .ok (0, some 1)
    ∧ fgrep_one sbcsLocale ([98] ++ [0]) ([97, 98] ++ 0 :: []) 0 false .CE_NATIVE
        = .ok (1, some 2)
    ∧ fgrep_one sbcsLocale ([98, 98] ++ [0]) ([97, 98] ++ 0 :: []) 0 false .CE_NATIVE
        = .ok (-1, none) :=
  ⟨(fgrep_one_bytes_agree utf8Locale [0xA9, 97] [0xC3, 0xA9, 97, 0xC3, 0xA9, 97] [] true
      .CE_UTF8 (by decide) (by decide) (Or.inl rfl)).1.trans rfl,
    rfl, rfl, rfl, rfl⟩

/-! ## Theorems: the tokens of the fixed branch of `strsplit` joined again -/

theorem scan_occurrences_rejoin (d : List Nat) (hne : d ≠ []) (m : Nat) :
    ∀ (l acc : List Nat), l.length ≤ m →
      acc ++ l = ((scan_occurrences d l 0 acc).1.map (fun p => p ++ d)).flatten
        ++ (scan_occurrences d l 0 acc).2 := by
  have hpos : 1 ≤ d.length := by
    have : d.length ≠ 0 := fun h => hne (List.length_eq_zero.mp h)
    omega
  induction m with
  | zero =>
    intro l acc hl
    have : l = [] := List.length_eq_zero.mp (by omega)
    subst this
    simp [scan_occurrences]
  | succ m ih =>
    intro l acc hl
    cases hf : first_occurrence d l with
    | none =>
      rw [scan_of_no_occurrence d l acc hf]
      simp
    | some i =>
      obtain ⟨hb, hmatch⟩ := first_occurrence_bound d l i hf
      rw [scan_of_occurrence d hne l acc i hf]
      have hrec := ih (l.drop (i + d.length)) [] (by rw [List.length_drop]; omega)
      simp only [List.nil_append] at hrec
      simp only [List.map_cons, List.flatten_cons, List.append_assoc]
      rw [← hrec]
      have hsplit : l = l.take i ++ (d ++ l.drop (i + d.length)) := by
        conv_lhs => rw [← List.take_append_drop i l]
        congr 1
        conv_lhs => rw [← List.take_append_drop d.length (l.drop i)]
        rw [hmatch, List.drop_drop]
      conv_lhs => rw [hsplit]

theorem intercalate_snoc (d : List Nat) :
    ∀ (toks : List (List Nat)) (t : List Nat),
      d.intercalate (toks ++ [t]) = (toks.map (fun p => p ++ d)).flatten ++ t := by
  intro toks
  induction toks with
  | nil => intro t; simp [List.intercalate]
  | cons p ps ih =>
    intro t
    have h := ih t
    cases ps with
    | nil => simp [List.intercalate]
    | cons q qs =>
      simp only [List.intercalate, List.cons_append, List.intersperse_cons_cons,
        List.flatten_cons, List.map_cons, List.append_assoc] at h ⊢
      rw [h]

theorem intercalate_all_ended (d : List Nat) (toks : List (List Nat)) (h : toks ≠ []) :
    (toks.map (fun p => p ++ d)).flatten = d.intercalate toks ++ d := by
  obtain ⟨init, last, rfl⟩ : ∃ init last, toks = init ++ [last] :=
    ⟨toks.dropLast, toks.getLast h, (List.dropLast_append_getLast h).symm⟩
  rw [intercalate_snoc]
  simp

/-- C34: for the fixed branch of `strsplit` with a non-empty delimiter `d` and a text `s`, with
the tokens `t_1 .. t_k` that end at an occurrence of `d` and the trailing token, if there is
one: when there is a trailing token `t`, `s` is `t_1 d t_2 d .. t_k d t`, the tokens joined
with `d`; when `s` is used up at a delimiter, `s` is `t_1 d t_2 d .. t_k d`, the tokens joined
with `d` and one more `d` (and `s` is empty when there is no token). -/
theorem strsplit_fixed_rejoin (s pad d tpad : List Nat) (hs : 0 ∉ s) (hd : 0 ∉ d)
    (hne : d ≠ []) :
    ∃ toks trailing, strsplit_fixed (s ++ 0 :: pad) (d ++ 0 :: tpad) = .ok (toks, trailing)
      ∧ (∀ t : List Nat, trailing = some t →
          s = (toks.map (fun p => p ++ d)).flatten ++ t ∧ s = d.intercalate (toks ++ [t]))
      ∧ (trailing = none →
          s = (toks.map (fun p => p ++ d)).flatten
            ∧ (toks ≠ [] → s = d.intercalate toks ++ d) ∧ (toks = [] → s = [])) := by
  have hj := scan_occurrences_rejoin d hne s.length s [] (Nat.le_refl _)
  simp only [List.nil_append] at hj
  refine ⟨_, _, strsplit_fixed_eq_scan s pad d tpad hs hd hne, ?_, ?_⟩
  · intro t ht
    by_cases hrem : (scan_occurrences d s 0 []).2 = []
    · rw [if_pos hrem] at ht
      cases ht
    · rw [if_neg hrem] at ht
      injection ht with ht
      rw [← ht, intercalate_snoc]
      exact ⟨hj, hj⟩
  · intro ht
    by_cases hrem : (scan_occurrences d s 0 []).2 = []
    · rw [hrem, List.append_nil] at hj
      refine ⟨hj, fun hto => ?_, fun hto => ?_⟩
      · rw [← intercalate_all_ended d _ hto]
        exact hj
      · rw [hto] at hj
        simpa using hj
    · rw [if_neg hrem] at ht
      cases ht

theorem strsplit_fixed_rejoin_witness :
    (∃ toks trailing,
        strsplit_fixed ([97, 44, 98, 44, 44, 99, 44] ++ 0 :: [7]) ([44] ++ 0 :: [])
          = .ok (toks, trailing)
        ∧ (∀ t : List Nat, trailing = some t →
            [97, 44, 98, 44, 44, 99, 44] = (toks.map (fun p => p ++ [44])).flatten ++ t
              ∧ [97, 44, 98, 44, 44, 99, 44] = List.intercalate [44] (toks ++ [t]))
        ∧ (trailing = none →
            [97, 44, 98, 44, 44, 99, 44] = (toks.map (fun p => p ++ [44])).flatten
              ∧ (toks ≠ [] → [97, 44, 98, 44, 44, 99, 44] = List.intercalate [44] toks ++ [44])
              ∧ (toks = [] → [97, 44, 98, 44, 44, 99, 44] = [])))
    ∧ strsplit_fixed ([97, 44, 98, 44, 44, 99, 44] ++ 0 :: [7]) ([44] ++ 0 :: [])
        = .ok ([[97], [98], [], [99]], none)
    ∧ strsplit_fixed ([97, 44, 98] ++ 0 :: [7]) ([44] ++ 0 :: []) = .ok ([[97]], some [98])
    ∧ do_strsplit sbcsLocale aStarLib [.chr [97, 44, 98, 44] .CE_NATIVE]
        [.chr [44] .CE_NATIVE] (fun _ => []) (fun _ => []) true true false
      = .ok [[.chr [97] .CE_NATIVE, .chr [98] .CE_NATIVE]] :=
  ⟨strsplit_fixed_rejoin [97, 44, 98, 44, 44, 99, 44] [7] [44] [] (by decide) (by decide)
      (by decide),
    by decide, by decide, by decide⟩

/-! ## Theorems: `strtrim` applied twice -/

theorem strtrim_loop_end (L : Env) (W : WideLib) (text : List Nat) (w : Int) (fuel : Nat)
    (wsum : Int) (out : List Nat) :
    strtrim_loop L W (text ++ [0]) w (fuel + 1) text.length wsum out = .ok out := by
  have hmem : text ++ [0] = text ++ 0 :: [] := rfl
  rw [strtrim_loop, hmem]
  simp only [rd_terminator, ↓reduceIte, bind, Except.bind, pure, Except.pure]

theorem strtrim_loop_step (L : Env) (W : WideLib) (text : List Nat) (w : Int) (hs : 0 ∉ text)
    (fuel p : Nat) (wsum : Int) (out : List Nat) (hp : p < text.length) :
    strtrim_loop L W (text ++ [0]) w (fuel + 1) p wsum out
      = match L.mbrtowc (text.drop p) with
        | none => .error (.error .invalidMultibyte)
        | some u =>
          if W.wcwidth (W.mbrtowc_wc (text.drop p)) < 0 then
            strtrim_loop L W (text ++ [0]) w fuel (p + u) wsum out
          else if wsum + W.wcwidth (W.mbrtowc_wc (text.drop p)) ≤ w then
            (readN (text ++ [0]) p u).bind (fun bytes =>
              strtrim_loop L W (text ++ [0]) w fuel (p + u)
                (wsum + W.wcwidth (W.mbrtowc_wc (text.drop p))) (out ++ bytes))
          else .ok out := by
  have hmem : text ++ [0] = text ++ 0 :: [] := rfl
  obtain ⟨x, hrx, hdx, hx⟩ := text_at text [] p hs hp
  have hne : text.drop p ≠ [] := by rw [hdx]; simp
  rw [strtrim_loop, hmem]
  simp only [hrx, hx, ↓reduceIte, Mbrtowc, cstrAt_text text [] p hs (Nat.le_of_lt hp), hne,
    bind, Except.bind, pure, Except.pure]
  cases hu : L.mbrtowc (text.drop p) with
  | none => rfl
  | some u => simp only []

theorem strtrim_loop_kept (L : Env) (W : WideLib) (text : List Nat) (w : Int)
    (hs : 0 ∉ text)
    (hsane : ∀ (s : List Nat) (u : Nat), s ≠ [] → L.mbrtowc s = some u →
      1 ≤ u ∧ u ≤ s.length)
    (hctx : ∀ (s t : List Nat) (u : Nat), s ≠ [] → L.mbrtowc s = some u →
      L.mbrtowc (s.take u ++ t) = some u ∧ W.mbrtowc_wc (s.take u ++ t) = W.mbrtowc_wc s) :
    ∀ (fuel p : Nat) (wsum : Int) (out res : List Nat), p ≤ text.length →
      strtrim_loop L W (text ++ [0]) w fuel p wsum out = .ok res →
      ∃ K : List Nat, res = out ++ K ∧ 0 ∉ K
        ∧ ∀ (fuel2 : Nat) (Y out2 : List Nat), 0 ∉ Y → K.length < fuel2 →
            strtrim_loop L W ((Y ++ K) ++ [0]) w fuel2 Y.length wsum out2 = .ok (out2 ++ K) := by
  intro fuel
  induction fuel with
  | zero => intro p wsum out res _ h; cases h
  | succ fuel ih =>
    intro p wsum out res hp h
    have hnil : ∃ K : List Nat, out = out ++ K ∧ 0 ∉ K
        ∧ ∀ (fuel2 : Nat) (Y out2 : List Nat), 0 ∉ Y → K.length < fuel2 →
            strtrim_loop L W ((Y ++ K) ++ [0]) w fuel2 Y.length wsum out2
              = .ok (out2 ++ K) := by
      refine ⟨[], by simp, by simp, ?_⟩
      intro fuel2 Y out2 _ hf
      cases fuel2 with
      | zero => simp at hf
      | succ f2 =>
        simp only [List.append_nil]
        exact strtrim_loop_end L W Y w f2 wsum out2
    by_cases hlt : p < text.length
    · rw [strtrim_loop_step L W text w hs fuel p wsum out hlt] at h
      cases hu : L.mbrtowc (text.drop p) with
      | none => rw [hu] at h; cases h
      | some u =>
        rw [hu] at h
        simp only [] at h
        have hne : text.drop p ≠ [] := by
          intro e
          have := congrArg List.length e
          simp only [List.length_drop, List.length_nil] at this
          omega
        obtain ⟨hu1, hu2⟩ := hsane _ u hne hu
        rw [List.length_drop] at hu2
        by_cases hneg : W.wcwidth (W.mbrtowc_wc (text.drop p)) < 0
        · rw [if_pos hneg] at h
          exact ih (p + u) wsum out res (by omega) h
        · rw [if_neg hneg] at h
          by_cases hfit : wsum + W.wcwidth (W.mbrtowc_wc (text.drop p)) ≤ w
          · rw [if_pos hfit, readN_append_left text [0] u p (by omega)] at h
            simp only [Except.bind] at h
            obtain ⟨K, hres, hK0, hK⟩ := ih (p + u) _ _ res (by omega) h
            have hc0 : 0 ∉ (text.drop p).take u := not_mem_take_drop text p u hs
            have hclen : ((text.drop p).take u).length = u := by
              rw [List.length_take, List.length_drop]
              omega
            refine ⟨(text.drop p).take u ++ K, by rw [hres, List.append_assoc], ?_, ?_⟩
            · intro hm
              rcases List.mem_append.1 hm with hm | hm
              · exact hc0 hm
              · exact hK0 hm
            · intro fuel2 Y out2 hY hf
              cases fuel2 with
              | zero => simp at hf
              | succ f2 =>
                obtain ⟨hc1, hc2⟩ := hctx (text.drop p) K u hne hu
                have hYK0 : 0 ∉ Y ++ ((text.drop p).take u ++ K) := by
                  intro hm
                  rcases List.mem_append.1 hm with hm | hm
                  · exact hY hm
                  · rcases List.mem_append.1 hm with hm | hm
                    · exact hc0 hm
                    · exact hK0 hm
                have hYlt : Y.length < (Y ++ ((text.drop p).take u ++ K)).length := by
                  simp only [List.length_append, hclen]
                  omega
                have hdropY : (Y ++ ((text.drop p).take u ++ K)).drop Y.length
                    = (text.drop p).take u ++ K := List.drop_left _ _
                rw [strtrim_loop_step L W _ w hYK0 f2 Y.length wsum out2 hYlt, hdropY, hc1]
                simp only [hc2]
                rw [if_neg hneg, if_pos hfit,
                  readN_append_left _ [0] u Y.length
                    (by simp only [List.length_append, hclen]; omega), hdropY]
                simp only [Except.bind, List.take_left' hclen]
                have hY2 : Y.length + u = (Y ++ (text.drop p).take u).length := by
                  simp only [List.length_append, hclen]
                rw [hY2, ← List.append_assoc Y, ← List.append_assoc out2]
                refine hK f2 (Y ++ (text.drop p).take u) (out2 ++ (text.drop p).take u) ?_ ?_
                · intro hm
                  rcases List.mem_append.1 hm with hm | hm
                  · exact hY hm
                  · exact hc0 hm
                · simp only [List.length_append, hclen] at hf
                  omega
          · rw [if_neg hfit] at h
            injection h with h
            rw [← h]
            exact hnil
    · have hpe : p = text.length := by omega
      subst hpe
      rw [strtrim_loop_end] at h
      injection h with h
      rw [← h]
      exact hnil

theorem strtrim_elt_idem (L : Env) (W : WideLib) (w : Int)
    (hsane : ∀ (s : List Nat) (u : Nat), s ≠ [] → L.mbrtowc s = some u →
      1 ≤ u ∧ u ≤ s.length)
    (hctx : ∀ (s t : List Nat) (u : Nat), s ≠ [] → L.mbrtowc s = some u →
      L.mbrtowc (s.take u ++ t) = some u ∧ W.mbrtowc_wc (s.take u ++ t) = W.mbrtowc_wc s)
    (htr : ∀ (t : List Nat) (e : cetype_t), L.translateChar t (L.markEnc e) = t)
    (hmark : ∀ e : cetype_t, L.markEnc (L.markEnc e) = L.markEnc e)
    (el y : RString) (h : strtrim_elt L W el w = .ok y) :
    strtrim_elt L W y w = .ok y ∧ (y = .NA_STRING ↔ el = .NA_STRING) := by
  cases el with
  | NA_STRING =>
    simp only [strtrim_elt] at h
    injection h with h
    subst h
    exact ⟨rfl, Iff.rfl⟩
  | chr bytes enc =>
    simp only [strtrim_elt, bind, Except.bind, pure, Except.pure] at h
    cases hl : strtrim_loop L W (mkChar (L.translateChar bytes enc) ++ [0]) w
        ((mkChar (L.translateChar bytes enc) ++ [0]).length + 1) 0 0 [] with
    | error e => rw [hl] at h; cases h
    | ok res =>
      rw [hl] at h
      simp only at h
      injection h with h
      obtain ⟨K, hres, hK0, hK⟩ := strtrim_loop_kept L W _ w (mkChar_not_mem _) hsane hctx _ 0
        0 [] res (Nat.zero_le _) hl
      simp only [List.nil_append] at hres
      subst hres
      rw [mkChar_append_zero, mkChar_of_not_mem _ hK0] at h
      subst h
      refine ⟨?_, by simp [markKnown]⟩
      have h2 := hK (res.length + 1 + 1) [] [] (by simp) (by omega)
      simp only [List.nil_append, List.length_nil] at h2
      simp only [strtrim_elt, markKnown, htr, mkChar_of_not_mem _ hK0, List.length_append,
        List.length_singleton, h2, bind, Except.bind, pure, Except.pure, mkChar_append_zero,
        hmark]

theorem strtrim_vec_idem (L : Env) (W : WideLib) (width : List Int)
    (hsane : ∀ (s : List Nat) (u : Nat), s ≠ [] → L.mbrtowc s = some u →
      1 ≤ u ∧ u ≤ s.length)
    (hctx : ∀ (s t : List Nat) (u : Nat), s ≠ [] → L.mbrtowc s = some u →
      L.mbrtowc (s.take u ++ t) = some u ∧ W.mbrtowc_wc (s.take u ++ t) = W.mbrtowc_wc s)
    (htr : ∀ (t : List Nat) (e : cetype_t), L.translateChar t (L.markEnc e) = t)
    (hmark : ∀ e : cetype_t, L.markEnc (L.markEnc e) = L.markEnc e) :
    ∀ (x y : List RString) (i : Nat), strtrim_vec L W width x i = .ok y →
      strtrim_vec L W width y i = .ok y ∧ y.length = x.length
        ∧ ∀ k : Nat, y[k]? = some RString.NA_STRING ↔ x[k]? = some RString.NA_STRING := by
  intro x
  induction x with
  | nil =>
    intro y i h
    simp only [strtrim_vec] at h
    injection h with h
    subst h
    exact ⟨rfl, rfl, fun k => Iff.rfl⟩
  | cons el rest ih =>
    intro y i h
    simp only [strtrim_vec, bind, Except.bind, pure, Except.pure] at h
    cases hw : width[i % width.length]? with
    | none => rw [hw] at h; cases h
    | some w =>
      rw [hw] at h
      simp only at h
      cases ha : strtrim_elt L W el w with
      | error e => rw [ha] at h; cases h
      | ok a =>
        rw [ha] at h
        simp only at h
        cases hr : strtrim_vec L W width rest (i + 1) with
        | error e => rw [hr] at h; cases h
        | ok r =>
          rw [hr] at h
          simp only at h
          injection h with h
          subst h
          obtain ⟨h1, h2, h3⟩ := ih r (i + 1) hr
          obtain ⟨e1, e2⟩ := strtrim_elt_idem L W w hsane hctx htr hmark el a ha
          refine ⟨?_, by simp [h2], ?_⟩
          · simp only [strtrim_vec, hw, e1, h1, bind, Except.bind, pure, Except.pure]
          · intro k
            cases k with
            | zero =>
              simp only [List.getElem?_cons_zero, Option.some.injEq]
              exact e2
            | succ k =>
              simp only [List.getElem?_cons_succ]
              exact h3 k

/-- C37: `strtrim` is idempotent in the width: when `do_strtrim` returns `y` for the vector `x`
and the widths `width`, it returns `y` again for `y` and the same widths, whatever the widths
of the characters are (`wcwidth` is any function); `NA` stays `NA`.  The C library is taken to
read a character from its bytes alone (`mbrtowc` gives a length from 1 to the length of the
string, and the same length and wide character when what follows the character changes), and
`translateChar` to leave a string marked by `markKnown` as it is. -/
theorem do_strtrim_idempotent (L : Env) (W : WideLib) (x y : List RString) (width : List Int)
    (hsane : ∀ (s : List Nat) (u : Nat), s ≠ [] → L.mbrtowc s = some u →
      1 ≤ u ∧ u ≤ s.length)
    (hctx : ∀ (s t : List Nat) (u : Nat), s ≠ [] → L.mbrtowc s = some u →
      L.mbrtowc (s.take u ++ t) = some u ∧ W.mbrtowc_wc (s.take u ++ t) = W.mbrtowc_wc s)
    (htr : ∀ (t : List Nat) (e : cetype_t), L.translateChar t (L.markEnc e) = t)
    (hmark : ∀ e : cetype_t, L.markEnc (L.markEnc e) = L.markEnc e)
    (h : do_strtrim L W x width = .ok y) :
    do_strtrim L W y width = .ok y ∧ y.length = x.length
      ∧ ∀ k : Nat, y[k]? = some RString.NA_STRING ↔ x[k]? = some RString.NA_STRING := by
  unfold do_strtrim at h
  simp only [] at h
  by_cases h1 : width.length = 0 ∨ (width.length < x.length ∧ x.length % width.length ≠ 0)
  · rw [if_pos h1] at h
    cases h
  · rw [if_neg h1] at h
    by_cases h2 : (width.any (fun w => decide (w = NA_INTEGER) || decide (w < 0))) = true
    · rw [if_pos h2] at h
      cases h
    · rw [if_neg h2] at h
      obtain ⟨e1, e2, e3⟩ := strtrim_vec_idem L W width hsane hctx htr hmark x y 0 h
      refine ⟨?_, e2, e3⟩
      unfold do_strtrim
      simp only []
      rw [e2, if_neg h1, if_neg h2]
      exact e1

theorem do_strtrim_idempotent_witness :
    (do_strtrim sbcsLocale sbcsWide [.chr [104, 101] .CE_NATIVE, .NA_STRING] [2]
        = .ok [.chr [104, 101] .CE_NATIVE, .NA_STRING]
      ∧ [RString.chr [104, 101] .CE_NATIVE, .NA_STRING].length
        = [RString.chr [104, 101, 108, 108, 111] .CE_LATIN1, .NA_STRING].length
      ∧ ∀ k : Nat, [RString.chr [104, 101] .CE_NATIVE, .NA_STRING][k]?
            = some RString.NA_STRING
          ↔ [RString.chr [104, 101, 108, 108, 111] .CE_LATIN1, .NA_STRING][k]?
            = some RString.NA_STRING)
    ∧ do_strtrim utf8Locale utf8Wide [.chr [97, 0xE4, 0xB8, 0xAD, 98] .CE_NATIVE] [3]
        = .ok [.chr [97, 0xE4, 0xB8, 0xAD] .CE_NATIVE]
    ∧ do_strtrim utf8Locale utf8Wide [.chr [97, 0xE4, 0xB8, 0xAD] .CE_NATIVE] [3]
        = .ok [.chr [97, 0xE4, 0xB8, 0xAD] .CE_NATIVE] :=
  ⟨do_strtrim_idempotent sbcsLocale sbcsWide
      [.chr [104, 101, 108, 108, 111] .CE_LATIN1, .NA_STRING]
      [.chr [104, 101] .CE_NATIVE, .NA_STRING] [2]
      (fun s u hs hu => by
        simp only [sbcsLocale, Option.some.injEq] at hu
        subst hu
        exact ⟨Nat.le_refl _, List.length_pos.2 hs⟩)
      (fun s t u hs hu => by
        simp only [sbcsLocale, Option.some.injEq] at hu
        subst hu
        refine ⟨rfl, ?_⟩
        cases s with
        | nil => exact absurd rfl hs
        | cons a r => rfl)
      (fun _ _ => rfl) (fun _ => rfl) rfl,
    rfl, rfl⟩

/-! ## Theorems: the two branches of `chartr` on ASCII -/

theorem tr_build_spec_congr (val1 val2 : Nat → Int) :
    ∀ (n : Nat) (s : List Nat), s.length ≤ n → (∀ c ∈ s, val1 c = val2 c) →
      tr_build_spec val1 s = tr_build_spec val2 s := by
  intro n
  induction n with
  | zero =>
    intro s hs _
    have : s = [] := List.length_eq_zero.mp (by omega)
    subst this
    rfl
  | succ n ih =>
    intro s hs hv
    match s with
    | [] => rfl
    | [a] => rfl
    | [a, b] => rfl
    | a :: m :: b :: rest =>
      simp only [tr_build_spec]
      rw [hv a (by simp), hv b (by simp)]
      rw [ih rest (by simp only [List.length_cons] at hs; omega)
        (fun c hc => hv c (by simp [hc]))]
      rw [ih (m :: b :: rest) (by simp only [List.length_cons] at hs ⊢; omega)
        (fun c hc => hv c (List.mem_cons_of_mem _ hc))]

theorem tr_build_spec_within (B : Nat) :
    ∀ (n : Nat) (s : List Nat) (so : List tr_spec), s.length ≤ n →
      (∀ c ∈ s, 0 < c ∧ c < B) →
      tr_build_spec (fun c => (c : Int)) s = .ok so → tr_within B so = true := by
  intro n
  induction n with
  | zero =>
    intro s so hs _ h
    have : s = [] := List.length_eq_zero.mp (by omega)
    subst this
    simp only [tr_build_spec] at h
    injection h with h
    subst h
    rfl
  | succ n ih =>
    intro s so hs hv h
    match s with
    | [] =>
      simp only [tr_build_spec] at h
      injection h with h
      subst h
      rfl
    | [a] =>
      simp only [tr_build_spec] at h
      injection h with h
      subst h
      have := hv a (by simp)
      simp [tr_within, this.1, this.2]
    | [a, b] =>
      simp only [tr_build_spec] at h
      injection h with h
      subst h
      have ha := hv a (by simp)
      have hb := hv b (by simp)
      simp [tr_within, ha.1, ha.2, hb.1, hb.2]
    | a :: m :: b :: rest =>
      have ha := hv a (by simp)
      have hb := hv b (by simp)
      simp only [tr_build_spec] at h
      by_cases hm : m = 45
      · rw [if_pos hm] at h
        by_cases hgt : (a : Int) > (b : Int)
        · rw [if_pos hgt] at h
          cases h
        · rw [if_neg hgt] at h
          cases hr : tr_build_spec (fun c => (c : Int)) rest with
          | error e => rw [hr] at h; cases h
          | ok r =>
            rw [hr] at h
            simp only [Except.map] at h
            injection h with h
            subst h
            have hrw := ih rest r (by simp only [List.length_cons] at hs; omega)
              (fun c hc => hv c (by simp [hc])) hr
            have hab : a ≤ b := by omega
            simp only [tr_within, List.all_cons, Bool.and_eq_true, decide_eq_true_eq]
            simp only [tr_within] at hrw
            exact ⟨⟨⟨ha.1, hab⟩, hb.2⟩, hrw⟩
      · rw [if_neg hm] at h
        cases hr : tr_build_spec (fun c => (c : Int)) (m :: b :: rest) with
        | error e => rw [hr] at h; cases h
        | ok r =>
          rw [hr] at h
          simp only [Except.map] at h
          injection h with h
          subst h
          have hrw := ih (m :: b :: rest) r (by simp only [List.length_cons] at hs ⊢; omega)
            (fun c hc => hv c (List.mem_cons_of_mem _ hc)) hr
          simp only [tr_within, List.all_cons, Bool.and_eq_true, decide_eq_true_eq]
          simp only [tr_within] at hrw
          exact ⟨⟨ha.1, ha.2⟩, hrw⟩

theorem tr_pairs_succ (m fuel : Nat) (so sn : List tr_spec) :
    tr_pairs m (fuel + 1) so sn
      = if (tr_get_next_char_from_spec m so).1 = 0 then .ok []
        else if (tr_get_next_char_from_spec m sn).1 = 0 then
          .error (.error .oldLongerThanNew)
        else (tr_pairs m fuel (tr_get_next_char_from_spec m so).2
            (tr_get_next_char_from_spec m sn).2).map
          (fun r => ((tr_get_next_char_from_spec m so).1,
            (tr_get_next_char_from_spec m sn).1) :: r) :=
  rfl

theorem tr_next_within (B m m2 : Nat) (hB0 : 0 < B) (hB : B ≤ m) (hB2 : B ≤ m2)
    (s : List tr_spec) (hw : tr_within B s = true) :
    tr_get_next_char_from_spec m s = tr_get_next_char_from_spec m2 s
      ∧ (tr_get_next_char_from_spec m s).1 < B
      ∧ ((tr_get_next_char_from_spec m s).1 = 0 ∨ 0 < (tr_get_next_char_from_spec m s).1)
      ∧ tr_within B (tr_get_next_char_from_spec m s).2 = true := by
  cases s with
  | nil =>
    exact ⟨rfl, hB0, Or.inl rfl, rfl⟩
  | cons t rest =>
    have hrest : tr_within B rest = true := by
      simp only [tr_within, List.all_cons, Bool.and_eq_true] at hw ⊢
      exact hw.2
    cases t with
    | TR_CHAR c =>
      simp only [tr_within, List.all_cons, Bool.and_eq_true, decide_eq_true_eq] at hw
      exact ⟨rfl, hw.1.2, Or.inr hw.1.1, hrest⟩
    | TR_RANGE first last =>
      simp only [tr_within, List.all_cons, Bool.and_eq_true, decide_eq_true_eq] at hw
      obtain ⟨⟨⟨h1, h2⟩, h3⟩, _⟩ := hw
      simp only [tr_get_next_char_from_spec]
      by_cases hfl : first = last
      · simp only [hfl, if_true]
        exact ⟨trivial, h3, Or.inr (by omega), hrest⟩
      · simp only [hfl, if_false]
        have e1 : (first + 1) % m = first + 1 := Nat.mod_eq_of_lt (by omega)
        have e2 : (first + 1) % m2 = first + 1 := Nat.mod_eq_of_lt (by omega)
        rw [e1, e2]
        refine ⟨rfl, by omega, Or.inr h1, ?_⟩
        simp only [tr_within, List.all_cons, Bool.and_eq_true, decide_eq_true_eq]
        simp only [tr_within] at hrest
        exact ⟨⟨⟨by omega, by omega⟩, h3⟩, hrest⟩

theorem tr_pairs_within (B m m2 : Nat) (hB0 : 0 < B) (hB : B ≤ m) (hB2 : B ≤ m2) :
    ∀ (fuel : Nat) (so sn : List tr_spec), tr_within B so = true → tr_within B sn = true →
      tr_pairs m fuel so sn = tr_pairs m2 fuel so sn
        ∧ ∀ pairs, tr_pairs m fuel so sn = .ok pairs →
            ∀ p ∈ pairs, 0 < p.1 ∧ p.1 < B ∧ 0 < p.2 ∧ p.2 < B := by
  intro fuel
  induction fuel with
  | zero =>
    intro so sn _ _
    exact ⟨rfl, fun pairs h => by cases h⟩
  | succ fuel ih =>
    intro so sn ho hn
    obtain ⟨eo, bo, po, wo⟩ := tr_next_within B m m2 hB0 hB hB2 so ho
    obtain ⟨en, bn, pn, wn⟩ := tr_next_within B m m2 hB0 hB hB2 sn hn
    obtain ⟨ih1, ih2⟩ := ih _ _ wo wn
    constructor
    · rw [tr_pairs_succ, tr_pairs_succ, ← eo, ← en, ih1]
    · intro pairs h
      rw [tr_pairs_succ] at h
      by_cases h0 : (tr_get_next_char_from_spec m so).1 = 0
      · rw [if_pos h0] at h
        injection h with h
        subst h
        intro p hp
        simp at hp
      · rw [if_neg h0] at h
        by_cases h1 : (tr_get_next_char_from_spec m sn).1 = 0
        · rw [if_pos h1] at h
          cases h
        · rw [if_neg h1] at h
          cases hr : tr_pairs m fuel (tr_get_next_char_from_spec m so).2
              (tr_get_next_char_from_spec m sn).2 with
          | error e => rw [hr] at h; cases h
          | ok r =>
            rw [hr] at h
            simp only [Except.map] at h
            injection h with h
            subst h
            intro p hp
            rcases List.mem_cons.1 hp with hp | hp
            · subst hp
              exact ⟨by omega, bo, by omega, bn⟩
            · exact ih2 r hr p hp

theorem chartr_wc_pairs (pairs : List (Nat × Nat)) :
    ∀ wc : List Nat,
      chartr_wc (COMPRESS (ISORT pairs)) wc = .ok (wc.map (tr_xtable (fun c => c) pairs)) := by
  intro wc
  induction wc with
  | nil => rfl
  | cons c rest ih =>
    rw [chartr_wc, BSEARCH_table, ih, List.map_cons, tr_xtable_eq]
    rfl

theorem tr_xtable_ascii (pairs : List (Nat × Nat))
    (hp : ∀ p ∈ pairs, 0 < p.2 ∧ p.2 < 128) (c : Nat) (hc : 0 < c ∧ c < 128) :
    0 < tr_xtable (fun c => c) pairs c ∧ tr_xtable (fun c => c) pairs c < 128 := by
  rw [tr_xtable_eq]
  cases hf : pairs.reverse.find? (fun p => decide (p.1 = c)) with
  | none => exact hc
  | some p =>
    have hmem := List.mem_of_find?_eq_some hf
    rw [List.mem_reverse] at hmem
    exact hp p hmem

theorem vec_loop_congr (f g : RString → Except Fault RString) :
    ∀ x : List RString, (∀ el ∈ x, f el = g el) → vec_loop f x = vec_loop g x := by
  intro x
  induction x with
  | nil => intro _; rfl
  | cons e rest ih =>
    intro h
    simp only [vec_loop, h e (List.mem_cons_self _ _),
      ih (fun el hel => h el (List.mem_cons_of_mem _ hel))]

theorem ascii_elt_bytes (bytes : List Nat) (enc : cetype_t)
    (h : ascii_elt (.chr bytes enc) = true) :
    (∀ b ∈ bytes, 0 < b ∧ b < 128) ∧ enc ≠ .CE_UTF8 := by
  simp only [ascii_elt, Bool.and_eq_true, List.all_eq_true, decide_eq_true_eq] at h
  exact h

theorem chartr_elt_ascii_agree (L1 L2 : Env) (W : WideLib) (pairs : List (Nat × Nat))
    (hp : ∀ p ∈ pairs, 0 < p.2 ∧ p.2 < 128) (el : RString) (ha : ascii_elt el = true)
    (htr : L1.translateChar (CHAR el) (getCharCE el) = CHAR el
      ∧ L2.translateChar (CHAR el) (getCharCE el) = CHAR el)
    (hmk : L1.markEnc (getCharCE el) = L2.markEnc (getCharCE el))
    (hW : ∀ s : List Nat, (∀ b ∈ s, 0 < b ∧ b < 128) →
      W.mbstowcs s = some s ∧ W.wcstombs s = s) :
    chartr_wide_elt L2 W false (COMPRESS (ISORT pairs)) el
      = chartr_sbcs_elt L1 (tr_xtable (fun c => c) pairs) el := by
  cases el with
  | NA_STRING => rfl
  | chr bytes enc =>
    obtain ⟨hb, _⟩ := ascii_elt_bytes bytes enc ha
    simp only [CHAR, getCharCE] at htr hmk
    have hb0 : 0 ∉ bytes := fun h => absurd (hb 0 h).1 (by decide)
    have hm : ∀ b ∈ bytes.map (tr_xtable (fun c => c) pairs), 0 < b ∧ b < 128 := by
      intro b hbm
      obtain ⟨c, hc, rfl⟩ := List.mem_map.1 hbm
      exact tr_xtable_ascii pairs hp c (hb c hc)
    have hm0 : 0 ∉ bytes.map (tr_xtable (fun c => c) pairs) :=
      fun h => absurd (hm 0 h).1 (by decide)
    simp only [chartr_wide_elt, chartr_sbcs_elt, Bool.false_and, Bool.false_eq_true, if_false,
      htr.1, htr.2, mkChar_of_not_mem _ hb0, (hW bytes hb).1, chartr_wc_pairs, bind,
      Except.bind, pure, Except.pure, mkChar_of_not_mem _ hm0, (hW _ hm).2,
      mkChar_append_zero, markKnown, hmk]

theorem BSEARCH_finds_iff (pairs : List (Nat × Nat)) (c : Nat) :
    (∃ p, BSEARCH c (COMPRESS (ISORT pairs)) ((COMPRESS (ISORT pairs)).length + 1) 0
        (COMPRESS (ISORT pairs)).length = .ok (some p) ∧ p.1 = c)
      ↔ c ∈ pairs.map Prod.fst := by
  rw [BSEARCH_table]
  constructor
  · rintro ⟨p, hp, hpc⟩
    injection hp with hp
    have hmem := List.mem_of_find?_eq_some hp
    rw [List.mem_reverse] at hmem
    exact List.mem_map.2 ⟨p, hmem, hpc⟩
  · intro hc
    obtain ⟨q, hq, hqc⟩ := List.mem_map.1 hc
    cases hf : pairs.reverse.find? (fun p => decide (p.1 = c)) with
    | none =>
      rw [List.find?_eq_none] at hf
      exact absurd (by simpa using hqc) (hf q (List.mem_reverse.2 hq))
    | some p =>
      exact ⟨p, rfl, by simpa using List.find?_some hf⟩

theorem do_chartr_unfold (L : Env) (W : WideLib) (sc : Bool) (old new : RString)
    (x : List RString) (fuel : Nat) (ho : old ≠ .NA_STRING) (hn : new ≠ .NA_STRING) :
    do_chartr L W sc old new x fuel
      = if (L.mbcslocale || chartr_use_UTF8 old new x) = true then
          (chartr_spec_wcs L W (chartr_use_UTF8 old new x) old).bind (fun wold =>
            (tr_build_spec (fun c => (c : Int)) wold).bind (fun trs_old =>
              (chartr_spec_wcs L W (chartr_use_UTF8 old new x) new).bind (fun wnew =>
                (tr_build_spec (fun c => (c : Int)) wnew).bind (fun trs_new =>
                  (tr_pairs (2 ^ 32) fuel trs_old trs_new).bind (fun xtable =>
                    vec_loop (chartr_wide_elt L W (chartr_use_UTF8 old new x)
                      (COMPRESS (ISORT xtable))) x)))))
        else
          (tr_build_spec (plain_char sc)
              (mkChar (L.translateChar (CHAR old) (getCharCE old)))).bind (fun trs_old =>
            (tr_build_spec (plain_char sc)
                (mkChar (L.translateChar (CHAR new) (getCharCE new)))).bind (fun trs_new =>
              (tr_pairs 256 fuel trs_old trs_new).bind (fun pairs =>
                vec_loop (chartr_sbcs_elt L (tr_xtable (fun c => c) pairs)) x))) := by
  unfold do_chartr
  rw [if_neg ho, if_neg hn]
  rfl

/-- C36: after the insertion sort and the compression the table of the branch on wide
characters is strictly increasing in its key, and the binary search finds an entry for a
character exactly when the character is the key of one of the pairs; and for ASCII `old`,
`new` and `x` without the UTF-8 mark, `do_chartr` in a multibyte locale (sorted table and
binary search) returns what it returns in a single-byte locale (table of 256 entries), errors
included.  The conversions between bytes and wide characters are taken to be the identity on
ASCII, `translateChar` to leave the strings as they are, and `markKnown` to give the same mark
in both locales. -/
theorem do_chartr_ascii_paths_agree (L1 L2 : Env) (W : WideLib) (sc : Bool)
    (old new : RString) (x : List RString) (fuel : Nat)
    (h1 : L1.mbcslocale = false) (h2 : L2.mbcslocale = true)
    (hascii : ∀ el ∈ old :: new :: x, ascii_elt el = true)
    (htr : ∀ el ∈ old :: new :: x,
      L1.translateChar (CHAR el) (getCharCE el) = CHAR el
        ∧ L2.translateChar (CHAR el) (getCharCE el) = CHAR el)
    (hmk : ∀ el ∈ x, L1.markEnc (getCharCE el) = L2.markEnc (getCharCE el))
    (hW : ∀ s : List Nat, (∀ b ∈ s, 0 < b ∧ b < 128) →
      W.mbstowcs s = some s ∧ W.wcstombs s = s) :
    do_chartr L2 W sc old new x fuel = do_chartr L1 W sc old new x fuel
      ∧ ∀ pairs : List (Nat × Nat),
          (COMPRESS (ISORT pairs)).Pairwise (fun a b => a.1 < b.1)
            ∧ ∀ c : Nat,
                (∃ p, BSEARCH c (COMPRESS (ISORT pairs)) ((COMPRESS (ISORT pairs)).length + 1) 0
                    (COMPRESS (ISORT pairs)).length = .ok (some p) ∧ p.1 = c)
                  ↔ c ∈ pairs.map Prod.fst := by
  refine ⟨?_, fun pairs =>
    ⟨COMPRESS_sorted _ (ISORT_sorted pairs), fun c => BSEARCH_finds_iff pairs c⟩⟩
  cases old with
  | NA_STRING => simp only [do_chartr, if_true]
  | chr ob oe =>
    cases new with
    | NA_STRING => simp only [do_chartr, if_true, reduceCtorEq, if_false]
    | chr nb ne =>
      obtain ⟨hob, hoe⟩ := ascii_elt_bytes ob oe (hascii _ (by simp))
      obtain ⟨hnb, hne⟩ := ascii_elt_bytes nb ne (hascii _ (by simp))
      have hto := htr (.chr ob oe) (by simp)
      have htn := htr (.chr nb ne) (by simp)
      simp only [CHAR, getCharCE] at hto htn
      have hob0 : 0 ∉ ob := fun h => absurd (hob 0 h).1 (by decide)
      have hnb0 : 0 ∉ nb := fun h => absurd (hnb 0 h).1 (by decide)
      have hx8 : x.any (fun el => decide (getCharCE el = .CE_UTF8)) = false := by
        rw [List.any_eq_false]
        intro el hel
        have ha := hascii el (by simp [hel])
        cases el with
        | NA_STRING => simp [getCharCE]
        | chr b e =>
          have := (ascii_elt_bytes b e ha).2
          simpa [getCharCE] using this
      have hu : chartr_use_UTF8 (RString.chr ob oe) (RString.chr nb ne) x = false := by
        rw [chartr_use_UTF8, hx8]
        simp [getCharCE, hoe, hne]
      have hplain : ∀ s : List Nat, (∀ b ∈ s, 0 < b ∧ b < 128) →
          tr_build_spec (plain_char sc) s = tr_build_spec (fun c => (c : Int)) s := by
        intro s hsb
        refine tr_build_spec_congr _ _ s.length s (Nat.le_refl _) ?_
        intro c hc
        have := (hsb c hc).2
        have hn : ¬ 128 ≤ c := by omega
        simp [plain_char, hn]
      rw [do_chartr_unfold L2 W sc _ _ x fuel (by simp) (by simp),
        do_chartr_unfold L1 W sc _ _ x fuel (by simp) (by simp), hu, h1, h2]
      simp only [Bool.or_false, if_true, Bool.false_eq_true, if_false,
        chartr_spec_wcs, Bool.false_and, CHAR, getCharCE, hto.1, hto.2,
        htn.1, htn.2, mkChar_of_not_mem _ hob0, mkChar_of_not_mem _ hnb0, (hW ob hob).1,
        (hW nb hnb).1, hplain ob hob, hplain nb hnb, Except.bind]
      cases hbo : tr_build_spec (fun c => (c : Int)) ob with
      | error e => rfl
      | ok so =>
        cases hbn : tr_build_spec (fun c => (c : Int)) nb with
        | error e => rfl
        | ok sn =>
          simp only []
          have hwo := tr_build_spec_within 128 ob.length ob so (Nat.le_refl _) hob hbo
          have hwn := tr_build_spec_within 128 nb.length nb sn (Nat.le_refl _) hnb hbn
          obtain ⟨hpe, hps⟩ := tr_pairs_within 128 (2 ^ 32) 256 (by decide) (by decide)
            (by decide) fuel so sn hwo hwn
          rw [hpe]
          cases hpr : tr_pairs 256 fuel so sn with
          | error e => rfl
          | ok pairs =>
            simp only []
            rw [hpe] at hps
            refine vec_loop_congr _ _ x ?_
            intro el hel
            exact chartr_elt_ascii_agree L1 L2 W pairs
              (fun p hp => (hps pairs hpr p hp).2.2) el (hascii el (by simp [hel]))
              (htr el (by simp [hel])) (hmk el hel) hW

theorem do_chartr_ascii_paths_agree_witness :
    do_chartr utf8Locale sbcsWide false (.chr [97, 45, 99, 97] .CE_NATIVE)
        (.chr [65, 45, 67, 122] .CE_NATIVE)
        [.chr [97, 98, 99, 100] .CE_NATIVE, .NA_STRING] 10
      = .ok [.chr [122, 66, 67, 100] .CE_NATIVE, .NA_STRING]
    ∧ do_chartr sbcsLocale sbcsWide false (.chr [97, 45, 99, 97] .CE_NATIVE)
        (.chr [65, 45, 67, 122] .CE_NATIVE)
        [.chr [97, 98, 99, 100] .CE_NATIVE, .NA_STRING] 10
      = .ok [.chr [122, 66, 67, 100] .CE_NATIVE, .NA_STRING]
    ∧ COMPRESS (ISORT [(97, 65), (98, 66), (99, 67), (97, 122)])
      = [(97, 122), (98, 66), (99, 67)] :=
  ⟨(do_chartr_ascii_paths_agree sbcsLocale utf8Locale sbcsWide false
      (.chr [97, 45, 99, 97] .CE_NATIVE) (.chr [65, 45, 67, 122] .CE_NATIVE)
      [.chr [97, 98, 99, 100] .CE_NATIVE, .NA_STRING] 10 rfl rfl (by decide) (by decide)
      (by decide) (fun s _ => ⟨rfl, rfl⟩)).1.trans rfl,
    rfl, rfl⟩

/-! ## Theorems: the size pass and the write pass of the replacement -/

theorem copy_span_length (orig : List Nat) :
    ∀ (n : Nat) (i : Int), 0 ≤ i → i + n ≤ (orig.length : Int) →
      ∃ out, copy_span orig n i = .ok out ∧ out.length = n := by
  intro n
  induction n with
  | zero => intro i _ _; exact ⟨[], rfl, rfl⟩
  | succ n ih =>
    intro i h0 h1
    have hi : i.toNat < orig.length := by omega
    obtain ⟨r, hr, hrl⟩ := ih (i + 1) (by omega) (by push_cast at h1 ⊢; omega)
    refine ⟨orig[i.toNat] :: r, ?_, by simp [hrl]⟩
    have hneg : ¬ i < 0 := by omega
    simp only [copy_span, rdInt, hneg, if_false, rd, List.getElem?_eq_getElem hi, hr, bind,
      Except.bind, pure, Except.pure]

theorem copy_span_ok (len : Nat) (orig : List Nat) (hlen : len ≤ orig.length) (m : Int × Int)
    (hm : span_ok len m) :
    ∃ out, copy_span orig (m.2 - m.1).toNat m.1 = .ok out
      ∧ (out.length : Int) = m.2 - m.1 := by
  obtain ⟨h1, h2⟩ := hm
  by_cases hlt : m.1 < m.2
  · obtain ⟨h3, h4⟩ := h2 hlt
    obtain ⟨out, ho, hl⟩ := copy_span_length orig (m.2 - m.1).toNat m.1 h3 (by omega)
    exact ⟨out, ho, by omega⟩
  · have : (m.2 - m.1).toNat = 0 := by omega
    rw [this]
    exact ⟨[], rfl, by simp; omega⟩

theorem adj_loops_agree (L : Env) (hsb : L.mbcslocale = false) (orig : List Nat) (len : Nat)
    (hlen : len ≤ orig.length) (regmatch : List (Int × Int)) (nsubexpr : Nat) :
    ∀ (fuel : Nat) (p : List Nat) (n : Int), p.length < fuel →
      (∀ k ∈ repl_refs p, k ≤ nsubexpr ∧ ∃ m, regmatch[k]? = some m ∧ span_ok len m) →
      ∃ out, string_adj_loop L orig regmatch fuel p = .ok out
        ∧ length_adj_loop L regmatch nsubexpr fuel p n
            = .ok (n + (out.length : Int) - (p.length : Int)) := by
  intro fuel
  induction fuel with
  | zero => intro p n h; omega
  | succ fuel ih =>
    intro p n hf hr
    match p with
    | [] => exact ⟨[], rfl, by simp [length_adj_loop]⟩
    | [c] =>
      obtain ⟨out, ho, hl⟩ := ih [] (n - 1) (by simp only [List.length_cons] at hf; simp; omega)
        (by intro k hk; simp [repl_refs] at hk)
      obtain ⟨out2, ho2, hl2⟩ := ih [] n (by simp only [List.length_cons] at hf; simp; omega)
        (by intro k hk; simp [repl_refs] at hk)
      by_cases hc : c = 92
      · refine ⟨out, ?_, ?_⟩
        · simp only [string_adj_loop, hsb, Bool.false_eq_true, if_false, Bool.false_and, hc,
            if_true, ho, bind, Except.bind, pure, Except.pure]
        · simp only [length_adj_loop, hsb, Bool.false_eq_true, if_false, Bool.false_and, hc,
            if_true, hl, bind, Except.bind, pure, Except.pure, List.length_singleton,
            List.length_nil]
          congr 1
          push_cast
          omega
      · refine ⟨c :: out2, ?_, ?_⟩
        · simp only [string_adj_loop, hsb, Bool.false_eq_true, if_false, Bool.false_and, hc,
            ho2, bind, Except.bind, pure, Except.pure]
        · simp only [length_adj_loop, hsb, Bool.false_eq_true, if_false, Bool.false_and, hc,
            hl2, bind, Except.bind, pure, Except.pure, List.length_singleton,
            List.length_nil, List.length_cons]
          congr 1
          push_cast
          omega
    | c :: d :: rest =>
      simp only [List.length_cons] at hf
      by_cases hc : c = 92
      · by_cases hd : 49 ≤ d ∧ d ≤ 57
        · have hrefs : repl_refs (c :: d :: rest) = (d - 48) :: repl_refs rest := by
            simp [repl_refs, hc, hd]
          rw [hrefs] at hr
          obtain ⟨hk, m, hm, hspan⟩ := hr (d - 48) (List.mem_cons_self _ _)
          obtain ⟨span, hsp, hspl⟩ := copy_span_ok len orig hlen m hspan
          obtain ⟨out, ho, hl⟩ := ih rest (n + (m.2 - m.1) - 2) (by omega)
            (fun k hk2 => hr k (List.mem_cons_of_mem _ hk2))
          have hnk : ¬ d - 48 > nsubexpr := by omega
          refine ⟨span ++ out, ?_, ?_⟩
          · simp only [string_adj_loop, hsb, Bool.false_eq_true, if_false, Bool.false_and, hc,
              if_true, hd, and_self, regmatch_get, hm, hsp, ho, bind, Except.bind, pure,
              Except.pure]
          · simp only [length_adj_loop, hsb, Bool.false_eq_true, if_false, Bool.false_and, hc,
              if_true, hd, and_self, hnk, regmatch_get, hm, hl, bind, Except.bind, pure,
              Except.pure, List.length_append, List.length_cons]
            congr 1
            push_cast
            omega
        · have hrefs : repl_refs (c :: d :: rest) = repl_refs rest := by
            simp [repl_refs, hc, hd]
          rw [hrefs] at hr
          obtain ⟨out, ho, hl⟩ := ih rest (n - 1) (by omega) hr
          refine ⟨d :: out, ?_, ?_⟩
          · simp only [string_adj_loop, hsb, Bool.false_eq_true, if_false, Bool.false_and, hc,
              if_true, hd, ho, bind, Except.bind, pure, Except.pure]
          · simp only [length_adj_loop, hsb, Bool.false_eq_true, if_false, Bool.false_and, hc,
              if_true, hd, hl, bind, Except.bind, pure, Except.pure, List.length_cons]
            congr 1
            push_cast
            omega
      · have hrefs : repl_refs (c :: d :: rest) = repl_refs (d :: rest) := by
          simp [repl_refs, hc]
        rw [hrefs] at hr
        obtain ⟨out, ho, hl⟩ := ih (d :: rest) n (by simp only [List.length_cons]; omega) hr
        refine ⟨c :: out, ?_, ?_⟩
        · simp only [string_adj_loop, hsb, Bool.false_eq_true, if_false, Bool.false_and, hc,
            ho, bind, Except.bind, pure, Except.pure]
        · simp only [length_adj_loop, hsb, Bool.false_eq_true, if_false, Bool.false_and, hc,
            hl, bind, Except.bind, pure, Except.pure, List.length_cons]
          congr 1
          push_cast
          omega

theorem regmatch_get_ok (regmatch : List (Int × Int)) (k : Nat) (h : k < regmatch.length) :
    regmatch_get regmatch k = .ok (regmatch.get ⟨k, h⟩) := by
  simp [regmatch_get, List.getElem?_eq_getElem h]

theorem length_adj_loop_backref (L : Env) (hsb : L.mbcslocale = false)
    (regmatch : List (Int × Int)) (nsubexpr : Nat) (hlen : 10 ≤ regmatch.length) :
    ∀ (fuel : Nat) (p : List Nat) (n : Int), p.length < fuel →
      ((∀ k ∈ repl_refs p, k ≤ nsubexpr) →
          ∃ v, length_adj_loop L regmatch nsubexpr fuel p n = .ok v)
        ∧ ((∃ k ∈ repl_refs p, nsubexpr < k) →
          length_adj_loop L regmatch nsubexpr fuel p n
            = .error (.error .invalidBackreference)) := by
  intro fuel
  induction fuel with
  | zero => intro p n h; omega
  | succ fuel ih =>
    intro p n hf
    match p with
    | [] =>
      exact ⟨fun _ => ⟨n, rfl⟩, fun h => by obtain ⟨k, hk, _⟩ := h; simp [repl_refs] at hk⟩
    | [c] =>
      have hnil := fun v => (ih [] v (by simp only [List.length_cons] at hf; simp; omega)).1
        (by intro k hk; simp [repl_refs] at hk)
      refine ⟨fun _ => ?_, fun h => by obtain ⟨k, hk, _⟩ := h; simp [repl_refs] at hk⟩
      by_cases hc : c = 92
      · obtain ⟨v, hv⟩ := hnil (n - 1)
        exact ⟨v, by
          simp only [length_adj_loop, hsb, Bool.false_eq_true, if_false, Bool.false_and, hc,
            if_true, hv, bind, Except.bind, pure, Except.pure]⟩
      · obtain ⟨v, hv⟩ := hnil n
        exact ⟨v, by
          simp only [length_adj_loop, hsb, Bool.false_eq_true, if_false, Bool.false_and, hc,
            hv, bind, Except.bind, pure, Except.pure]⟩
    | c :: d :: rest =>
      simp only [List.length_cons] at hf
      by_cases hc : c = 92
      · by_cases hd : 49 ≤ d ∧ d ≤ 57
        · have hrefs : repl_refs (c :: d :: rest) = (d - 48) :: repl_refs rest := by
            simp [repl_refs, hc, hd]
          rw [hrefs]
          have hget := regmatch_get_ok regmatch (d - 48) (by omega)
          by_cases hk : d - 48 > nsubexpr
          · have hval : length_adj_loop L regmatch nsubexpr (fuel + 1) (c :: d :: rest) n
                = .error (.error .invalidBackreference) := by
              simp only [length_adj_loop, hsb, Bool.false_eq_true, if_false, Bool.false_and,
                hc, if_true, hd, and_self, hk, bind, Except.bind, pure, Except.pure]
            refine ⟨fun h => ?_, fun _ => hval⟩
            have := h (d - 48) (List.mem_cons_self _ _)
            omega
          · have hval : length_adj_loop L regmatch nsubexpr (fuel + 1) (c :: d :: rest) n
                = length_adj_loop L regmatch nsubexpr fuel rest
                    (n + ((regmatch.get ⟨d - 48, by omega⟩).2
                      - (regmatch.get ⟨d - 48, by omega⟩).1) - 2) := by
              simp only [length_adj_loop, hsb, Bool.false_eq_true, if_false, Bool.false_and,
                hc, if_true, hd, and_self, hk, hget, bind, Except.bind, pure, Except.pure]
            rw [hval]
            obtain ⟨i1, i2⟩ := ih rest (n + ((regmatch.get ⟨d - 48, by omega⟩).2
              - (regmatch.get ⟨d - 48, by omega⟩).1) - 2) (by omega)
            refine ⟨fun h => i1 (fun k hk2 => h k (List.mem_cons_of_mem _ hk2)), fun h => ?_⟩
            obtain ⟨k, hk1, hk2⟩ := h
            rcases List.mem_cons.1 hk1 with e | e
            · omega
            · exact i2 ⟨k, e, hk2⟩
        · have hrefs : repl_refs (c :: d :: rest) = repl_refs rest := by
            simp [repl_refs, hc, hd]
          rw [hrefs]
          have hval : length_adj_loop L regmatch nsubexpr (fuel + 1) (c :: d :: rest) n
              = length_adj_loop L regmatch nsubexpr fuel rest (n - 1) := by
            simp only [length_adj_loop, hsb, Bool.false_eq_true, if_false, Bool.false_and,
              hc, if_true, hd, bind, Except.bind, pure, Except.pure]
          rw [hval]
          exact ih rest (n - 1) (by omega)
      · have hrefs : repl_refs (c :: d :: rest) = repl_refs (d :: rest) := by
          simp [repl_refs, hc]
        rw [hrefs]
        have hval : length_adj_loop L regmatch nsubexpr (fuel + 1) (c :: d :: rest) n
            = length_adj_loop L regmatch nsubexpr fuel (d :: rest) n := by
          simp only [length_adj_loop, hsb, Bool.false_eq_true, if_false, Bool.false_and,
            hc, bind, Except.bind, pure, Except.pure]
        rw [hval]
        exact ih (d :: rest) n (by simp only [List.length_cons]; omega)

theorem copy_gap_length (s : List Nat) :
    ∀ (n : Nat) (j : Int) (g : List Nat), copy_gap s n j = .ok g → g.length = n := by
  intro n
  induction n with
  | zero =>
    intro j g h
    simp only [copy_gap] at h
    injection h with h
    subst h
    rfl
  | succ n ih =>
    intro j g h
    simp only [copy_gap, bind, Except.bind, pure, Except.pure] at h
    cases hb : rdInt s j with
    | error e => rw [hb] at h; cases h
    | ok b =>
      rw [hb] at h
      simp only at h
      cases hr : copy_gap s n (j + 1) with
      | error e => rw [hr] at h; cases h
      | ok r =>
        rw [hr] at h
        simp only at h
        injection h with h
        subst h
        simp [ih (j + 1) r hr]

theorem repl_refs_lt :
    ∀ (n : Nat) (p : List Nat), p.length ≤ n → ∀ k ∈ repl_refs p, k < 10 := by
  intro n
  induction n with
  | zero =>
    intro p hp k hk
    have : p = [] := List.length_eq_zero.mp (by omega)
    subst this
    simp [repl_refs] at hk
  | succ n ih =>
    intro p hp k hk
    match p with
    | [] => simp [repl_refs] at hk
    | [c] => simp [repl_refs] at hk
    | c :: d :: rest =>
      simp only [List.length_cons] at hp
      by_cases hc : c = 92
      · by_cases hd : 49 ≤ d ∧ d ≤ 57
        · have hrefs : repl_refs (c :: d :: rest) = (d - 48) :: repl_refs rest := by
            simp [repl_refs, hc, hd]
          rw [hrefs] at hk
          rcases List.mem_cons.1 hk with e | e
          · omega
          · exact ih rest (by omega) k e
        · have hrefs : repl_refs (c :: d :: rest) = repl_refs rest := by
            simp [repl_refs, hc, hd]
          rw [hrefs] at hk
          exact ih rest (by omega) k hk
      · have hrefs : repl_refs (c :: d :: rest) = repl_refs (d :: rest) := by
          simp [repl_refs, hc]
        rw [hrefs] at hk
        exact ih (d :: rest) (by simp only [List.length_cons]; omega) k hk

theorem adj_agree (L : Env) (hsb : L.mbcslocale = false) (text pad t : List Nat)
    (regmatch : List (Int × Int)) (nsubexpr : Nat) (hlen : 10 ≤ regmatch.length)
    (hspan : ∀ (k : Nat) (m : Int × Int), regmatch[k]? = some m → span_ok text.length m)
    (hrefs : ∀ k ∈ repl_refs t, k ≤ nsubexpr) :
    ∃ (n : Int) (out : List Nat) (m0 : Int × Int), regmatch[0]? = some m0
      ∧ length_adj L t regmatch nsubexpr = .ok n
      ∧ string_adj L (text ++ 0 :: pad) t regmatch = .ok out
      ∧ (out.length : Int) = (m0.2 - m0.1) + n := by
  obtain ⟨m0, h0⟩ : ∃ m0, regmatch[0]? = some m0 :=
    ⟨regmatch.get ⟨0, by omega⟩, List.getElem?_eq_getElem (by omega)⟩
  have hk9 : ∀ k ∈ repl_refs t, k ≤ nsubexpr ∧ ∃ m, regmatch[k]? = some m
      ∧ span_ok text.length m := by
    intro k hk
    refine ⟨hrefs k hk, ?_⟩
    have hk10 : k < 10 := repl_refs_lt t.length t (Nat.le_refl _) k hk
    have hkl : k < regmatch.length := by omega
    exact ⟨regmatch.get ⟨k, hkl⟩, List.getElem?_eq_getElem hkl,
      hspan k _ (List.getElem?_eq_getElem hkl)⟩
  obtain ⟨out, ho, hl⟩ := adj_loops_agree L hsb (text ++ 0 :: pad) text.length
    (by simp) regmatch nsubexpr (t.length + 1) t ((t.length : Int) - (m0.2 - m0.1))
    (by omega) hk9
  refine ⟨(t.length : Int) - (m0.2 - m0.1) + (out.length : Int) - (t.length : Int), out, m0,
    h0, ?_, ho, ?_⟩
  · simp only [length_adj, regmatch_get, h0, bind, Except.bind]
    exact hl
  · omega

theorem rdInt_text (text pad : List Nat) (hs : 0 ∉ text) (i : Int) (h0 : 0 ≤ i)
    (h1 : i ≤ (text.length : Int)) :
    ∃ b, rdInt (text ++ 0 :: pad) i = .ok b ∧ (b = 0 ↔ i = (text.length : Int)) := by
  have hneg : ¬ i < 0 := by omega
  by_cases hlt : i.toNat < text.length
  · obtain ⟨x, hrx, _, hx⟩ := text_at text pad i.toNat hs hlt
    refine ⟨x, by simp only [rdInt, hneg, if_false, hrx], ?_⟩
    constructor
    · intro h; exact absurd h hx
    · intro h; omega
  · have he : i.toNat = text.length := by omega
    refine ⟨0, by simp only [rdInt, hneg, if_false, he, rd_terminator], ?_⟩
    constructor
    · intro _; omega
    · intro _; rfl

theorem length_adj_ok_refs (L : Env) (hsb : L.mbcslocale = false) (t : List Nat)
    (regmatch : List (Int × Int)) (nsubexpr : Nat) (hlen : 10 ≤ regmatch.length) (adj : Int)
    (h : length_adj L t regmatch nsubexpr = .ok adj) : ∀ k ∈ repl_refs t, k ≤ nsubexpr := by
  intro k hk
  by_contra hc
  have hget := regmatch_get_ok regmatch 0 (by omega)
  have := (length_adj_loop_backref L hsb regmatch nsubexpr hlen (t.length + 1) t
    ((t.length : Int) - ((regmatch.get ⟨0, by omega⟩).2 - (regmatch.get ⟨0, by omega⟩).1))
    (by omega)).2 ⟨k, hk, by omega⟩
  simp only [length_adj, hget, bind, Except.bind, this] at h
  cases h

theorem gsub_size_step_spec (L : Env) (re : regex_t) (global : Bool) (text pad t : List Nat)
    (hs : 0 ∉ text) (regmatch : List (Int × Int)) (m : Int × Int)
    (hm : regmatch[0]? = some m) (h0 : 0 ≤ m.2) (h1 : m.2 ≤ (text.length : Int))
    (st st1 : GsubState) (more : Bool)
    (h : gsub_size_step L re global (text ++ 0 :: pad) t regmatch st = .ok (st1, more)) :
    (more = (decide (m.2 ≠ (text.length : Int)) && global))
      ∧ st1.offset = (if more then (if m.2 = m.1 then m.2 + 1 else m.2) else m.2)
      ∧ st1.last_end = (if m.2 > st.last_end then m.2 else st.last_end)
      ∧ st1.eflags = (if more then 1 else st.eflags)
      ∧ ((m.2 > st.last_end ∧ ∃ adj, length_adj L t regmatch re.re_nsub = .ok adj
            ∧ st1.ns = st.ns + adj)
          ∨ (¬ m.2 > st.last_end ∧ st1.ns = st.ns)) := by
  obtain ⟨b, hb, hbz⟩ := rdInt_text text pad hs m.2 h0 h1
  simp only [gsub_size_step, regmatch_get, hm, bind, Except.bind, pure, Except.pure] at h
  by_cases hgt : m.2 > st.last_end
  · simp only [hgt, if_true] at h
    cases hadj : length_adj L t regmatch re.re_nsub with
    | error e => rw [hadj] at h; cases h
    | ok adj =>
      rw [hadj] at h
      simp only [hb] at h
      by_cases hstop : b = 0 ∨ (!global) = true
      · rw [if_pos hstop] at h
        injection h with h
        injection h with h1 h2
        subst h1 h2
        refine ⟨?_, by simp, by simp [hgt], by simp, Or.inl ⟨hgt, adj, rfl, by simp⟩⟩
        rcases hstop with hz | hg
        · have := hbz.1 hz
          simp [this]
        · cases global <;> simp at hg ⊢
      · rw [if_neg hstop] at h
        injection h with h
        injection h with h1 h2
        subst h1 h2
        have hnz : ¬ b = 0 := fun e => hstop (Or.inl e)
        have hg : global = true := by
          cases global
          · exact absurd (Or.inr rfl) hstop
          · rfl
        have hne : m.2 ≠ (text.length : Int) := fun e => hnz (hbz.2 e)
        refine ⟨by simp [hne, hg], by simp, by simp [hgt], by simp,
          Or.inl ⟨hgt, adj, rfl, by simp⟩⟩
  · simp only [hgt, if_false, hb] at h
    by_cases hstop : b = 0 ∨ (!global) = true
    · rw [if_pos hstop] at h
      injection h with h
      injection h with h1 h2
      subst h1 h2
      refine ⟨?_, by simp, by simp [hgt], by simp, Or.inr ⟨hgt, by simp⟩⟩
      rcases hstop with hz | hg
      · have := hbz.1 hz
        simp [this]
      · cases global <;> simp at hg ⊢
    · rw [if_neg hstop] at h
      injection h with h
      injection h with h1 h2
      subst h1 h2
      have hnz : ¬ b = 0 := fun e => hstop (Or.inl e)
      have hg : global = true := by
        cases global
        · exact absurd (Or.inr rfl) hstop
        · rfl
      have hne : m.2 ≠ (text.length : Int) := fun e => hnz (hbz.2 e)
      refine ⟨by simp [hne, hg], by simp, by simp [hgt], by simp, Or.inr ⟨hgt, by simp⟩⟩

theorem gsub_write_step_spec (L : Env) (global : Bool) (text pad t : List Nat)
    (hs : 0 ∉ text) (regmatch : List (Int × Int)) (m : Int × Int)
    (hm : regmatch[0]? = some m) (h0 : 0 ≤ m.2) (h1 : m.2 ≤ (text.length : Int))
    (st st1 : GsubState) (more : Bool)
    (h : gsub_write_step L global (text ++ 0 :: pad) t regmatch st = .ok (st1, more)) :
    (more = (decide (m.2 ≠ (text.length : Int)) && global))
      ∧ st1.offset = (if more then (if m.2 = m.1 then m.2 + 1 else m.2) else m.2)
      ∧ st1.last_end = (if m.2 > st.last_end then m.2 else st.last_end)
      ∧ st1.eflags = (if more then 1 else st.eflags)
      ∧ ∃ sub : List Nat,
          (if m.2 > st.last_end then string_adj L (text ++ 0 :: pad) t regmatch = .ok sub
            else sub = [])
          ∧ (st1.u.length : Int) = (st.u.length : Int) + ((m.1 - st.offset).toNat : Int)
              + (sub.length : Int) + (if more = true ∧ m.2 = m.1 then 1 else 0) := by
  obtain ⟨b, hb, hbz⟩ := rdInt_text text pad hs m.2 h0 h1
  simp only [gsub_write_step, regmatch_get, hm, bind, Except.bind, pure, Except.pure] at h
  cases hgap : copy_gap (text ++ 0 :: pad) (m.1 - st.offset).toNat st.offset with
  | error e => rw [hgap] at h; cases h
  | ok gap =>
    rw [hgap] at h
    simp only at h
    have hgl := copy_gap_length _ _ _ gap hgap
    by_cases hgt : m.2 > st.last_end
    · simp only [hgt, if_true] at h
      cases hsub : string_adj L (text ++ 0 :: pad) t regmatch with
      | error e => rw [hsub] at h; cases h
      | ok sub =>
        rw [hsub] at h
        simp only [hb] at h
        by_cases hstop : b = 0 ∨ (!global) = true
        · rw [if_pos hstop] at h
          injection h with h
          injection h with e1 e2
          subst e1 e2
          refine ⟨?_, by simp, by simp [hgt], by simp, sub, by rw [if_pos hgt],
            by simp [hgl]; omega⟩
          rcases hstop with hz | hg
          · have := hbz.1 hz
            simp [this]
          · cases global <;> simp at hg ⊢
        · rw [if_neg hstop] at h
          have hnz : ¬ b = 0 := fun e => hstop (Or.inl e)
          have hg : global = true := by
            cases global
            · exact absurd (Or.inr rfl) hstop
            · rfl
          have hne : m.2 ≠ (text.length : Int) := fun e => hnz (hbz.2 e)
          by_cases hemp : m.2 = m.1
          · rw [if_pos hemp] at h
            injection h with h
            injection h with e1 e2
            subst e1 e2
            refine ⟨by simp [hne, hg], by simp [hemp], by simp [hgt], by simp, sub,
              by rw [if_pos hgt], by simp [hgl, hemp]; omega⟩
          · rw [if_neg hemp] at h
            injection h with h
            injection h with e1 e2
            subst e1 e2
            refine ⟨by simp [hne, hg], by simp [hemp], by simp [hgt], by simp, sub,
              by rw [if_pos hgt], by simp [hgl, hemp]; omega⟩
    · simp only [hgt, if_false, hb] at h
      by_cases hstop : b = 0 ∨ (!global) = true
      · rw [if_pos hstop] at h
        injection h with h
        injection h with e1 e2
        subst e1 e2
        refine ⟨?_, by simp, by simp [hgt], by simp, [], by rw [if_neg hgt],
          by simp [hgl]⟩
        rcases hstop with hz | hg
        · have := hbz.1 hz
          simp [this]
        · cases global <;> simp at hg ⊢
      · rw [if_neg hstop] at h
        have hnz : ¬ b = 0 := fun e => hstop (Or.inl e)
        have hg : global = true := by
          cases global
          · exact absurd (Or.inr rfl) hstop
          · rfl
        have hne : m.2 ≠ (text.length : Int) := fun e => hnz (hbz.2 e)
        by_cases hemp : m.2 = m.1
        · rw [if_pos hemp] at h
          injection h with h
          injection h with e1 e2
          subst e1 e2
          refine ⟨by simp [hne, hg], by simp [hemp], by simp [hgt], by simp, [],
            by rw [if_neg hgt], by simp [hgl, hemp]; omega⟩
        · rw [if_neg hemp] at h
          injection h with h
          injection h with e1 e2
          subst e1 e2
          refine ⟨by simp [hne, hg], by simp [hemp], by simp [hgt], by simp, [],
            by rw [if_neg hgt], by simp [hgl, hemp]⟩

theorem gsub_loops_agree (L : Env) (hsb : L.mbcslocale = false) (re : regex_t) (global : Bool)
    (text pad t : List Nat) (hs : 0 ∉ text)
    (hre : ∀ (eflags : Nat) (offset : Int) (regmatch : List (Int × Int)), re.Rregexec text eflags offset = some regmatch →
      10 ≤ regmatch.length ∧ (∀ (k : Nat) (m : Int × Int), regmatch[k]? = some m → span_ok text.length m)
        ∧ (∀ m : Int × Int, regmatch[0]? = some m → offset ≤ m.1 ∧ m.2 ≤ (text.length : Int))) :
    ∀ (fuel : Nat) (A B A1 B1 : GsubState),
      A.offset = B.offset → A.last_end = B.last_end → A.eflags = B.eflags →
      0 ≤ B.offset → B.offset ≤ (text.length : Int) → B.last_end ≤ B.offset →
      A.ns = (B.u.length : Int) + ((text.length : Int) - B.offset) →
      gsub_size_loop L re global (text ++ 0 :: pad) t fuel A = .ok A1 →
      gsub_write_loop L re global (text ++ 0 :: pad) t fuel B = .ok B1 →
      0 ≤ B1.offset ∧ B1.offset ≤ (text.length : Int)
        ∧ A1.ns = (B1.u.length : Int) + ((text.length : Int) - B1.offset) := by
  intro fuel
  induction fuel with
  | zero =>
    intro A B A1 B1 _ _ _ _ _ _ _ hA _
    simp only [gsub_size_loop] at hA
    cases hA
  | succ fuel ih =>
    intro A B A1 B1 ho hl he h0 h1 hle hns hA hB
    simp only [gsub_size_loop, cstrAt_zero text pad hs, bind, Except.bind, pure, Except.pure]
      at hA
    simp only [gsub_write_loop, cstrAt_zero text pad hs, bind, Except.bind, pure, Except.pure]
      at hB
    rw [he, ho] at hA
    cases hr : re.Rregexec text B.eflags B.offset with
    | none =>
      rw [hr] at hA hB
      simp only at hA hB
      injection hA with hA
      injection hB with hB
      subst hA hB
      exact ⟨h0, h1, hns⟩
    | some regmatch =>
      rw [hr] at hA hB
      simp only at hA hB
      obtain ⟨hlen, hspan, hm0⟩ := hre _ _ _ hr
      obtain ⟨m, hm⟩ : ∃ m, regmatch[0]? = some m :=
        ⟨regmatch.get ⟨0, by omega⟩, List.getElem?_eq_getElem (by omega)⟩
      obtain ⟨hge, hmn⟩ := hm0 m hm
      have hsp := (hspan 0 m hm).1
      cases hsA : gsub_size_step L re global (text ++ 0 :: pad) t regmatch A with
      | error e => rw [hsA] at hA; cases hA
      | ok rA =>
        obtain ⟨A2, moreA⟩ := rA
        cases hsB : gsub_write_step L global (text ++ 0 :: pad) t regmatch B with
        | error e => rw [hsB] at hB; cases hB
        | ok rB =>
          obtain ⟨B2, moreB⟩ := rB
          rw [hsA] at hA
          rw [hsB] at hB
          simp only at hA hB
          obtain ⟨a1, a2, a3, a4, a5⟩ := gsub_size_step_spec L re global text pad t hs
            regmatch m hm (by omega) hmn A A2 moreA hsA
          obtain ⟨b1, b2, b3, b4, sub, b5, b6⟩ := gsub_write_step_spec L global text pad t hs
            regmatch m hm (by omega) hmn B B2 moreB hsB
          have hmore : moreA = moreB := by rw [a1, b1]
          have hoffB : B2.offset = (if moreB = true ∧ m.2 = m.1 then m.2 + 1 else m.2) := by
            rw [b2]
            by_cases hmB : moreB = true
            · by_cases hemp : m.2 = m.1
              · rw [if_pos hmB, if_pos hemp, if_pos ⟨hmB, hemp⟩]
              · rw [if_pos hmB, if_neg hemp, if_neg (fun h => hemp h.2)]
            · rw [if_neg hmB, if_neg (fun h => hmB h.1)]
          have hgapl : ((m.1 - B.offset).toNat : Int) = m.1 - B.offset := by omega
          have hns2 : A2.ns = (B2.u.length : Int) + ((text.length : Int) - B2.offset) := by
            rcases a5 with ⟨hgt, adj, hadj, hA2⟩ | ⟨hgt, hA2⟩
            · rw [hl] at hgt
              rw [if_pos hgt] at b5
              have hrefs := length_adj_ok_refs L hsb t regmatch re.re_nsub hlen adj hadj
              obtain ⟨n, out, m0, hm0e, hn, hout, hlo⟩ :=
                adj_agree L hsb text pad t regmatch re.re_nsub hlen hspan hrefs
              rw [hm] at hm0e
              injection hm0e with hm0e
              subst hm0e
              rw [hadj] at hn
              injection hn with hn
              subst hn
              rw [b5] at hout
              injection hout with hout
              subst hout
              split_ifs at hoffB b6 <;> omega
            · rw [hl] at hgt
              rw [if_neg hgt] at b5
              have hsl : (sub.length : Int) = 0 := by rw [b5]; rfl
              split_ifs at hoffB b6 <;> omega
          have hoff : 0 ≤ B2.offset ∧ B2.offset ≤ (text.length : Int) := by
            by_cases hmB : moreB = true
            · have hne : m.2 ≠ (text.length : Int) := by
                rw [hmB] at b1
                intro e
                simp [e] at b1
              split_ifs at hoffB <;> omega
            · rw [if_neg (fun h => hmB h.1)] at hoffB
              omega
          subst hmore
          cases moreA with
          | false =>
            simp only [Bool.false_eq_true, if_false] at hA hB
            injection hA with hA
            injection hB with hB
            subst hA hB
            exact ⟨hoff.1, hoff.2, hns2⟩
          | true =>
            simp only [if_true] at hA hB
            refine ih A2 B2 A1 B1 (by rw [a2, b2]) (by rw [a3, b3, hl]) (by rw [a4, b4, he])
              hoff.1 hoff.2 ?_ hns2 hA hB
            rw [b3]
            have hmt : (true = true ∧ m.2 = m.1) ↔ m.2 = m.1 := by simp
            simp only [hmt] at hoffB
            split_ifs at hoffB ⊢ <;> omega

/-- C39: in a single-byte locale, for a match whose spans lie in the text, `length_adj` raises
the invalid backreference error exactly when the replacement refers to a group beyond
`nsubexpr`, and otherwise `string_adj` writes the length of the whole match plus the value of
`length_adj`; hence, when both loops of `do_gsub` return, the size `ns` computed by the first
is exactly the length of the string written by the second with the rest of the text copied
after it. -/
theorem replacement_passes_agree (L : Env) (hsb : L.mbcslocale = false)
    (text pad t : List Nat) (hs : 0 ∉ text) :
    (∀ (regmatch : List (Int × Int)) (nsubexpr : Nat), 10 ≤ regmatch.length →
      (∀ (k : Nat) (m : Int × Int), regmatch[k]? = some m → span_ok text.length m) →
      (length_adj L t regmatch nsubexpr = .error (.error .invalidBackreference)
          ↔ ∃ k ∈ repl_refs t, nsubexpr < k)
        ∧ ((∀ k ∈ repl_refs t, k ≤ nsubexpr) →
            ∃ (n : Int) (out : List Nat) (m0 : Int × Int), regmatch[0]? = some m0
              ∧ length_adj L t regmatch nsubexpr = .ok n
              ∧ string_adj L (text ++ 0 :: pad) t regmatch = .ok out
              ∧ (out.length : Int) = (m0.2 - m0.1) + n))
    ∧ (∀ (re : regex_t) (global : Bool),
        (∀ (eflags : Nat) (offset : Int) (regmatch : List (Int × Int)),
          re.Rregexec text eflags offset = some regmatch →
          10 ≤ regmatch.length
            ∧ (∀ (k : Nat) (m : Int × Int), regmatch[k]? = some m → span_ok text.length m)
            ∧ (∀ m : Int × Int, regmatch[0]? = some m →
                offset ≤ m.1 ∧ m.2 ≤ (text.length : Int))) →
        ∀ (fuel : Nat) (st1 st2 : GsubState),
          gsub_size_loop L re global (text ++ 0 :: pad) t fuel (gsub_init text.length)
            = .ok st1 →
          gsub_write_loop L re global (text ++ 0 :: pad) t fuel (gsub_init text.length)
            = .ok st2 →
          ∃ tail : List Nat,
            (if st2.offset < (text.length : Int) then
                (if st2.offset < 0 then .error .oob
                  else cstrAt (text ++ 0 :: pad) st2.offset.toNat)
              else pure []) = Except.ok tail
            ∧ ((st2.u ++ tail).length : Int) = st1.ns) := by
  refine ⟨?_, ?_⟩
  · intro regmatch nsubexpr hlen hspan
    have hget := regmatch_get_ok regmatch 0 (by omega)
    have hb := length_adj_loop_backref L hsb regmatch nsubexpr hlen (t.length + 1) t
      ((t.length : Int) - ((regmatch.get ⟨0, by omega⟩).2 - (regmatch.get ⟨0, by omega⟩).1))
      (by omega)
    have hla : length_adj L t regmatch nsubexpr
        = length_adj_loop L regmatch nsubexpr (t.length + 1) t
          ((t.length : Int)
            - ((regmatch.get ⟨0, by omega⟩).2 - (regmatch.get ⟨0, by omega⟩).1)) := by
      simp only [length_adj, hget, bind, Except.bind]
    refine ⟨⟨?_, ?_⟩, ?_⟩
    · intro he
      by_contra hc
      have hall : ∀ k ∈ repl_refs t, k ≤ nsubexpr := by
        intro k hk
        by_contra hk2
        exact hc ⟨k, hk, by omega⟩
      obtain ⟨v, hv⟩ := hb.1 hall
      rw [hla, hv] at he
      cases he
    · intro hex
      rw [hla]
      exact hb.2 hex
    · intro hrefs
      exact adj_agree L hsb text pad t regmatch nsubexpr hlen hspan hrefs
  · intro re global hre fuel st1 st2 h1 h2
    obtain ⟨h0, hn, hns⟩ := gsub_loops_agree L hsb re global text pad t hs hre fuel
      (gsub_init text.length) (gsub_init text.length) st1 st2 rfl rfl rfl
      (by simp [gsub_init]) (by simp [gsub_init]) (by simp [gsub_init])
      (by simp [gsub_init]) h1 h2
    by_cases hlt : st2.offset < (text.length : Int)
    · refine ⟨text.drop st2.offset.toNat, ?_, ?_⟩
      · rw [if_pos hlt, if_neg (by omega)]
        exact cstrAt_text text pad _ hs (by omega)
      · rw [hns, List.length_append, List.length_drop]
        push_cast
        omega
    · refine ⟨[], ?_, ?_⟩
      · rw [if_neg hlt]
        rfl
      · rw [hns, List.append_nil]
        omega

/-! ## Theorems: the regular expression loops advance and stop -/

theorem bind_ne_fuel {α β : Type} (x : Except Fault α) (f : α → Except Fault β)
    (hx : x ≠ .error .fuel) (hf : ∀ a, x = .ok a → f a ≠ .error .fuel) :
    (x >>= f) ≠ .error .fuel := by
  cases x with
  | error e =>
    intro h
    apply hx
    simp only [bind, Except.bind] at h
    cases h
    rfl
  | ok a => exact hf a rfl

theorem rd_ne_fuel (mem : List Nat) (p : Nat) : rd mem p ≠ .error .fuel := by
  unfold rd
  cases mem[p]? with
  | none => intro h; cases h
  | some b => intro h; cases h

theorem rdInt_ne_fuel (mem : List Nat) (i : Int) : rdInt mem i ≠ .error .fuel := by
  unfold rdInt
  split
  · intro h; cases h
  · exact rd_ne_fuel _ _

theorem readN_ne_fuel (mem : List Nat) : ∀ (k p : Nat), readN mem p k ≠ .error .fuel := by
  intro k
  induction k with
  | zero => intro p h; cases h
  | succ k ih =>
    intro p
    rw [readN]
    refine bind_ne_fuel _ _ (rd_ne_fuel _ _) (fun b _ => ?_)
    refine bind_ne_fuel _ _ (ih _) (fun r _ => ?_)
    intro h; cases h

theorem cstrAt_ne_fuel (mem : List Nat) (p : Nat) : cstrAt mem p ≠ .error .fuel := by
  unfold cstrAt
  split
  · intro h; cases h
  · intro h; cases h

theorem regmatch_get_ne_fuel (regmatch : List (Int × Int)) (k : Nat) :
    regmatch_get regmatch k ≠ .error .fuel := by
  unfold regmatch_get
  cases regmatch[k]? with
  | none => intro h; cases h
  | some b => intro h; cases h

theorem copy_span_ne_fuel (orig : List Nat) :
    ∀ (n : Nat) (i : Int), copy_span orig n i ≠ .error .fuel := by
  intro n
  induction n with
  | zero => intro i h; cases h
  | succ n ih =>
    intro i
    rw [copy_span]
    refine bind_ne_fuel _ _ (rdInt_ne_fuel _ _) (fun b _ => ?_)
    refine bind_ne_fuel _ _ (ih _) (fun r _ => ?_)
    intro h; cases h

theorem copy_gap_ne_fuel (s : List Nat) :
    ∀ (n : Nat) (j : Int), copy_gap s n j ≠ .error .fuel := by
  intro n
  induction n with
  | zero => intro i h; cases h
  | succ n ih =>
    intro i
    rw [copy_gap]
    refine bind_ne_fuel _ _ (rdInt_ne_fuel _ _) (fun b _ => ?_)
    refine bind_ne_fuel _ _ (ih _) (fun r _ => ?_)
    intro h; cases h

theorem match_in_chars_ne_fuel (count : List Nat → Int) (s : List Nat) (st mlen : Int) :
    match_in_chars count s st mlen ≠ .error .fuel := by
  have key : ∀ pos : Int,
      (if mlen < 0 ∨ st < 0 then (.error .oob : Except Fault (Int × Int))
        else (readN s st.toNat mlen.toNat >>= fun buf =>
          pure (pos, if count (mkChar (buf ++ [0])) < 0 then NA_INTEGER
            else count (mkChar (buf ++ [0]))))) ≠ .error .fuel := by
    intro pos
    split
    · intro h; cases h
    · refine bind_ne_fuel _ _ (readN_ne_fuel _ _ _) (fun b _ => ?_)
      intro h; cases h
  by_cases hst : st > 0
  · have e : match_in_chars count s st mlen
        = (readN s 0 st.toNat >>= fun buf =>
            (if mlen < 0 ∨ st < 0 then (.error .oob : Except Fault (Int × Int))
              else (readN s st.toNat mlen.toNat >>= fun buf1 =>
                pure ((if 1 + count (mkChar (buf ++ [0])) ≤ 0 then NA_INTEGER
                    else 1 + count (mkChar (buf ++ [0]))),
                  if count (mkChar (buf1 ++ [0])) < 0 then NA_INTEGER
                  else count (mkChar (buf1 ++ [0])))))) := by
      simp only [match_in_chars, hst, if_true]
      rfl
    rw [e]
    exact bind_ne_fuel _ _ (readN_ne_fuel _ _ _) (fun b _ => key _)
  · have e : match_in_chars count s st mlen
        = (if mlen < 0 ∨ st < 0 then (.error .oob : Except Fault (Int × Int))
              else (readN s st.toNat mlen.toNat >>= fun buf1 =>
                pure (st + 1,
                  if count (mkChar (buf1 ++ [0])) < 0 then NA_INTEGER
                  else count (mkChar (buf1 ++ [0]))))) := by
      simp only [match_in_chars, hst, if_false]
      rfl
    rw [e]
    exact key _

theorem clen_ne_fuel (L : Env) (p : List Nat) :
    (if L.mbcslocale then
        match L.mbrtowc p with
        | some u => (pure u : Except Fault Nat)
        | none => .error (.error .invalidMultibyte)
      else pure 0) ≠ .error .fuel := by
  split
  · cases L.mbrtowc p with
    | none => intro h; cases h
    | some u => intro h; cases h
  · intro h; cases h

theorem length_adj_loop_ne_fuel (L : Env) (regmatch : List (Int × Int)) (nsubexpr : Nat) :
    ∀ (fuel : Nat) (p : List Nat) (n : Int), p.length < fuel →
      length_adj_loop L regmatch nsubexpr fuel p n ≠ .error .fuel := by
  intro fuel
  induction fuel with
  | zero => intro p n h; omega
  | succ fuel ih =>
    intro p n
    cases p with
    | nil => intro _ h; cases h
    | cons c rest =>
      have key : ∀ clen : Nat, rest.length + 1 < fuel + 1 →
          (if (L.mbcslocale && decide (clen > 1)) = true then
              length_adj_loop L regmatch nsubexpr fuel (List.drop clen (c :: rest)) n
            else if c = 92 then
              (match rest with
              | [] => length_adj_loop L regmatch nsubexpr fuel [] (n - 1)
              | d :: rest1 =>
                if 49 ≤ d ∧ d ≤ 57 then
                  (if d - 48 > nsubexpr then .error (.error .invalidBackreference)
                  else (regmatch_get regmatch (d - 48) >>= fun m =>
                    length_adj_loop L regmatch nsubexpr fuel rest1 (n + (m.2 - m.1) - 2)))
                else length_adj_loop L regmatch nsubexpr fuel rest1 (n - 1))
            else length_adj_loop L regmatch nsubexpr fuel rest n) ≠ .error .fuel := by
        intro clen hp
        split
        · rename_i hc
          refine ih _ _ ?_
          have h1 : 1 < clen := by
            simp only [Bool.and_eq_true, decide_eq_true_eq] at hc
            exact hc.2
          simp only [List.length_drop, List.length_cons]
          omega
        · split
          · cases rest with
            | nil => exact ih _ _ (by simp; omega)
            | cons d rest1 =>
              simp only [List.length_cons] at hp
              simp only
              split
              · split
                · intro h; cases h
                · refine bind_ne_fuel _ _ (regmatch_get_ne_fuel _ _) (fun m _ => ?_)
                  exact ih _ _ (by omega)
              · exact ih _ _ (by omega)
          · exact ih _ _ (by omega)
      intro hp
      simp only [List.length_cons] at hp
      rw [length_adj_loop.eq_def]
      simp only
      by_cases hm : L.mbcslocale = true
      · rw [if_pos hm]
        cases hu : L.mbrtowc (c :: rest) with
        | none => simp only; intro h; cases h
        | some u => simp only; exact key u hp
      · rw [if_neg hm]
        exact key 0 hp

theorem string_adj_loop_ne_fuel (L : Env) (orig : List Nat) (regmatch : List (Int × Int)) :
    ∀ (fuel : Nat) (p : List Nat), p.length < fuel →
      string_adj_loop L orig regmatch fuel p ≠ .error .fuel := by
  intro fuel
  induction fuel with
  | zero => intro p h; omega
  | succ fuel ih =>
    intro p
    cases p with
    | nil => intro _ h; cases h
    | cons c rest =>
      have key : ∀ clen : Nat, rest.length + 1 < fuel + 1 →
          (if (L.mbcslocale && decide (clen > 1)) = true then
              (string_adj_loop L orig regmatch fuel ((c :: rest).drop clen) >>= fun r =>
                pure ((c :: rest).take clen ++ r))
            else if c = 92 then
              (match rest with
              | [] => string_adj_loop L orig regmatch fuel []
              | d :: rest1 =>
                if 49 ≤ d ∧ d ≤ 57 then
                  (regmatch_get regmatch (d - 48) >>= fun m =>
                    copy_span orig (m.2 - m.1).toNat m.1 >>= fun span =>
                    string_adj_loop L orig regmatch fuel rest1 >>= fun r =>
                    pure (span ++ r))
                else (string_adj_loop L orig regmatch fuel rest1 >>= fun r => pure (d :: r)))
            else (string_adj_loop L orig regmatch fuel rest >>= fun r => pure (c :: r)))
            ≠ .error .fuel := by
        intro clen hp
        split
        · rename_i hc
          have h1 : 1 < clen := by
            simp only [Bool.and_eq_true, decide_eq_true_eq] at hc
            exact hc.2
          refine bind_ne_fuel _ _ (ih _ ?_) (fun r _ => ?_)
          · simp only [List.length_drop, List.length_cons]
            omega
          · intro h; cases h
        · split
          · cases rest with
            | nil => exact ih _ (by simp at hp ⊢; omega)
            | cons d rest1 =>
              simp only [List.length_cons] at hp
              simp only
              split
              · refine bind_ne_fuel _ _ (regmatch_get_ne_fuel _ _) (fun m _ => ?_)
                refine bind_ne_fuel _ _ (copy_span_ne_fuel _ _ _) (fun sp _ => ?_)
                refine bind_ne_fuel _ _ (ih _ (by omega)) (fun r _ => ?_)
                intro h; cases h
              · refine bind_ne_fuel _ _ (ih _ (by omega)) (fun r _ => ?_)
                intro h; cases h
          · refine bind_ne_fuel _ _ (ih _ (by omega)) (fun r _ => ?_)
            intro h; cases h
      intro hp
      simp only [List.length_cons] at hp
      rw [string_adj_loop.eq_def]
      simp only
      by_cases hm : L.mbcslocale = true
      · rw [if_pos hm]
        cases hu : L.mbrtowc (c :: rest) with
        | none => simp only; intro h; cases h
        | some u => simp only; exact key u hp
      · rw [if_neg hm]
        exact key 0 hp

theorem length_adj_ne_fuel (L : Env) (repl : List Nat) (regmatch : List (Int × Int))
    (nsubexpr : Nat) : length_adj L repl regmatch nsubexpr ≠ .error .fuel := by
  unfold length_adj
  refine bind_ne_fuel _ _ (regmatch_get_ne_fuel _ _) (fun m _ => ?_)
  exact length_adj_loop_ne_fuel L regmatch nsubexpr _ _ _ (by omega)

theorem string_adj_ne_fuel (L : Env) (orig repl : List Nat) (regmatch : List (Int × Int)) :
    string_adj L orig repl regmatch ≠ .error .fuel :=
  string_adj_loop_ne_fuel L orig regmatch _ _ (by omega)

theorem gsub_size_step_ne_fuel (L : Env) (re : regex_t) (global : Bool) (s t : List Nat)
    (regmatch : List (Int × Int)) (st : GsubState) :
    gsub_size_step L re global s t regmatch st ≠ .error .fuel := by
  intro h
  simp only [gsub_size_step, regmatch_get, bind, Except.bind, pure, Except.pure] at h
  cases hm : regmatch[0]? with
  | none => rw [hm] at h; cases h
  | some m =>
    rw [hm] at h
    simp only at h
    by_cases hgt : m.2 > st.last_end
    · simp only [hgt, if_true] at h
      cases hadj : length_adj L t regmatch re.re_nsub with
      | error e =>
        rw [hadj] at h
        injection h with h
        subst h
        exact length_adj_ne_fuel _ _ _ _ hadj
      | ok adj =>
        rw [hadj] at h
        simp only at h
        cases hb : rdInt s m.2 with
        | error e =>
          rw [hb] at h
          injection h with h
          subst h
          exact rdInt_ne_fuel _ _ hb
        | ok v =>
          rw [hb] at h
          simp only at h
          split at h
          · cases h
          · cases h
    · simp only [hgt, if_false] at h
      cases hb : rdInt s m.2 with
      | error e =>
        rw [hb] at h
        injection h with h
        subst h
        exact rdInt_ne_fuel _ _ hb
      | ok v =>
        rw [hb] at h
        simp only at h
        split at h
        · cases h
        · cases h

theorem gsub_write_step_ne_fuel (L : Env) (global : Bool) (s t : List Nat)
    (regmatch : List (Int × Int)) (st : GsubState) :
    gsub_write_step L global s t regmatch st ≠ .error .fuel := by
  intro h
  simp only [gsub_write_step, regmatch_get, bind, Except.bind, pure, Except.pure] at h
  cases hm : regmatch[0]? with
  | none => rw [hm] at h; cases h
  | some m =>
    rw [hm] at h
    simp only at h
    cases hgap : copy_gap s (m.1 - st.offset).toNat st.offset with
    | error e =>
      rw [hgap] at h
      injection h with h
      subst h
      exact copy_gap_ne_fuel _ _ _ hgap
    | ok gap =>
      rw [hgap] at h
      simp only at h
      by_cases hgt : m.2 > st.last_end
      · simp only [hgt, if_true] at h
        cases hsub : string_adj L s t regmatch with
        | error e =>
          rw [hsub] at h
          injection h with h
          subst h
          exact string_adj_ne_fuel _ _ _ _ hsub
        | ok sub =>
          rw [hsub] at h
          simp only at h
          cases hb : rdInt s m.2 with
          | error e =>
            rw [hb] at h
            injection h with h
            subst h
            exact rdInt_ne_fuel _ _ hb
          | ok v =>
            rw [hb] at h
            simp only at h
            split at h
            · cases h
            · first
                | cases h
                | (split at h <;> cases h)
      · simp only [hgt, if_false] at h
        cases hb : rdInt s m.2 with
        | error e =>
          rw [hb] at h
          injection h with h
          subst h
          exact rdInt_ne_fuel _ _ hb
        | ok v =>
          rw [hb] at h
          simp only at h
          split at h
          · cases h
          · first
              | cases h
              | (split at h <;> cases h)

theorem gsub_size_step_more (L : Env) (re : regex_t) (global : Bool) (s t : List Nat)
    (regmatch : List (Int × Int)) (st st1 : GsubState)
    (h : gsub_size_step L re global s t regmatch st = .ok (st1, true)) :
    ∃ (m : Int × Int) (b : Nat), regmatch[0]? = some m ∧ rdInt s m.2 = .ok b ∧ b ≠ 0
      ∧ st1.offset = (if m.2 = m.1 then m.2 + 1 else m.2) := by
  simp only [gsub_size_step, regmatch_get, bind, Except.bind, pure, Except.pure] at h
  cases hm : regmatch[0]? with
  | none => rw [hm] at h; cases h
  | some m =>
    rw [hm] at h
    simp only at h
    by_cases hgt : m.2 > st.last_end
    · simp only [hgt, if_true] at h
      cases hadj : length_adj L t regmatch re.re_nsub with
      | error e => rw [hadj] at h; cases h
      | ok adj =>
        rw [hadj] at h
        simp only at h
        cases hb : rdInt s m.2 with
        | error e => rw [hb] at h; cases h
        | ok v =>
          rw [hb] at h
          simp only at h
          by_cases hstop : v = 0 ∨ (!global) = true
          · rw [if_pos hstop] at h
            injection h with h
            injection h with _ h2
            cases h2
          · rw [if_neg hstop] at h
            injection h with h
            injection h with h1 _
            subst h1
            exact ⟨m, v, rfl, hb, fun e => hstop (Or.inl e), rfl⟩
    · simp only [hgt, if_false] at h
      cases hb : rdInt s m.2 with
      | error e => rw [hb] at h; cases h
      | ok v =>
        rw [hb] at h
        simp only at h
        by_cases hstop : v = 0 ∨ (!global) = true
        · rw [if_pos hstop] at h
          injection h with h
          injection h with _ h2
          cases h2
        · rw [if_neg hstop] at h
          injection h with h
          injection h with h1 _
          subst h1
          exact ⟨m, v, rfl, hb, fun e => hstop (Or.inl e), rfl⟩

theorem gsub_write_step_more (L : Env) (global : Bool) (s t : List Nat)
    (regmatch : List (Int × Int)) (st st1 : GsubState)
    (h : gsub_write_step L global s t regmatch st = .ok (st1, true)) :
    ∃ (m : Int × Int) (b : Nat), regmatch[0]? = some m ∧ rdInt s m.2 = .ok b ∧ b ≠ 0
      ∧ st1.offset = (if m.2 = m.1 then m.2 + 1 else m.2) := by
  simp only [gsub_write_step, regmatch_get, bind, Except.bind, pure, Except.pure] at h
  cases hm : regmatch[0]? with
  | none => rw [hm] at h; cases h
  | some m =>
    rw [hm] at h
    simp only at h
    cases hgap : copy_gap s (m.1 - st.offset).toNat st.offset with
    | error e => rw [hgap] at h; cases h
    | ok gap =>
      rw [hgap] at h
      simp only at h
      by_cases hgt : m.2 > st.last_end
      · simp only [hgt, if_true] at h
        cases hsub : string_adj L s t regmatch with
        | error e => rw [hsub] at h; cases h
        | ok sub =>
          rw [hsub] at h
          simp only at h
          cases hb : rdInt s m.2 with
          | error e => rw [hb] at h; cases h
          | ok v =>
            rw [hb] at h
            simp only at h
            by_cases hstop : v = 0 ∨ (!global) = true
            · rw [if_pos hstop] at h
              injection h with h
              injection h with _ h2
              cases h2
            · rw [if_neg hstop] at h
              by_cases hemp : m.2 = m.1
              · rw [if_pos hemp] at h
                injection h with h
                injection h with h1 _
                subst h1
                exact ⟨m, v, rfl, hb, fun e => hstop (Or.inl e), by rw [if_pos hemp]⟩
              · rw [if_neg hemp] at h
                injection h with h
                injection h with h1 _
                subst h1
                exact ⟨m, v, rfl, hb, fun e => hstop (Or.inl e), by rw [if_neg hemp]⟩
      · simp only [hgt, if_false] at h
        cases hb : rdInt s m.2 with
        | error e => rw [hb] at h; cases h
        | ok v =>
          rw [hb] at h
          simp only at h
          by_cases hstop : v = 0 ∨ (!global) = true
          · rw [if_pos hstop] at h
            injection h with h
            injection h with _ h2
            cases h2
          · rw [if_neg hstop] at h
            by_cases hemp : m.2 = m.1
            · rw [if_pos hemp] at h
              injection h with h
              injection h with h1 _
              subst h1
              exact ⟨m, v, rfl, hb, fun e => hstop (Or.inl e), by rw [if_pos hemp]⟩
            · rw [if_neg hemp] at h
              injection h with h
              injection h with h1 _
              subst h1
              exact ⟨m, v, rfl, hb, fun e => hstop (Or.inl e), by rw [if_neg hemp]⟩

theorem rdInt_nonzero_lt (text pad : List Nat) (i : Int) (b : Nat)
    (h1 : i ≤ (text.length : Int)) (hb : rdInt (text ++ 0 :: pad) i = .ok b) (hne : b ≠ 0) :
    0 ≤ i ∧ i < (text.length : Int) := by
  by_cases hneg : i < 0
  · simp only [rdInt, hneg, if_true] at hb
    cases hb
  · refine ⟨by omega, ?_⟩
    by_contra hc
    have he : i.toNat = text.length := by omega
    simp only [rdInt, hneg, if_false, he, rd_terminator] at hb
    injection hb with hb
    exact hne hb.symm

theorem gsub_size_loop_ne_fuel (L : Env) (re : regex_t) (global : Bool)
    (text pad t : List Nat) (hs : 0 ∉ text)
    (hR : ∀ (eflags : Nat) (offset : Int) (regmatch : List (Int × Int)) (m : Int × Int),
      re.Rregexec text eflags offset = some regmatch → regmatch[0]? = some m →
      offset ≤ m.1 ∧ m.1 ≤ m.2 ∧ m.2 ≤ (text.length : Int)) :
    ∀ (fuel : Nat) (st : GsubState), st.offset ≤ (text.length : Int) →
      ((text.length : Int) - st.offset).toNat < fuel →
      gsub_size_loop L re global (text ++ 0 :: pad) t fuel st ≠ .error .fuel := by
  intro fuel
  induction fuel with
  | zero => intro st _ h; omega
  | succ fuel ih =>
    intro st hle hf
    rw [gsub_size_loop]
    rw [cstrAt_zero text pad hs]
    simp only [bind, Except.bind]
    cases hr : re.Rregexec text st.eflags st.offset with
    | none => simp only; intro h; cases h
    | some regmatch =>
      simp only
      cases hstep : gsub_size_step L re global (text ++ 0 :: pad) t regmatch st with
      | error e =>
        simp only
        intro h
        injection h with h
        subst h
        exact gsub_size_step_ne_fuel _ _ _ _ _ _ _ hstep
      | ok r =>
        obtain ⟨st1, more⟩ := r
        simp only
        cases more with
        | false => simp only [Bool.false_eq_true, if_false]; intro h; cases h
        | true =>
          simp only [if_true]
          obtain ⟨m, b, hm, hb, hne, hoff⟩ := gsub_size_step_more _ _ _ _ _ _ _ _ hstep
          obtain ⟨h1, h2, h3⟩ := hR _ _ _ _ hr hm
          obtain ⟨h4, h5⟩ := rdInt_nonzero_lt text pad m.2 b h3 hb hne
          refine ih st1 ?_ ?_
          · rw [hoff]; split <;> omega
          · rw [hoff]; split <;> omega

theorem gsub_write_loop_ne_fuel (L : Env) (re : regex_t) (global : Bool)
    (text pad t : List Nat) (hs : 0 ∉ text)
    (hR : ∀ (eflags : Nat) (offset : Int) (regmatch : List (Int × Int)) (m : Int × Int),
      re.Rregexec text eflags offset = some regmatch → regmatch[0]? = some m →
      offset ≤ m.1 ∧ m.1 ≤ m.2 ∧ m.2 ≤ (text.length : Int)) :
    ∀ (fuel : Nat) (st : GsubState), st.offset ≤ (text.length : Int) →
      ((text.length : Int) - st.offset).toNat < fuel →
      gsub_write_loop L re global (text ++ 0 :: pad) t fuel st ≠ .error .fuel := by
  intro fuel
  induction fuel with
  | zero => intro st _ h; omega
  | succ fuel ih =>
    intro st hle hf
    rw [gsub_write_loop]
    rw [cstrAt_zero text pad hs]
    simp only [bind, Except.bind]
    cases hr : re.Rregexec text st.eflags st.offset with
    | none => simp only; intro h; cases h
    | some regmatch =>
      simp only
      cases hstep : gsub_write_step L global (text ++ 0 :: pad) t regmatch st with
      | error e =>
        simp only
        intro h
        injection h with h
        subst h
        exact gsub_write_step_ne_fuel _ _ _ _ _ _ hstep
      | ok r =>
        obtain ⟨st1, more⟩ := r
        simp only
        cases more with
        | false => simp only [Bool.false_eq_true, if_false]; intro h; cases h
        | true =>
          simp only [if_true]
          obtain ⟨m, b, hm, hb, hne, hoff⟩ := gsub_write_step_more _ _ _ _ _ _ _ hstep
          obtain ⟨h1, h2, h3⟩ := hR _ _ _ _ hr hm
          obtain ⟨h4, h5⟩ := rdInt_nonzero_lt text pad m.2 b h3 hb hne
          refine ih st1 ?_ ?_
          · rw [hoff]; split <;> omega
          · rw [hoff]; split <;> omega

theorem gregexpr_Regexc_loop_ne_fuel (L : Env) (re : regex_t) (useBytes : Bool)
    (text pad : List Nat) (hs : 0 ∉ text)
    (hR : ∀ (eflags : Nat) (offset : Int) (regmatch : List (Int × Int)) (m : Int × Int),
      re.Rregexec text eflags offset = some regmatch → regmatch[0]? = some m →
      offset ≤ m.1 ∧ m.1 ≤ m.2) :
    ∀ (fuel : Nat) (offset : Int) (foundAny : Bool),
      ((text.length : Int) - offset).toNat < fuel →
      gregexpr_Regexc_loop L re (text ++ 0 :: pad) useBytes text.length fuel offset foundAny
        ≠ .error .fuel := by
  intro fuel
  induction fuel with
  | zero => intro _ _ h; omega
  | succ fuel ih =>
    intro offset foundAny hf
    rw [gregexpr_Regexc_loop]
    rw [cstrAt_zero text pad hs]
    simp only [bind, Except.bind]
    by_cases hlt : offset < (text.length : Int)
    · rw [if_pos hlt]
      cases hr : re.Rregexec text 0 offset with
      | none => simp only; intro h; cases h
      | some regmatch =>
        simp only
        cases hm : regmatch[0]? with
        | none => simp only [regmatch_get, hm]; intro h; cases h
        | some m =>
          simp only [regmatch_get, hm]
          obtain ⟨h1, h2⟩ := hR _ _ _ _ hr hm
          have hnext : ((text.length : Int)
              - (if m.2 - m.1 = 0 then m.1 + 1 else m.2)).toNat < fuel := by
            split <;> omega
          have hrest := ih (if m.2 - m.1 = 0 then m.1 + 1 else m.2) true hnext
          split
          · cases hc : match_in_chars (mbstowcs_int L) (text ++ 0 :: pad) m.1 (m.2 - m.1) with
            | error e =>
              simp only
              intro h
              injection h with h
              subst h
              exact match_in_chars_ne_fuel _ _ _ _ hc
            | ok c =>
              simp only
              split
              · intro h; cases h
              · exact bind_ne_fuel _ _ hrest (fun r _ => fun h => by cases h)
          · exact bind_ne_fuel _ _ hrest (fun r _ => fun h => by cases h)
    · rw [if_neg hlt]
      simp only
      intro h
      cases h

theorem regex_count_ne_fuel (re : regex_t) (text pad : List Nat) (hs : 0 ∉ text)
    (hr : ∀ (k : Nat) (m : Int × Int), re.regexec (text.drop k) = some m →
      m.2 ≤ ((text.drop k).length : Int)) :
    ∀ (fuel bufp ntok : Nat), bufp < text.length → text.length - bufp ≤ fuel →
      regex_count re (text ++ 0 :: pad) fuel bufp ntok ≠ .error .fuel := by
  intro fuel
  induction fuel with
  | zero => intro _ _ h1 h2; omega
  | succ fuel ih =>
    intro bufp ntok hlt hf
    rw [regex_count]
    rw [cstrAt_text text pad bufp hs (by omega)]
    simp only [bind, Except.bind]
    cases hm : re.regexec (text.drop bufp) with
    | none => simp only; intro h; cases h
    | some m =>
      obtain ⟨so, eo⟩ := m
      simp only
      have heo := hr bufp _ hm
      simp only [List.length_drop] at heo
      have hle : bufp + (max eo 1).toNat ≤ text.length := by
        rcases le_total eo 1 with h | h
        · rw [max_eq_right h]; simp; omega
        · rw [max_eq_left h]; omega
      have hgt : bufp < bufp + (max eo 1).toNat := by
        rcases le_total eo 1 with h | h
        · rw [max_eq_right h]; simp
        · rw [max_eq_left h]; omega
      cases hb : rd (text ++ 0 :: pad) (bufp + (max eo 1).toNat) with
      | error e =>
        simp only
        intro h
        injection h with h
        subst h
        exact rd_ne_fuel _ _ hb
      | ok b =>
        simp only
        split
        · intro h; cases h
        · rename_i hb0
          refine ih _ _ ?_ (by omega)
          by_contra hc
          have he : bufp + (max eo 1).toNat = text.length := by omega
          rw [he, rd_terminator] at hb
          injection hb with hb
          exact hb0 hb.symm

theorem regex_fill_ne_fuel (re : regex_t) (buf : List Nat) :
    ∀ (ntok bufp : Nat), regex_fill re buf ntok bufp ≠ .error .fuel := by
  intro ntok
  induction ntok with
  | zero => intro bufp h; cases h
  | succ ntok ih =>
    intro bufp h
    simp only [regex_fill, bind, Except.bind, pure, Except.pure] at h
    cases hc : cstrAt buf bufp with
    | error e =>
      rw [hc] at h
      injection h with h
      subst h
      exact cstrAt_ne_fuel _ _ hc
    | ok text =>
      rw [hc] at h
      simp only at h
      cases hm : re.regexec text with
      | none => rw [hm] at h; cases h
      | some m =>
        obtain ⟨so, eo⟩ := m
        rw [hm] at h
        simp only at h
        split at h
        · split at h
          · cases h
          · cases hf : regex_fill re buf ntok (bufp + eo.toNat) with
            | error e =>
              rw [hf] at h
              injection h with h
              subst h
              exact ih _ hf
            | ok r => rw [hf] at h; cases h
        · cases hb : rd buf bufp with
          | error e =>
            rw [hb] at h
            injection h with h
            subst h
            exact rd_ne_fuel _ _ hb
          | ok b =>
            rw [hb] at h
            simp only at h
            cases hf : regex_fill re buf ntok (bufp + 1) with
            | error e =>
              rw [hf] at h
              injection h with h
              subst h
              exact ih _ hf
            | ok r => rw [hf] at h; cases h

theorem strsplit_trailing_ne_fuel (buf : List Nat) (alloc : Bool) (bufp : Nat) :
    strsplit_trailing buf alloc bufp ≠ .error .fuel := by
  intro h
  simp only [strsplit_trailing, bind, Except.bind, pure, Except.pure] at h
  cases hb : rd buf bufp with
  | error e =>
    rw [hb] at h
    injection h with h
    subst h
    exact rd_ne_fuel _ _ hb
  | ok b =>
    rw [hb] at h
    simp only at h
    split at h
    · split at h
      · cases hc : cstrAt buf bufp with
        | error e =>
          rw [hc] at h
          injection h with h
          subst h
          exact cstrAt_ne_fuel _ _ hc
        | ok r => rw [hc] at h; cases h
      · cases h
    · split at h <;> cases h

theorem strsplit_regex_ne_fuel (re : regex_t) (text pad : List Nat) (hs : 0 ∉ text)
    (hr : ∀ (k : Nat) (m : Int × Int), re.regexec (text.drop k) = some m →
      m.2 ≤ ((text.drop k).length : Int)) :
    strsplit_regex re (text ++ 0 :: pad) ≠ .error .fuel := by
  intro h
  simp only [strsplit_regex, bind, Except.bind, pure, Except.pure] at h
  have tail : ∀ (ntok : Nat) (alloc : Bool),
      ((regex_fill re (text ++ 0 :: pad) ntok 0).bind (fun v_1 =>
        (strsplit_trailing (text ++ 0 :: pad) alloc v_1.2).bind (fun v_2 =>
          (Except.ok (v_1.1, v_2) : Except Fault (List (List Nat) × Option (List Nat))))))
        ≠ .error .fuel := by
    intro ntok alloc h
    cases h2 : regex_fill re (text ++ 0 :: pad) ntok 0 with
    | error e =>
      rw [h2] at h
      simp only [Except.bind] at h
      injection h with h
      subst h
      exact regex_fill_ne_fuel _ _ _ _ h2
    | ok v1 =>
      rw [h2] at h
      simp only [Except.bind] at h
      cases h3 : strsplit_trailing (text ++ 0 :: pad) alloc v1.2 with
      | error e =>
        rw [h3] at h
        injection h with h
        subst h
        exact strsplit_trailing_ne_fuel _ _ _ h3
      | ok v2 => rw [h3] at h; cases h
  cases hb : rd (text ++ 0 :: pad) 0 with
  | error e =>
    rw [hb] at h
    injection h with h
    subst h
    exact rd_ne_fuel _ _ hb
  | ok b =>
    by_cases hb0 : b ≠ 0
    · simp only [hb] at h
      rw [if_pos hb0] at h
      have hne : text ≠ [] := by
        intro e
        subst e
        simp [rd] at hb
        exact hb0 hb.symm
      have hpos : 0 < text.length := List.length_pos.mpr hne
      cases hcnt : regex_count re (text ++ 0 :: pad) ((text ++ 0 :: pad).length + 1) 0 0 with
      | error e =>
        rw [hcnt] at h
        injection h with h
        subst h
        exact regex_count_ne_fuel re text pad hs hr _ 0 0 hpos
          (by simp only [List.length_append, List.length_cons]; omega) hcnt
      | ok r =>
        rw [hcnt] at h
        simp only at h
        cases h1 : rd (text ++ 0 :: pad) r.1 with
        | error e =>
          rw [h1] at h
          injection h with h
          subst h
          exact rd_ne_fuel _ _ h1
        | ok v =>
          rw [h1] at h
          exact tail _ _ h
    · have hb1 : b = 0 := by
        by_contra hc
        exact hb0 hc
      subst hb1
      simp only [hb] at h
      rw [if_neg hb0] at h
      exact tail 0 (decide (0 ≠ 0)) h

theorem aStar_Rregexec_spans (s : List Nat) (eflags : Nat) (offset : Int)
    (regmatch : List (Int × Int)) (h : aStar.Rregexec s eflags offset = some regmatch) :
    10 ≤ regmatch.length
      ∧ (∀ (k : Nat) (m : Int × Int), regmatch[k]? = some m → span_ok s.length m)
      ∧ (∀ m : Int × Int, regmatch[0]? = some m →
          offset ≤ m.1 ∧ m.1 ≤ m.2 ∧ m.2 ≤ (s.length : Int)) := by
  simp only [aStar] at h
  split at h
  · rename_i hoff
    injection h with h
    subst h
    have hw : (((s.drop offset.toNat).takeWhile (fun b => b = 97)).length : Int)
        ≤ (s.length : Int) - offset := by
      have h1 : ((s.drop offset.toNat).takeWhile (fun b => decide (b = 97))).length
          ≤ (s.drop offset.toNat).length := (List.takeWhile_sublist _).length_le
      rw [List.length_drop] at h1
      omega
    refine ⟨by simp, ?_, ?_⟩
    · intro k m hk
      cases k with
      | zero =>
        simp only [List.getElem?_cons_zero, Option.some.injEq] at hk
        subst hk
        exact ⟨by simp, fun _ => ⟨hoff.1, by simp only; omega⟩⟩
      | succ k =>
        simp only [List.getElem?_cons_succ, List.getElem?_replicate] at hk
        split at hk
        · injection hk with hk
          subst hk
          exact ⟨le_refl _, fun h => absurd h (lt_irrefl _)⟩
        · cases hk
    · intro m hm
      simp only [List.getElem?_cons_zero, Option.some.injEq] at hm
      subst hm
      exact ⟨le_refl _, by simp, by simp only; omega⟩
  · cases h

theorem aStar_regexec_end (s : List Nat) (m : Int × Int) (h : aStar.regexec s = some m) :
    m.2 ≤ (s.length : Int) := by
  have h1 : (s.takeWhile (fun b => decide (b = 97))).length ≤ s.length :=
    (List.takeWhile_sublist _).length_le
  simp only [aStar, Option.some.injEq] at h
  rw [← h]
  simp only
  omega

theorem replacement_passes_agree_witness :
    sbcsLocale.mbcslocale = false ∧ (0 ∉ [98, 97, 97, 99])
      ∧ gsub_size_loop sbcsLocale aStar true ([98, 97, 97, 99] ++ 0 :: []) [120, 92, 48] 5
          (gsub_init 4)
        = .ok { offset := 4, last_end := 4, eflags := 1, nmatch := 4, ns := 8, u := [] }
      ∧ gsub_write_loop sbcsLocale aStar true ([98, 97, 97, 99] ++ 0 :: []) [120, 92, 48] 5
          (gsub_init 4)
        = .ok { offset := 4, last_end := 4, eflags := 1, nmatch := 0, ns := 4,
                u := [120, 48, 98, 120, 48, 99, 120, 48] }
      ∧ (∃ tail : List Nat,
          (if (4 : Int) < (([98, 97, 97, 99] : List Nat).length : Int) then
              (if (4 : Int) < 0 then .error .oob
                else cstrAt ([98, 97, 97, 99] ++ 0 :: []) (4 : Int).toNat)
            else pure []) = Except.ok tail
          ∧ ((([120, 48, 98, 120, 48, 99, 120, 48] : List Nat) ++ tail).length : Int) = 8)
      ∧ (length_adj sbcsLocale [120, 92, 49] ((0, 0) :: List.replicate 9 (-1, -1)) 0
          = .error (.error .invalidBackreference) ↔ ∃ k ∈ repl_refs [120, 92, 49], 0 < k) :=
  ⟨rfl, by decide, rfl, rfl,
    ((replacement_passes_agree sbcsLocale rfl [98, 97, 97, 99] [] [120, 92, 48]
      (by decide)).2 aStar true (fun e o r h => aStar_Rregexec_spans _ e o r h |> fun h3 =>
        ⟨h3.1, h3.2.1, fun m hm => ⟨(h3.2.2 m hm).1, (h3.2.2 m hm).2.2⟩⟩) 5 _ _ rfl rfl),
    ((replacement_passes_agree sbcsLocale rfl [] [] [120, 92, 49] (by decide)).1
      ((0, 0) :: List.replicate 9 (-1, -1)) 0 (by decide)
      (fun k m hk => (aStar_Rregexec_spans [] 0 0 _ rfl).2.1 k m hk)).1⟩

/-- C33: with a matcher whose matches start at or after the offset, end at or after their
start and lie in the text, an iteration of either regular expression loop of `do_gsub` that
goes on leaves an offset strictly beyond the one it was entered with, and `length(s) + 1`
iterations are enough for both loops of `do_gsub`, for the loop of `gregexpr_Regexc` and for
the counting loop of `do_strsplit`: none of them uses up the iterations granted. -/
theorem regex_loops_advance (L : Env) (re : regex_t) (global useBytes : Bool)
    (text pad t : List Nat) (hs : 0 ∉ text)
    (hR : ∀ (eflags : Nat) (offset : Int) (regmatch : List (Int × Int)) (m : Int × Int),
      re.Rregexec text eflags offset = some regmatch → regmatch[0]? = some m →
      offset ≤ m.1 ∧ m.1 ≤ m.2 ∧ m.2 ≤ (text.length : Int))
    (hr : ∀ (k : Nat) (m : Int × Int), re.regexec (text.drop k) = some m →
      m.2 ≤ ((text.drop k).length : Int)) :
    (∀ (s : List Nat) (regmatch : List (Int × Int)) (st st1 : GsubState),
        (∀ m : Int × Int, regmatch[0]? = some m → st.offset ≤ m.1 ∧ m.1 ≤ m.2) →
        gsub_size_step L re global s t regmatch st = .ok (st1, true) →
        st.offset < st1.offset)
      ∧ (∀ (s : List Nat) (regmatch : List (Int × Int)) (st st1 : GsubState),
        (∀ m : Int × Int, regmatch[0]? = some m → st.offset ≤ m.1 ∧ m.1 ≤ m.2) →
        gsub_write_step L global s t regmatch st = .ok (st1, true) →
        st.offset < st1.offset)
      ∧ (∀ fuel : Nat, text.length + 1 ≤ fuel →
        gsub_size_loop L re global (text ++ 0 :: pad) t fuel (gsub_init text.length)
          ≠ .error .fuel)
      ∧ (∀ fuel : Nat, text.length + 1 ≤ fuel →
        gsub_write_loop L re global (text ++ 0 :: pad) t fuel (gsub_init text.length)
          ≠ .error .fuel)
      ∧ (∀ fuel : Nat, text.length + 1 ≤ fuel →
        gregexpr_Regexc_loop L re (text ++ 0 :: pad) useBytes text.length fuel 0 false
          ≠ .error .fuel)
      ∧ (text ≠ [] → ∀ fuel : Nat, text.length + 1 ≤ fuel → ∀ ntok : Nat,
        regex_count re (text ++ 0 :: pad) fuel 0 ntok ≠ .error .fuel)
      ∧ strsplit_regex re (text ++ 0 :: pad) ≠ .error .fuel := by
  refine ⟨?_, ?_, ?_, ?_, ?_, ?_, ?_⟩
  · intro s regmatch st st1 hm h
    obtain ⟨m, b, hm0, _, _, hoff⟩ := gsub_size_step_more _ _ _ _ _ _ _ _ h
    obtain ⟨h1, h2⟩ := hm m hm0
    rw [hoff]
    split <;> omega
  · intro s regmatch st st1 hm h
    obtain ⟨m, b, hm0, _, _, hoff⟩ := gsub_write_step_more _ _ _ _ _ _ _ h
    obtain ⟨h1, h2⟩ := hm m hm0
    rw [hoff]
    split <;> omega
  · intro fuel hf
    refine gsub_size_loop_ne_fuel L re global text pad t hs hR fuel _ ?_ ?_
    · simp [gsub_init]
    · simp only [gsub_init]
      omega
  · intro fuel hf
    refine gsub_write_loop_ne_fuel L re global text pad t hs hR fuel _ ?_ ?_
    · simp [gsub_init]
    · simp only [gsub_init]
      omega
  · intro fuel hf
    refine gregexpr_Regexc_loop_ne_fuel L re useBytes text pad hs
      (fun e o r m h1 h2 => ⟨(hR e o r m h1 h2).1, (hR e o r m h1 h2).2.1⟩) fuel 0 false ?_
    omega
  · intro hne fuel hf ntok
    have hpos : 0 < text.length := List.length_pos.mpr hne
    exact regex_count_ne_fuel re text pad hs hr fuel 0 ntok hpos (by omega)
  · exact strsplit_regex_ne_fuel re text pad hs hr

theorem regex_loops_advance_witness :
    (0 ∉ [98, 98, 98, 98])
      ∧ gsub_write_loop sbcsLocale aStar true ([98, 98, 98, 98] ++ 0 :: []) [120] 5
          (gsub_init 4) ≠ .error .fuel
      ∧ gsub_write_loop sbcsLocale aStar true ([98, 98, 98, 98] ++ 0 :: []) [120] 5
          (gsub_init 4)
        = .ok { offset := 4, last_end := 4, eflags := 1, nmatch := 0, ns := 4,
                u := [120, 98, 120, 98, 120, 98, 120, 98, 120] }
      ∧ gsub_write_loop sbcsLocale aStar true ([98, 98, 98, 98] ++ 0 :: []) [120] 4
          (gsub_init 4) = .error .fuel
      ∧ gregexpr_Regexc_loop sbcsLocale aStar ([98, 98, 98, 98] ++ 0 :: []) false 4 5 0 false
          = .ok [(1, 0), (2, 0), (3, 0), (4, 0)]
      ∧ strsplit_regex aStar ([98, 98, 98, 98] ++ 0 :: []) ≠ .error .fuel :=
  ⟨by decide,
    (regex_loops_advance sbcsLocale aStar true false [98, 98, 98, 98] [] [120] (by decide)
      (fun e o r m h hm => (aStar_Rregexec_spans _ e o r h).2.2 m hm)
      (fun _ m h => aStar_regexec_end _ m h)).2.2.2.1 5 (le_refl _),
    rfl, rfl, rfl,
    (regex_loops_advance sbcsLocale aStar true false [98, 98, 98, 98] [] [120] (by decide)
      (fun e o r m h hm => (aStar_Rregexec_spans _ e o r h).2.2 m hm)
      (fun _ m h => aStar_regexec_end _ m h)).2.2.2.2.2.2⟩

/-! ## Theorems: the choice of the encoding in `grep`, `regexpr` and `gsub` -/

theorem do_gsub_elt_bytes (L : Env) (re : regex_t) (global fixed_opt u u1 : Bool)
    (pat rep : RString) (spat srep : List Nat) (vec_i : RString) (pad : List Nat) (fuel : Nat) :
    do_gsub_elt L re global fixed_opt true u pat rep spat srep vec_i pad fuel
      = do_gsub_elt L re global fixed_opt true u1 pat rep spat srep vec_i pad fuel := by
  simp only [do_gsub_elt, gsub_text, if_true]

theorem do_gsub_loop_bytes (L : Env) (re : regex_t) (global fixed_opt u u1 : Bool)
    (pat rep : RString) (spat srep : List Nat) (pads : Nat → List Nat) (fuel : Nat) :
    ∀ (vec : List RString) (i : Nat),
      do_gsub_loop L re global fixed_opt true u pat rep spat srep pads fuel vec i
        = do_gsub_loop L re global fixed_opt true u1 pat rep spat srep pads fuel vec i := by
  intro vec
  induction vec with
  | nil => intro i; rfl
  | cons e rest ih =>
    intro i
    simp only [do_gsub_loop]
    rw [do_gsub_elt_bytes L re global fixed_opt u u1, ih]

theorem gsub_with_encoding_bytes (L : Env) (R : RegexLib) (global : Bool) (pat rep : RString)
    (vec : List RString) (pads : Nat → List Nat) (igcase_opt extended_opt fixed_opt u u1 : Bool)
    (fuel : Nat) :
    gsub_with_encoding L R global pat rep vec pads igcase_opt extended_opt fixed_opt true u fuel
      = gsub_with_encoding L R global pat rep vec pads igcase_opt extended_opt fixed_opt true u1
          fuel := by
  simp only [gsub_with_encoding, gsub_text, if_true]
  split
  · rfl
  · split
    · rfl
    · split
      · rfl
      · split
        · rfl
        · exact do_gsub_loop_bytes _ _ _ _ _ _ _ _ _ _ _ _ _ _

theorem any_utf8_iff (vec : List RString) :
    vec.any (fun e => decide (getCharCE e = .CE_UTF8)) = true
      ↔ ∃ e ∈ vec, getCharCE e = .CE_UTF8 := by
  simp [List.any_eq_true]

/-- C32: for a pattern that is not `NA`, `do_grep` and `do_regexpr` work on bytes exactly when
`useBytes` is requested with the fixed or the Perl matcher, and otherwise in UTF-8 exactly when
the matcher is fixed or Perl and the pattern or some element is tagged UTF-8; `do_gsub` hands
the Perl matcher to `do_pgsub` with `useBytes` as requested, and otherwise works on bytes
exactly when `useBytes` is requested with the fixed matcher, and else in UTF-8 exactly when the
matcher is fixed and the pattern, the replacement or some element is tagged UTF-8.  With the
POSIX matcher the inputs are always translated to the native encoding. -/
theorem encoding_plan_by_matcher (L : Env) (R : RegexLib)
    (do_pgsub : RString → RString → List RString → Bool → Bool → Bool →
      Except Fault (List RString))
    (pat rep : RString) (vec : List RString) (pads : Nat → List Nat)
    (grepl global igcase_opt extended_opt value_opt perl_opt fixed_opt useBytes0 invert : Bool)
    (fuel : Nat) (useBytes use_UTF8 gsubBytes gsubUTF8 : Bool)
    (hpat : pat ≠ .NA_STRING)
    (hb : useBytes = true ↔ (fixed_opt = true ∨ perl_opt = true) ∧ useBytes0 = true)
    (hu : use_UTF8 = true ↔ (fixed_opt = true ∨ perl_opt = true) ∧ useBytes0 = false
      ∧ (getCharCE pat = .CE_UTF8 ∨ ∃ e ∈ vec, getCharCE e = .CE_UTF8))
    (hgb : gsubBytes = true ↔ fixed_opt = true ∧ useBytes0 = true)
    (hgu : gsubUTF8 = true ↔ fixed_opt = true ∧ useBytes0 = false
      ∧ (getCharCE pat = .CE_UTF8 ∨ getCharCE rep = .CE_UTF8
        ∨ ∃ e ∈ vec, getCharCE e = .CE_UTF8)) :
    do_grep L R grepl pat vec pads igcase_opt extended_opt value_opt perl_opt fixed_opt
        useBytes0 invert
      = grep_with_encoding L R grepl pat vec pads igcase_opt extended_opt value_opt perl_opt
          fixed_opt invert useBytes use_UTF8
    ∧ do_regexpr L R pat vec pads igcase_opt extended_opt perl_opt fixed_opt useBytes0
      = regexpr_with_encoding L R pat vec pads igcase_opt extended_opt perl_opt fixed_opt
          useBytes use_UTF8
    ∧ (perl_opt = true ∧ fixed_opt = false →
        do_gsub L R do_pgsub global pat rep vec pads igcase_opt extended_opt perl_opt fixed_opt
            useBytes0 fuel
          = do_pgsub pat rep vec global igcase_opt useBytes0)
    ∧ (¬ (perl_opt = true ∧ fixed_opt = false) →
        do_gsub L R do_pgsub global pat rep vec pads igcase_opt extended_opt perl_opt fixed_opt
            useBytes0 fuel
          = gsub_with_encoding L R global pat rep vec pads igcase_opt extended_opt fixed_opt
              gsubBytes gsubUTF8 fuel) := by
  have hany := any_utf8_iff vec
  have e1 : useBytes = ((fixed_opt || perl_opt) && useBytes0) := by
    rw [Bool.eq_iff_iff, hb]
    simp only [Bool.and_eq_true, Bool.or_eq_true]
  have e2 : use_UTF8 = ((fixed_opt || perl_opt) && !useBytes0
      && (decide (getCharCE pat = .CE_UTF8)
        || vec.any (fun e => decide (getCharCE e = .CE_UTF8)))) := by
    rw [Bool.eq_iff_iff, hu]
    simp only [Bool.and_eq_true, Bool.or_eq_true, Bool.not_eq_true', decide_eq_true_eq, hany,
      and_assoc, or_assoc]
  have e3 : gsubBytes = (fixed_opt && useBytes0) := by
    rw [Bool.eq_iff_iff, hgb]
    simp only [Bool.and_eq_true]
  have e4 : gsubUTF8 = (fixed_opt && !useBytes0
      && (decide (getCharCE pat = .CE_UTF8) || decide (getCharCE rep = .CE_UTF8)
        || vec.any (fun e => decide (getCharCE e = .CE_UTF8)))) := by
    rw [Bool.eq_iff_iff, hgu]
    simp only [Bool.and_eq_true, Bool.or_eq_true, Bool.not_eq_true', decide_eq_true_eq, hany,
      and_assoc, or_assoc]
  subst e1 e2 e3 e4
  refine ⟨?_, ?_, ?_, ?_⟩
  · simp only [do_grep, grep_with_encoding, if_neg hpat]
    cases fixed_opt <;> cases perl_opt <;> cases useBytes0 <;> rfl
  · simp only [do_regexpr, regexpr_with_encoding, if_neg hpat]
    cases fixed_opt <;> cases perl_opt <;> cases useBytes0 <;> rfl
  · rintro ⟨hp, hf⟩
    subst hp hf
    simp only [do_gsub, if_neg hpat]
    cases useBytes0 <;> rfl
  · intro hnp
    simp only [do_gsub, if_neg hpat]
    cases fixed_opt
    · cases perl_opt
      · cases useBytes0 <;> rfl
      · exact absurd ⟨rfl, rfl⟩ hnp
    · cases perl_opt <;> cases useBytes0
      · rfl
      · refine Eq.trans ?_ (gsub_with_encoding_bytes L R global pat rep vec pads igcase_opt
          extended_opt true
          (true && (decide (getCharCE pat = .CE_UTF8) || decide (getCharCE rep = .CE_UTF8)
            || vec.any (fun e => decide (getCharCE e = .CE_UTF8)))) _ fuel)
        rfl
      · rfl
      · refine Eq.trans ?_ (gsub_with_encoding_bytes L R global pat rep vec pads igcase_opt
          extended_opt true
          (true && (decide (getCharCE pat = .CE_UTF8) || decide (getCharCE rep = .CE_UTF8)
            || vec.any (fun e => decide (getCharCE e = .CE_UTF8)))) _ fuel)
        rfl

theorem encoding_plan_by_matcher_witness :
    (RString.chr [0xC3, 0xA9] .CE_UTF8 ≠ .NA_STRING)
      ∧ do_grep latin1Locale byteLib true (.chr [0xC3, 0xA9] .CE_UTF8)
          [.chr [0x61, 0xE9] .CE_NATIVE] (fun _ => []) false true false false true false false
        = grep_with_encoding latin1Locale byteLib true (.chr [0xC3, 0xA9] .CE_UTF8)
            [.chr [0x61, 0xE9] .CE_NATIVE] (fun _ => []) false true false false true false
            false true
      ∧ grep_with_encoding latin1Locale byteLib true (.chr [0xC3, 0xA9] .CE_UTF8)
            [.chr [0x61, 0xE9] .CE_NATIVE] (fun _ => []) false true false false true false
            false true
        = .ok (.logical [true])
      ∧ do_gsub latin1Locale byteLib no_pgsub false (.chr [0xC3, 0xA9] .CE_UTF8)
          (.chr [0x78] .CE_NATIVE) [.chr [0x61, 0xE9] .CE_NATIVE] (fun _ => [])
          false true false true false 10
        = .ok [.chr [0x61, 0x78] .CE_NATIVE] :=
  ⟨(fun h => by cases h),
    (encoding_plan_by_matcher latin1Locale byteLib no_pgsub (.chr [0xC3, 0xA9] .CE_UTF8)
      (.chr [0x78] .CE_NATIVE) [.chr [0x61, 0xE9] .CE_NATIVE] (fun _ => [])
      true false false true false false true false false 10 false true false true
      (fun h => by cases h) (by decide) (by decide) (by decide) (by decide)).1,
    rfl, rfl⟩

/-- C32 (counterexample): with the POSIX matcher a pattern tagged UTF-8 is translated to the
native encoding and `useBytes` is ignored, in `grep`, `regexpr` and `gsub`; and with the fixed
matcher a replacement tagged UTF-8 alone makes `gsub` work in UTF-8. -/
theorem posix_matcher_keeps_native_encoding :
    do_grep latin1Locale byteLib true (.chr [0xC3, 0xA9] .CE_UTF8)
        [.chr [0x61, 0xE9] .CE_NATIVE] (fun _ => []) false true false false false false false
      = .ok (.logical [true])
    ∧ grep_with_encoding latin1Locale byteLib true (.chr [0xC3, 0xA9] .CE_UTF8)
        [.chr [0x61, 0xE9] .CE_NATIVE] (fun _ => []) false true false false false false
        false true
      = .error (.error .invalidRegex)
    ∧ do_grep latin1Locale byteLib true (.chr [0xC3, 0xA9] .CE_UTF8)
        [.chr [0x61, 0xE9] .CE_NATIVE] (fun _ => []) false true false false false true false
      = .ok (.logical [true])
    ∧ grep_with_encoding latin1Locale byteLib true (.chr [0xC3, 0xA9] .CE_UTF8)
        [.chr [0x61, 0xE9] .CE_NATIVE] (fun _ => []) false true false false false false
        true false
      = .error (.error .invalidRegex)
    ∧ do_regexpr latin1Locale byteLib (.chr [0xC3, 0xA9] .CE_UTF8)
        [.chr [0x61, 0xE9] .CE_NATIVE] (fun _ => []) false true false false false
      = .ok [(2, 1)]
    ∧ regexpr_with_encoding latin1Locale byteLib (.chr [0xC3, 0xA9] .CE_UTF8)
        [.chr [0x61, 0xE9] .CE_NATIVE] (fun _ => []) false true false false false true
      = .error (.error .invalidRegex)
    ∧ do_gsub latin1Locale byteLib no_pgsub false (.chr [0xC3, 0xA9] .CE_UTF8)
        (.chr [0x78] .CE_NATIVE) [.chr [0x61, 0xE9] .CE_NATIVE] (fun _ => [])
        false true false false false 10
      = .ok [.chr [0x61, 0x78] .CE_NATIVE]
    ∧ gsub_with_encoding latin1Locale byteLib false (.chr [0xC3, 0xA9] .CE_UTF8)
        (.chr [0x78] .CE_NATIVE) [.chr [0x61, 0xE9] .CE_NATIVE] (fun _ => [])
        false true false false true 10
      = .error (.error .invalidRegex)
    ∧ do_gsub latin1Locale byteLib no_pgsub false (.chr [0x61] .CE_NATIVE)
        (.chr [0xC3, 0xA9] .CE_UTF8) [.chr [0x61, 0xE9] .CE_NATIVE] (fun _ => [])
        false true false true false 10
      = .ok [.chr [0xC3, 0xA9, 0xC3, 0xA9] .CE_NATIVE]
    ∧ gsub_with_encoding latin1Locale byteLib false (.chr [0x61] .CE_NATIVE)
        (.chr [0xC3, 0xA9] .CE_UTF8) [.chr [0x61, 0xE9] .CE_NATIVE] (fun _ => [])
        false true true false false 10
      = .ok [.chr [0xE9, 0xE9] .CE_NATIVE] :=
  ⟨rfl, rfl, rfl, rfl, rfl, rfl, rfl, rfl, rfl, rfl⟩

end RChar
